import Mathlib

/-!
image-stego: LSB bit channel, chunk planner, Merkle path codec

A shallow embedding of `pkg/bit/bit.go`, `internal/chunk/const.go`,
`internal/chunk/chunk.go`, `internal/chunk/dimension.go`,
`internal/chunk/encode.go` and `internal/chunk/decode.go`.

Conventions of the embedding.

* A Go `byte` is a `Nat`; where the value must fit a byte the statement says
  `b < 256`.
* A Go `int` is a `Nat`; every quantity of the program is non-negative and the
  statements that need it bound the image size so that nothing overflows.
* A `*image.RGBA` is the buffer `image.NewRGBA(image.Rect(0, 0, w, h))`
  allocates (every buffer of the program comes from `ImageToRGBA` or from
  `image.NewRGBA`): `Rect.Min = (0, 0)`, `Stride = 4 * w`, pixel `(x, y)` at
  `Pix[(y * w + x) * 4 ..]`.
* A loop that may run forever takes a `fuel` argument and returns `none` when
  the fuel is used up; a function that returns `none` for every fuel never
  returns.
* `crypto/sha256` is a parameter `sha : List Nat → List Nat` of the functions
  that hash; `sha256` is the function itself after FIPS 180-4, for the
  statements that evaluate a hash.
* An access to `Pix` is a total `getD` or `set` in `Write` and `Read`;
  `WriteChecked` and `ReadChecked` add the bounds check Go makes at every
  access and return `none` for a panic.
* A `merkletree.Content` handed to `Chunk.Equals` is an `Option Chunk`: `none`
  stands for a content that is not a `*Chunk`.
-/

namespace ImageStego

/-! ## pkg/bit/bit.go -/

/-- `bit.WithLSB`: the byte with its least significant bit set to the given value. -/
def WithLSB (b : Nat) (bit : Bool) : Nat :=
  if bit then b ||| 1 else b &&& 0xFE

/-- `bit.GetLSB`: the least significant bit of the byte. -/
def GetLSB (b : Nat) : Bool :=
  b % 2 != 0

/-! ## internal/chunk/const.go -/

/-- Number of colour channels of a pixel used for LSB encoding (R, G and B). -/
def BitsPerPixel : Nat := 3

/-- Number of bits of one SHA256 hash. -/
def HashBitLength : Nat := 256

/-- Number of bits of the side information of one Merkle path step. -/
def MerkleSideBitLength : Nat := 8

/-- Number of bits of the path count. -/
def PathCountBitLength : Nat := 8

/-- Number of bits in a byte. -/
def BitsPerByte : Nat := 8

/-! ## internal/chunk/chunk.go -/

/-- The error values `Write` and `Read` can return. -/
inductive Err where
  | EOF
  deriving DecidableEq, Repr

/-- `Chunk`: an RGBA buffer of `width × height` pixels (`Pix` holds four bytes
per pixel, row after row) with the number of read and of written bytes. -/
structure Chunk where
  Pix : List Nat
  width : Nat
  height : Nat
  rOff : Nat
  wOff : Nat
  deriving DecidableEq, Repr

/-- A chunk as `&Chunk{RGBA: rgba}` creates it: both cursors at zero. -/
def Chunk.fresh (pix : List Nat) (w h : Nat) : Chunk :=
  { Pix := pix, width := w, height := h, rOff := 0, wOff := 0 }

/-- The buffer has the four bytes per pixel that `image.NewRGBA` allocates. -/
def Chunk.WellFormed (c : Chunk) : Prop :=
  c.Pix.length = 4 * (c.width * c.height)

/-- `Chunk.PixelCount`. -/
def Chunk.PixelCount (c : Chunk) : Nat :=
  c.Pix.length / 4

/-- `Chunk.LSBCount`. -/
def Chunk.LSBCount (c : Chunk) : Nat :=
  c.PixelCount * BitsPerPixel

/-- `Chunk.MaxPayloadSize`. -/
def Chunk.MaxPayloadSize (c : Chunk) : Nat :=
  c.LSBCount / 8

/-- `RGBA.RGBAAt`: the four channel bytes of pixel `(x, y)`, the zero colour
outside the rectangle. -/
def Chunk.RGBAAt (c : Chunk) (x y : Nat) : Nat × Nat × Nat × Nat :=
  if x < c.width ∧ y < c.height then
    let i := y * (4 * c.width) + x * 4
    (c.Pix.getD i 0, c.Pix.getD (i + 1) 0, c.Pix.getD (i + 2) 0, c.Pix.getD (i + 3) 0)
  else (0, 0, 0, 0)

/-- The bytes `CalculateHash` feeds to the hash: the loop over `x` (outer) and
`y` (inner), three bytes per pixel. -/
def Chunk.hashInput (c : Chunk) : List Nat :=
  (List.range c.width).flatMap fun x =>
    (List.range c.height).flatMap fun y =>
      let rgba := c.RGBAAt x y
      [WithLSB rgba.1 false, WithLSB rgba.2.1 false, WithLSB rgba.2.2.1 false]

/-- `Chunk.CalculateHash`. -/
def Chunk.CalculateHash (sha : List Nat → List Nat) (c : Chunk) : List Nat :=
  sha c.hashInput

/-- Position in `Pix` of the `i`-th usable least significant bit. -/
def pixIdx (i : Nat) : Nat :=
  i + i / BitsPerPixel

/-- `bitio.Reader.ReadBool` on the `j`-th call for one input byte: the bits of
the byte come most significant first. -/
def readBool (b : Nat) (j : Nat) : Bool :=
  (b / 2 ^ (7 - j)) % 2 != 0

/-- The inner loop of `Write`: the eight bits of `b` go to the least
significant bits at `bitOff`, ..., `bitOff + 7`. -/
def writeBits (bitOff : Nat) (b : Nat) (pix : List Nat) : List Nat :=
  (List.range BitsPerByte).foldl
    (fun pix j =>
      let idx := pixIdx (bitOff + j)
      pix.set idx (WithLSB (pix.getD idx 0) (readBool b j)))
    pix

/-- The outer loop of `Write` from iteration `i` on, `n` bytes written so far. -/
def writeLoop (wOff : Nat) : List Nat → Nat → Nat → List Nat → List Nat × Nat × Option Err
  | [], _, n, pix => (pix, n, none)
  | b :: rest, i, n, pix =>
    let bitOff := (wOff + i) * BitsPerByte
    if bitOff + 7 ≥ pix.length - pix.length / 4 then (pix, n, some Err.EOF)
    else writeLoop wOff rest (i + 1) (n + 1) (writeBits bitOff b pix)

/-- `Chunk.Write`: the chunk afterwards, the number of bytes written, the error. -/
def Chunk.Write (c : Chunk) (p : List Nat) : Chunk × Nat × Option Err :=
  let r := writeLoop c.wOff p 0 0 c.Pix
  ({ c with Pix := r.1, wOff := c.wOff + r.2.1 }, r.2.1, r.2.2)

/-- The inner loop of `Read`: the byte the bit writer assembles from the eight
least significant bits at `bitOff`, ..., `bitOff + 7`, first bit highest. -/
def readBits (bitOff : Nat) (pix : List Nat) : Nat :=
  (List.range BitsPerByte).foldl
    (fun acc j => 2 * acc + (if GetLSB (pix.getD (pixIdx (bitOff + j)) 0) then 1 else 0))
    0

/-- The outer loop of `Read` from iteration `i` on: `len` iterations left, `out`
the bytes the bit writer has put into the buffer so far. -/
def readLoop (rOff : Nat) (pix : List Nat) : Nat → Nat → Nat → List Nat → List Nat × Nat × Option Err
  | 0, _, n, out => (out, n, none)
  | len + 1, i, n, out =>
    let bitOff := (rOff + i) * BitsPerByte
    if bitOff + BitsPerByte + (bitOff + BitsPerByte) / BitsPerPixel > pix.length then
      (out, n, some Err.EOF)
    else readLoop rOff pix len (i + 1) (n + 1) (out ++ [readBits bitOff pix])

/-- `Chunk.Read` into the buffer `p`: the chunk afterwards, the buffer
afterwards (the bytes read overwrite its front), the number of bytes read, the
error. -/
def Chunk.Read (c : Chunk) (p : List Nat) : Chunk × List Nat × Nat × Option Err :=
  let r := readLoop c.rOff c.Pix p.length 0 0 []
  ({ c with rOff := c.rOff + r.2.1 }, r.1 ++ p.drop r.1.length, r.2.1, r.2.2)

/-! ## internal/chunk/dimension.go -/

/-- `image.Rectangle`: the points `(x, y)` with `minX ≤ x < maxX` and
`minY ≤ y < maxY`. -/
structure Rectangle where
  minX : Nat
  minY : Nat
  maxX : Nat
  maxY : Nat
  deriving DecidableEq, Repr

/-- `image.Rect`: the rectangle with the given corners, coordinates swapped
where needed so that it is well formed. -/
def Rect (x0 y0 x1 y1 : Nat) : Rectangle :=
  let (x0, x1) := if x0 > x1 then (x1, x0) else (x0, x1)
  let (y0, y1) := if y0 > y1 then (y1, y0) else (y0, y1)
  { minX := x0, minY := y0, maxX := x1, maxY := y1 }

/-- `Rectangle.Add`: the rectangle moved by the point `(px, py)`. -/
def Rectangle.Add (r : Rectangle) (px py : Nat) : Rectangle :=
  { minX := r.minX + px, minY := r.minY + py, maxX := r.maxX + px, maxY := r.maxY + py }

/-- `Rectangle.Dx`: the width. -/
def Rectangle.Dx (r : Rectangle) : Nat := r.maxX - r.minX

/-- `Rectangle.Dy`: the height. -/
def Rectangle.Dy (r : Rectangle) : Nat := r.maxY - r.minY

/-- `Point.In`: the pixel `(x, y)` lies in the rectangle. -/
def Rectangle.Contains (r : Rectangle) (x y : Nat) : Prop :=
  r.minX ≤ x ∧ x < r.maxX ∧ r.minY ≤ y ∧ y < r.maxY

instance (r : Rectangle) (x y : Nat) : Decidable (r.Contains x y) := by
  unfold Rectangle.Contains
  infer_instance

/-- The first loop of `primeFactors`: the number of 2s that divide `n`. -/
def primeFactorsTwos : Nat → Nat → List Nat → Option (Nat × List Nat)
  | 0, _, _ => none
  | fuel + 1, n, pfs =>
    if n % 2 = 0 then primeFactorsTwos fuel (n / 2) (pfs ++ [2]) else some (n, pfs)

/-- The inner loop of the second loop of `primeFactors`: while `i` divides `n`. -/
def primeFactorsDiv (i : Nat) : Nat → Nat → List Nat → Option (Nat × List Nat)
  | 0, _, _ => none
  | fuel + 1, n, pfs =>
    if n % i = 0 then primeFactorsDiv i fuel (n / i) (pfs ++ [i]) else some (n, pfs)

/-- The second loop of `primeFactors`: the odd candidates `i` with `i * i ≤ n`;
`total` is the fuel each run of the inner loop gets. -/
def primeFactorsOdd (total : Nat) : Nat → Nat → Nat → List Nat → Option (Nat × List Nat)
  | 0, _, _, _ => none
  | fuel + 1, i, n, pfs =>
    if i * i ≤ n then
      match primeFactorsDiv i total n pfs with
      | none => none
      | some (n, pfs) => primeFactorsOdd total fuel (i + 2) n pfs
    else some (n, pfs)

/-- `primeFactors`; `none` when a loop has not ended within `fuel` iterations. -/
def primeFactors (fuel : Nat) (n : Nat) : Option (List Nat) :=
  match primeFactorsTwos fuel n [] with
  | none => none
  | some (n, pfs) =>
    match primeFactorsOdd fuel fuel 3 n pfs with
    | none => none
    | some (n, pfs) => some (if n > 2 then pfs ++ [n] else pfs)

/-- `chunkDist`; `none` when `primeFactors` does not return or returns no
factor (indexing the empty slice panics). -/
def chunkDist (fuel : Nat) (count : Nat) : Option (Nat × Nat) :=
  match primeFactors fuel count with
  | none => none
  | some factors =>
    if factors.length = 0 then none
    else
      let countX := factors.getD (factors.length - 1) 0
      let countY := if factors.length > 1 then factors.getD (factors.length - 2) 0 else 1
      some ((factors.take (factors.length - 2)).reverse.foldl
        (fun (xy : Nat × Nat) f => if xy.1 > xy.2 then (xy.1, xy.2 * f) else (xy.1 * f, xy.2))
        (countX, countY))

/-- `int(math.Ceil(math.Log2(float64(chunkCount))))`, the floating point
computation taken at its exact value: the least `k` with `chunkCount ≤ 2 ^ k`;
`pow` is `2 ^ k`. -/
def ceilLog2Loop (chunkCount : Nat) : Nat → Nat → Nat → Nat
  | 0, _, k => k
  | fuel + 1, pow, k =>
    if chunkCount ≤ pow then k else ceilLog2Loop chunkCount fuel (2 * pow) (k + 1)

/-- The number of hashes stored in each chunk when there are `chunkCount` chunks. -/
def hashesPerChunk (chunkCount : Nat) : Nat :=
  ceilLog2Loop chunkCount chunkCount 1 0

/-- `neededBitsPerChunk` for a candidate chunk count. -/
def neededBits (chunkCount : Nat) : Nat :=
  hashesPerChunk chunkCount * (HashBitLength + MerkleSideBitLength) + PathCountBitLength

/-- `availableBitsPerChunk` for a grid of `countX` by `countY` chunks. -/
def availableBits (w h countX countY : Nat) : Nat :=
  (w / countX) * (h / countY) * 3

/-- The search loop of `CalculateChunkBounds`, entered with the chunk count of
the previous iteration; `total` is the fuel `chunkDist` gets. -/
def chunkCountLoop (total w h : Nat) : Nat → Nat → Option Nat
  | 0, _ => none
  | fuel + 1, chunkCount =>
    let chunkCount := chunkCount + 2
    match chunkDist total chunkCount with
    | none => none
    | some (chunkCountX, chunkCountY) =>
      if neededBits chunkCount > availableBits w h chunkCountX chunkCountY then
        some (chunkCount - 2)
      else chunkCountLoop total w h fuel chunkCount

/-- The last step of `CalculateChunkBounds`: the matrix of bounds, `bounds[cx][cy]`. -/
def buildBounds (w h chunkCountX chunkCountY : Nat) : List (List Rectangle) :=
  let chunkWidth := w / chunkCountX
  let chunkHeight := h / chunkCountY
  let chunkWidthClippings := w % chunkCountX
  let chunkHeightClippings := h % chunkCountY
  (List.range chunkCountX).map fun cx =>
    let cw := if cx < chunkWidthClippings then chunkWidth + 1 else chunkWidth
    let cxOff := if cx < chunkWidthClippings then 0 else chunkWidthClippings
    (List.range chunkCountY).map fun cy =>
      let ch := if cy < chunkHeightClippings then chunkHeight + 1 else chunkHeight
      let cyOff := if cy < chunkHeightClippings then 0 else chunkHeightClippings
      (Rect cw ch 0 0).Add (cxOff + cx * cw) (cyOff + cy * ch)

/-- `CalculateChunkBounds` for an image of `w` by `h` pixels; `none` when the
function does not return. -/
def CalculateChunkBounds (fuel : Nat) (w h : Nat) : Option (List (List Rectangle)) :=
  match chunkCountLoop fuel w h fuel 0 with
  | none => none
  | some chunkCount =>
    match chunkDist fuel chunkCount with
    | none => none
    | some (chunkCountX, chunkCountY) => some (buildBounds w h chunkCountX chunkCountY)

/-- The entry `bounds[i][j]` of a matrix of bounds, `none` outside it. -/
def gridAt (grid : List (List Rectangle)) (i j : Nat) : Option Rectangle :=
  match grid[i]? with
  | none => none
  | some row => row[j]?

/-- Start of the `i`-th of `cnt` segments that split `n` pixels: the first
`n % cnt` segments are one pixel longer than `n / cnt`. -/
def segLo (n cnt i : Nat) : Nat :=
  i * (n / cnt) + min i (n % cnt)

/-- The cell `(i, j)` of the grid of `countX` by `countY` chunks. -/
def gridCell (w h countX countY i j : Nat) : Rectangle :=
  { minX := segLo w countX i, minY := segLo h countY j,
    maxX := segLo w countX (i + 1), maxY := segLo h countY (j + 1) }

/-! ## Images, sub-images and drawing (`image`, `image/draw`, `file.go`) -/

/-- An `*image.RGBA` with `Rect.Min = (0, 0)` and `Stride = 4 * width`. -/
structure Image where
  Pix : List Nat
  width : Nat
  height : Nat
  deriving DecidableEq, Repr

/-- The buffer has the four bytes per pixel that `image.NewRGBA` allocates. -/
def Image.WellFormed (img : Image) : Prop :=
  img.Pix.length = 4 * (img.width * img.height)

/-- `image.NewRGBA(image.Rect(0, 0, w, h))`: all bytes zero. -/
def NewRGBA (w h : Nat) : Image :=
  { Pix := List.replicate (4 * (w * h)) 0, width := w, height := h }

/-- `&Chunk{RGBA: rgba}`. -/
def Chunk.ofImage (img : Image) : Chunk :=
  Chunk.fresh img.Pix img.width img.height

/-- `Rectangle.Intersect`: the largest rectangle inside both, the zero
rectangle when they share no point. -/
def Rectangle.Intersect (r s : Rectangle) : Rectangle :=
  let t : Rectangle :=
    { minX := max r.minX s.minX, minY := max r.minY s.minY,
      maxX := min r.maxX s.maxX, maxY := min r.maxY s.maxY }
  if t.minX ≥ t.maxX ∨ t.minY ≥ t.maxY then ⟨0, 0, 0, 0⟩ else t

/-- `ImageToRGBA(img.SubImage(bound))`: a new buffer holding the pixels of
`img` inside `bound` (clipped to the image), copied row by row. -/
def subImageToRGBA (img : Image) (bound : Rectangle) : Image :=
  let r := bound.Intersect ⟨0, 0, img.width, img.height⟩
  { Pix := (List.range r.Dy).flatMap fun y =>
      (img.Pix.drop (((r.minY + y) * img.width + r.minX) * 4)).take (4 * r.Dx),
    width := r.Dx, height := r.Dy }

/-- One row of `draw.Draw` with `draw.Src`: `n` bytes of `row` replace the
bytes of `pix` from position `d0` on. -/
def copyRow (pix : List Nat) (d0 : Nat) (row : List Nat) : List Nat :=
  pix.take d0 ++ row ++ pix.drop (d0 + row.length)

/-- `draw.Draw(dst, bound, src, image.Point{}, draw.Src)` for a source of the
size of `bound` that lies inside `dst`: the rows of `src` replace the pixels
of `dst` inside `bound`. -/
def drawSrc (dst : Image) (bound : Rectangle) (src : Chunk) : Image :=
  { dst with
    Pix := (List.range src.height).foldl
      (fun pix y =>
        copyRow pix (((bound.minY + y) * dst.width + bound.minX) * 4)
          ((src.Pix.drop (y * src.width * 4)).take (4 * src.width)))
      dst.Pix }

/-! ## The Merkle tree (`github.com/cbergoon/merkletree`) -/

/-- Modelled from the spec: the package `merkletree` is not part of the
sources. One level of the tree from the level below: pairwise SHA-256 of the
concatenated child hashes, the last node paired with itself when the level has
an odd number of nodes. -/
def merkleLevel (sha : List Nat → List Nat) : List (List Nat) → List (List Nat)
  | [] => []
  | [a] => [sha (a ++ a)]
  | a :: b :: rest => sha (a ++ b) :: merkleLevel sha rest

/-- Modelled from the spec: the root of the tree over the given level (`fuel`
bounds the number of levels; the number of nodes is enough). -/
def merkleRoot (sha : List Nat → List Nat) : Nat → List (List Nat) → List Nat
  | 0, level => level.headD []
  | fuel + 1, level =>
    if level.length ≤ 1 then level.headD [] else merkleRoot sha fuel (merkleLevel sha level)

/-- Modelled from the spec: the authentication path of the node at position
`i` of the level, leaf to root, as `(side, sibling)` steps: side `1` when the
sibling stands on the right of the running hash, side `0` when on the left. -/
def merklePath (sha : List Nat → List Nat) : Nat → List (List Nat) → Nat → List (Nat × List Nat)
  | 0, _, _ => []
  | fuel + 1, level, i =>
    if level.length ≤ 1 then []
    else
      let step :=
        if i % 2 = 0 then (1, level.getD (i + 1) (level.getD i []))
        else (0, level.getD (i - 1) [])
      step :: merklePath sha fuel (merkleLevel sha level) (i / 2)

/-! ## internal/chunk/encode.go -/

/-- The errors `Encode` and `Decode` return: the error of `Chunk.Write` or
`Chunk.Read`, or the error of `merkletree.NewTree` on an empty list. -/
inductive CodecErr where
  | chunk (e : Err)
  | noContent
  deriving DecidableEq, Repr

/-- The buffer `Encode` writes into a chunk: the number of path steps, then
for every step the side byte and the sibling hash. -/
def serializePath (path : List (Nat × List Nat)) : List Nat :=
  (path.length % 256) :: path.flatMap fun step => (step.1 % 256) :: step.2

/-- The inner loop of the encoding loop of `Encode`: the chunks of the row `x`
of the matrix of bounds from column `y` on. `none` when indexing `list` panics. -/
def encodeCols (sha : List Nat → List Nat) (list : List Chunk) (leaves : List (List Nat))
    (x rowLen : Nat) : List Rectangle → Nat → Image → Option (Except CodecErr Image)
  | [], _, encodedImg => some (.ok encodedImg)
  | bound :: rest, y, encodedImg =>
    match list[x * rowLen + y]? with
    | none => none
    | some chunk =>
      let path := merklePath sha leaves.length leaves (x * rowLen + y)
      let r := chunk.Write (serializePath path)
      match r.2.2 with
      | some e => some (.error (.chunk e))
      | none => encodeCols sha list leaves x rowLen rest (y + 1) (drawSrc encodedImg bound r.1)

/-- The outer loop of the encoding loop of `Encode`, from row `x` on. -/
def encodeRows (sha : List Nat → List Nat) (list : List Chunk) (leaves : List (List Nat)) :
    List (List Rectangle) → Nat → Image → Option (Except CodecErr Image)
  | [], _, encodedImg => some (.ok encodedImg)
  | boundsRow :: rest, x, encodedImg =>
    match encodeCols sha list leaves x boundsRow.length boundsRow 0 encodedImg with
    | some (.ok encodedImg) => encodeRows sha list leaves rest (x + 1) encodedImg
    | other => other

/-- `Encode` from the opened image to the encoded image (reading and writing
the files and the checker pattern image are left out). `none` when the
function does not return. -/
def Encode (sha : List Nat → List Nat) (fuel : Nat) (originalImg : Image) :
    Option (Except CodecErr Image) :=
  match CalculateChunkBounds fuel originalImg.width originalImg.height with
  | none => none
  | some bounds =>
    let list := bounds.flatten.map fun bound => Chunk.ofImage (subImageToRGBA originalImg bound)
    if list.length = 0 then some (.error .noContent)
    else
      let leaves := list.map (Chunk.CalculateHash sha)
      encodeRows sha list leaves bounds 0 (NewRGBA originalImg.width originalImg.height)

/-! ## internal/chunk/decode.go -/

/-- The path replay loop of `Decode`: `count` iterations left; the result is
the root hash of the chunk. -/
def replayLoop (sha : List Nat → List Nat) : Nat → Chunk → List Nat → List Nat
  | 0, _, prevHash => prevHash
  | count + 1, chunk, prevHash =>
    let r1 := chunk.Read (List.replicate 1 0)
    match r1.2.2.2 with
    | some _ => prevHash
    | none =>
      let r2 := r1.1.Read (List.replicate 32 0)
      match r2.2.2.2 with
      | some _ => prevHash
      | none =>
        let side := r1.2.1
        let data := r2.2.1
        if side.getD 0 0 = 0 then replayLoop sha count r2.1 (sha (data ++ prevHash))
        else if side.getD 0 0 = 1 then replayLoop sha count r2.1 (sha (prevHash ++ data))
        else prevHash

/-- The body of the chunk loop of `Decode` up to the root hash of the chunk. -/
def chunkRootHash (sha : List Nat → List Nat) (chunk : Chunk) : Except CodecErr (List Nat) :=
  let r := chunk.Read (List.replicate 1 0)
  match r.2.2.2 with
  | some e => .error (.chunk e)
  | none =>
    let chunkHash := r.1.CalculateHash sha
    .ok (replayLoop sha (r.2.1.getD 0 0) r.1 chunkHash)

/-- `ChunkIndex`: the index `(x, y)` of a chunk in the matrix of bounds. -/
abbrev ChunkIndex := Nat × Nat

/-- The map `rootHashes` from a root hash to the chunks that have it, as the
list of its entries; the key is the hash itself in place of its hex string. -/
abbrev RootHashes := List (List Nat × List ChunkIndex)

/-- `rootHashes[rootHash] = append(rootHashes[rootHash], idx)`. -/
def RootHashes.add : RootHashes → List Nat → ChunkIndex → RootHashes
  | [], rootHash, idx => [(rootHash, [idx])]
  | (k, v) :: rest, rootHash, idx =>
    if k = rootHash then (k, v ++ [idx]) :: rest
    else (k, v) :: RootHashes.add rest rootHash idx

/-- The inner chunk loop of `Decode`: row `x` of the matrix of bounds from
column `y` on. -/
def decodeCols (sha : List Nat → List Nat) (probeImg : Image) (x : Nat) :
    List Rectangle → Nat → RootHashes → Except CodecErr RootHashes
  | [], _, rootHashes => .ok rootHashes
  | bound :: rest, y, rootHashes =>
    match chunkRootHash sha (Chunk.ofImage (subImageToRGBA probeImg bound)) with
    | .error e => .error e
    | .ok rootHash => decodeCols sha probeImg x rest (y + 1) (rootHashes.add rootHash (x, y))

/-- The outer chunk loop of `Decode`, from row `x` on. -/
def decodeRows (sha : List Nat → List Nat) (probeImg : Image) :
    List (List Rectangle) → Nat → RootHashes → Except CodecErr RootHashes
  | [], _, rootHashes => .ok rootHashes
  | boundRow :: rest, x, rootHashes =>
    match decodeCols sha probeImg x boundRow 0 rootHashes with
    | .error e => .error e
    | .ok rootHashes => decodeRows sha probeImg rest (x + 1) rootHashes

/-- The loop that finds the root hash with the most chunks: an entry replaces
the choice so far when it has strictly more chunks. -/
def selectRoot (entries : RootHashes) : Nat × List Nat :=
  entries.foldl
    (fun (acc : Nat × List Nat) entry =>
      if entry.2.length > acc.1 then (entry.2.length, entry.1) else acc)
    (0, [])

/-- What `Decode` reports: whether the image has been tampered with, the root
hash taken as the Merkle root, and the chunks masked in the overlay image. -/
structure Verdict where
  tampered : Bool
  merkleRoot : List Nat
  masked : List ChunkIndex
  deriving DecidableEq, Repr

/-- `Decode` from the opened image to the verdict (reading the file and
drawing the overlay image are left out). `order` is the order in which `range`
enumerates the entries of the map. `none` when the function does not return. -/
def Decode (sha : List Nat → List Nat) (fuel : Nat) (order : RootHashes → RootHashes)
    (probeImg : Image) : Option (Except CodecErr Verdict) :=
  match CalculateChunkBounds fuel probeImg.width probeImg.height with
  | none => none
  | some bounds =>
    match decodeRows sha probeImg bounds 0 [] with
    | .error e => some (.error e)
    | .ok rootHashes =>
      let merkleRoot := (selectRoot (order rootHashes)).2
      if rootHashes.length = 1 then
        some (.ok { tampered := false, merkleRoot := merkleRoot, masked := [] })
      else
        some (.ok { tampered := true, merkleRoot := merkleRoot,
                    masked := (order rootHashes).flatMap fun entry =>
                      entry.2.filter fun _ => entry.1 ≠ merkleRoot })

/-- The byte of channel `c` of pixel `(x, y)` in a buffer of rows of `w` pixels. -/
def byteAt (pix : List Nat) (w x y c : Nat) : Nat :=
  pix.getD ((y * w + x) * 4 + c) 0

/-! ## Auxiliary definitions for the statements about `Encode` and `Decode` -/

/-- A hash value: 32 bytes. -/
def IsHash (h : List Nat) : Prop :=
  h.length = 32 ∧ ∀ b ∈ h, b < 256

/-- The hash function returns hash values, as SHA-256 does. -/
def ShaWellFormed (sha : List Nat → List Nat) : Prop :=
  ∀ x, IsHash (sha x)

/-- The bytes hashed by one replay step: the sibling on the left of the
running hash for side `0`, on its right otherwise. -/
def stepInput (prevHash : List Nat) (step : Nat × List Nat) : List Nat :=
  if step.1 = 0 then step.2 ++ prevHash else prevHash ++ step.2

/-- The running hash after the replay of a path whose sides are `0` or `1`. -/
def replayPath (sha : List Nat → List Nat) (path : List (Nat × List Nat)) (leaf : List Nat) :
    List Nat :=
  path.foldl (fun prevHash step => sha (stepInput prevHash step)) leaf

/-- The inputs of the hash function during the replay of a path. -/
def pathInputs (sha : List Nat → List Nat) : List (Nat × List Nat) → List Nat → List (List Nat)
  | [], _ => []
  | step :: rest, prevHash =>
    stepInput prevHash step :: pathInputs sha rest (sha (stepInput prevHash step))

/-- The inputs with which the path replay loop of `Decode` calls the hash
function, in the order of the calls (the loop is `replayLoop`). -/
def replayInputs (sha : List Nat → List Nat) : Nat → Chunk → List Nat → List (List Nat)
  | 0, _, _ => []
  | count + 1, chunk, prevHash =>
    let r1 := chunk.Read (List.replicate 1 0)
    match r1.2.2.2 with
    | some _ => []
    | none =>
      let r2 := r1.1.Read (List.replicate 32 0)
      match r2.2.2.2 with
      | some _ => []
      | none =>
        let side := r1.2.1
        let data := r2.2.1
        if side.getD 0 0 = 0 then
          (data ++ prevHash) :: replayInputs sha count r2.1 (sha (data ++ prevHash))
        else if side.getD 0 0 = 1 then
          (prevHash ++ data) :: replayInputs sha count r2.1 (sha (prevHash ++ data))
        else []

/-- The inputs with which `Decode` calls the hash function for one chunk: the
content of the chunk, then the inputs of the path replay. -/
def chunkShaInputs (sha : List Nat → List Nat) (chunk : Chunk) : List (List Nat) :=
  let r := chunk.Read (List.replicate 1 0)
  match r.2.2.2 with
  | some _ => []
  | none =>
    r.1.hashInput :: replayInputs sha (r.2.1.getD 0 0) r.1 (r.1.CalculateHash sha)

/-- All the inputs with which `Decode` calls the hash function on an image. -/
def decodeShaInputs (sha : List Nat → List Nat) (fuel : Nat) (probeImg : Image) :
    List (List Nat) :=
  match CalculateChunkBounds fuel probeImg.width probeImg.height with
  | none => []
  | some bounds =>
    bounds.flatten.flatMap fun bound =>
      chunkShaInputs sha (Chunk.ofImage (subImageToRGBA probeImg bound))

/-- The map `rootHashes` after the root hashes of the given chunks have been
added to it in turn. -/
def RootHashes.addAll (m : RootHashes) (roots : List (List Nat × ChunkIndex)) : RootHashes :=
  roots.foldl (fun m e => m.add e.1 e.2) m

/-- The image with bit `b` of the byte at position `k` of `Pix` flipped. -/
def Image.flipBit (img : Image) (k b : Nat) : Image :=
  { img with Pix := img.Pix.set k (img.Pix.getD k 0 ^^^ 2 ^ b) }

/-- The image of a successful `Encode`, the empty image otherwise. -/
def encodedImage (r : Option (Except CodecErr Image)) : Image :=
  match r with
  | some (.ok img) => img
  | _ => { Pix := [], width := 0, height := 0 }

/-- The least significant bits of the buffer start with the bytes `S`, first
bit of each byte first, and `S` is within the payload size of the buffer. -/
def StoresBytes (pix : List Nat) (S : List Nat) : Prop :=
  S.length ≤ pix.length / 4 * 3 / 8 ∧ (∀ b ∈ S, b < 256) ∧
  ∀ m j, m < S.length → j < 8 →
    GetLSB (pix.getD (pixIdx (m * 8 + j)) 0) = readBool (S.getD m 0) j

/-- The bytes of the steps of a path as `Encode` lays them out. -/
def serializeSteps (path : List (Nat × List Nat)) : List Nat :=
  path.flatMap fun step => (step.1 % 256) :: step.2

/-- The chunk `Encode` and `Decode` cut from an image for the cell `(x, y)` of
the grid of `countX` by `countY` chunks. -/
def cellChunk (img : Image) (countX countY x y : Nat) : Chunk :=
  Chunk.ofImage (subImageToRGBA img (gridCell img.width img.height countX countY x y))

/-- The leaves of the tree `Encode` builds: the content hashes of the chunks
in the order of the list of chunks. -/
def chunkLeaves (sha : List Nat → List Nat) (img : Image) (countX countY : Nat) :
    List (List Nat) :=
  ((buildBounds img.width img.height countX countY).flatten.map fun bound =>
    Chunk.ofImage (subImageToRGBA img bound)).map (Chunk.CalculateHash sha)

/-- The path `Encode` stores in the chunk of the cell `(x, y)`. -/
def cellPath (sha : List Nat → List Nat) (img : Image) (countX countY x y : Nat) :
    List (Nat × List Nat) :=
  merklePath sha (chunkLeaves sha img countX countY).length (chunkLeaves sha img countX countY)
    (x * countY + y)

/-- The chunk of the cell `(x, y)` after `Encode` has written its path. -/
def writtenChunk (sha : List Nat → List Nat) (img : Image) (countX countY x y : Nat) : Chunk :=
  ((cellChunk img countX countY x y).Write
    (serializePath (cellPath sha img countX countY x y))).1

/-- The pixels of `enc` inside the cell `(x, y)` are those of the written chunk. -/
def HoldsChunk (sha : List Nat → List Nat) (img enc : Image) (countX countY x y : Nat) : Prop :=
  ∀ X Y c, (gridCell img.width img.height countX countY x y).Contains X Y → c < 4 →
    byteAt enc.Pix img.width X Y c
      = byteAt (writtenChunk sha img countX countY x y).Pix
          (gridCell img.width img.height countX countY x y).Dx
          (X - (gridCell img.width img.height countX countY x y).minX)
          (Y - (gridCell img.width img.height countX countY x y).minY) c

/-- The grid of `countX` by `countY` chunks is the one `CalculateChunkBounds`
returns for an image of `w` by `h` pixels. -/
def PlannedGrid (fuel w h countX countY : Nat) : Prop :=
  CalculateChunkBounds fuel w h = some (buildBounds w h countX countY) ∧
  0 < countX ∧ 0 < countY ∧ 2 ≤ countX * countY ∧
  neededBits (countX * countY) ≤ availableBits w h countX countY

/-- The root hashes of the cells of a grid with their chunk indices, in the
order in which `Decode` visits the chunks. -/
def cellRoots (rootOf : Nat → Nat → List Nat) (countX countY : Nat) :
    List (List Nat × ChunkIndex) :=
  (List.range countX).flatMap fun x => (List.range countY).map fun y => (rootOf x y, (x, y))

/-- The inputs of the hash function for the cell `(x, y)` when the chunk is
cut from the image `u` and the path is the one stored for the image `img`. -/
def cellInputs (sha : List Nat → List Nat) (img : Image) (countX countY : Nat) (u : Image)
    (x y : Nat) : List (List Nat) :=
  (cellChunk u countX countY x y).hashInput
    :: pathInputs sha (cellPath sha img countX countY x y)
        (sha (cellChunk u countX countY x y).hashInput)

/-- A small stand-in for a hash function: a one-byte checksum and 31 zero bytes. -/
def toyHash (x : List Nat) : List Nat :=
  ((x.sum + x.length) % 256) :: List.replicate 31 0

/-! ## `Chunk.Equals` and the scan orders of the content hash -/

/-- The error `Chunk.Equals` returns for a `merkletree.Content` that is not a
`*Chunk`. -/
inductive EqualsErr where
  | invalidTypeCasting
  deriving DecidableEq, Repr

/-- `Chunk.Equals`; the argument is `none` for a `merkletree.Content` that is
not a `*Chunk`. The two loops return `false` at the first pixel with a channel
that differs: `all` and `&&` stop there as well. -/
def Chunk.Equals (c : Chunk) (o : Option Chunk) : Except EqualsErr Bool :=
  match o with
  | none => .error .invalidTypeCasting
  | some oc =>
    if oc.width ≠ c.width ∨ oc.height ≠ c.height then .ok false
    else
      .ok ((List.range c.width).all fun x =>
        (List.range c.height).all fun y =>
          let thisColor := c.RGBAAt x y
          let otherColor := oc.RGBAAt x y
          WithLSB thisColor.1 false == WithLSB otherColor.1 false &&
          WithLSB thisColor.2.1 false == WithLSB otherColor.2.1 false &&
          WithLSB thisColor.2.2.1 false == WithLSB otherColor.2.2.1 false &&
          WithLSB thisColor.2.2.2 false == WithLSB otherColor.2.2.2 false)

/-- A byte with bit 0 forced to 0. -/
def clearBit0 (b : Nat) : Nat :=
  b - b % 2

/-- The three bytes R, G, B of pixel `(x, y)`, each with bit 0 forced to 0. -/
def pixelContent (c : Chunk) (x y : Nat) : List Nat :=
  [clearBit0 (byteAt c.Pix c.width x y 0), clearBit0 (byteAt c.Pix c.width x y 1),
   clearBit0 (byteAt c.Pix c.width x y 2)]

/-- The content bytes of a chunk in row-major scan order, as the specification
words the content hash: all pixels of row 0 from left to right, then row 1,
and so on. -/
def rowMajorInput (c : Chunk) : List Nat :=
  (List.range c.height).flatMap fun y => (List.range c.width).flatMap fun x => pixelContent c x y

/-- The content bytes of a chunk in column-major scan order: all pixels of
column 0 from top to bottom, then column 1, and so on. -/
def columnMajorInput (c : Chunk) : List Nat :=
  (List.range c.width).flatMap fun x => (List.range c.height).flatMap fun y => pixelContent c x y

/-! ## The bytes stored in the least significant bits -/

/-- The byte stored at byte position `m` of the least significant bits of the
buffer: what `Read` assembles at read cursor `m`. -/
def storedByte (pix : List Nat) (m : Nat) : Nat :=
  readBits (m * BitsPerByte) pix

/-- The `i`-th path step stored behind the path count: the side byte at byte
position `1 + 33 * i` and the 32 bytes after it. -/
def storedStep (pix : List Nat) (i : Nat) : Nat × List Nat :=
  (storedByte pix (1 + 33 * i), (List.range 32).map fun q => storedByte pix (2 + 33 * i + q))

/-! ## The path `Decode` reads from a chunk -/

/-- The steps the path replay loop of `Decode` reads and replays, in the order
of the reads (the loop is `replayLoop`, without the hashing): for each step one
side byte and 32 sibling bytes; the loop ends at the first read that fails and
at the first side byte that is neither `0` nor `1`. -/
def replaySteps : Nat → Chunk → List (Nat × List Nat)
  | 0, _ => []
  | count + 1, chunk =>
    let r1 := chunk.Read (List.replicate 1 0)
    match r1.2.2.2 with
    | some _ => []
    | none =>
      let r2 := r1.1.Read (List.replicate 32 0)
      match r2.2.2.2 with
      | some _ => []
      | none =>
        let side := r1.2.1
        let data := r2.2.1
        if side.getD 0 0 = 0 then (side.getD 0 0, data) :: replaySteps count r2.1
        else if side.getD 0 0 = 1 then (side.getD 0 0, data) :: replaySteps count r2.1
        else []

/-- The path `Decode` reads from a chunk: one byte with the number of steps,
then the steps. -/
def chunkPath (chunk : Chunk) : Except CodecErr (List (Nat × List Nat)) :=
  let r := chunk.Read (List.replicate 1 0)
  match r.2.2.2 with
  | some e => .error (.chunk e)
  | none => .ok (replaySteps (r.2.1.getD 0 0) r.1)

/-- The number of chunks of the grid of `countX` by `countY` chunks whose
derived root hash is `R`. -/
def groupSize (rootOf : Nat → Nat → List Nat) (countX countY : Nat) (R : List Nat) : Nat :=
  ((cellRoots rootOf countX countY).filter fun e => e.1 = R).length

/-! ## SHA-256 (`crypto/sha256`, FIPS 180-4) -/

/-- The 64 round constants of SHA-256. -/
def sha256K : List Nat :=
  [0x428a2f98, 0x71374491, 0xb5c0fbcf, 0xe9b5dba5, 0x3956c25b, 0x59f111f1, 0x923f82a4, 0xab1c5ed5,
   0xd807aa98, 0x12835b01, 0x243185be, 0x550c7dc3, 0x72be5d74, 0x80deb1fe, 0x9bdc06a7, 0xc19bf174,
   0xe49b69c1, 0xefbe4786, 0x0fc19dc6, 0x240ca1cc, 0x2de92c6f, 0x4a7484aa, 0x5cb0a9dc, 0x76f988da,
   0x983e5152, 0xa831c66d, 0xb00327c8, 0xbf597fc7, 0xc6e00bf3, 0xd5a79147, 0x06ca6351, 0x14292967,
   0x27b70a85, 0x2e1b2138, 0x4d2c6dfc, 0x53380d13, 0x650a7354, 0x766a0abb, 0x81c2c92e, 0x92722c85,
   0xa2bfe8a1, 0xa81a664b, 0xc24b8b70, 0xc76c51a3, 0xd192e819, 0xd6990624, 0xf40e3585, 0x106aa070,
   0x19a4c116, 0x1e376c08, 0x2748774c, 0x34b0bcb5, 0x391c0cb3, 0x4ed8aa4a, 0x5b9cca4f, 0x682e6ff3,
   0x748f82ee, 0x78a5636f, 0x84c87814, 0x8cc70208, 0x90befffa, 0xa4506ceb, 0xbef9a3f7, 0xc67178f2]

/-- The initial hash value of SHA-256. -/
def sha256Init : List Nat :=
  [0x6a09e667, 0xbb67ae85, 0x3c6ef372, 0xa54ff53a, 0x510e527f, 0x9b05688c, 0x1f83d9ab, 0x5be0cd19]

/-- Rotation of a 32-bit word to the right by `n` bits. -/
def rotr32 (x n : Nat) : Nat :=
  ((x >>> n) ||| (x <<< (32 - n))) % 2 ^ 32

/-- The padded message: the byte `0x80`, zero bytes up to 56 modulo 64, and
the length of the message in bits as 8 bytes, highest first. -/
def sha256Pad (msg : List Nat) : List Nat :=
  msg ++ [0x80] ++ List.replicate ((119 - msg.length % 64) % 64) 0
    ++ (List.range 8).map fun i => (msg.length * 8 / 2 ^ (8 * (7 - i))) % 256

/-- The 32-bit words of a list of bytes, four bytes per word, highest first. -/
def wordsOfBytes : List Nat → List Nat
  | a :: b :: c :: d :: rest => (((a * 256 + b) * 256 + c) * 256 + d) :: wordsOfBytes rest
  | _ => []

/-- The message schedule: the 16 words of the block extended to 64 words. -/
def sha256Schedule (block : List Nat) : List Nat :=
  (List.range 48).foldl
    (fun w i =>
      let w15 := w.getD (i + 1) 0
      let w2 := w.getD (i + 14) 0
      let s0 := rotr32 w15 7 ^^^ rotr32 w15 18 ^^^ (w15 >>> 3)
      let s1 := rotr32 w2 17 ^^^ rotr32 w2 19 ^^^ (w2 >>> 10)
      w ++ [(s1 + w.getD (i + 9) 0 + s0 + w.getD i 0) % 2 ^ 32])
    block

/-- One round of the compression function on the working variables `a`, ..., `h`. -/
def sha256Round (v : List Nat) (kw : Nat) : List Nat :=
  match v with
  | [a, b, c, d, e, f, g, h] =>
    let t1 := h + (rotr32 e 6 ^^^ rotr32 e 11 ^^^ rotr32 e 25)
      + ((e &&& f) ^^^ ((e ^^^ 0xffffffff) &&& g)) + kw
    let t2 := (rotr32 a 2 ^^^ rotr32 a 13 ^^^ rotr32 a 22)
      + ((a &&& b) ^^^ (a &&& c) ^^^ (b &&& c))
    [(t1 + t2) % 2 ^ 32, a, b, c, (d + t1) % 2 ^ 32, e, f, g]
  | _ => v

/-- The compression function: the hash value after one block of 16 words. -/
def sha256Compress (hash block : List Nat) : List Nat :=
  let v := (List.zipWith (fun k w => k + w) sha256K (sha256Schedule block)).foldl sha256Round hash
  List.zipWith (fun x y => (x + y) % 2 ^ 32) hash v

/-- The blocks of 16 words of a list of words. -/
def sha256Blocks : Nat → List Nat → List (List Nat)
  | 0, _ => []
  | n + 1, ws => ws.take 16 :: sha256Blocks n (ws.drop 16)

/-- `sha256.Sum256`: the SHA-256 hash of a list of bytes, as 32 bytes. -/
def sha256 (msg : List Nat) : List Nat :=
  let ws := wordsOfBytes (sha256Pad msg)
  ((sha256Blocks (ws.length / 16) ws).foldl sha256Compress sha256Init).flatMap fun x =>
    [x / 2 ^ 24 % 256, x / 2 ^ 16 % 256, x / 2 ^ 8 % 256, x % 256]

/-! ## Sequences of calls of `Write` and `Read` -/

/-- A call of `Chunk.Write` with the bytes `p`, or of `Chunk.Read` with the
buffer `p`. -/
inductive ChunkOp where
  | write (p : List Nat)
  | read (p : List Nat)
  deriving DecidableEq, Repr

/-- The chunk after one call. -/
def Chunk.step (c : Chunk) : ChunkOp → Chunk
  | .write p => (c.Write p).1
  | .read p => (c.Read p).1

/-- The chunk after a sequence of calls. -/
def Chunk.run (c : Chunk) (ops : List ChunkOp) : Chunk :=
  ops.foldl Chunk.step c

/-! ## `Write` and `Read` with the index checks of Go -/

/-- The inner loop of `Write` with the bounds check Go makes at every access
to `Pix`: `none` when an index is out of range (the program panics). -/
def writeBitsChecked (bitOff : Nat) (b : Nat) (pix : List Nat) : Option (List Nat) :=
  (List.range BitsPerByte).foldl
    (fun acc j =>
      match acc with
      | none => none
      | some pix =>
        let idx := pixIdx (bitOff + j)
        if idx < pix.length then some (pix.set idx (WithLSB (pix.getD idx 0) (readBool b j)))
        else none)
    (some pix)

/-- The outer loop of `Write` with the bounds checks. -/
def writeLoopChecked (wOff : Nat) :
    List Nat → Nat → Nat → List Nat → Option (List Nat × Nat × Option Err)
  | [], _, n, pix => some (pix, n, none)
  | b :: rest, i, n, pix =>
    let bitOff := (wOff + i) * BitsPerByte
    if bitOff + 7 ≥ pix.length - pix.length / 4 then some (pix, n, some Err.EOF)
    else
      match writeBitsChecked bitOff b pix with
      | none => none
      | some pix => writeLoopChecked wOff rest (i + 1) (n + 1) pix

/-- `Chunk.Write` with the bounds checks: `none` when the call panics. -/
def Chunk.WriteChecked (c : Chunk) (p : List Nat) : Option (Chunk × Nat × Option Err) :=
  (writeLoopChecked c.wOff p 0 0 c.Pix).map fun r =>
    ({ c with Pix := r.1, wOff := c.wOff + r.2.1 }, r.2.1, r.2.2)

/-- The inner loop of `Read` with the bounds check Go makes at every access to
`Pix`. -/
def readBitsChecked (bitOff : Nat) (pix : List Nat) : Option Nat :=
  (List.range BitsPerByte).foldl
    (fun acc j =>
      match acc with
      | none => none
      | some acc =>
        let idx := pixIdx (bitOff + j)
        if idx < pix.length then some (2 * acc + (if GetLSB (pix.getD idx 0) then 1 else 0))
        else none)
    (some 0)

/-- The outer loop of `Read` with the bounds checks. -/
def readLoopChecked (rOff : Nat) (pix : List Nat) :
    Nat → Nat → Nat → List Nat → Option (List Nat × Nat × Option Err)
  | 0, _, n, out => some (out, n, none)
  | len + 1, i, n, out =>
    let bitOff := (rOff + i) * BitsPerByte
    if bitOff + BitsPerByte + (bitOff + BitsPerByte) / BitsPerPixel > pix.length then
      some (out, n, some Err.EOF)
    else
      match readBitsChecked bitOff pix with
      | none => none
      | some v => readLoopChecked rOff pix len (i + 1) (n + 1) (out ++ [v])

/-- `Chunk.Read` with the bounds checks: `none` when the call panics. -/
def Chunk.ReadChecked (c : Chunk) (p : List Nat) :
    Option (Chunk × List Nat × Nat × Option Err) :=
  (readLoopChecked c.rOff c.Pix p.length 0 0 []).map fun r =>
    ({ c with rOff := c.rOff + r.2.1 }, r.1 ++ p.drop r.1.length, r.2.1, r.2.2)

/-! ## The grid of a list of prime factors, after the specification -/

/-- The grid the specification words for the prime factors of the chunk count
in ascending order: `countX` starts as the largest factor and `countY` as the
second-largest (`1` when there is one factor only); every remaining factor,
from the largest to the smallest, is multiplied into `countY` when
`countX > countY` and into `countX` otherwise. -/
def specGrid (fs : List Nat) : Nat × Nat :=
  match fs.reverse with
  | [] => (1, 1)
  | [p] => (p, 1)
  | p :: q :: rest =>
    rest.foldl
      (fun (xy : Nat × Nat) f => if xy.1 > xy.2 then (xy.1, xy.2 * f) else (xy.1 * f, xy.2))
      (p, q)

/-! # Theorems -/

/-! ## Bit primitives -/

theorem lor_one_mod_two (b : Nat) : (b ||| 1) % 2 = 1 := by
  have h : (b ||| 1).testBit 0 = true := by
    rw [Nat.testBit_or]
    simp
  rw [Nat.testBit_zero] at h
  exact of_decide_eq_true h

theorem land_254_mod_two (b : Nat) : (b &&& 254) % 2 = 0 := by
  have h : (b &&& 254).testBit 0 = false := by
    rw [Nat.testBit_and]
    simp
  rw [Nat.testBit_zero] at h
  have h2 := of_decide_eq_false h
  omega

theorem GetLSB_WithLSB (b : Nat) (v : Bool) : GetLSB (WithLSB b v) = v := by
  cases v
  · simp [GetLSB, WithLSB, land_254_mod_two]
  · simp [GetLSB, WithLSB, lor_one_mod_two]

theorem lor_one_land_254 (b : Nat) : (b ||| 1) &&& 254 = b &&& 254 := by
  apply Nat.eq_of_testBit_eq
  intro i
  rw [Nat.testBit_and, Nat.testBit_and, Nat.testBit_or]
  cases i with
  | zero => simp
  | succ k => simp [Nat.testBit_succ]

theorem WithLSB_WithLSB_false (b : Nat) (v : Bool) :
    WithLSB (WithLSB b v) false = WithLSB b false := by
  cases v
  · simp [WithLSB, Nat.and_assoc]
  · simp [WithLSB, lor_one_land_254]

theorem getD_set (l : List Nat) (i k a : Nat) :
    (l.set i a).getD k 0 = if i = k ∧ k < l.length then a else l.getD k 0 := by
  rw [List.getD_eq_getElem?_getD, List.getD_eq_getElem?_getD, List.getElem?_set]
  by_cases hik : i = k
  · subst hik
    by_cases hlt : i < l.length
    · simp [hlt]
    · have hn : l[i]? = none := List.getElem?_eq_none (by omega)
      simp [hlt, hn]
  · simp [hik]

/-- The prefix of the inner loop of `Write` that has stored `m` bits. -/
theorem writeBitsUpTo_getD (bitOff b : Nat) (pix : List Nat) (m k : Nat) :
    ((List.range m).foldl
        (fun pix j =>
          let idx := pixIdx (bitOff + j)
          pix.set idx (WithLSB (pix.getD idx 0) (readBool b j)))
        pix).length = pix.length ∧
    ((List.range m).foldl
        (fun pix j =>
          let idx := pixIdx (bitOff + j)
          pix.set idx (WithLSB (pix.getD idx 0) (readBool b j)))
        pix).getD k 0 =
      if k < pix.length ∧ k % 4 ≠ 3 ∧ bitOff ≤ k - k / 4 ∧ k - k / 4 < bitOff + m then
        WithLSB (pix.getD k 0) (readBool b (k - k / 4 - bitOff))
      else pix.getD k 0 := by
  induction m with
  | zero =>
    refine ⟨rfl, ?_⟩
    have hn : ¬ (k < pix.length ∧ k % 4 ≠ 3 ∧ bitOff ≤ k - k / 4 ∧ k - k / 4 < bitOff + 0) := by
      omega
    rw [if_neg hn]
    rfl
  | succ m ih =>
    rw [List.range_succ, List.foldl_append]
    obtain ⟨ihl, ihg⟩ := ih
    simp only [List.foldl_cons, List.foldl_nil, List.length_set]
    refine ⟨ihl, ?_⟩
    rw [getD_set, ihl]
    by_cases hk : pixIdx (bitOff + m) = k ∧ k < pix.length
    · obtain ⟨hk1, hk2⟩ := hk
      have e1 : k - k / 4 = bitOff + m := by
        unfold pixIdx BitsPerPixel at hk1
        omega
      have e2 : k % 4 ≠ 3 := by
        unfold pixIdx BitsPerPixel at hk1
        omega
      rw [if_pos ⟨hk1, hk2⟩, hk1, ihg]
      have hn : ¬ (k < pix.length ∧ k % 4 ≠ 3 ∧ bitOff ≤ k - k / 4 ∧ k - k / 4 < bitOff + m) := by
        omega
      rw [if_neg hn]
      have hp : k < pix.length ∧ k % 4 ≠ 3 ∧ bitOff ≤ k - k / 4 ∧ k - k / 4 < bitOff + (m + 1) := by
        omega
      rw [if_pos hp]
      have e3 : k - k / 4 - bitOff = m := by omega
      rw [e3]
    · rw [if_neg hk, ihg]
      by_cases hc : k < pix.length ∧ k % 4 ≠ 3 ∧ bitOff ≤ k - k / 4 ∧ k - k / 4 < bitOff + m
      · have hp : k < pix.length ∧ k % 4 ≠ 3 ∧ bitOff ≤ k - k / 4 ∧ k - k / 4 < bitOff + (m + 1) := by
          omega
        rw [if_pos hc, if_pos hp]
      · have hp : ¬ (k < pix.length ∧ k % 4 ≠ 3 ∧ bitOff ≤ k - k / 4 ∧ k - k / 4 < bitOff + (m + 1)) := by
          unfold pixIdx BitsPerPixel at hk
          omega
        rw [if_neg hc, if_neg hp]

theorem writeBits_length (bitOff b : Nat) (pix : List Nat) :
    (writeBits bitOff b pix).length = pix.length :=
  (writeBitsUpTo_getD bitOff b pix BitsPerByte 0).1

theorem writeBits_getD (bitOff b : Nat) (pix : List Nat) (k : Nat) :
    (writeBits bitOff b pix).getD k 0 =
      if k < pix.length ∧ k % 4 ≠ 3 ∧ bitOff ≤ k - k / 4 ∧ k - k / 4 < bitOff + 8 then
        WithLSB (pix.getD k 0) (readBool b (k - k / 4 - bitOff))
      else pix.getD k 0 :=
  (writeBitsUpTo_getD bitOff b pix BitsPerByte k).2

/-! ## The outer loop of `Write` -/

theorem writeLoop_length (wOff : Nat) (p : List Nat) (i n : Nat) (pix : List Nat) :
    (writeLoop wOff p i n pix).1.length = pix.length := by
  induction p generalizing i n pix with
  | nil => rfl
  | cons b rest ih =>
    unfold writeLoop
    simp only []
    split
    · rfl
    · rw [ih, writeBits_length]

theorem writeLoop_count (wOff : Nat) (p : List Nat) (i n : Nat) (pix : List Nat) :
    (writeLoop wOff p i n pix).2.1
        = n + min p.length ((pix.length - pix.length / 4) / 8 - (wOff + i)) ∧
    ((writeLoop wOff p i n pix).2.2 = none ↔
        p.length ≤ (pix.length - pix.length / 4) / 8 - (wOff + i)) ∧
    ((writeLoop wOff p i n pix).2.2 = none ∨ (writeLoop wOff p i n pix).2.2 = some Err.EOF) := by
  induction p generalizing i n pix with
  | nil => simp [writeLoop]
  | cons b rest ih =>
    unfold writeLoop
    simp only [BitsPerByte]
    split
    · rename_i hc
      simp only [List.length_cons]
      refine ⟨by omega, ?_, Or.inr trivial⟩
      constructor
      · intro h
        cases h
      · intro h
        omega
    · rename_i hc
      obtain ⟨h1, h2, h3⟩ := ih (i + 1) (n + 1) (writeBits ((wOff + i) * 8) b pix)
      rw [writeBits_length] at h1 h2
      simp only [List.length_cons]
      refine ⟨by rw [h1]; omega, ?_, h3⟩
      rw [h2]
      omega

theorem writeLoop_getD (wOff : Nat) (p : List Nat) (i n : Nat) (pix : List Nat) (k : Nat) :
    (writeLoop wOff p i n pix).1.getD k 0 =
      if k < pix.length ∧ k % 4 ≠ 3 ∧ (wOff + i) * 8 ≤ k - k / 4 ∧
          k - k / 4 <
            (wOff + i + min p.length ((pix.length - pix.length / 4) / 8 - (wOff + i))) * 8 then
        WithLSB (pix.getD k 0) (readBool (p.getD ((k - k / 4) / 8 - (wOff + i)) 0) ((k - k / 4) % 8))
      else pix.getD k 0 := by
  induction p generalizing i n pix with
  | nil =>
    have hn : ¬ (k < pix.length ∧ k % 4 ≠ 3 ∧ (wOff + i) * 8 ≤ k - k / 4 ∧
          k - k / 4 <
            (wOff + i + min ([] : List Nat).length
              ((pix.length - pix.length / 4) / 8 - (wOff + i))) * 8) := by
      simp only [List.length_nil]
      omega
    rw [if_neg hn]
    rfl
  | cons b rest ih =>
    unfold writeLoop
    simp only [BitsPerByte, List.length_cons]
    split
    · rename_i hc
      have hn : ¬ (k < pix.length ∧ k % 4 ≠ 3 ∧ (wOff + i) * 8 ≤ k - k / 4 ∧
          k - k / 4 <
            (wOff + i + min (rest.length + 1)
              ((pix.length - pix.length / 4) / 8 - (wOff + i))) * 8) := by
        omega
      rw [if_neg hn]
    · rename_i hc
      rw [ih, writeBits_length, writeBits_getD]
      by_cases hA : k < pix.length ∧ k % 4 ≠ 3 ∧ (wOff + (i + 1)) * 8 ≤ k - k / 4 ∧
          k - k / 4 <
            (wOff + (i + 1) + min rest.length
              ((pix.length - pix.length / 4) / 8 - (wOff + (i + 1)))) * 8
      · have hB : ¬ (k < pix.length ∧ k % 4 ≠ 3 ∧ (wOff + i) * 8 ≤ k - k / 4 ∧
            k - k / 4 < (wOff + i) * 8 + 8) := by omega
        have hC : k < pix.length ∧ k % 4 ≠ 3 ∧ (wOff + i) * 8 ≤ k - k / 4 ∧
          k - k / 4 <
            (wOff + i + min (rest.length + 1)
              ((pix.length - pix.length / 4) / 8 - (wOff + i))) * 8 := by omega
        rw [if_pos hA, if_neg hB, if_pos hC]
        have e : (k - k / 4) / 8 - (wOff + i) = ((k - k / 4) / 8 - (wOff + (i + 1))) + 1 := by
          omega
        rw [e, List.getD_cons_succ]
      · rw [if_neg hA]
        by_cases hB : k < pix.length ∧ k % 4 ≠ 3 ∧ (wOff + i) * 8 ≤ k - k / 4 ∧
            k - k / 4 < (wOff + i) * 8 + 8
        · have hC : k < pix.length ∧ k % 4 ≠ 3 ∧ (wOff + i) * 8 ≤ k - k / 4 ∧
            k - k / 4 <
              (wOff + i + min (rest.length + 1)
                ((pix.length - pix.length / 4) / 8 - (wOff + i))) * 8 := by omega
          rw [if_pos hB, if_pos hC]
          have e1 : (k - k / 4) / 8 - (wOff + i) = 0 := by omega
          have e2 : k - k / 4 - (wOff + i) * 8 = (k - k / 4) % 8 := by omega
          rw [e1, e2, List.getD_cons_zero]
        · have hC : ¬ (k < pix.length ∧ k % 4 ≠ 3 ∧ (wOff + i) * 8 ≤ k - k / 4 ∧
            k - k / 4 <
              (wOff + i + min (rest.length + 1)
                ((pix.length - pix.length / 4) / 8 - (wOff + i))) * 8) := by omega
          rw [if_neg hB, if_neg hC]

/-- Writing changes no byte above its least significant bit. -/
theorem writeLoop_high_bits (wOff : Nat) (p : List Nat) (i n : Nat) (pix : List Nat) (k : Nat) :
    WithLSB ((writeLoop wOff p i n pix).1.getD k 0) false = WithLSB (pix.getD k 0) false := by
  rw [writeLoop_getD]
  split
  · rw [WithLSB_WithLSB_false]
  · rfl

/-- The least significant bit stored for bit `j` of byte `m` of a write that
succeeded. -/
theorem writeLoop_lsb (wOff : Nat) (p : List Nat) (n : Nat) (pix : List Nat)
    (hfit : p.length ≤ (pix.length - pix.length / 4) / 8 - wOff) (m j : Nat)
    (hm : m < p.length) (hj : j < 8) :
    GetLSB ((writeLoop wOff p 0 n pix).1.getD (pixIdx ((wOff + m) * 8 + j)) 0)
      = readBool (p.getD m 0) j := by
  rw [writeLoop_getD]
  have hidx : pixIdx ((wOff + m) * 8 + j) - pixIdx ((wOff + m) * 8 + j) / 4
      = (wOff + m) * 8 + j := by
    unfold pixIdx BitsPerPixel
    omega
  have hC : pixIdx ((wOff + m) * 8 + j) < pix.length ∧ pixIdx ((wOff + m) * 8 + j) % 4 ≠ 3 ∧
      (wOff + 0) * 8 ≤ pixIdx ((wOff + m) * 8 + j) - pixIdx ((wOff + m) * 8 + j) / 4 ∧
      pixIdx ((wOff + m) * 8 + j) - pixIdx ((wOff + m) * 8 + j) / 4 <
        (wOff + 0 + min p.length ((pix.length - pix.length / 4) / 8 - (wOff + 0))) * 8 := by
    rw [hidx]
    unfold pixIdx BitsPerPixel
    omega
  rw [if_pos hC, GetLSB_WithLSB, hidx]
  have e1 : ((wOff + m) * 8 + j) / 8 - (wOff + 0) = m := by omega
  have e2 : ((wOff + m) * 8 + j) % 8 = j := by omega
  rw [e1, e2]

theorem writeLoop_take (wOff : Nat) (p : List Nat) (i n : Nat) (pix : List Nat) :
    (writeLoop wOff
        (p.take (min p.length ((pix.length - pix.length / 4) / 8 - (wOff + i)))) i n pix).1
      = (writeLoop wOff p i n pix).1 := by
  induction p generalizing i n pix with
  | nil => rw [List.take_nil]
  | cons b rest ih =>
    by_cases hc : (wOff + i) * 8 + 7 ≥ pix.length - pix.length / 4
    · have e : min (b :: rest).length ((pix.length - pix.length / 4) / 8 - (wOff + i)) = 0 := by
        simp only [List.length_cons]
        omega
      rw [e, List.take_zero]
      simp only [writeLoop, BitsPerByte]
      rw [if_pos hc]
    · have e : min (b :: rest).length ((pix.length - pix.length / 4) / 8 - (wOff + i))
          = min rest.length ((pix.length - pix.length / 4) / 8 - (wOff + (i + 1))) + 1 := by
        simp only [List.length_cons]
        omega
      rw [e, List.take_succ_cons]
      simp only [writeLoop, BitsPerByte]
      rw [if_neg hc, if_neg hc]
      have h := ih (i + 1) (n + 1) (writeBits ((wOff + i) * 8) b pix)
      rw [writeBits_length] at h
      exact h

/-! ## The loops of `Read` -/

theorem range8 : List.range BitsPerByte = [0, 1, 2, 3, 4, 5, 6, 7] := by
  decide

theorem bit_value (x : Nat) : (if (x % 2 != 0) = true then 1 else 0) = x % 2 := by
  by_cases h : x % 2 = 0
  · simp [h]
  · have h1 : x % 2 = 1 := by omega
    simp [h1]

/-- The eight bits `readBool` hands out, put together first bit highest, are the byte. -/
theorem byte_of_readBool (b : Nat) (hb : b < 256) :
    (List.range BitsPerByte).foldl
      (fun acc j => 2 * acc + (if readBool b j then 1 else 0)) 0 = b := by
  rw [range8]
  simp only [List.foldl, readBool, bit_value]
  norm_num
  omega

theorem readBits_eq (bitOff : Nat) (pix : List Nat) (b : Nat) (hb : b < 256)
    (h : ∀ j, j < 8 → GetLSB (pix.getD (pixIdx (bitOff + j)) 0) = readBool b j) :
    readBits bitOff pix = b := by
  have e := byte_of_readBool b hb
  rw [range8] at e
  unfold readBits
  rw [range8]
  simp only [List.foldl] at e ⊢
  rw [h 0 (by omega), h 1 (by omega), h 2 (by omega), h 3 (by omega), h 4 (by omega),
    h 5 (by omega), h 6 (by omega), h 7 (by omega)]
  exact e

theorem readLoop_eq (rOff : Nat) (pix : List Nat) (len i n : Nat) (out : List Nat) :
    readLoop rOff pix len i n out =
      (out ++ (List.range (min len ((3 * pix.length + 2) / 4 / 8 - (rOff + i)))).map
          (fun k => readBits ((rOff + i + k) * 8) pix),
        n + min len ((3 * pix.length + 2) / 4 / 8 - (rOff + i)),
        if len ≤ (3 * pix.length + 2) / 4 / 8 - (rOff + i) then none else some Err.EOF) := by
  induction len generalizing i n out with
  | zero => simp [readLoop]
  | succ len ih =>
    unfold readLoop
    simp only [BitsPerByte, BitsPerPixel]
    by_cases hc : (rOff + i) * 8 + 8 + ((rOff + i) * 8 + 8) / 3 > pix.length
    · rw [if_pos hc]
      have e : min (len + 1) ((3 * pix.length + 2) / 4 / 8 - (rOff + i)) = 0 := by omega
      have hn : ¬ (len + 1 ≤ (3 * pix.length + 2) / 4 / 8 - (rOff + i)) := by omega
      rw [e, if_neg hn]
      simp
    · rw [if_neg hc, ih]
      have e : min (len + 1) ((3 * pix.length + 2) / 4 / 8 - (rOff + i))
          = min len ((3 * pix.length + 2) / 4 / 8 - (rOff + (i + 1))) + 1 := by omega
      rw [e, List.range_succ_eq_map, List.map_cons, List.map_map]
      have hf : ((fun k => readBits ((rOff + i + k) * 8) pix) ∘ Nat.succ)
          = (fun k => readBits ((rOff + (i + 1) + k) * 8) pix) := by
        funext k
        simp only [Function.comp, Nat.succ_eq_add_one]
        congr 2
        omega
      rw [hf]
      have hiff : (len ≤ (3 * pix.length + 2) / 4 / 8 - (rOff + (i + 1)))
          ↔ (len + 1 ≤ (3 * pix.length + 2) / 4 / 8 - (rOff + i)) := by omega
      simp only [List.append_assoc, List.singleton_append, Nat.add_zero, hiff]
      refine Prod.ext rfl (Prod.ext ?_ rfl)
      simp only
      omega

theorem map_range_getD (S : List Nat) (a len : Nat) (h : a + len ≤ S.length) :
    (List.range len).map (fun k => S.getD (a + k) 0) = (S.drop a).take len := by
  apply List.ext_getElem
  · simp only [List.length_map, List.length_range, List.length_take, List.length_drop]
    omega
  · intro k h1 h2
    simp only [List.length_map, List.length_range] at h1
    rw [List.getElem_map, List.getElem_range, List.getElem_take, List.getElem_drop,
      List.getD_eq_getElem?_getD, List.getElem?_eq_getElem (by omega)]
    rfl

/-- Bytes written at cursor `wOff` are the bytes a later read finds there. -/
theorem readLoop_writeLoop (wOff : Nat) (S : List Nat) (nw : Nat) (pix : List Nat)
    (hS : ∀ b ∈ S, b < 256) (hfit : wOff + S.length ≤ pix.length / 4 * 3 / 8)
    (rOff len n : Nat) (out : List Nat) (hr : wOff ≤ rOff)
    (hlen : rOff + len ≤ wOff + S.length) :
    readLoop rOff (writeLoop wOff S 0 nw pix).1 len 0 n out
      = (out ++ (S.drop (rOff - wOff)).take len, n + len, none) := by
  rw [readLoop_eq, writeLoop_length]
  have e : min len ((3 * pix.length + 2) / 4 / 8 - (rOff + 0)) = len := by omega
  have hle : len ≤ (3 * pix.length + 2) / 4 / 8 - (rOff + 0) := by omega
  rw [e, if_pos hle]
  have hmap : (List.range len).map
        (fun k => readBits ((rOff + 0 + k) * 8) (writeLoop wOff S 0 nw pix).1)
      = (List.range len).map (fun k => S.getD ((rOff - wOff) + k) 0) := by
    apply List.map_congr_left
    intro k hk
    rw [List.mem_range] at hk
    have hm : rOff - wOff + k < S.length := by omega
    apply readBits_eq
    · apply hS
      rw [List.getD_eq_getElem?_getD, List.getElem?_eq_getElem hm]
      exact List.getElem_mem hm
    · intro j hj
      have e2 : (rOff + 0 + k) * 8 + j = (wOff + (rOff - wOff + k)) * 8 + j := by omega
      rw [e2]
      exact writeLoop_lsb wOff S nw pix (by omega) (rOff - wOff + k) j hm hj
  rw [hmap, map_range_getD S (rOff - wOff) len (by omega)]

theorem hashInput_congr (c d : Chunk) (hw : d.width = c.width) (hh : d.height = c.height)
    (h : ∀ k, WithLSB (d.Pix.getD k 0) false = WithLSB (c.Pix.getD k 0) false) :
    d.hashInput = c.hashInput := by
  unfold Chunk.hashInput Chunk.RGBAAt
  rw [hw, hh]
  congr 1
  funext x
  congr 1
  funext y
  by_cases hxy : x < c.width ∧ y < c.height
  · simp only [if_pos hxy, h]
  · simp only [if_neg hxy]

/-! ## Claims about the bit channel -/

/-- C3. Write/Read round trip: on a chunk with both cursors at 0, writing a
byte sequence `S` of at most `MaxPayloadSize()` bytes returns `(len(S), nil)`,
and a following read into a buffer of `len(S)` bytes returns `(len(S), nil)`
with the buffer equal to `S`. -/
theorem Write_Read_roundtrip (c : Chunk) (S buf : List Nat)
    (hr : c.rOff = 0) (hw : c.wOff = 0) (hS : ∀ b ∈ S, b < 256)
    (hlen : S.length ≤ c.MaxPayloadSize) (hbuf : buf.length = S.length) :
    (c.Write S).2 = (S.length, none) ∧
    ((c.Write S).1.Read buf).2 = (S, S.length, none) := by
  unfold Chunk.MaxPayloadSize Chunk.LSBCount Chunk.PixelCount BitsPerPixel at hlen
  obtain ⟨h1, h2, _⟩ := writeLoop_count c.wOff S 0 0 c.Pix
  have hfit : S.length ≤ (c.Pix.length - c.Pix.length / 4) / 8 - (c.wOff + 0) := by
    rw [hw]
    omega
  constructor
  · unfold Chunk.Write
    simp only
    rw [h2.mpr hfit, h1]
    congr 1
    omega
  · unfold Chunk.Read Chunk.Write
    simp only
    rw [hr, hw, hbuf]
    rw [readLoop_writeLoop 0 S 0 c.Pix hS (by omega) 0 S.length 0 [] (le_refl 0) (by omega)]
    simp
    omega

/-- C4. The content hash ignores the embedded payload: `CalculateHash` after
`Write(p)` equals `CalculateHash` before it, for every chunk and every `p`,
whether or not the write reaches the capacity limit. -/
theorem CalculateHash_Write (sha : List Nat → List Nat) (c : Chunk) (p : List Nat) :
    (c.Write p).1.CalculateHash sha = c.CalculateHash sha := by
  unfold Chunk.CalculateHash
  congr 1
  apply hashInput_congr
  · rfl
  · rfl
  · intro k
    exact writeLoop_high_bits c.wOff p 0 0 c.Pix k

/-- C9. Write capacity boundary: with `M = MaxPayloadSize()` and write cursor
`wOff` (`M - wOff` is the number of bytes left, zero when the cursor is at or
past `M`), `Write(p)` returns `n = min(len(p), M - wOff)`, the error is nil iff
`len(p) ≤ M - wOff` and `io.EOF` otherwise; on a fresh chunk a write of `M`
bytes returns `(M, nil)`, a write of `M + 1` bytes returns `(M, EOF)`, and a
write of zero bytes returns `(0, nil)`. -/
theorem Write_capacity_boundary (c : Chunk) (p : List Nat) (hwf : c.WellFormed) :
    (c.Write p).2.1 = min p.length (c.MaxPayloadSize - c.wOff) ∧
    ((c.Write p).2.2 = none ↔ p.length ≤ c.MaxPayloadSize - c.wOff) ∧
    (¬ p.length ≤ c.MaxPayloadSize - c.wOff → (c.Write p).2.2 = some Err.EOF) ∧
    (c.wOff = 0 → p.length = c.MaxPayloadSize → (c.Write p).2 = (c.MaxPayloadSize, none)) ∧
    (c.wOff = 0 → p.length = c.MaxPayloadSize + 1 →
      (c.Write p).2 = (c.MaxPayloadSize, some Err.EOF)) ∧
    (p = [] → (c.Write p).2 = (0, none)) := by
  obtain ⟨h1, h2, h3⟩ := writeLoop_count c.wOff p 0 0 c.Pix
  have hM : (c.Pix.length - c.Pix.length / 4) / 8 - (c.wOff + 0)
      = c.MaxPayloadSize - c.wOff := by
    unfold Chunk.WellFormed at hwf
    unfold Chunk.MaxPayloadSize Chunk.LSBCount Chunk.PixelCount BitsPerPixel
    omega
  rw [hM] at h1 h2
  have hn : (c.Write p).2.1 = min p.length (c.MaxPayloadSize - c.wOff) := by
    unfold Chunk.Write
    simp only
    rw [h1]
    omega
  have he : (c.Write p).2.2 = none ↔ p.length ≤ c.MaxPayloadSize - c.wOff := h2
  have hEOF : ¬ p.length ≤ c.MaxPayloadSize - c.wOff → (c.Write p).2.2 = some Err.EOF := by
    intro hgt
    rcases h3 with h3 | h3
    · exact absurd (h2.mp h3) hgt
    · exact h3
  refine ⟨hn, he, hEOF, ?_, ?_, ?_⟩
  · intro hw hp
    refine Prod.ext ?_ ?_
    · rw [hn]
      simp only
      omega
    · exact he.mpr (by omega)
  · intro hw hp
    refine Prod.ext ?_ ?_
    · rw [hn]
      simp only
      omega
    · exact hEOF (by omega)
  · intro hp
    subst hp
    rfl

/-- C10. Write is atomic per byte: when `Write(p)` returns `(n, EOF)` with
`n < len(p)`, the pixel bytes are those left by writing only the first `n`
bytes of `p`; no bit of `p[n]` or of a later byte is stored. -/
theorem Write_atomic_per_byte (c : Chunk) (p : List Nat)
    (herr : (c.Write p).2.2 = some Err.EOF) (hn : (c.Write p).2.1 < p.length) :
    (c.Write p).1.Pix = (c.Write (p.take (c.Write p).2.1)).1.Pix ∧
    (c.Write (p.take (c.Write p).2.1)).2 = ((c.Write p).2.1, none) := by
  have _ := herr
  obtain ⟨h1, _, _⟩ := writeLoop_count c.wOff p 0 0 c.Pix
  have hcount : (c.Write p).2.1
      = min p.length ((c.Pix.length - c.Pix.length / 4) / 8 - (c.wOff + 0)) := by
    unfold Chunk.Write
    simp only
    rw [h1]
    omega
  constructor
  · rw [hcount]
    unfold Chunk.Write
    simp only
    exact (writeLoop_take c.wOff p 0 0 c.Pix).symm
  · rw [hcount]
    obtain ⟨g1, g2, _⟩ := writeLoop_count c.wOff
      (p.take (min p.length ((c.Pix.length - c.Pix.length / 4) / 8 - (c.wOff + 0)))) 0 0 c.Pix
    have hl : (p.take (min p.length
        ((c.Pix.length - c.Pix.length / 4) / 8 - (c.wOff + 0)))).length
        = min p.length ((c.Pix.length - c.Pix.length / 4) / 8 - (c.wOff + 0)) := by
      rw [List.length_take]
      omega
    rw [hl] at g1 g2
    unfold Chunk.Write
    simp only
    refine Prod.ext ?_ ?_
    · simp only
      rw [g1]
      omega
    · exact g2.mpr (by omega)

theorem Write_Read_roundtrip_witness :
    (Chunk.fresh (List.replicate 24 255) 2 3).rOff = 0 ∧
    (Chunk.fresh (List.replicate 24 255) 2 3).wOff = 0 ∧
    (∀ b ∈ [42, 24], b < 256) ∧
    [42, 24].length ≤ (Chunk.fresh (List.replicate 24 255) 2 3).MaxPayloadSize ∧
    [0, 0].length = [42, 24].length ∧
    ((Chunk.fresh (List.replicate 24 255) 2 3).Write [42, 24]).2 = ([42, 24].length, none) ∧
    (((Chunk.fresh (List.replicate 24 255) 2 3).Write [42, 24]).1.Read [0, 0]).2
      = ([42, 24], [42, 24].length, none) :=
  ⟨rfl, rfl, by decide, by decide, rfl,
    Write_Read_roundtrip (Chunk.fresh (List.replicate 24 255) 2 3) [42, 24] [0, 0]
      rfl rfl (by decide) (by decide) rfl⟩

theorem Write_capacity_boundary_witness :
    (Chunk.fresh (List.replicate 24 0) 3 2).WellFormed ∧
    ((Chunk.fresh (List.replicate 24 0) 3 2).Write [255, 255, 255]).2 = (2, some Err.EOF) := by
  have hwf : (Chunk.fresh (List.replicate 24 0) 3 2).WellFormed := by
    unfold Chunk.WellFormed
    decide
  have h := Write_capacity_boundary (Chunk.fresh (List.replicate 24 0) 3 2) [255, 255, 255] hwf
  exact ⟨hwf, h.2.2.2.2.1 rfl (by decide)⟩

theorem Write_atomic_per_byte_witness :
    ((Chunk.fresh (List.replicate 12 0) 1 3).Write [255, 255]).2.2 = some Err.EOF ∧
    ((Chunk.fresh (List.replicate 12 0) 1 3).Write [255, 255]).2.1 < [255, 255].length ∧
    ((Chunk.fresh (List.replicate 12 0) 1 3).Write [255, 255]).1.Pix
      = ((Chunk.fresh (List.replicate 12 0) 1 3).Write [255]).1.Pix ∧
    ((Chunk.fresh (List.replicate 12 0) 1 3).Write [255]).2 = (1, none) :=
  ⟨by decide, by decide,
    Write_atomic_per_byte (Chunk.fresh (List.replicate 12 0) 1 3) [255, 255]
      (by decide) (by decide)⟩

/-! ## `primeFactors` and `chunkDist` -/

/-- On `0` the first loop of `primeFactors` never ends. -/
theorem primeFactorsTwos_zero (fuel : Nat) (pfs : List Nat) :
    primeFactorsTwos fuel 0 pfs = none := by
  induction fuel generalizing pfs with
  | zero => rfl
  | succ fuel ih =>
    unfold primeFactorsTwos
    simp only [Nat.zero_mod, if_true, Nat.zero_div]
    exact ih _

theorem primeFactorsTwos_spec (fuel n : Nat) (pfs : List Nat) (n' : Nat) (pfs' : List Nat)
    (h : primeFactorsTwos fuel n pfs = some (n', pfs')) (hpos : ∀ f ∈ pfs, 0 < f) :
    pfs'.prod * n' = pfs.prod * n ∧ n' % 2 = 1 ∧ (∀ f ∈ pfs', 0 < f) := by
  induction fuel generalizing n pfs with
  | zero => simp [primeFactorsTwos] at h
  | succ fuel ih =>
    unfold primeFactorsTwos at h
    split at h
    · rename_i h2
      have hpos2 : ∀ f ∈ pfs ++ [2], 0 < f := by
        intro f hf
        rw [List.mem_append] at hf
        rcases hf with hf | hf
        · exact hpos f hf
        · simp only [List.mem_singleton] at hf
          omega
      obtain ⟨e1, e2, e3⟩ := ih (n / 2) (pfs ++ [2]) h hpos2
      refine ⟨?_, e2, e3⟩
      rw [e1, List.prod_append, List.prod_singleton, Nat.mul_assoc]
      congr 1
      omega
    · rename_i h2
      simp only [Option.some.injEq, Prod.mk.injEq] at h
      obtain ⟨rfl, rfl⟩ := h
      exact ⟨rfl, by omega, hpos⟩

theorem odd_div_of_dvd (n i : Nat) (hn : n % 2 = 1) (hd : n % i = 0) : (n / i) % 2 = 1 := by
  have e : i * (n / i) = n := by
    have := Nat.div_add_mod n i
    omega
  by_contra hc
  have h0 : (n / i) % 2 = 0 := by omega
  have : (i * (n / i)) % 2 = 0 := by
    rw [Nat.mul_mod, h0]
    simp
  omega

theorem primeFactorsDiv_spec (i fuel n : Nat) (pfs : List Nat) (n' : Nat) (pfs' : List Nat)
    (h : primeFactorsDiv i fuel n pfs = some (n', pfs')) (hi : 0 < i)
    (hodd : n % 2 = 1) (hpos : ∀ f ∈ pfs, 0 < f) :
    pfs'.prod * n' = pfs.prod * n ∧ n' % 2 = 1 ∧ (∀ f ∈ pfs', 0 < f) := by
  induction fuel generalizing n pfs with
  | zero => simp [primeFactorsDiv] at h
  | succ fuel ih =>
    unfold primeFactorsDiv at h
    split at h
    · rename_i h2
      have hpos2 : ∀ f ∈ pfs ++ [i], 0 < f := by
        intro f hf
        rw [List.mem_append] at hf
        rcases hf with hf | hf
        · exact hpos f hf
        · simp only [List.mem_singleton] at hf
          omega
      obtain ⟨e1, e2, e3⟩ := ih (n / i) (pfs ++ [i]) h (odd_div_of_dvd n i hodd h2) hpos2
      refine ⟨?_, e2, e3⟩
      rw [e1, List.prod_append, List.prod_singleton, Nat.mul_assoc]
      congr 1
      have := Nat.div_add_mod n i
      omega
    · simp only [Option.some.injEq, Prod.mk.injEq] at h
      obtain ⟨rfl, rfl⟩ := h
      exact ⟨rfl, hodd, hpos⟩

theorem primeFactorsOdd_spec (total fuel i n : Nat) (pfs : List Nat) (n' : Nat)
    (pfs' : List Nat) (h : primeFactorsOdd total fuel i n pfs = some (n', pfs')) (hi : 0 < i)
    (hodd : n % 2 = 1) (hpos : ∀ f ∈ pfs, 0 < f) :
    pfs'.prod * n' = pfs.prod * n ∧ n' % 2 = 1 ∧ (∀ f ∈ pfs', 0 < f) := by
  induction fuel generalizing i n pfs with
  | zero => simp [primeFactorsOdd] at h
  | succ fuel ih =>
    unfold primeFactorsOdd at h
    split at h
    · split at h
      · cases h
      · rename_i n1 pfs1 hdiv
        obtain ⟨d1, d2, d3⟩ := primeFactorsDiv_spec i total n pfs n1 pfs1 hdiv hi hodd hpos
        obtain ⟨e1, e2, e3⟩ := ih (i + 2) n1 pfs1 h (by omega) d2 d3
        exact ⟨by rw [e1, d1], e2, e3⟩
    · simp only [Option.some.injEq, Prod.mk.injEq] at h
      obtain ⟨rfl, rfl⟩ := h
      exact ⟨rfl, hodd, hpos⟩

/-- On `0` `primeFactors` never returns. -/
theorem primeFactors_zero (fuel : Nat) : primeFactors fuel 0 = none := by
  unfold primeFactors
  rw [primeFactorsTwos_zero]

/-- The product of the factors `primeFactors` returns is its argument. -/
theorem primeFactors_spec (fuel n : Nat) (fs : List Nat) (h : primeFactors fuel n = some fs) :
    fs.prod = n ∧ (∀ f ∈ fs, 0 < f) := by
  unfold primeFactors at h
  split at h
  · cases h
  · rename_i n1 pfs1 h1
    split at h
    · cases h
    · rename_i n2 pfs2 h2
      obtain ⟨a1, a2, a3⟩ := primeFactorsTwos_spec fuel n [] n1 pfs1 h1 (by simp)
      obtain ⟨b1, b2, b3⟩ := primeFactorsOdd_spec fuel fuel 3 n1 pfs1 n2 pfs2 h2 (by omega) a2 a3
      simp only [Option.some.injEq] at h
      subst h
      simp only [List.prod_nil, Nat.one_mul] at a1
      by_cases hgt : n2 > 2
      · rw [if_pos hgt]
        constructor
        · rw [List.prod_append, List.prod_singleton, b1, a1]
        · intro f hf
          rw [List.mem_append] at hf
          rcases hf with hf | hf
          · exact b3 f hf
          · simp only [List.mem_singleton] at hf
            omega
      · rw [if_neg hgt]
        have e : n2 = 1 := by omega
        rw [e, Nat.mul_one] at b1
        exact ⟨by rw [b1, a1], b3⟩

theorem chunkDist_fold (l : List Nat) (a b : Nat) (hl : ∀ f ∈ l, 0 < f) (ha : 0 < a)
    (hb : 0 < b) :
    (l.foldl (fun (xy : Nat × Nat) f => if xy.1 > xy.2 then (xy.1, xy.2 * f) else (xy.1 * f, xy.2))
        (a, b)).1 *
      (l.foldl (fun (xy : Nat × Nat) f => if xy.1 > xy.2 then (xy.1, xy.2 * f) else (xy.1 * f, xy.2))
        (a, b)).2 = a * b * l.prod ∧
    0 < (l.foldl (fun (xy : Nat × Nat) f => if xy.1 > xy.2 then (xy.1, xy.2 * f) else (xy.1 * f, xy.2))
        (a, b)).1 ∧
    0 < (l.foldl (fun (xy : Nat × Nat) f => if xy.1 > xy.2 then (xy.1, xy.2 * f) else (xy.1 * f, xy.2))
        (a, b)).2 := by
  induction l generalizing a b with
  | nil => simp [ha, hb]
  | cons f rest ih =>
    have hf : 0 < f := hl f (List.mem_cons_self _ _)
    have hrest : ∀ g ∈ rest, 0 < g := fun g hg => hl g (List.mem_cons_of_mem _ hg)
    simp only [List.foldl_cons, List.prod_cons]
    by_cases hab : a > b
    · simp only [if_pos hab]
      obtain ⟨e1, e2, e3⟩ := ih a (b * f) hrest ha (Nat.mul_pos hb hf)
      refine ⟨?_, e2, e3⟩
      rw [e1]
      ring
    · simp only [if_neg hab]
      obtain ⟨e1, e2, e3⟩ := ih (a * f) b hrest (Nat.mul_pos ha hf) hb
      refine ⟨?_, e2, e3⟩
      rw [e1]
      ring

/-- The grid `chunkDist` returns has `count` cells and at least one cell along
each axis. -/
theorem chunkDist_spec (fuel count cx cy : Nat) (h : chunkDist fuel count = some (cx, cy)) :
    cx * cy = count ∧ 0 < cx ∧ 0 < cy := by
  unfold chunkDist at h
  split at h
  · cases h
  · rename_i fs hfs
    obtain ⟨hprod, hpos⟩ := primeFactors_spec fuel count fs hfs
    split at h
    · cases h
    · rename_i hne
      simp only [Option.some.injEq] at h
      rcases List.eq_nil_or_concat fs with hnil | ⟨init, a, hfsa⟩
      · subst hnil
        simp at hne
      · rw [List.concat_eq_append] at hfsa
        subst hfsa
        have ha : 0 < a := hpos a (by simp)
        rcases List.eq_nil_or_concat init with hnil | ⟨init2, b, hinitb⟩
        · subst hnil
          simp at h
          obtain ⟨rfl, rfl⟩ := h
          simp at hprod
          exact ⟨by omega, ha, by omega⟩
        · rw [List.concat_eq_append] at hinitb
          subst hinitb
          have hb : 0 < b := hpos b (by simp)
          have hinit : ∀ f ∈ init2.reverse, 0 < f := by
            intro f hf
            apply hpos
            simp only [List.mem_reverse] at hf
            simp [hf]
          have hlen : (init2 ++ [b] ++ [a]).length = init2.length + 2 := by simp
          have e1 : (init2 ++ [b] ++ [a]).getD ((init2 ++ [b] ++ [a]).length - 1) 0 = a := by
            rw [hlen, List.append_assoc, List.getD_eq_getElem?_getD,
              List.getElem?_append_right (by omega)]
            have : init2.length + 2 - 1 - init2.length = 1 := by omega
            rw [this]
            rfl
          have e2 : (init2 ++ [b] ++ [a]).getD ((init2 ++ [b] ++ [a]).length - 2) 0 = b := by
            rw [hlen, List.append_assoc, List.getD_eq_getElem?_getD,
              List.getElem?_append_right (by omega)]
            have : init2.length + 2 - 2 - init2.length = 0 := by omega
            rw [this]
            rfl
          have e3 : (init2 ++ [b] ++ [a]).take ((init2 ++ [b] ++ [a]).length - 2) = init2 := by
            rw [hlen, List.append_assoc]
            simp
          have e4 : (init2 ++ [b] ++ [a]).length > 1 := by omega
          rw [e1, e2, e3, if_pos e4] at h
          obtain ⟨f1, f2, f3⟩ := chunkDist_fold init2.reverse a b hinit ha hb
          rw [h] at f1 f2 f3
          simp only at f1 f2 f3
          refine ⟨?_, f2, f3⟩
          rw [f1, List.prod_reverse, ← hprod]
          simp only [List.prod_append, List.prod_singleton]
          ring

theorem chunkDist_zero (fuel : Nat) : chunkDist fuel 0 = none := by
  unfold chunkDist
  rw [primeFactors_zero]

/-! ## The search loop of `CalculateChunkBounds` -/

theorem chunkCountLoop_spec (total w h fuel c N : Nat)
    (hN : chunkCountLoop total w h fuel c = some N) :
    c ≤ N ∧ (N - c) % 2 = 0 ∧
    (∃ cx cy, chunkDist total (N + 2) = some (cx, cy) ∧
      neededBits (N + 2) > availableBits w h cx cy) ∧
    (∀ m, c < m → m ≤ N → (m - c) % 2 = 0 →
      ∃ cx cy, chunkDist total m = some (cx, cy) ∧ neededBits m ≤ availableBits w h cx cy) := by
  induction fuel generalizing c with
  | zero => simp [chunkCountLoop] at hN
  | succ fuel ih =>
    unfold chunkCountLoop at hN
    simp only at hN
    split at hN
    · cases hN
    · rename_i cx cy hd
      split at hN
      · rename_i hgt
        simp only [Option.some.injEq] at hN
        have e : N = c := by omega
        subst e
        refine ⟨le_refl _, by simp, ⟨cx, cy, hd, hgt⟩, ?_⟩
        intro m h1 h2
        omega
      · rename_i hle
        obtain ⟨a1, a2, a3, a4⟩ := ih (c + 2) hN
        refine ⟨by omega, by omega, a3, ?_⟩
        intro m h1 h2 h3
        by_cases hm : m = c + 2
        · subst hm
          exact ⟨cx, cy, hd, by omega⟩
        · have hm1 : m ≠ c + 1 := by omega
          exact a4 m (by omega) h2 (by omega)

/-- What a grid returned by `CalculateChunkBounds` is: the bounds of the grid
`chunkDist` gives for the chunk count the search loop selected, an even count
of at least 2 that passes the capacity check. -/
theorem CalculateChunkBounds_spec (fuel w h : Nat) (grid : List (List Rectangle))
    (hg : CalculateChunkBounds fuel w h = some grid) :
    ∃ N cx cy, chunkCountLoop fuel w h fuel 0 = some N ∧ 2 ≤ N ∧ N % 2 = 0 ∧
      chunkDist fuel N = some (cx, cy) ∧ cx * cy = N ∧ 0 < cx ∧ 0 < cy ∧
      neededBits N ≤ availableBits w h cx cy ∧ grid = buildBounds w h cx cy := by
  unfold CalculateChunkBounds at hg
  split at hg
  · cases hg
  · rename_i N hN
    split at hg
    · cases hg
    · rename_i cx cy hd
      simp only [Option.some.injEq] at hg
      obtain ⟨a1, a2, a3, a4⟩ := chunkCountLoop_spec fuel w h fuel 0 N hN
      obtain ⟨b1, b2, b3⟩ := chunkDist_spec fuel N cx cy hd
      have hN0 : N ≠ 0 := by
        intro h0
        subst h0
        rw [chunkDist_zero] at hd
        cases hd
      have hN2 : 2 ≤ N := by omega
      obtain ⟨cx', cy', c1, c2⟩ := a4 N (by omega) (le_refl _) (by omega)
      rw [hd] at c1
      simp only [Option.some.injEq, Prod.mk.injEq] at c1
      obtain ⟨rfl, rfl⟩ := c1
      exact ⟨N, cx, cy, hN, hN2, by omega, hd, b1, b2, b3, c2, hg.symm⟩

/-! ## The matrix of bounds -/

theorem Rect_origin (cw ch : Nat) : Rect cw ch 0 0 = ⟨0, 0, cw, ch⟩ := by
  unfold Rect
  by_cases h1 : cw > 0 <;> by_cases h2 : ch > 0 <;> simp [h1, h2] <;> omega

theorem segLo_succ (n cnt i : Nat) :
    segLo n cnt (i + 1) = segLo n cnt i + (if i < n % cnt then n / cnt + 1 else n / cnt) := by
  unfold segLo
  rw [Nat.succ_mul]
  split <;> omega

theorem segLo_mono (n cnt i k : Nat) (h : i ≤ k) : segLo n cnt i ≤ segLo n cnt k := by
  unfold segLo
  have := Nat.mul_le_mul_right (n / cnt) h
  omega

theorem segLo_zero (n cnt : Nat) : segLo n cnt 0 = 0 := by
  simp [segLo]

theorem segLo_count (n cnt : Nat) (hcnt : 0 < cnt) : segLo n cnt cnt = n := by
  unfold segLo
  have h1 := Nat.div_add_mod n cnt
  have h2 := Nat.mod_lt n hcnt
  rw [min_eq_right (le_of_lt h2)]
  exact h1

theorem segLo_le (n cnt i : Nat) (hcnt : 0 < cnt) (h : i ≤ cnt) : segLo n cnt i ≤ n := by
  have := segLo_mono n cnt i cnt h
  rw [segLo_count n cnt hcnt] at this
  exact this

/-- Every pixel position below `n` lies in one of the `cnt` segments. -/
theorem segLo_cover (n cnt x k : Nat) (hx : x < segLo n cnt k) :
    ∃ i, i < k ∧ segLo n cnt i ≤ x ∧ x < segLo n cnt (i + 1) := by
  induction k with
  | zero =>
    rw [segLo_zero] at hx
    omega
  | succ k ih =>
    by_cases hk : x < segLo n cnt k
    · obtain ⟨i, h1, h2, h3⟩ := ih hk
      exact ⟨i, by omega, h2, h3⟩
    · exact ⟨k, by omega, by omega, hx⟩

/-- Two segments that share a position are the same segment. -/
theorem segLo_unique (n cnt x i k : Nat) (hi1 : segLo n cnt i ≤ x)
    (hi2 : x < segLo n cnt (i + 1)) (hk1 : segLo n cnt k ≤ x) (hk2 : x < segLo n cnt (k + 1)) :
    i = k := by
  by_contra hne
  rcases Nat.lt_or_gt_of_ne hne with hlt | hgt
  · have := segLo_mono n cnt (i + 1) k (by omega)
    omega
  · have := segLo_mono n cnt (k + 1) i (by omega)
    omega

theorem buildBounds_eq (w h cx cy : Nat) :
    buildBounds w h cx cy
      = (List.range cx).map fun i => (List.range cy).map fun j => gridCell w h cx cy i j := by
  unfold buildBounds
  simp only
  apply List.map_congr_left
  intro i _
  apply List.map_congr_left
  intro j _
  rw [Rect_origin]
  unfold Rectangle.Add gridCell
  simp only [Nat.zero_add]
  rw [segLo_succ w cx i, segLo_succ h cy j]
  unfold segLo
  by_cases h1 : i < w % cx <;> by_cases h2 : j < h % cy <;>
    simp only [h1, h2, if_true, if_false, Rectangle.mk.injEq] <;>
    refine ⟨?_, ?_, ?_, ?_⟩ <;> first | (rw [Nat.mul_succ]; omega) | omega

theorem gridAt_buildBounds (w h cx cy i j : Nat) :
    gridAt (buildBounds w h cx cy) i j
      = if i < cx ∧ j < cy then some (gridCell w h cx cy i j) else none := by
  rw [buildBounds_eq]
  unfold gridAt
  by_cases hi : i < cx
  · rw [List.getElem?_eq_getElem (by simp [hi])]
    simp only [List.getElem_map, List.getElem_range]
    by_cases hj : j < cy
    · rw [List.getElem?_eq_getElem (by simp [hj])]
      simp [hi, hj]
    · rw [List.getElem?_eq_none (by simp; omega)]
      simp [hj]
  · rw [List.getElem?_eq_none (by simp; omega)]
    simp [hi]

theorem mem_buildBounds (w h cx cy : Nat) (r : Rectangle) :
    r ∈ (buildBounds w h cx cy).flatten ↔ ∃ i j, i < cx ∧ j < cy ∧ r = gridCell w h cx cy i j := by
  rw [buildBounds_eq]
  simp only [List.mem_flatten, List.mem_map, List.mem_range]
  constructor
  · rintro ⟨row, ⟨i, hi, rfl⟩, hr⟩
    simp only [List.mem_map, List.mem_range] at hr
    obtain ⟨j, hj, rfl⟩ := hr
    exact ⟨i, j, hi, hj, rfl⟩
  · rintro ⟨i, j, hi, hj, rfl⟩
    refine ⟨_, ⟨i, hi, rfl⟩, ?_⟩
    simp only [List.mem_map, List.mem_range]
    exact ⟨j, hj, rfl⟩

theorem length_buildBounds (w h cx cy : Nat) :
    (buildBounds w h cx cy).flatten.length = cx * cy := by
  rw [buildBounds_eq]
  simp [List.length_flatten, Function.comp_def]

theorem seg_sum (n cnt k : Nat) :
    ((List.range k).map (fun i => segLo n cnt (i + 1) - segLo n cnt i)).sum = segLo n cnt k := by
  induction k with
  | zero => simp [segLo_zero]
  | succ k ih =>
    rw [List.range_succ, List.map_append, List.sum_append, ih]
    simp only [List.map_cons, List.map_nil, List.sum_cons, List.sum_nil, Nat.add_zero]
    have := segLo_mono n cnt k (k + 1) (by omega)
    omega

theorem area_buildBounds (w h cx cy : Nat) (hcx : 0 < cx) (hcy : 0 < cy) :
    ((buildBounds w h cx cy).flatten.map (fun r => r.Dx * r.Dy)).sum = w * h := by
  rw [buildBounds_eq, List.map_flatten, List.sum_flatten]
  simp only [List.map_map, Function.comp_def, gridCell, Rectangle.Dx, Rectangle.Dy]
  have inner : ∀ i, ((List.range cy).map (fun j =>
      (segLo w cx (i + 1) - segLo w cx i) * (segLo h cy (j + 1) - segLo h cy j))).sum
      = (segLo w cx (i + 1) - segLo w cx i) * h := by
    intro i
    rw [List.sum_map_mul_left, seg_sum, segLo_count h cy hcy]
  simp only [inner]
  rw [List.sum_map_mul_right, seg_sum, segLo_count w cx hcx]

theorem gridCell_contains (w h cx cy i j x y : Nat) :
    (gridCell w h cx cy i j).Contains x y ↔
      segLo w cx i ≤ x ∧ x < segLo w cx (i + 1) ∧ segLo h cy j ≤ y ∧ y < segLo h cy (j + 1) := by
  rfl

/-! ## Claims about the planner -/

/-- C5. Planner coverage: when `CalculateChunkBounds` returns a grid for an
image of `w` by `h` pixels, every chunk rectangle lies inside the image, two
rectangles at different grid positions share no pixel, the areas sum to
`w * h`, and every pixel of the image lies in the rectangle of exactly one grid
position. -/
theorem planner_coverage (fuel w h : Nat) (grid : List (List Rectangle))
    (hg : CalculateChunkBounds fuel w h = some grid) :
    (∀ i j r, gridAt grid i j = some r →
      r.minX ≤ r.maxX ∧ r.maxX ≤ w ∧ r.minY ≤ r.maxY ∧ r.maxY ≤ h) ∧
    (∀ i j i' j' r r', gridAt grid i j = some r → gridAt grid i' j' = some r' →
      (i, j) ≠ (i', j') → ∀ x y, ¬ (r.Contains x y ∧ r'.Contains x y)) ∧
    ((grid.flatten.map (fun r => r.Dx * r.Dy)).sum = w * h) ∧
    (∀ x y, x < w → y < h →
      ∃! ij : Nat × Nat, ∃ r, gridAt grid ij.1 ij.2 = some r ∧ r.Contains x y) := by
  obtain ⟨N, cx, cy, _, _, _, _, _, hcx, hcy, _, rfl⟩ := CalculateChunkBounds_spec fuel w h grid hg
  refine ⟨?_, ?_, area_buildBounds w h cx cy hcx hcy, ?_⟩
  · intro i j r hr
    rw [gridAt_buildBounds] at hr
    split at hr
    · rename_i hij
      simp only [Option.some.injEq] at hr
      subst hr
      simp only [gridCell]
      exact ⟨segLo_mono w cx i (i + 1) (by omega), segLo_le w cx (i + 1) hcx (by omega),
        segLo_mono h cy j (j + 1) (by omega), segLo_le h cy (j + 1) hcy (by omega)⟩
    · cases hr
  · intro i j i' j' r r' hr hr' hne x y hboth
    rw [gridAt_buildBounds] at hr hr'
    split at hr
    · split at hr'
      · simp only [Option.some.injEq] at hr hr'
        subst hr
        subst hr'
        rw [gridCell_contains, gridCell_contains] at hboth
        obtain ⟨⟨a1, a2, a3, a4⟩, b1, b2, b3, b4⟩ := hboth
        have e1 := segLo_unique w cx x i i' a1 a2 b1 b2
        have e2 := segLo_unique h cy y j j' a3 a4 b3 b4
        apply hne
        rw [e1, e2]
      · cases hr'
    · cases hr
  · intro x y hx hy
    rw [← segLo_count w cx hcx] at hx
    rw [← segLo_count h cy hcy] at hy
    obtain ⟨i, hi, hi1, hi2⟩ := segLo_cover w cx x cx hx
    obtain ⟨j, hj, hj1, hj2⟩ := segLo_cover h cy y cy hy
    refine ⟨(i, j), ⟨gridCell w h cx cy i j, ?_, ?_⟩, ?_⟩
    · rw [gridAt_buildBounds, if_pos ⟨hi, hj⟩]
    · rw [gridCell_contains]
      exact ⟨hi1, hi2, hj1, hj2⟩
    · rintro ⟨i', j'⟩ ⟨r, hr, hc⟩
      rw [gridAt_buildBounds] at hr
      split at hr
      · simp only [Option.some.injEq] at hr
        subst hr
        rw [gridCell_contains] at hc
        obtain ⟨b1, b2, b3, b4⟩ := hc
        have e1 := segLo_unique w cx x i' i b1 b2 hi1 hi2
        have e2 := segLo_unique h cy y j' j b3 b4 hj1 hj2
        simp only at e1 e2
        rw [e1, e2]
      · cases hr

theorem planner_coverage_witness :
    CalculateChunkBounds 10 16 16 = some [[⟨0, 0, 8, 16⟩], [⟨8, 0, 16, 16⟩]] ∧
    (([[⟨0, 0, 8, 16⟩], [⟨8, 0, 16, 16⟩]] : List (List Rectangle)).flatten.map
      (fun r => r.Dx * r.Dy)).sum = 16 * 16 :=
  ⟨by decide, (planner_coverage 10 16 16 [[⟨0, 0, 8, 16⟩], [⟨8, 0, 16, 16⟩]] (by decide)).2.2.1⟩

/-! ## The number of hashes per chunk -/

theorem ceilLog2Loop_spec (n fuel k : Nat) (hinv : ∀ j, j < k → 2 ^ j < n)
    (hfuel : n ≤ 2 ^ (k + fuel)) :
    n ≤ 2 ^ ceilLog2Loop n fuel (2 ^ k) k ∧
    ∀ j, j < ceilLog2Loop n fuel (2 ^ k) k → 2 ^ j < n := by
  induction fuel generalizing k with
  | zero => exact ⟨hfuel, hinv⟩
  | succ fuel ih =>
    unfold ceilLog2Loop
    by_cases hle : n ≤ 2 ^ k
    · rw [if_pos hle]
      exact ⟨hle, hinv⟩
    · rw [if_neg hle]
      have e : 2 * 2 ^ k = 2 ^ (k + 1) := by ring
      rw [e]
      apply ih
      · intro j hj
        by_cases hjk : j = k
        · subst hjk
          omega
        · exact hinv j (by omega)
      · have e2 : k + 1 + fuel = k + (fuel + 1) := by omega
        rw [e2]
        exact hfuel

/-- The model of `int(math.Ceil(math.Log2(float64(chunkCount))))` is the
ceiling of the base 2 logarithm. -/
theorem hashesPerChunk_eq_clog (n : Nat) : hashesPerChunk n = Nat.clog 2 n := by
  have h := ceilLog2Loop_spec n n 0 (by intro j hj; omega)
    (by rw [Nat.zero_add]; exact le_of_lt (Nat.lt_two_pow n))
  rw [pow_zero] at h
  obtain ⟨h1, h2⟩ := h
  unfold hashesPerChunk
  apply le_antisymm
  · by_contra hc
    have := h2 (Nat.clog 2 n) (by omega)
    have := Nat.le_pow_clog (by omega : 1 < 2) n
    omega
  · exact (Nat.le_pow_iff_clog_le (by omega)).mp h1

theorem gridCell_size (w h cx cy i j : Nat) :
    w / cx ≤ (gridCell w h cx cy i j).Dx ∧ h / cy ≤ (gridCell w h cx cy i j).Dy := by
  unfold gridCell Rectangle.Dx Rectangle.Dy
  simp only
  rw [segLo_succ w cx i, segLo_succ h cy j]
  constructor
  · split <;> omega
  · split <;> omega

/-- C6. Planner capacity guarantee: in a grid of `N` chunks returned by
`CalculateChunkBounds` (`N ≥ 2`), every chunk rectangle has `pixels × 3` usable
bits, at least `ceil(log2 N) × (256 + 8) + 8`, and `Write` of a serialised path
of `1 + 33 × ceil(log2 N)` bytes to a fresh chunk cut from the rectangle
returns the full byte count and no error. -/
theorem planner_capacity (fuel w h : Nat) (grid : List (List Rectangle))
    (hg : CalculateChunkBounds fuel w h = some grid) :
    2 ≤ grid.flatten.length ∧
    ∀ r ∈ grid.flatten,
      Nat.clog 2 grid.flatten.length * (256 + 8) + 8 ≤ r.Dx * r.Dy * 3 ∧
      ∀ pix p : List Nat, pix.length = 4 * (r.Dx * r.Dy) →
        p.length = 1 + 33 * Nat.clog 2 grid.flatten.length →
        ((Chunk.fresh pix r.Dx r.Dy).Write p).2 = (p.length, none) := by
  obtain ⟨N, cx, cy, _, hN2, _, _, hprod, hcx, hcy, hcap, rfl⟩ :=
    CalculateChunkBounds_spec fuel w h grid hg
  rw [length_buildBounds, hprod]
  refine ⟨hN2, ?_⟩
  intro r hr
  rw [mem_buildBounds] at hr
  obtain ⟨i, j, _, _, rfl⟩ := hr
  obtain ⟨s1, s2⟩ := gridCell_size w h cx cy i j
  have hmul : (w / cx) * (h / cy) ≤ (gridCell w h cx cy i j).Dx * (gridCell w h cx cy i j).Dy :=
    Nat.mul_le_mul s1 s2
  unfold neededBits availableBits HashBitLength MerkleSideBitLength PathCountBitLength at hcap
  rw [hashesPerChunk_eq_clog] at hcap
  have hbits : Nat.clog 2 N * (256 + 8) + 8
      ≤ (gridCell w h cx cy i j).Dx * (gridCell w h cx cy i j).Dy * 3 := by
    omega
  refine ⟨hbits, ?_⟩
  intro pix p hpix hp
  obtain ⟨h1, h2, _⟩ := writeLoop_count 0 p 0 0 pix
  have hfit : p.length ≤ (pix.length - pix.length / 4) / 8 - (0 + 0) := by
    rw [hpix, hp]
    omega
  unfold Chunk.Write Chunk.fresh
  simp only
  rw [h2.mpr hfit, h1]
  congr 1
  omega

theorem planner_capacity_witness :
    CalculateChunkBounds 10 16 16 = some [[⟨0, 0, 8, 16⟩], [⟨8, 0, 16, 16⟩]] ∧
    2 ≤ ([[⟨0, 0, 8, 16⟩], [⟨8, 0, 16, 16⟩]] : List (List Rectangle)).flatten.length :=
  ⟨by decide, (planner_capacity 10 16 16 [[⟨0, 0, 8, 16⟩], [⟨8, 0, 16, 16⟩]] (by decide)).1⟩

/-- C7, the code at a 4 by 1420 image: the search loop stops at the chunk
count 10, whose grid of 5 by 2 chunks leaves chunks of width `4 / 5 = 0`, and
selects 8 chunks, although the chunk count 12 (a grid of 3 by 4 chunks) passes
the capacity check. -/
theorem planner_stops_at_first_failure :
    chunkCountLoop 20 4 1420 20 0 = some 8 ∧
    (CalculateChunkBounds 20 4 1420).map (fun grid => grid.flatten.length) = some 8 ∧
    chunkDist 20 10 = some (5, 2) ∧ neededBits 10 > availableBits 4 1420 5 2 ∧
    chunkDist 20 12 = some (3, 4) ∧ neededBits 12 ≤ availableBits 4 1420 3 4 := by
  decide

theorem chunkDist_two (fuel cx cy : Nat) (h : chunkDist fuel 2 = some (cx, cy)) :
    cx = 2 ∧ cy = 1 := by
  match fuel, h with
  | 0, h => simp [chunkDist, primeFactors, primeFactorsTwos] at h
  | 1, h => simp [chunkDist, primeFactors, primeFactorsTwos] at h
  | fuel + 2, h =>
    simp [chunkDist, primeFactors, primeFactorsTwos, primeFactorsOdd] at h
    omega

/-- When the chunk count 2 fails the capacity check `CalculateChunkBounds` does
not return: it calls `chunkDist(0)`, and `primeFactors(0)` never leaves its
first loop. -/
theorem CalculateChunkBounds_too_small (w h : Nat)
    (hsmall : neededBits 2 > availableBits w h 2 1) (fuel : Nat) :
    CalculateChunkBounds fuel w h = none := by
  unfold CalculateChunkBounds
  cases fuel with
  | zero => rfl
  | succ fuel =>
    unfold chunkCountLoop
    simp only [Nat.zero_add]
    split
    · rename_i hloop
      rfl
    · rename_i N hloop
      split at hloop
      · cases hloop
      · rename_i cx cy hd
        obtain ⟨rfl, rfl⟩ := chunkDist_two (fuel + 1) cx cy hd
        rw [if_pos hsmall] at hloop
        simp only [Option.some.injEq] at hloop
        subst hloop
        rw [chunkDist_zero]

/-- C8, the code at a 10 by 10 image: the chunk count 2 fails the capacity
check (`272 > 5 × 10 × 3`), and `CalculateChunkBounds` then never returns,
whatever the fuel: no grid and no error come out. -/
theorem too_small_image_never_returns :
    neededBits 2 = 272 ∧ availableBits 10 10 2 1 = 150 ∧
    (∀ fuel, primeFactors fuel 0 = none) ∧
    (∀ fuel, CalculateChunkBounds fuel 10 10 = none) :=
  ⟨by decide, by decide, primeFactors_zero,
    fun fuel => CalculateChunkBounds_too_small 10 10 (by decide) fuel⟩

/-! ## Lists of rows -/

theorem ext_getD (l₁ l₂ : List Nat) (hlen : l₁.length = l₂.length)
    (h : ∀ k, k < l₁.length → l₁.getD k 0 = l₂.getD k 0) : l₁ = l₂ := by
  apply List.ext_getElem hlen
  intro k h1 h2
  have := h k h1
  rw [List.getD_eq_getElem?_getD, List.getD_eq_getElem?_getD, List.getElem?_eq_getElem h1,
    List.getElem?_eq_getElem h2] at this
  exact this

theorem getD_of_length_le (l : List Nat) (k : Nat) (h : l.length ≤ k) : l.getD k 0 = 0 := by
  rw [List.getD_eq_getElem?_getD, List.getElem?_eq_none h]
  rfl

theorem getD_drop_take (l : List Nat) (a m j : Nat) (hj : j < m) :
    ((l.drop a).take m).getD j 0 = l.getD (a + j) 0 := by
  rw [List.getD_eq_getElem?_getD, List.getD_eq_getElem?_getD, List.getElem?_take_of_lt hj,
    List.getElem?_drop]

theorem length_drop_take (l : List Nat) (a m : Nat) (h : a + m ≤ l.length) :
    ((l.drop a).take m).length = m := by
  rw [List.length_take, List.length_drop]
  omega

/-- A list made of `n` rows of `m` entries each: its length and its entries. -/
theorem flatMap_rows (f : Nat → List Nat) (m n : Nat) (hf : ∀ y, y < n → (f y).length = m) :
    ((List.range n).flatMap f).length = n * m ∧
    ∀ y j, y < n → j < m → ((List.range n).flatMap f).getD (y * m + j) 0 = (f y).getD j 0 := by
  induction n with
  | zero =>
    refine ⟨by simp, ?_⟩
    intro y j hy
    omega
  | succ n ih =>
    obtain ⟨ihl, ihg⟩ := ih (fun y hy => hf y (by omega))
    rw [List.range_succ, List.flatMap_append, List.flatMap_singleton]
    constructor
    · rw [List.length_append, ihl, hf n (by omega), Nat.succ_mul]
    · intro y j hy hj
      by_cases hyn : y < n
      · rw [List.getD_append _ _ _ _ (by
          rw [ihl]
          have := Nat.mul_le_mul_right m (show y + 1 ≤ n by omega)
          rw [Nat.succ_mul] at this
          omega)]
        exact ihg y j hyn hj
      · have e : y = n := by omega
        subst e
        rw [List.getD_append_right _ _ _ _ (by rw [ihl]; omega), ihl]
        congr 1
        omega

/-- The bytes of `copyRow`: the row inside its range, the old bytes outside. -/
theorem copyRow_getD (pix row : List Nat) (d0 k : Nat) (h : d0 + row.length ≤ pix.length) :
    (copyRow pix d0 row).length = pix.length ∧
    (copyRow pix d0 row).getD k 0 =
      if d0 ≤ k ∧ k < d0 + row.length then row.getD (k - d0) 0 else pix.getD k 0 := by
  unfold copyRow
  have hl1 : (pix.take d0).length = d0 := by
    rw [List.length_take]
    omega
  constructor
  · simp only [List.length_append, List.length_take, List.length_drop]
    omega
  · by_cases h1 : k < d0
    · have hn : ¬ (d0 ≤ k ∧ k < d0 + row.length) := by omega
      rw [if_neg hn, List.append_assoc, List.getD_append _ _ _ _ (by omega),
        List.getD_eq_getElem?_getD, List.getD_eq_getElem?_getD, List.getElem?_take_of_lt h1]
    · by_cases h2 : k < d0 + row.length
      · rw [if_pos ⟨by omega, h2⟩, List.getD_append _ _ _ _ (by
          rw [List.length_append, hl1]
          exact h2),
          List.getD_append_right _ _ _ _ (by omega), hl1]
      · have hn : ¬ (d0 ≤ k ∧ k < d0 + row.length) := by omega
        rw [if_neg hn, List.getD_append_right _ _ _ _ (by
          rw [List.length_append, hl1]
          omega),
          List.length_append, hl1, List.getD_eq_getElem?_getD, List.getD_eq_getElem?_getD,
          List.getElem?_drop]
        congr 2
        omega

/-! ## Pixels of sub-images and of drawn images -/

theorem row_bound (W H X Y : Nat) (hX : X ≤ W) (hY : Y < H) : Y * W + X ≤ W * H := by
  have h1 : (Y + 1) * W ≤ H * W := Nat.mul_le_mul_right W hY
  rw [Nat.succ_mul, Nat.mul_comm H W] at h1
  omega

/-- A byte index lies in the row `Y0` of a rectangle iff its pixel does. -/
theorem row_range_iff (W X Y c Y0 minX Dx : Nat) (hX : X < W) (hc : c < 4)
    (hin : minX + Dx ≤ W) :
    ((Y0 * W + minX) * 4 ≤ (Y * W + X) * 4 + c ∧
        (Y * W + X) * 4 + c < (Y0 * W + minX) * 4 + 4 * Dx)
      ↔ (Y = Y0 ∧ minX ≤ X ∧ X < minX + Dx) := by
  constructor
  · rintro ⟨h1, h2⟩
    rcases Nat.lt_trichotomy Y Y0 with hlt | heq | hgt
    · have := Nat.mul_le_mul_right W (show Y + 1 ≤ Y0 by omega)
      rw [Nat.succ_mul] at this
      omega
    · subst heq
      omega
    · have := Nat.mul_le_mul_right W (show Y0 + 1 ≤ Y by omega)
      rw [Nat.succ_mul] at this
      omega
  · rintro ⟨rfl, h1, h2⟩
    omega

theorem ext_byteAt (p q : List Nat) (W H : Nat) (hp : p.length = 4 * (W * H))
    (hq : q.length = 4 * (W * H))
    (h : ∀ x y c, x < W → y < H → c < 4 → byteAt p W x y c = byteAt q W x y c) : p = q := by
  apply ext_getD p q (by omega)
  intro k hk
  rw [hp] at hk
  have hW : 0 < W := by
    rcases Nat.eq_zero_or_pos W with h0 | h0
    · subst h0
      simp at hk
    · exact h0
  have e1 := Nat.div_add_mod (k / 4) W
  have e2 := Nat.mod_lt (k / 4) hW
  have e3 : (k / 4) / W < H := by
    rw [Nat.div_lt_iff_lt_mul hW, Nat.mul_comm H W]
    omega
  have := h ((k / 4) % W) ((k / 4) / W) (k % 4) e2 e3 (by omega)
  unfold byteAt at this
  have e4 : ((k / 4) / W * W + (k / 4) % W) * 4 + k % 4 = k := by
    rw [Nat.mul_comm ((k / 4) / W) W]
    omega
  rw [e4] at this
  exact this

theorem Intersect_inside (r : Rectangle) (W H : Nat) (hx : r.minX < r.maxX) (hy : r.minY < r.maxY)
    (hX : r.maxX ≤ W) (hY : r.maxY ≤ H) : r.Intersect ⟨0, 0, W, H⟩ = r := by
  unfold Rectangle.Intersect
  simp only
  have e1 : max r.minX 0 = r.minX := by omega
  have e2 : max r.minY 0 = r.minY := by omega
  have e3 : min r.maxX W = r.maxX := by omega
  have e4 : min r.maxY H = r.maxY := by omega
  rw [e1, e2, e3, e4]
  have hn : ¬ (r.minX ≥ r.maxX ∨ r.minY ≥ r.maxY) := by omega
  rw [if_neg hn]

/-- The sub-image of a rectangle inside the image: its size and its pixels. -/
theorem subImageToRGBA_spec (img : Image) (r : Rectangle) (hwf : img.WellFormed)
    (hx : r.minX < r.maxX) (hy : r.minY < r.maxY) (hX : r.maxX ≤ img.width)
    (hY : r.maxY ≤ img.height) :
    (subImageToRGBA img r).width = r.Dx ∧ (subImageToRGBA img r).height = r.Dy ∧
    (subImageToRGBA img r).Pix.length = 4 * (r.Dx * r.Dy) ∧
    ∀ x y c, x < r.Dx → y < r.Dy → c < 4 →
      byteAt (subImageToRGBA img r).Pix r.Dx x y c
        = byteAt img.Pix img.width (r.minX + x) (r.minY + y) c := by
  unfold subImageToRGBA
  simp only [Intersect_inside r img.width img.height hx hy hX hY]
  unfold Image.WellFormed at hwf
  have hrow : ∀ y, y < r.Dy →
      ((img.Pix.drop (((r.minY + y) * img.width + r.minX) * 4)).take (4 * r.Dx)).length
        = 4 * r.Dx := by
    intro y hy'
    apply length_drop_take
    unfold Rectangle.Dx Rectangle.Dy at *
    have := row_bound img.width img.height (r.minX + (r.maxX - r.minX)) (r.minY + y)
      (by omega) (by omega)
    omega
  obtain ⟨hl, hg⟩ := flatMap_rows _ (4 * r.Dx) r.Dy hrow
  refine ⟨trivial, trivial, ?_, ?_⟩
  · rw [hl]
    ring
  · intro x y c hx' hy' hc
    unfold byteAt
    have e1 : (y * r.Dx + x) * 4 + c = y * (4 * r.Dx) + (x * 4 + c) := by ring
    rw [e1, hg y (x * 4 + c) hy' (by omega), getD_drop_take _ _ _ _ (by omega)]
    congr 1
    ring

theorem drawSrc_rows (dst : Image) (r : Rectangle) (src : Chunk)
    (hdst : dst.Pix.length = 4 * (dst.width * dst.height))
    (hx : r.minX ≤ r.maxX) (hX : r.maxX ≤ dst.width)
    (hY : r.minY + src.height ≤ dst.height)
    (hsw : src.width = r.Dx) (hsp : src.Pix.length = 4 * (src.width * src.height))
    (n : Nat) (hn : n ≤ src.height) :
    ((List.range n).foldl
      (fun pix y =>
        copyRow pix (((r.minY + y) * dst.width + r.minX) * 4)
          ((src.Pix.drop (y * src.width * 4)).take (4 * src.width)))
      dst.Pix).length = dst.Pix.length ∧
    ∀ X Y c, X < dst.width → c < 4 →
      byteAt ((List.range n).foldl
        (fun pix y =>
          copyRow pix (((r.minY + y) * dst.width + r.minX) * 4)
            ((src.Pix.drop (y * src.width * 4)).take (4 * src.width)))
        dst.Pix) dst.width X Y c
      = if r.minX ≤ X ∧ X < r.maxX ∧ r.minY ≤ Y ∧ Y < r.minY + n then
          byteAt src.Pix src.width (X - r.minX) (Y - r.minY) c
        else byteAt dst.Pix dst.width X Y c := by
  induction n with
  | zero =>
    refine ⟨rfl, ?_⟩
    intro X Y c _ _
    have hneg : ¬ (r.minX ≤ X ∧ X < r.maxX ∧ r.minY ≤ Y ∧ Y < r.minY + 0) := by omega
    rw [if_neg hneg]
    rfl
  | succ n ih =>
    obtain ⟨ihl, ihg⟩ := ih (by omega)
    rw [List.range_succ, List.foldl_append]
    simp only [List.foldl_cons, List.foldl_nil]
    have hDx : r.minX + src.width = r.maxX := by
      rw [hsw]
      unfold Rectangle.Dx
      omega
    have hrowlen : ((src.Pix.drop (n * src.width * 4)).take (4 * src.width)).length
        = 4 * src.width := by
      apply length_drop_take
      rw [hsp]
      have := Nat.mul_le_mul_right src.width (show n + 1 ≤ src.height by omega)
      rw [Nat.succ_mul, Nat.mul_comm src.height src.width] at this
      omega
    have hfit : ((r.minY + n) * dst.width + r.minX) * 4
        + ((src.Pix.drop (n * src.width * 4)).take (4 * src.width)).length
        ≤ ((List.range n).foldl
            (fun pix y =>
              copyRow pix (((r.minY + y) * dst.width + r.minX) * 4)
                ((src.Pix.drop (y * src.width * 4)).take (4 * src.width)))
            dst.Pix).length := by
      rw [hrowlen, ihl, hdst]
      have := row_bound dst.width dst.height (r.minX + src.width) (r.minY + n)
        (by omega) (by omega)
      omega
    constructor
    · rw [(copyRow_getD _ _ _ 0 hfit).1, ihl]
    · intro X Y c hXw hc
      unfold byteAt
      rw [(copyRow_getD _ _ _ ((Y * dst.width + X) * 4 + c) hfit).2, hrowlen]
      have hiff := row_range_iff dst.width X Y c (r.minY + n) r.minX src.width hXw hc (by omega)
      by_cases hrow : Y = r.minY + n ∧ r.minX ≤ X ∧ X < r.minX + src.width
      · rw [if_pos (hiff.mpr hrow)]
        obtain ⟨hY1, hX1, hX2⟩ := hrow
        have hpos : r.minX ≤ X ∧ X < r.maxX ∧ r.minY ≤ Y ∧ Y < r.minY + (n + 1) := by omega
        rw [if_pos hpos, getD_drop_take _ _ _ _ (by omega)]
        congr 1
        have e1 : Y - r.minY = n := by omega
        rw [e1]
        have e2 : (Y * dst.width + X) * 4 + c - ((r.minY + n) * dst.width + r.minX) * 4
            = (X - r.minX) * 4 + c := by
          rw [hY1]
          omega
        rw [e2]
        ring
      · rw [if_neg (fun h => hrow (hiff.mp h))]
        have := ihg X Y c hXw hc
        unfold byteAt at this
        rw [this]
        by_cases hold : r.minX ≤ X ∧ X < r.maxX ∧ r.minY ≤ Y ∧ Y < r.minY + n
        · have hpos : r.minX ≤ X ∧ X < r.maxX ∧ r.minY ≤ Y ∧ Y < r.minY + (n + 1) := by omega
          rw [if_pos hold, if_pos hpos]
        · have hneg : ¬ (r.minX ≤ X ∧ X < r.maxX ∧ r.minY ≤ Y ∧ Y < r.minY + (n + 1)) := by
            omega
          rw [if_neg hold, if_neg hneg]

/-- Drawing a chunk of the size of the rectangle: the size of the image stays,
the pixels inside the rectangle are those of the chunk, the others stay. -/
theorem drawSrc_spec (dst : Image) (r : Rectangle) (src : Chunk)
    (hdst : dst.WellFormed) (hx : r.minX ≤ r.maxX) (hy : r.minY ≤ r.maxY)
    (hX : r.maxX ≤ dst.width) (hY : r.maxY ≤ dst.height)
    (hsw : src.width = r.Dx) (hsh : src.height = r.Dy) (hsp : src.WellFormed) :
    (drawSrc dst r src).width = dst.width ∧ (drawSrc dst r src).height = dst.height ∧
    (drawSrc dst r src).WellFormed ∧
    ∀ X Y c, X < dst.width → c < 4 →
      byteAt (drawSrc dst r src).Pix dst.width X Y c
      = if r.Contains X Y then byteAt src.Pix src.width (X - r.minX) (Y - r.minY) c
        else byteAt dst.Pix dst.width X Y c := by
  have hDy : r.minY + src.height = r.maxY := by
    rw [hsh]
    unfold Rectangle.Dy
    omega
  obtain ⟨hl, hg⟩ := drawSrc_rows dst r src hdst hx hX (by omega) hsw hsp src.height (le_refl _)
  refine ⟨rfl, rfl, ?_, ?_⟩
  · unfold Image.WellFormed drawSrc
    simp only
    rw [hl]
    exact hdst
  · intro X Y c hXw hc
    unfold drawSrc
    simp only
    rw [hg X Y c hXw hc]
    unfold Rectangle.Contains
    by_cases hcond : r.minX ≤ X ∧ X < r.maxX ∧ r.minY ≤ Y ∧ Y < r.minY + src.height
    · have h2 : r.minX ≤ X ∧ X < r.maxX ∧ r.minY ≤ Y ∧ Y < r.maxY := by omega
      rw [if_pos hcond, if_pos h2]
    · have h2 : ¬ (r.minX ≤ X ∧ X < r.maxX ∧ r.minY ≤ Y ∧ Y < r.maxY) := by omega
      rw [if_neg hcond, if_neg h2]

/-! ## The Merkle tree -/

theorem merkleLevel_length (sha : List Nat → List Nat) (l : List (List Nat)) :
    (merkleLevel sha l).length = (l.length + 1) / 2 := by
  induction l using merkleLevel.induct sha with
  | case1 => rfl
  | case2 a => simp [merkleLevel]
  | case3 a b rest ih =>
    simp only [merkleLevel, List.length_cons, ih]
    omega

/-- The parent of the node at position `i` is the hash of the replay step the
path records for that node. -/
theorem merkleLevel_getD (sha : List Nat → List Nat) (l : List (List Nat)) (i : Nat)
    (hi : i < l.length) :
    (merkleLevel sha l).getD (i / 2) []
      = sha (stepInput (l.getD i [])
          (if i % 2 = 0 then (1, l.getD (i + 1) (l.getD i [])) else (0, l.getD (i - 1) []))) := by
  induction l using merkleLevel.induct sha generalizing i with
  | case1 => simp at hi
  | case2 a =>
    simp only [List.length_singleton] at hi
    have e : i = 0 := by omega
    subst e
    simp [merkleLevel, stepInput]
  | case3 a b rest ih =>
    match i, hi with
    | 0, _ => simp [merkleLevel, stepInput]
    | 1, _ => simp [merkleLevel, stepInput]
    | i + 2, hi =>
      simp only [List.length_cons] at hi
      have e1 : (i + 2) / 2 = i / 2 + 1 := by omega
      have e2 : (i + 2) % 2 = i % 2 := by omega
      have := ih i (by omega)
      simp only [merkleLevel, e1, e2, List.getD_cons_succ]
      rw [this]
      by_cases hpar : i % 2 = 0
      · simp only [hpar, if_true]
      · simp only [hpar, if_false]
        have e3 : i + 2 - 1 = (i - 1) + 2 := by omega
        rw [e3]
        rfl

/-- Replaying the path of a node from the node gives the root. -/
theorem replayPath_merklePath (sha : List Nat → List Nat) (fuel : Nat) (level : List (List Nat))
    (i : Nat) (hi : i < level.length) (hfuel : level.length ≤ 2 ^ fuel) :
    replayPath sha (merklePath sha fuel level i) (level.getD i []) = merkleRoot sha fuel level := by
  induction fuel generalizing level i with
  | zero =>
    simp only [pow_zero] at hfuel
    have e : i = 0 := by omega
    subst e
    unfold merklePath merkleRoot replayPath
    cases level with
    | nil => rfl
    | cons a rest => rfl
  | succ fuel ih =>
    unfold merklePath merkleRoot
    by_cases hlen : level.length ≤ 1
    · simp only [if_pos hlen]
      have e : i = 0 := by omega
      subst e
      unfold replayPath
      cases level with
      | nil => rfl
      | cons a rest => rfl
    · simp only [if_neg hlen]
      unfold replayPath
      simp only [List.foldl_cons]
      rw [← merkleLevel_getD sha level i hi]
      apply ih
      · rw [merkleLevel_length]
        omega
      · rw [merkleLevel_length]
        rw [pow_succ] at hfuel
        omega

/-- The path of a node has as many steps as the tree has levels above the leaves. -/
theorem merklePath_length (sha : List Nat → List Nat) (fuel : Nat) (level : List (List Nat))
    (i : Nat) (hfuel : level.length ≤ 2 ^ fuel) :
    (merklePath sha fuel level i).length = Nat.clog 2 level.length := by
  induction fuel generalizing level i with
  | zero =>
    simp only [pow_zero] at hfuel
    unfold merklePath
    rw [Nat.clog_of_right_le_one hfuel]
    rfl
  | succ fuel ih =>
    unfold merklePath
    by_cases hlen : level.length ≤ 1
    · simp only [if_pos hlen]
      rw [Nat.clog_of_right_le_one hlen]
      rfl
    · simp only [if_neg hlen, List.length_cons]
      rw [ih (merkleLevel sha level) (i / 2) (by
        rw [merkleLevel_length]
        rw [pow_succ] at hfuel
        omega)]
      have e := Nat.clog_of_two_le (b := 2) (n := level.length) (by omega) (by omega)
      rw [merkleLevel_length, e]
      have e2 : level.length + 2 - 1 = level.length + 1 := by omega
      rw [e2]

theorem merkleLevel_isHash (sha : List Nat → List Nat) (hsha : ShaWellFormed sha)
    (l : List (List Nat)) : ∀ h ∈ merkleLevel sha l, IsHash h := by
  induction l using merkleLevel.induct sha with
  | case1 => simp [merkleLevel]
  | case2 a =>
    intro h hh
    simp only [merkleLevel, List.mem_singleton] at hh
    subst hh
    exact hsha _
  | case3 a b rest ih =>
    intro h hh
    simp only [merkleLevel, List.mem_cons] at hh
    rcases hh with rfl | hh
    · exact hsha _
    · exact ih h hh

theorem getD_mem (l : List (List Nat)) (i : Nat) (hi : i < l.length) : l.getD i [] ∈ l := by
  rw [List.getD_eq_getElem?_getD, List.getElem?_eq_getElem hi]
  exact List.getElem_mem hi

/-- Every step of a path has side `0` or `1` and a hash value as sibling. -/
theorem merklePath_steps (sha : List Nat → List Nat) (hsha : ShaWellFormed sha) (fuel : Nat)
    (level : List (List Nat)) (i : Nat) (hi : i < level.length)
    (hlevel : ∀ h ∈ level, IsHash h) :
    ∀ step ∈ merklePath sha fuel level i, step.1 ≤ 1 ∧ IsHash step.2 := by
  induction fuel generalizing level i with
  | zero => simp [merklePath]
  | succ fuel ih =>
    unfold merklePath
    by_cases hlen : level.length ≤ 1
    · simp [hlen]
    · simp only [if_neg hlen]
      intro step hstep
      rw [List.mem_cons] at hstep
      rcases hstep with rfl | hstep
      · by_cases hpar : i % 2 = 0
        · simp only [if_pos hpar]
          refine ⟨le_refl _, ?_⟩
          by_cases hnext : i + 1 < level.length
          · apply hlevel
            rw [List.getD_eq_getElem?_getD, List.getElem?_eq_getElem hnext]
            exact List.getElem_mem hnext
          · apply hlevel
            rw [List.getD_eq_getElem?_getD, List.getElem?_eq_none (by omega)]
            exact getD_mem level i hi
        · simp only [if_neg hpar]
          exact ⟨by omega, hlevel _ (getD_mem level (i - 1) (by omega))⟩
      · exact ih (merkleLevel sha level) (i / 2) (by
          rw [merkleLevel_length]
          omega) (merkleLevel_isHash sha hsha level) step hstep

/-! ## Reading a stored path -/

theorem storesBytes_writeLoop (S : List Nat) (nw : Nat) (pix : List Nat)
    (hS : ∀ b ∈ S, b < 256) (hfit : S.length ≤ pix.length / 4 * 3 / 8) :
    StoresBytes (writeLoop 0 S 0 nw pix).1 S := by
  refine ⟨by rw [writeLoop_length]; exact hfit, hS, ?_⟩
  intro m j hm hj
  have := writeLoop_lsb 0 S nw pix (by omega) m j hm hj
  rw [Nat.zero_add] at this
  exact this

theorem storesBytes_congr (p q S : List Nat) (hlen : p.length = q.length)
    (hlsb : ∀ k, GetLSB (p.getD k 0) = GetLSB (q.getD k 0)) (hq : StoresBytes q S) :
    StoresBytes p S := by
  obtain ⟨h1, h2, h3⟩ := hq
  refine ⟨by rw [hlen]; exact h1, h2, ?_⟩
  intro m j hm hj
  rw [hlsb]
  exact h3 m j hm hj

theorem readLoop_stores (pix S : List Nat) (hst : StoresBytes pix S) (rOff len n : Nat)
    (out : List Nat) (hlen : rOff + len ≤ S.length) :
    readLoop rOff pix len 0 n out = (out ++ (S.drop rOff).take len, n + len, none) := by
  obtain ⟨hfit, hS, hbits⟩ := hst
  rw [readLoop_eq]
  have e : min len ((3 * pix.length + 2) / 4 / 8 - (rOff + 0)) = len := by omega
  have hle : len ≤ (3 * pix.length + 2) / 4 / 8 - (rOff + 0) := by omega
  rw [e, if_pos hle]
  have hmap : (List.range len).map (fun k => readBits ((rOff + 0 + k) * 8) pix)
      = (List.range len).map (fun k => S.getD (rOff + k) 0) := by
    apply List.map_congr_left
    intro k hk
    rw [List.mem_range] at hk
    have hm : rOff + k < S.length := by omega
    apply readBits_eq
    · apply hS
      rw [List.getD_eq_getElem?_getD, List.getElem?_eq_getElem hm]
      exact List.getElem_mem hm
    · intro j hj
      rw [Nat.add_zero]
      exact hbits (rOff + k) j hm hj
  rw [hmap, map_range_getD S rOff len (by omega)]

/-- Reading from a buffer that stores `S`: the next bytes of `S`. -/
theorem Read_stores (c : Chunk) (S buf : List Nat) (hst : StoresBytes c.Pix S)
    (hlen : c.rOff + buf.length ≤ S.length) :
    c.Read buf = ({ c with rOff := c.rOff + buf.length }, (S.drop c.rOff).take buf.length,
      buf.length, none) := by
  unfold Chunk.Read
  simp only
  rw [readLoop_stores c.Pix S hst c.rOff buf.length 0 [] hlen]
  simp only [List.nil_append, Nat.zero_add]
  have hl : ((S.drop c.rOff).take buf.length).length = buf.length := by
    rw [List.length_take, List.length_drop]
    omega
  rw [hl, List.drop_length, List.append_nil]

theorem serializeSteps_length (path : List (Nat × List Nat))
    (h : ∀ step ∈ path, step.2.length = 32) : (serializeSteps path).length = 33 * path.length := by
  induction path with
  | nil => rfl
  | cons s rest ih =>
    unfold serializeSteps at ih ⊢
    rw [List.flatMap_cons, List.length_append, ih (fun t ht => h t (List.mem_cons_of_mem _ ht))]
    simp only [List.length_cons, h s (List.mem_cons_self _ _)]
    omega

theorem serializeSteps_append (p q : List (Nat × List Nat)) :
    serializeSteps (p ++ q) = serializeSteps p ++ serializeSteps q := by
  unfold serializeSteps
  rw [List.flatMap_append]

theorem serializePath_eq (path : List (Nat × List Nat)) :
    serializePath path = (path.length % 256) :: serializeSteps path := rfl

theorem serializePath_length (path : List (Nat × List Nat))
    (h : ∀ step ∈ path, step.2.length = 32) :
    (serializePath path).length = 1 + 33 * path.length := by
  rw [serializePath_eq, List.length_cons, serializeSteps_length path h]
  omega

theorem serializePath_bytes (path : List (Nat × List Nat))
    (h : ∀ step ∈ path, IsHash step.2) : ∀ b ∈ serializePath path, b < 256 := by
  intro b hb
  rw [serializePath_eq, List.mem_cons] at hb
  rcases hb with rfl | hb
  · exact Nat.mod_lt _ (by omega)
  · unfold serializeSteps at hb
    rw [List.mem_flatMap] at hb
    obtain ⟨step, hstep, hb⟩ := hb
    rw [List.mem_cons] at hb
    rcases hb with rfl | hb
    · exact Nat.mod_lt _ (by omega)
    · exact (h step hstep).2 b hb

/-- Where the bytes of a step lie in the serialised path. -/
theorem serializePath_drop (pre post : List (Nat × List Nat)) (step : Nat × List Nat)
    (h : ∀ s ∈ pre, s.2.length = 32) :
    (serializePath (pre ++ step :: post)).drop (1 + 33 * pre.length)
      = (step.1 % 256) :: (step.2 ++ serializeSteps post) := by
  rw [serializePath_eq, serializeSteps_append]
  have e : 1 + 33 * pre.length = (serializeSteps pre).length + 1 := by
    rw [serializeSteps_length pre h]
    omega
  rw [e, List.drop_succ_cons, List.drop_left]
  unfold serializeSteps
  rw [List.flatMap_cons]
  rfl

/-- The replay loop of `Decode` on a chunk that stores the serialised path,
with the read cursor at the first of the steps `post`: it replays `post`, and
its inputs to the hash function are those of the replay. -/
theorem replayLoop_stores (sha : List Nat → List Nat) (post pre : List (Nat × List Nat))
    (hgood : ∀ s ∈ pre ++ post, s.1 ≤ 1 ∧ IsHash s.2) (c : Chunk)
    (hst : StoresBytes c.Pix (serializePath (pre ++ post)))
    (hr : c.rOff = 1 + 33 * pre.length) (prevHash : List Nat) :
    replayLoop sha post.length c prevHash = replayPath sha post prevHash ∧
    replayInputs sha post.length c prevHash = pathInputs sha post prevHash := by
  induction post generalizing pre c prevHash with
  | nil => exact ⟨rfl, rfl⟩
  | cons step rest ih =>
    have hlen32 : ∀ s ∈ pre ++ step :: rest, s.2.length = 32 := fun s hs => (hgood s hs).2.1
    have hstep := hgood step (by simp)
    have htotal := serializePath_length (pre ++ step :: rest) hlen32
    rw [List.length_append, List.length_cons] at htotal
    have hdrop := serializePath_drop pre rest step
      (fun s hs => hlen32 s (List.mem_append_left _ hs))
    have hr1 : c.Read (List.replicate 1 0)
        = ({ c with rOff := c.rOff + 1 }, [step.1 % 256], 1, none) := by
      have := Read_stores c _ (List.replicate 1 0) hst (by
        rw [List.length_replicate, htotal, hr]
        omega)
      rw [List.length_replicate, hr, hdrop] at this
      rw [this, hr]
      rfl
    have hr2 : ({ c with rOff := c.rOff + 1 } : Chunk).Read (List.replicate 32 0)
        = ({ c with rOff := c.rOff + 1 + 32 }, step.2, 32, none) := by
      have := Read_stores { c with rOff := c.rOff + 1 } _ (List.replicate 32 0) hst (by
        rw [List.length_replicate, htotal]
        simp only
        rw [hr]
        omega)
      rw [List.length_replicate] at this
      simp only at this
      rw [this]
      have e : (serializePath (pre ++ step :: rest)).drop (c.rOff + 1)
          = step.2 ++ serializeSteps rest := by
        rw [hr, ← List.drop_drop, hdrop]
        rfl
      rw [e, List.take_left' hstep.2.1]
    have hside : step.1 % 256 = step.1 := Nat.mod_eq_of_lt (by omega)
    have hnext := ih (pre ++ [step]) (by
        intro s hs
        apply hgood
        simpa using hs)
      { c with rOff := c.rOff + 1 + 32 }
      (by
        simp only [List.append_assoc, List.singleton_append]
        exact hst)
      (by
        simp only [List.length_append, List.length_singleton]
        rw [hr]
        omega)
    simp only [List.length_cons]
    unfold replayLoop replayInputs
    simp only [hr1, hr2, List.getD_cons_zero, hside]
    unfold replayPath pathInputs stepInput
    simp only [List.foldl_cons]
    by_cases h0 : step.1 = 0
    · simp only [h0, if_true]
      have := hnext (sha (step.2 ++ prevHash))
      unfold replayPath at this
      exact ⟨this.1, by rw [this.2]⟩
    · have h1 : step.1 = 1 := by omega
      simp only [h1, if_true, one_ne_zero, if_false]
      have := hnext (sha (prevHash ++ step.2))
      unfold replayPath at this
      exact ⟨this.1, by rw [this.2]⟩

/-- The root hash `Decode` computes for a fresh chunk that stores the
serialised path: the replay of the path from the content hash of the chunk. -/
theorem chunkRootHash_stores (sha : List Nat → List Nat) (path : List (Nat × List Nat))
    (hgood : ∀ s ∈ path, s.1 ≤ 1 ∧ IsHash s.2) (hL : path.length < 256) (c : Chunk)
    (hst : StoresBytes c.Pix (serializePath path)) (hr : c.rOff = 0) :
    chunkRootHash sha c = .ok (replayPath sha path (sha c.hashInput)) ∧
    chunkShaInputs sha c = c.hashInput :: pathInputs sha path (sha c.hashInput) := by
  have hlen32 : ∀ s ∈ path, s.2.length = 32 := fun s hs => (hgood s hs).2.1
  have htotal := serializePath_length path hlen32
  have hr1 : c.Read (List.replicate 1 0)
      = ({ c with rOff := 1 }, [path.length], 1, none) := by
    have := Read_stores c _ (List.replicate 1 0) hst (by
      rw [List.length_replicate, htotal, hr]
      omega)
    rw [List.length_replicate, hr, serializePath_eq] at this
    rw [this, Nat.mod_eq_of_lt hL]
    rfl
  have hnext := replayLoop_stores sha path [] (by simpa using hgood) { c with rOff := 1 }
    (by simpa using hst) (by simp) (sha c.hashInput)
  unfold chunkRootHash chunkShaInputs
  simp only [hr1, List.getD_cons_zero]
  unfold Chunk.CalculateHash
  have hh : ({ c with rOff := 1 } : Chunk).hashInput = c.hashInput := rfl
  rw [hh]
  exact ⟨by rw [hnext.1], by rw [hnext.2]⟩

/-! ## The cells of the grid and their chunks -/

theorem flatMap_rows_getElem? {α : Type} (f : Nat → List α) (m n : Nat)
    (hf : ∀ y, y < n → (f y).length = m) :
    ((List.range n).flatMap f).length = n * m ∧
    ∀ y j, y < n → j < m → ((List.range n).flatMap f)[y * m + j]? = (f y)[j]? := by
  induction n with
  | zero =>
    refine ⟨by simp, ?_⟩
    intro y j hy
    omega
  | succ n ih =>
    obtain ⟨ihl, ihg⟩ := ih (fun y hy => hf y (by omega))
    rw [List.range_succ, List.flatMap_append, List.flatMap_singleton]
    constructor
    · rw [List.length_append, ihl, hf n (by omega), Nat.succ_mul]
    · intro y j hy hj
      by_cases hyn : y < n
      · rw [List.getElem?_append_left (by
          rw [ihl]
          have := Nat.mul_le_mul_right m (show y + 1 ≤ n by omega)
          rw [Nat.succ_mul] at this
          omega)]
        exact ihg y j hyn hj
      · have e : y = n := by omega
        subst e
        rw [List.getElem?_append_right (by rw [ihl]; omega), ihl]
        congr 1
        omega

theorem buildBounds_flatten_getElem? (w h cx cy x y : Nat) (hx : x < cx) (hy : y < cy) :
    (buildBounds w h cx cy).flatten[x * cy + y]? = some (gridCell w h cx cy x y) := by
  rw [buildBounds_eq, ← List.flatMap_def]
  have := (flatMap_rows_getElem? (fun i => (List.range cy).map fun j => gridCell w h cx cy i j)
    cy cx (by intro i _; simp)).2 x y hx hy
  rw [this, List.getElem?_eq_getElem (by simp [hy])]
  simp

theorem cell_index_lt (cx cy x y : Nat) (hx : x < cx) (hy : y < cy) : x * cy + y < cx * cy := by
  have := Nat.mul_le_mul_right cy (show x + 1 ≤ cx by omega)
  rw [Nat.succ_mul] at this
  omega

/-- A cell of a grid whose base chunk size is not zero: not empty, inside the image. -/
theorem gridCell_inside (w h cx cy x y : Nat) (hx : x < cx) (hy : y < cy)
    (hw : 0 < w / cx) (hh : 0 < h / cy) :
    (gridCell w h cx cy x y).minX < (gridCell w h cx cy x y).maxX ∧
    (gridCell w h cx cy x y).minY < (gridCell w h cx cy x y).maxY ∧
    (gridCell w h cx cy x y).maxX ≤ w ∧ (gridCell w h cx cy x y).maxY ≤ h := by
  unfold gridCell
  simp only
  have a1 := segLo_succ w cx x
  have a2 := segLo_succ h cy y
  have a3 := segLo_le w cx (x + 1) (by omega) (by omega)
  have a4 := segLo_le h cy (y + 1) (by omega) (by omega)
  refine ⟨?_, ?_, a3, a4⟩
  · rw [a1]
    split <;> omega
  · rw [a2]
    split <;> omega

theorem index_decomp (W H k : Nat) (hk : k < 4 * (W * H)) :
    ∃ x y c, x < W ∧ y < H ∧ c < 4 ∧ k = (y * W + x) * 4 + c := by
  have hW : 0 < W := by
    rcases Nat.eq_zero_or_pos W with h0 | h0
    · subst h0
      simp at hk
    · exact h0
  have e1 := Nat.div_add_mod (k / 4) W
  have e2 := Nat.mod_lt (k / 4) hW
  have e3 : (k / 4) / W < H := by
    rw [Nat.div_lt_iff_lt_mul hW, Nat.mul_comm H W]
    omega
  refine ⟨(k / 4) % W, (k / 4) / W, k % 4, e2, e3, by omega, ?_⟩
  rw [Nat.mul_comm ((k / 4) / W) W]
  omega

/-- A relation between the bytes of two images inside a rectangle holds
between the bytes of the sub-images cut at that rectangle. -/
theorem subImageToRGBA_rel (P : Nat → Nat → Prop) (hP : P 0 0) (u v : Image) (r : Rectangle)
    (hu : u.WellFormed) (hv : v.WellFormed) (hw : v.width = u.width) (hh : v.height = u.height)
    (hx : r.minX < r.maxX) (hy : r.minY < r.maxY) (hX : r.maxX ≤ u.width)
    (hY : r.maxY ≤ u.height)
    (hrel : ∀ X Y c, r.Contains X Y → c < 4 →
      P (byteAt u.Pix u.width X Y c) (byteAt v.Pix u.width X Y c)) :
    ∀ k, P ((subImageToRGBA u r).Pix.getD k 0) ((subImageToRGBA v r).Pix.getD k 0) := by
  obtain ⟨_, _, ul, ug⟩ := subImageToRGBA_spec u r hu hx hy hX hY
  obtain ⟨_, _, vl, vg⟩ := subImageToRGBA_spec v r hv hx hy (by omega) (by omega)
  intro k
  by_cases hk : k < 4 * (r.Dx * r.Dy)
  · obtain ⟨x, y, c, h1, h2, h3, rfl⟩ := index_decomp r.Dx r.Dy k hk
    have e1 := ug x y c h1 h2 h3
    have e2 := vg x y c h1 h2 h3
    unfold byteAt at e1 e2
    rw [e1, e2, hw]
    apply hrel _ _ _ _ h3
    unfold Rectangle.Contains
    unfold Rectangle.Dx at h1
    unfold Rectangle.Dy at h2
    omega
  · rw [getD_of_length_le _ _ (by omega), getD_of_length_le _ _ (by omega)]
    exact hP

theorem plannedGrid_of_bounds (fuel w h : Nat) (grid : List (List Rectangle))
    (hg : CalculateChunkBounds fuel w h = some grid) :
    ∃ cx cy, grid = buildBounds w h cx cy ∧ PlannedGrid fuel w h cx cy := by
  obtain ⟨N, cx, cy, _, hN2, _, _, hprod, hcx, hcy, hcap, rfl⟩ :=
    CalculateChunkBounds_spec fuel w h grid hg
  subst hprod
  exact ⟨cx, cy, rfl, hg, hcx, hcy, hN2, hcap⟩

theorem plannedGrid_base (fuel w h cx cy : Nat) (hp : PlannedGrid fuel w h cx cy) :
    0 < w / cx ∧ 0 < h / cy ∧ cx * cy ≤ w * h ∧
    Nat.clog 2 (cx * cy) * 264 + 8 ≤ (w / cx) * (h / cy) * 3 := by
  obtain ⟨_, hcx, hcy, _, hcap⟩ := hp
  unfold neededBits availableBits HashBitLength MerkleSideBitLength PathCountBitLength at hcap
  rw [hashesPerChunk_eq_clog] at hcap
  have hpos : 0 < (w / cx) * (h / cy) := by omega
  have h1 : 0 < w / cx := Nat.pos_of_mul_pos_right hpos
  have h2 : 0 < h / cy := Nat.pos_of_mul_pos_left hpos
  refine ⟨h1, h2, ?_, by omega⟩
  have a1 : cx ≤ w := by
    by_contra hc
    rw [Nat.div_eq_of_lt (by omega)] at h1
    omega
  have a2 : cy ≤ h := by
    by_contra hc
    rw [Nat.div_eq_of_lt (by omega)] at h2
    omega
  exact Nat.mul_le_mul a1 a2

theorem chunkLeaves_length (sha : List Nat → List Nat) (img : Image) (cx cy : Nat) :
    (chunkLeaves sha img cx cy).length = cx * cy := by
  unfold chunkLeaves
  rw [List.length_map, List.length_map, length_buildBounds]

theorem chunkLeaves_getD (sha : List Nat → List Nat) (img : Image) (cx cy x y : Nat)
    (hx : x < cx) (hy : y < cy) :
    (chunkLeaves sha img cx cy).getD (x * cy + y) []
      = (cellChunk img cx cy x y).CalculateHash sha := by
  unfold chunkLeaves cellChunk
  rw [List.getD_eq_getElem?_getD, List.getElem?_map, List.getElem?_map,
    buildBounds_flatten_getElem? _ _ _ _ _ _ hx hy]
  rfl

theorem chunkLeaves_isHash (sha : List Nat → List Nat) (hsha : ShaWellFormed sha) (img : Image)
    (cx cy : Nat) : ∀ h ∈ chunkLeaves sha img cx cy, IsHash h := by
  intro h hh
  unfold chunkLeaves at hh
  rw [List.mem_map] at hh
  obtain ⟨c, _, rfl⟩ := hh
  exact hsha _

/-- The chunk of a cell of the planned grid, its path and the chunk after the
write of `Encode`. -/
theorem cell_facts (sha : List Nat → List Nat) (hsha : ShaWellFormed sha) (fuel : Nat)
    (img : Image) (hwf : img.WellFormed) (hsize : img.width * img.height < 2 ^ 61)
    (cx cy : Nat) (hp : PlannedGrid fuel img.width img.height cx cy) (x y : Nat)
    (hx : x < cx) (hy : y < cy) :
    (cellChunk img cx cy x y).width = (gridCell img.width img.height cx cy x y).Dx ∧
    (cellChunk img cx cy x y).height = (gridCell img.width img.height cx cy x y).Dy ∧
    (cellChunk img cx cy x y).WellFormed ∧
    (∀ s ∈ cellPath sha img cx cy x y, s.1 ≤ 1 ∧ IsHash s.2) ∧
    (cellPath sha img cx cy x y).length < 256 ∧
    ((cellChunk img cx cy x y).Write (serializePath (cellPath sha img cx cy x y))).2.2 = none ∧
    (writtenChunk sha img cx cy x y).width = (gridCell img.width img.height cx cy x y).Dx ∧
    (writtenChunk sha img cx cy x y).height = (gridCell img.width img.height cx cy x y).Dy ∧
    (writtenChunk sha img cx cy x y).WellFormed ∧
    StoresBytes (writtenChunk sha img cx cy x y).Pix (serializePath (cellPath sha img cx cy x y)) ∧
    (∀ k, WithLSB ((writtenChunk sha img cx cy x y).Pix.getD k 0) false
        = WithLSB ((cellChunk img cx cy x y).Pix.getD k 0) false) ∧
    replayPath sha (cellPath sha img cx cy x y) ((cellChunk img cx cy x y).CalculateHash sha)
      = merkleRoot sha (cx * cy) (chunkLeaves sha img cx cy) := by
  obtain ⟨hw0, hh0, hNle, hcap⟩ := plannedGrid_base fuel img.width img.height cx cy hp
  obtain ⟨i1, i2, i3, i4⟩ := gridCell_inside img.width img.height cx cy x y hx hy hw0 hh0
  obtain ⟨s1, s2, s3, _⟩ := subImageToRGBA_spec img (gridCell img.width img.height cx cy x y)
    hwf i1 i2 i3 i4
  obtain ⟨g1, g2⟩ := gridCell_size img.width img.height cx cy x y
  have hmul : (img.width / cx) * (img.height / cy)
      ≤ (gridCell img.width img.height cx cy x y).Dx
        * (gridCell img.width img.height cx cy x y).Dy := Nat.mul_le_mul g1 g2
  have hidx := cell_index_lt cx cy x y hx hy
  have hpow : cx * cy ≤ 2 ^ (cx * cy) := le_of_lt (Nat.lt_two_pow _)
  have hcw : (cellChunk img cx cy x y).width = (gridCell img.width img.height cx cy x y).Dx := s1
  have hch : (cellChunk img cx cy x y).height = (gridCell img.width img.height cx cy x y).Dy := s2
  have hcl : (cellChunk img cx cy x y).Pix.length
      = 4 * ((gridCell img.width img.height cx cy x y).Dx
        * (gridCell img.width img.height cx cy x y).Dy) := s3
  have hcwo : (cellChunk img cx cy x y).wOff = 0 := rfl
  have hgood : ∀ s ∈ cellPath sha img cx cy x y, s.1 ≤ 1 ∧ IsHash s.2 := by
    unfold cellPath
    apply merklePath_steps sha hsha
    · rw [chunkLeaves_length]
      exact hidx
    · exact chunkLeaves_isHash sha hsha img cx cy
  have hlen : (cellPath sha img cx cy x y).length = Nat.clog 2 (cx * cy) := by
    unfold cellPath
    rw [merklePath_length, chunkLeaves_length]
    rw [chunkLeaves_length]
    exact hpow
  have hclog : Nat.clog 2 (cx * cy) ≤ 61 :=
    (Nat.le_pow_iff_clog_le (by omega)).mp (by omega)
  have hSlen := serializePath_length (cellPath sha img cx cy x y) (fun s hs => (hgood s hs).2.1)
  have hSbytes := serializePath_bytes (cellPath sha img cx cy x y) (fun s hs => (hgood s hs).2)
  have hfit : (serializePath (cellPath sha img cx cy x y)).length
      ≤ (cellChunk img cx cy x y).Pix.length / 4 * 3 / 8 := by
    rw [hSlen, hlen, hcl]
    omega
  obtain ⟨_, w2, _⟩ := writeLoop_count (cellChunk img cx cy x y).wOff
    (serializePath (cellPath sha img cx cy x y)) 0 0 (cellChunk img cx cy x y).Pix
  have hwl : (writtenChunk sha img cx cy x y).Pix.length = (cellChunk img cx cy x y).Pix.length :=
    writeLoop_length _ _ _ _ _
  refine ⟨hcw, hch, ?_, hgood, by omega, ?_, hcw, hch, ?_, ?_, ?_, ?_⟩
  · unfold Chunk.WellFormed
    rw [hcw, hch]
    exact hcl
  · apply w2.mpr
    rw [hcwo]
    omega
  · unfold Chunk.WellFormed
    rw [hwl]
    show _ = 4 * ((cellChunk img cx cy x y).width * (cellChunk img cx cy x y).height)
    rw [hcw, hch]
    exact hcl
  · exact storesBytes_writeLoop _ 0 _ hSbytes hfit
  · intro k
    exact writeLoop_high_bits _ _ 0 0 _ k
  · rw [← chunkLeaves_getD sha img cx cy x y hx hy]
    unfold cellPath
    have := replayPath_merklePath sha (chunkLeaves sha img cx cy).length
      (chunkLeaves sha img cx cy) (x * cy + y)
      (by rw [chunkLeaves_length]; exact hidx) (by rw [chunkLeaves_length]; exact hpow)
    rw [this, chunkLeaves_length]

/-! ## The encoding loop of `Encode` -/

theorem gridCell_disjoint (w h cx cy x y x' y' X Y : Nat)
    (h1 : (gridCell w h cx cy x y).Contains X Y) (h2 : (gridCell w h cx cy x' y').Contains X Y) :
    x = x' ∧ y = y' := by
  rw [gridCell_contains] at h1 h2
  obtain ⟨a1, a2, a3, a4⟩ := h1
  obtain ⟨b1, b2, b3, b4⟩ := h2
  exact ⟨segLo_unique w cx X x x' a1 a2 b1 b2, segLo_unique h cy Y y y' a3 a4 b3 b4⟩

theorem encodeCols_spec (sha : List Nat → List Nat) (hsha : ShaWellFormed sha) (fuel : Nat)
    (img : Image) (hwf : img.WellFormed) (hsize : img.width * img.height < 2 ^ 61)
    (cx cy : Nat) (hp : PlannedGrid fuel img.width img.height cx cy) (x : Nat) (hx : x < cx)
    (n y : Nat) (enc : Image) (hyn : y + n = cy) (hew : enc.width = img.width)
    (heh : enc.height = img.height) (hewf : enc.WellFormed)
    (hinv : ∀ x' y', x' < cx → y' < cy → (x' < x ∨ (x' = x ∧ y' < y)) →
      HoldsChunk sha img enc cx cy x' y') :
    ∃ enc', encodeCols sha
        ((buildBounds img.width img.height cx cy).flatten.map fun bound =>
          Chunk.ofImage (subImageToRGBA img bound))
        (chunkLeaves sha img cx cy) x cy
        ((List.range' y n).map (gridCell img.width img.height cx cy x)) y enc = some (.ok enc') ∧
      enc'.width = img.width ∧ enc'.height = img.height ∧ enc'.WellFormed ∧
      ∀ x' y', x' < cx → y' < cy → (x' < x ∨ (x' = x ∧ y' < y + n)) →
        HoldsChunk sha img enc' cx cy x' y' := by
  induction n generalizing y enc with
  | zero =>
    refine ⟨enc, rfl, hew, heh, hewf, ?_⟩
    intro x' y' hx' hy' hdone
    exact hinv x' y' hx' hy' (by omega)
  | succ n ih =>
    have hy : y < cy := by omega
    obtain ⟨hw0, hh0, _, _⟩ := plannedGrid_base fuel img.width img.height cx cy hp
    obtain ⟨i1, i2, i3, i4⟩ := gridCell_inside img.width img.height cx cy x y hx hy hw0 hh0
    obtain ⟨_, _, _, _, _, f6, f7, f8, f9, _, _, _⟩ :=
      cell_facts sha hsha fuel img hwf hsize cx cy hp x y hx hy
    have hlist : ((buildBounds img.width img.height cx cy).flatten.map fun bound =>
        Chunk.ofImage (subImageToRGBA img bound))[x * cy + y]?
        = some (cellChunk img cx cy x y) := by
      rw [List.getElem?_map, buildBounds_flatten_getElem? _ _ _ _ _ _ hx hy]
      rfl
    have hdraw := drawSrc_spec enc (gridCell img.width img.height cx cy x y)
      (writtenChunk sha img cx cy x y) hewf (le_of_lt i1) (le_of_lt i2)
      (by rw [hew]; exact i3) (by rw [heh]; exact i4) f7 f8 f9
    obtain ⟨d1, d2, d3, d4⟩ := hdraw
    have hstep := ih (y + 1)
      (drawSrc enc (gridCell img.width img.height cx cy x y) (writtenChunk sha img cx cy x y))
      (by omega) (by rw [d1, hew]) (by rw [d2, heh]) d3
      (by
        intro x' y' hx' hy' hdone X Y c hcont hc
        obtain ⟨j1, j2, j3, j4⟩ :=
          gridCell_inside img.width img.height cx cy x' y' hx' hy' hw0 hh0
        have hXw : X < enc.width := by
          rw [hew]
          unfold Rectangle.Contains at hcont
          omega
        have := d4 X Y c hXw hc
        rw [hew] at this
        rw [this]
        by_cases hsame : x' = x ∧ y' = y
        · obtain ⟨rfl, rfl⟩ := hsame
          rw [if_pos hcont, f7]
        · have hnot : ¬ (gridCell img.width img.height cx cy x y).Contains X Y := by
            intro hc2
            have := gridCell_disjoint _ _ _ _ _ _ _ _ _ _ hc2 hcont
            omega
          rw [if_neg hnot]
          exact hinv x' y' hx' hy' (by omega) X Y c hcont hc)
    obtain ⟨enc', e1, e2, e3, e4, e5⟩ := hstep
    refine ⟨enc', ?_, e2, e3, e4, ?_⟩
    · rw [List.range'_succ, List.map_cons]
      unfold encodeCols
      simp only [hlist]
      have hpath : merklePath sha (chunkLeaves sha img cx cy).length (chunkLeaves sha img cx cy)
          (x * cy + y) = cellPath sha img cx cy x y := rfl
      rw [hpath]
      simp only [f6]
      exact e1
    · intro x' y' hx' hy' hdone
      exact e5 x' y' hx' hy' (by omega)

theorem encodeRows_spec (sha : List Nat → List Nat) (hsha : ShaWellFormed sha) (fuel : Nat)
    (img : Image) (hwf : img.WellFormed) (hsize : img.width * img.height < 2 ^ 61)
    (cx cy : Nat) (hp : PlannedGrid fuel img.width img.height cx cy)
    (n x : Nat) (enc : Image) (hxn : x + n = cx) (hew : enc.width = img.width)
    (heh : enc.height = img.height) (hewf : enc.WellFormed)
    (hinv : ∀ x' y', x' < cx → y' < cy → x' < x → HoldsChunk sha img enc cx cy x' y') :
    ∃ enc', encodeRows sha
        ((buildBounds img.width img.height cx cy).flatten.map fun bound =>
          Chunk.ofImage (subImageToRGBA img bound))
        (chunkLeaves sha img cx cy)
        ((List.range' x n).map fun x' =>
          (List.range cy).map fun y' => gridCell img.width img.height cx cy x' y')
        x enc = some (.ok enc') ∧
      enc'.width = img.width ∧ enc'.height = img.height ∧ enc'.WellFormed ∧
      ∀ x' y', x' < cx → y' < cy → x' < x + n → HoldsChunk sha img enc' cx cy x' y' := by
  induction n generalizing x enc with
  | zero =>
    refine ⟨enc, rfl, hew, heh, hewf, ?_⟩
    intro x' y' hx' hy' hdone
    exact hinv x' y' hx' hy' (by omega)
  | succ n ih =>
    have hx : x < cx := by omega
    obtain ⟨enc1, c1, c2, c3, c4, c5⟩ := encodeCols_spec sha hsha fuel img hwf hsize cx cy hp x hx
      cy 0 enc (by omega) hew heh hewf (by
        intro x' y' hx' hy' hdone
        exact hinv x' y' hx' hy' (by omega))
    obtain ⟨enc', e1, e2, e3, e4, e5⟩ := ih (x + 1) enc1 (by omega) c2 c3 c4 (by
      intro x' y' hx' hy' hdone
      exact c5 x' y' hx' hy' (by omega))
    refine ⟨enc', ?_, e2, e3, e4, ?_⟩
    · rw [List.range'_succ, List.map_cons]
      unfold encodeRows
      simp only [List.length_map, List.length_range]
      rw [List.range_eq_range', c1]
      simp only
      rw [← List.range_eq_range']
      exact e1
    · intro x' y' hx' hy' hdone
      exact e5 x' y' hx' hy' (by omega)

/-- `Encode` on an image for which the planner returns a grid: it returns an
image of the same size in which every cell holds its written chunk. -/
theorem Encode_spec (sha : List Nat → List Nat) (hsha : ShaWellFormed sha) (fuel : Nat)
    (img : Image) (hwf : img.WellFormed) (hsize : img.width * img.height < 2 ^ 61)
    (cx cy : Nat) (hp : PlannedGrid fuel img.width img.height cx cy) :
    ∃ enc, Encode sha fuel img = some (.ok enc) ∧
      enc.width = img.width ∧ enc.height = img.height ∧ enc.WellFormed ∧
      ∀ x y, x < cx → y < cy → HoldsChunk sha img enc cx cy x y := by
  obtain ⟨enc, e1, e2, e3, e4, e5⟩ := encodeRows_spec sha hsha fuel img hwf hsize cx cy hp
    cx 0 (NewRGBA img.width img.height) (by omega) rfl rfl
    (by
      unfold Image.WellFormed NewRGBA
      simp)
    (by
      intro x' y' _ _ hdone
      omega)
  refine ⟨enc, ?_, e2, e3, e4, ?_⟩
  · unfold Encode
    rw [hp.1]
    simp only
    have hlen : ((buildBounds img.width img.height cx cy).flatten.map fun bound =>
        Chunk.ofImage (subImageToRGBA img bound)).length ≠ 0 := by
      rw [List.length_map, length_buildBounds]
      have := hp.2.2.2.1
      omega
    rw [if_neg hlen]
    rw [← List.range_eq_range', ← buildBounds_eq] at e1
    exact e1
  · intro x y hx hy
    exact e5 x y hx hy (by omega)

/-! ## The chunks `Decode` cuts from an encoded image -/

/-- In the encoded image the chunk of a cell has the bytes of the written chunk. -/
theorem cellChunk_encoded (sha : List Nat → List Nat) (hsha : ShaWellFormed sha) (fuel : Nat)
    (img : Image) (hwf : img.WellFormed) (hsize : img.width * img.height < 2 ^ 61)
    (cx cy : Nat) (hp : PlannedGrid fuel img.width img.height cx cy) (enc : Image)
    (hew : enc.width = img.width) (heh : enc.height = img.height) (hewf : enc.WellFormed)
    (x y : Nat) (hx : x < cx) (hy : y < cy) (hhold : HoldsChunk sha img enc cx cy x y) :
    (cellChunk enc cx cy x y).Pix = (writtenChunk sha img cx cy x y).Pix := by
  obtain ⟨hw0, hh0, _, _⟩ := plannedGrid_base fuel img.width img.height cx cy hp
  obtain ⟨i1, i2, i3, i4⟩ := gridCell_inside img.width img.height cx cy x y hx hy hw0 hh0
  obtain ⟨_, _, _, _, _, _, f7, f8, f9, _, _, _⟩ :=
    cell_facts sha hsha fuel img hwf hsize cx cy hp x y hx hy
  unfold cellChunk Chunk.ofImage Chunk.fresh
  simp only
  rw [hew, heh]
  obtain ⟨_, _, s3, s4⟩ := subImageToRGBA_spec enc (gridCell img.width img.height cx cy x y)
    hewf i1 i2 (by rw [hew]; exact i3) (by rw [heh]; exact i4)
  unfold Chunk.WellFormed at f9
  rw [f7, f8] at f9
  apply ext_byteAt _ _ _ _ s3 f9
  intro px py c hpx hpy hc
  rw [s4 px py c hpx hpy hc, hew]
  have hcont : (gridCell img.width img.height cx cy x y).Contains
      ((gridCell img.width img.height cx cy x y).minX + px)
      ((gridCell img.width img.height cx cy x y).minY + py) := by
    unfold Rectangle.Contains
    unfold Rectangle.Dx at hpx
    unfold Rectangle.Dy at hpy
    omega
  rw [hhold _ _ c hcont hc]
  congr 1 <;> omega

/-- The root hash of a cell for an image that has the least significant bits
of the encoded image inside the cell: the replay of the stored path from the
content hash of the chunk cut from that image. -/
theorem chunkRootHash_cell (sha : List Nat → List Nat) (hsha : ShaWellFormed sha) (fuel : Nat)
    (img : Image) (hwf : img.WellFormed) (hsize : img.width * img.height < 2 ^ 61)
    (cx cy : Nat) (hp : PlannedGrid fuel img.width img.height cx cy) (enc : Image)
    (hew : enc.width = img.width) (heh : enc.height = img.height) (hewf : enc.WellFormed)
    (x y : Nat) (hx : x < cx) (hy : y < cy) (hhold : HoldsChunk sha img enc cx cy x y)
    (u : Image) (huw : u.width = img.width) (huh : u.height = img.height) (huwf : u.WellFormed)
    (hlsb : ∀ X Y c, (gridCell img.width img.height cx cy x y).Contains X Y → c < 4 →
      GetLSB (byteAt u.Pix img.width X Y c) = GetLSB (byteAt enc.Pix img.width X Y c)) :
    chunkRootHash sha (cellChunk u cx cy x y)
      = .ok (replayPath sha (cellPath sha img cx cy x y) (sha (cellChunk u cx cy x y).hashInput)) ∧
    chunkShaInputs sha (cellChunk u cx cy x y)
      = (cellChunk u cx cy x y).hashInput
        :: pathInputs sha (cellPath sha img cx cy x y) (sha (cellChunk u cx cy x y).hashInput) := by
  obtain ⟨hw0, hh0, _, _⟩ := plannedGrid_base fuel img.width img.height cx cy hp
  obtain ⟨i1, i2, i3, i4⟩ := gridCell_inside img.width img.height cx cy x y hx hy hw0 hh0
  obtain ⟨_, _, _, f4, f5, _, f7, f8, f9, f10, _, _⟩ :=
    cell_facts sha hsha fuel img hwf hsize cx cy hp x y hx hy
  have henc := cellChunk_encoded sha hsha fuel img hwf hsize cx cy hp enc hew heh hewf x y hx hy
    hhold
  apply chunkRootHash_stores sha _ f4 f5
  · apply storesBytes_congr _ (writtenChunk sha img cx cy x y).Pix _ ?_ ?_ f10
    · rw [← henc]
      unfold cellChunk Chunk.ofImage Chunk.fresh
      simp only
      rw [huw, huh, hew, heh]
      obtain ⟨_, _, s3, _⟩ := subImageToRGBA_spec u (gridCell img.width img.height cx cy x y)
        huwf i1 i2 (by rw [huw]; exact i3) (by rw [huh]; exact i4)
      obtain ⟨_, _, t3, _⟩ := subImageToRGBA_spec enc (gridCell img.width img.height cx cy x y)
        hewf i1 i2 (by rw [hew]; exact i3) (by rw [heh]; exact i4)
      rw [s3, t3]
    · intro k
      rw [← henc]
      unfold cellChunk Chunk.ofImage Chunk.fresh
      simp only
      rw [huw, huh, hew, heh]
      apply subImageToRGBA_rel (fun a b => GetLSB a = GetLSB b) rfl u enc _ huwf hewf
        (by rw [hew, huw]) (by rw [heh, huh]) i1 i2 (by rw [huw]; exact i3)
        (by rw [huh]; exact i4)
      intro X Y c hcont hc
      rw [huw]
      exact hlsb X Y c hcont hc
  · rfl

/-- The content of a cell is the same in two images whose bytes inside the
cell agree above the least significant bit. -/
theorem cellChunk_hashInput_congr (fuel : Nat) (img : Image) (cx cy : Nat)
    (hp : PlannedGrid fuel img.width img.height cx cy) (x y : Nat) (hx : x < cx) (hy : y < cy)
    (u v : Image) (huw : u.width = img.width) (huh : u.height = img.height)
    (huwf : u.WellFormed) (hvw : v.width = img.width) (hvh : v.height = img.height)
    (hvwf : v.WellFormed)
    (hhigh : ∀ X Y c, (gridCell img.width img.height cx cy x y).Contains X Y → c < 4 →
      WithLSB (byteAt u.Pix img.width X Y c) false = WithLSB (byteAt v.Pix img.width X Y c) false) :
    (cellChunk u cx cy x y).hashInput = (cellChunk v cx cy x y).hashInput := by
  obtain ⟨hw0, hh0, _, _⟩ := plannedGrid_base fuel img.width img.height cx cy hp
  obtain ⟨i1, i2, i3, i4⟩ := gridCell_inside img.width img.height cx cy x y hx hy hw0 hh0
  obtain ⟨s1, s2, _, _⟩ := subImageToRGBA_spec u (gridCell img.width img.height cx cy x y)
    huwf i1 i2 (by rw [huw]; exact i3) (by rw [huh]; exact i4)
  obtain ⟨t1, t2, _, _⟩ := subImageToRGBA_spec v (gridCell img.width img.height cx cy x y)
    hvwf i1 i2 (by rw [hvw]; exact i3) (by rw [hvh]; exact i4)
  apply hashInput_congr
  · unfold cellChunk Chunk.ofImage Chunk.fresh
    simp only
    rw [huw, huh, hvw, hvh, s1, t1]
  · unfold cellChunk Chunk.ofImage Chunk.fresh
    simp only
    rw [huw, huh, hvw, hvh, s2, t2]
  · intro k
    unfold cellChunk Chunk.ofImage Chunk.fresh
    simp only
    rw [huw, huh, hvw, hvh]
    apply subImageToRGBA_rel (fun a b => WithLSB a false = WithLSB b false) rfl u v _ huwf hvwf
      (by rw [hvw, huw]) (by rw [hvh, huh]) i1 i2 (by rw [huw]; exact i3)
      (by rw [huh]; exact i4)
    intro X Y c hcont hc
    rw [huw]
    exact hhigh X Y c hcont hc

/-- In the encoded image the content of every cell is the content of the
original chunk. -/
theorem encoded_hashInput (sha : List Nat → List Nat) (hsha : ShaWellFormed sha) (fuel : Nat)
    (img : Image) (hwf : img.WellFormed) (hsize : img.width * img.height < 2 ^ 61)
    (cx cy : Nat) (hp : PlannedGrid fuel img.width img.height cx cy) (enc : Image)
    (hew : enc.width = img.width) (heh : enc.height = img.height) (hewf : enc.WellFormed)
    (x y : Nat) (hx : x < cx) (hy : y < cy) (hhold : HoldsChunk sha img enc cx cy x y) :
    (cellChunk enc cx cy x y).hashInput = (cellChunk img cx cy x y).hashInput := by
  obtain ⟨f1, f2, _, _, _, _, f7, f8, _, _, f11, _⟩ :=
    cell_facts sha hsha fuel img hwf hsize cx cy hp x y hx hy
  have henc := cellChunk_encoded sha hsha fuel img hwf hsize cx cy hp enc hew heh hewf x y hx hy
    hhold
  obtain ⟨hw0, hh0, _, _⟩ := plannedGrid_base fuel img.width img.height cx cy hp
  obtain ⟨i1, i2, i3, i4⟩ := gridCell_inside img.width img.height cx cy x y hx hy hw0 hh0
  obtain ⟨s1, s2, _, _⟩ := subImageToRGBA_spec enc (gridCell img.width img.height cx cy x y)
    hewf i1 i2 (by rw [hew]; exact i3) (by rw [heh]; exact i4)
  apply hashInput_congr
  · rw [f1]
    unfold cellChunk Chunk.ofImage Chunk.fresh
    simp only
    rw [hew, heh, s1]
  · rw [f2]
    unfold cellChunk Chunk.ofImage Chunk.fresh
    simp only
    rw [hew, heh, s2]
  · intro k
    rw [henc]
    exact f11 k

/-! ## The chunk loop of `Decode` and the map of root hashes -/

theorem addAll_append (m : RootHashes) (a b : List (List Nat × ChunkIndex)) :
    m.addAll (a ++ b) = (m.addAll a).addAll b := by
  unfold RootHashes.addAll
  rw [List.foldl_append]

theorem addAll_cons (m : RootHashes) (e : List Nat × ChunkIndex)
    (b : List (List Nat × ChunkIndex)) : m.addAll (e :: b) = (m.add e.1 e.2).addAll b := rfl

/-- Adding root hashes equal to the first key extends the first entry. -/
theorem addAll_first (R : List Nat) (v : List ChunkIndex) (rest : RootHashes)
    (B : List (List Nat × ChunkIndex)) (hB : ∀ e ∈ B, e.1 = R) :
    RootHashes.addAll ((R, v) :: rest) B = (R, v ++ B.map Prod.snd) :: rest := by
  induction B generalizing v with
  | nil => simp [RootHashes.addAll]
  | cons e B ih =>
    rw [addAll_cons]
    have he : e.1 = R := hB e (List.mem_cons_self _ _)
    unfold RootHashes.add
    rw [he, if_pos rfl, ih (v ++ [e.2]) (fun e' he' => hB e' (List.mem_cons_of_mem _ he'))]
    simp

/-- Adding root hashes equal to the second key extends the second entry. -/
theorem addAll_second (R R' : List Nat) (hne : R' ≠ R) (v v' : List ChunkIndex)
    (B : List (List Nat × ChunkIndex)) (hB : ∀ e ∈ B, e.1 = R) :
    RootHashes.addAll [(R', v'), (R, v)] B = [(R', v'), (R, v ++ B.map Prod.snd)] := by
  induction B generalizing v with
  | nil => simp [RootHashes.addAll]
  | cons e B ih =>
    rw [addAll_cons]
    have he : e.1 = R := hB e (List.mem_cons_self _ _)
    unfold RootHashes.add
    rw [he, if_neg hne]
    unfold RootHashes.add
    rw [if_pos rfl, ih (v ++ [e.2]) (fun e' he' => hB e' (List.mem_cons_of_mem _ he'))]
    simp

theorem decodeCols_spec (sha : List Nat → List Nat) (u : Image) (cx cy x : Nat)
    (rootOf : Nat → Nat → List Nat)
    (hroot : ∀ y, y < cy → chunkRootHash sha (cellChunk u cx cy x y) = .ok (rootOf x y))
    (n y : Nat) (m : RootHashes) (hyn : y + n = cy) :
    decodeCols sha u x ((List.range' y n).map (gridCell u.width u.height cx cy x)) y m
      = .ok (m.addAll ((List.range' y n).map fun y' => (rootOf x y', (x, y')))) := by
  induction n generalizing y m with
  | zero => rfl
  | succ n ih =>
    rw [List.range'_succ, List.map_cons, List.map_cons]
    unfold decodeCols
    have := hroot y (by omega)
    unfold cellChunk at this
    rw [this]
    simp only
    rw [ih (y + 1) _ (by omega), addAll_cons]

theorem decodeRows_spec (sha : List Nat → List Nat) (u : Image) (cx cy : Nat)
    (rootOf : Nat → Nat → List Nat)
    (hroot : ∀ x y, x < cx → y < cy →
      chunkRootHash sha (cellChunk u cx cy x y) = .ok (rootOf x y))
    (n x : Nat) (m : RootHashes) (hxn : x + n = cx) :
    decodeRows sha u
        ((List.range' x n).map fun x' =>
          (List.range cy).map fun y' => gridCell u.width u.height cx cy x' y') x m
      = .ok (m.addAll ((List.range' x n).flatMap fun x' =>
          (List.range cy).map fun y' => (rootOf x' y', (x', y')))) := by
  induction n generalizing x m with
  | zero => rfl
  | succ n ih =>
    rw [List.range'_succ, List.map_cons, List.flatMap_cons]
    unfold decodeRows
    have := decodeCols_spec sha u cx cy x rootOf (fun y hy => hroot x y (by omega) hy) cy 0 m
      (by omega)
    rw [← List.range_eq_range'] at this
    rw [this]
    simp only
    rw [ih (x + 1) _ (by omega), addAll_append]

/-- The map of root hashes `Decode` builds when every chunk has a root hash. -/
theorem decodeRows_buildBounds (sha : List Nat → List Nat) (u : Image) (cx cy : Nat)
    (rootOf : Nat → Nat → List Nat)
    (hroot : ∀ x y, x < cx → y < cy →
      chunkRootHash sha (cellChunk u cx cy x y) = .ok (rootOf x y)) :
    decodeRows sha u (buildBounds u.width u.height cx cy) 0 []
      = .ok (RootHashes.addAll [] (cellRoots rootOf cx cy)) := by
  have := decodeRows_spec sha u cx cy rootOf hroot cx 0 [] (by omega)
  rw [← List.range_eq_range', ← buildBounds_eq] at this
  exact this

theorem cellRoots_mem (rootOf : Nat → Nat → List Nat) (cx cy : Nat)
    (e : List Nat × ChunkIndex) :
    e ∈ cellRoots rootOf cx cy ↔ ∃ x y, x < cx ∧ y < cy ∧ e = (rootOf x y, (x, y)) := by
  unfold cellRoots
  simp only [List.mem_flatMap, List.mem_map, List.mem_range]
  constructor
  · rintro ⟨x, hx, y, hy, rfl⟩
    exact ⟨x, y, hx, hy, rfl⟩
  · rintro ⟨x, y, hx, hy, rfl⟩
    exact ⟨x, hx, y, hy, rfl⟩

theorem cellRoots_length (rootOf : Nat → Nat → List Nat) (cx cy : Nat) :
    (cellRoots rootOf cx cy).length = cx * cy := by
  unfold cellRoots
  simp [List.length_flatMap, Function.comp_def]

/-- The map of root hashes when all chunks have the same root hash: one entry. -/
theorem addAll_one_root (R : List Nat) (B : List (List Nat × ChunkIndex))
    (hB : ∀ e ∈ B, e.1 = R) (hne : B ≠ []) :
    RootHashes.addAll [] B = [(R, B.map Prod.snd)] := by
  cases B with
  | nil => exact absurd rfl hne
  | cons e B =>
    rw [addAll_cons]
    have he : e.1 = R := hB e (List.mem_cons_self _ _)
    unfold RootHashes.add
    rw [he, addAll_first R [e.2] [] B (fun e' he' => hB e' (List.mem_cons_of_mem _ he'))]
    simp

theorem selectRoot_single (R : List Nat) (v : List ChunkIndex) (hv : v ≠ []) :
    (selectRoot [(R, v)]).2 = R := by
  unfold selectRoot
  simp only [List.foldl_cons, List.foldl_nil]
  have : v.length > 0 := List.length_pos.mpr hv
  rw [if_pos this]

/-! ## Claims about `Encode` and `Decode` -/

/-- Every chunk of the encoded image replays to the Merkle root. -/
theorem encoded_chunkRootHash (sha : List Nat → List Nat) (hsha : ShaWellFormed sha) (fuel : Nat)
    (img : Image) (hwf : img.WellFormed) (hsize : img.width * img.height < 2 ^ 61)
    (cx cy : Nat) (hp : PlannedGrid fuel img.width img.height cx cy) (enc : Image)
    (hew : enc.width = img.width) (heh : enc.height = img.height) (hewf : enc.WellFormed)
    (x y : Nat) (hx : x < cx) (hy : y < cy) (hhold : HoldsChunk sha img enc cx cy x y) :
    chunkRootHash sha (cellChunk enc cx cy x y)
      = .ok (merkleRoot sha (cx * cy) (chunkLeaves sha img cx cy)) := by
  obtain ⟨h1, _⟩ := chunkRootHash_cell sha hsha fuel img hwf hsize cx cy hp enc hew heh hewf
    x y hx hy hhold enc hew heh hewf (fun _ _ _ _ _ => rfl)
  rw [h1, encoded_hashInput sha hsha fuel img hwf hsize cx cy hp enc hew heh hewf x y hx hy hhold]
  obtain ⟨_, _, _, _, _, _, _, _, _, _, _, f12⟩ :=
    cell_facts sha hsha fuel img hwf hsize cx cy hp x y hx hy
  unfold Chunk.CalculateHash at f12
  rw [f12]

/-- C1. Encode/decode round trip on an untampered image: when
`CalculateChunkBounds` returns a grid for the image (it then has `N ≥ 2`
chunks), `Encode` returns an encoded image; on it the path replay of `Decode`
gives, for every chunk, the root of the Merkle tree over the content hashes of
the chunks, the map of root hashes has exactly one entry, and `Decode` reports
the image as not tampered. -/
theorem Encode_Decode_roundtrip (sha : List Nat → List Nat) (hsha : ShaWellFormed sha)
    (fuel : Nat) (order : RootHashes → RootHashes) (horder : ∀ m, (order m).Perm m)
    (img : Image) (hwf : img.WellFormed) (hsize : img.width * img.height < 2 ^ 61)
    (grid : List (List Rectangle))
    (hg : CalculateChunkBounds fuel img.width img.height = some grid) :
    2 ≤ grid.flatten.length ∧
    ∃ enc, Encode sha fuel img = some (.ok enc) ∧
      (∀ bound ∈ grid.flatten,
        chunkRootHash sha (Chunk.ofImage (subImageToRGBA enc bound))
          = .ok (merkleRoot sha grid.flatten.length
              (grid.flatten.map fun b =>
                (Chunk.ofImage (subImageToRGBA img b)).CalculateHash sha))) ∧
      (∃ indices, decodeRows sha enc grid 0 []
        = .ok [(merkleRoot sha grid.flatten.length
              (grid.flatten.map fun b =>
                (Chunk.ofImage (subImageToRGBA img b)).CalculateHash sha), indices)]) ∧
      Decode sha fuel order enc
        = some (.ok { tampered := false,
                      merkleRoot := merkleRoot sha grid.flatten.length
                        (grid.flatten.map fun b =>
                          (Chunk.ofImage (subImageToRGBA img b)).CalculateHash sha),
                      masked := [] }) := by
  obtain ⟨cx, cy, rfl, hp⟩ := plannedGrid_of_bounds fuel img.width img.height grid hg
  obtain ⟨enc, e1, e2, e3, e4, e5⟩ := Encode_spec sha hsha fuel img hwf hsize cx cy hp
  have hleaves : ((buildBounds img.width img.height cx cy).flatten.map fun b =>
      (Chunk.ofImage (subImageToRGBA img b)).CalculateHash sha) = chunkLeaves sha img cx cy := by
    unfold chunkLeaves
    rw [List.map_map]
    rfl
  rw [length_buildBounds, hleaves]
  have hroot : ∀ x y, x < cx → y < cy →
      chunkRootHash sha (cellChunk enc cx cy x y)
        = .ok (merkleRoot sha (cx * cy) (chunkLeaves sha img cx cy)) := by
    intro x y hx hy
    exact encoded_chunkRootHash sha hsha fuel img hwf hsize cx cy hp enc e2 e3 e4 x y hx hy
      (e5 x y hx hy)
  have hrows := decodeRows_buildBounds sha enc cx cy
    (fun _ _ => merkleRoot sha (cx * cy) (chunkLeaves sha img cx cy)) hroot
  rw [e2, e3] at hrows
  have hne : cellRoots (fun _ _ => merkleRoot sha (cx * cy) (chunkLeaves sha img cx cy)) cx cy
      ≠ [] := by
    intro hnil
    have := cellRoots_length (fun _ _ => merkleRoot sha (cx * cy) (chunkLeaves sha img cx cy))
      cx cy
    rw [hnil, List.length_nil] at this
    have h2 := hp.2.2.2.1
    omega
  have hone := addAll_one_root (merkleRoot sha (cx * cy) (chunkLeaves sha img cx cy))
    (cellRoots (fun _ _ => merkleRoot sha (cx * cy) (chunkLeaves sha img cx cy)) cx cy)
    (by
      intro e he
      rw [cellRoots_mem] at he
      obtain ⟨x, y, _, _, rfl⟩ := he
      rfl) hne
  rw [hone] at hrows
  refine ⟨hp.2.2.2.1, enc, e1, ?_, ⟨_, hrows⟩, ?_⟩
  · intro bound hb
    rw [mem_buildBounds] at hb
    obtain ⟨x, y, hx, hy, rfl⟩ := hb
    have := hroot x y hx hy
    unfold cellChunk at this
    rw [e2, e3] at this
    exact this
  · unfold Decode
    rw [e2, e3, hp.1]
    simp only
    rw [hrows]
    simp only [List.length_singleton, if_true]
    have hperm := horder [(merkleRoot sha (cx * cy) (chunkLeaves sha img cx cy),
      (cellRoots (fun _ _ => merkleRoot sha (cx * cy) (chunkLeaves sha img cx cy)) cx cy).map
        Prod.snd)]
    rw [List.perm_singleton] at hperm
    rw [hperm, selectRoot_single]
    intro hnil
    apply hne
    exact List.map_eq_nil_iff.mp hnil

theorem Encode_Decode_roundtrip_witness :
    ShaWellFormed (fun _ => List.replicate 32 0) ∧
    (NewRGBA 16 16).WellFormed ∧
    CalculateChunkBounds 10 (NewRGBA 16 16).width (NewRGBA 16 16).height
      = some [[⟨0, 0, 8, 16⟩], [⟨8, 0, 16, 16⟩]] ∧
    ∃ enc, Encode (fun _ => List.replicate 32 0) 10 (NewRGBA 16 16) = some (.ok enc) ∧
      Decode (fun _ => List.replicate 32 0) 10 id enc
        = some (.ok { tampered := false, merkleRoot := List.replicate 32 0, masked := [] }) := by
  have hsha : ShaWellFormed (fun _ => List.replicate 32 0) := by
    intro x
    refine ⟨by simp, ?_⟩
    intro b hb
    rw [List.mem_replicate] at hb
    omega
  have hwf : (NewRGBA 16 16).WellFormed := List.length_replicate _ _
  have hg : CalculateChunkBounds 10 (NewRGBA 16 16).width (NewRGBA 16 16).height
      = some [[⟨0, 0, 8, 16⟩], [⟨8, 0, 16, 16⟩]] := by
    decide
  obtain ⟨_, enc, h1, _, _, h4⟩ := Encode_Decode_roundtrip (fun _ => List.replicate 32 0) hsha 10
    id (fun m => List.Perm.refl m) (NewRGBA 16 16) hwf (by decide) _ hg
  exact ⟨hsha, hwf, hg, enc, h1, h4⟩

/-! ## A flipped bit -/

theorem GetLSB_xor_pow (v b : Nat) (hb : 1 ≤ b) : GetLSB (v ^^^ 2 ^ b) = GetLSB v := by
  have h : (v ^^^ 2 ^ b).testBit 0 = v.testBit 0 := by
    rw [Nat.testBit_xor, Nat.testBit_two_pow]
    have : decide (b = 0) = false := by
      rw [decide_eq_false_iff_not]
      omega
    rw [this]
    simp
  rw [Nat.testBit_zero, Nat.testBit_zero] at h
  unfold GetLSB
  by_cases h1 : v % 2 = 1
  · have h2 : (v ^^^ 2 ^ b) % 2 = 1 := by
      rw [h1] at h
      simpa using h
    rw [h1, h2]
  · have h2 : ¬ (v ^^^ 2 ^ b) % 2 = 1 := by
      intro hc
      rw [hc] at h
      simp at h
      exact h1 h
    have e1 : v % 2 = 0 := by omega
    have e2 : (v ^^^ 2 ^ b) % 2 = 0 := by omega
    rw [e1, e2]

theorem testBit_254 (b : Nat) (hb1 : 1 ≤ b) (hb7 : b ≤ 7) : Nat.testBit 254 b = true := by
  interval_cases b <;> decide

theorem WithLSB_xor_pow_ne (v b : Nat) (hb1 : 1 ≤ b) (hb7 : b ≤ 7) :
    WithLSB (v ^^^ 2 ^ b) false ≠ WithLSB v false := by
  intro h
  unfold WithLSB at h
  simp only [Bool.false_eq_true, if_false] at h
  have h2 := congrArg (fun n => Nat.testBit n b) h
  simp only [Nat.testBit_and, Nat.testBit_xor, Nat.testBit_two_pow_self,
    testBit_254 b hb1 hb7, Bool.and_true] at h2
  cases hv : v.testBit b <;> rw [hv] at h2 <;> simp at h2

theorem flipBit_getD (img : Image) (k b j : Nat) (hk : k < img.Pix.length) :
    (img.flipBit k b).Pix.getD j 0
      = if j = k then img.Pix.getD k 0 ^^^ 2 ^ b else img.Pix.getD j 0 := by
  unfold Image.flipBit
  simp only
  rw [getD_set]
  by_cases hj : j = k
  · subst hj
    rw [if_pos ⟨rfl, hk⟩, if_pos rfl]
  · have hn : ¬ (k = j ∧ j < img.Pix.length) := by
      intro hc
      exact hj hc.1.symm
    rw [if_neg hn, if_neg hj]

theorem flipBit_lsb (img : Image) (k b j : Nat) (hk : k < img.Pix.length) (hb : 1 ≤ b) :
    GetLSB ((img.flipBit k b).Pix.getD j 0) = GetLSB (img.Pix.getD j 0) := by
  rw [flipBit_getD img k b j hk]
  by_cases hj : j = k
  · subst hj
    rw [if_pos rfl, GetLSB_xor_pow _ _ hb]
  · rw [if_neg hj]

theorem flipBit_wellFormed (img : Image) (k b : Nat) (hwf : img.WellFormed) :
    (img.flipBit k b).WellFormed := by
  unfold Image.WellFormed Image.flipBit
  simp only [List.length_set]
  exact hwf

/-! ## The content of a chunk -/

/-- The entry of the hash input for channel `ch` of the pixel `(x, y)`. -/
theorem hashInput_getD (c : Chunk) (x y ch : Nat) (hx : x < c.width) (hy : y < c.height)
    (hch : ch < 3) :
    c.hashInput.getD ((x * c.height + y) * 3 + ch) 0
      = WithLSB (byteAt c.Pix c.width x y ch) false := by
  unfold Chunk.hashInput
  have hinner : ∀ x', ((List.range c.height).flatMap fun y' =>
      [WithLSB (c.RGBAAt x' y').1 false, WithLSB (c.RGBAAt x' y').2.1 false,
        WithLSB (c.RGBAAt x' y').2.2.1 false]).length = c.height * 3 ∧
      ∀ y' j, y' < c.height → j < 3 →
        ((List.range c.height).flatMap fun y' =>
          [WithLSB (c.RGBAAt x' y').1 false, WithLSB (c.RGBAAt x' y').2.1 false,
            WithLSB (c.RGBAAt x' y').2.2.1 false]).getD (y' * 3 + j) 0
        = [WithLSB (c.RGBAAt x' y').1 false, WithLSB (c.RGBAAt x' y').2.1 false,
            WithLSB (c.RGBAAt x' y').2.2.1 false].getD j 0 := by
    intro x'
    exact flatMap_rows _ 3 c.height (fun _ _ => rfl)
  obtain ⟨_, houter⟩ := flatMap_rows
    (fun x' => (List.range c.height).flatMap fun y' =>
      [WithLSB (c.RGBAAt x' y').1 false, WithLSB (c.RGBAAt x' y').2.1 false,
        WithLSB (c.RGBAAt x' y').2.2.1 false])
    (c.height * 3) c.width (fun x' _ => (hinner x').1)
  have e : (x * c.height + y) * 3 + ch = x * (c.height * 3) + (y * 3 + ch) := by ring
  simp only at houter ⊢
  rw [e, houter x (y * 3 + ch) hx (by omega), (hinner x).2 y ch hy hch]
  unfold Chunk.RGBAAt byteAt
  rw [if_pos ⟨hx, hy⟩]
  simp only
  have e0 : y * (4 * c.width) + x * 4 = (y * c.width + x) * 4 := by ring
  rw [e0]
  match ch, hch with
  | 0, _ => rfl
  | 1, _ => rfl
  | 2, _ => rfl

/-! ## Replays from different leaves -/

theorem stepInput_injective (step : Nat × List Nat) (h h' : List Nat)
    (he : stepInput h step = stepInput h' step) : h = h' := by
  unfold stepInput at he
  split at he
  · exact List.append_cancel_left he
  · exact List.append_cancel_right he

/-- Replays of one path from two different hashes end in different hashes
when the hash function has no collision among the inputs of the two replays. -/
theorem replayPath_ne (sha : List Nat → List Nat) (path : List (Nat × List Nat))
    (h h' : List Nat) (hne : h ≠ h')
    (hcf : ∀ a ∈ pathInputs sha path h ++ pathInputs sha path h',
      ∀ a' ∈ pathInputs sha path h ++ pathInputs sha path h', sha a = sha a' → a = a') :
    replayPath sha path h ≠ replayPath sha path h' := by
  induction path generalizing h h' with
  | nil => exact hne
  | cons step rest ih =>
    unfold replayPath
    simp only [List.foldl_cons]
    apply ih
    · intro hsha
      apply hne
      apply stepInput_injective step
      apply hcf _ _ _ _ hsha
      · simp [pathInputs]
      · simp [pathInputs]
    · intro a ha a' ha'
      apply hcf
      · simp only [pathInputs, List.mem_append, List.mem_cons] at ha ⊢
        tauto
      · simp only [pathInputs, List.mem_append, List.mem_cons] at ha' ⊢
        tauto

/-! ## A map of root hashes with two entries -/

theorem perm_pair {α : Type} [DecidableEq α] (l : List α) (a b : α) (h : l.Perm [a, b]) :
    l = [a, b] ∨ l = [b, a] := by
  have hlen := h.length_eq
  simp only [List.length_cons, List.length_nil] at hlen
  obtain ⟨c, d, rfl⟩ := List.length_eq_two.mp hlen
  rw [List.cons_perm_iff_perm_erase] at h
  obtain ⟨hc, hd⟩ := h
  simp only [List.mem_cons, List.mem_singleton, List.not_mem_nil, or_false] at hc
  rcases hc with rfl | rfl
  · left
    simp only [List.erase_cons_head] at hd
    rw [List.perm_singleton] at hd
    rw [hd]
  · by_cases hab : a = c
    · subst hab
      left
      simp only [List.erase_cons_head] at hd
      rw [List.perm_singleton] at hd
      rw [hd]
    · right
      rw [List.erase_cons_tail (by simpa using hab), List.erase_cons_head] at hd
      rw [List.perm_singleton] at hd
      rw [hd]

/-! ## Decoding an image with one flipped bit -/

theorem pixel_of_index (W X Y c k : Nat) (hX : X < W) (hc : c < 4)
    (h : (Y * W + X) * 4 + c = k) : X = (k / 4) % W ∧ Y = (k / 4) / W ∧ c = k % 4 := by
  have h4 : k / 4 = Y * W + X := by omega
  have hW : 0 < W := by omega
  refine ⟨?_, ?_, by omega⟩
  · rw [h4, Nat.add_comm, Nat.add_mul_mod_self_right, Nat.mod_eq_of_lt hX]
  · rw [h4, Nat.add_comm, Nat.add_mul_div_right _ _ hW, Nat.div_eq_of_lt hX, Nat.zero_add]

theorem index_of_pixel (W k : Nat) (_hW : 0 < W) :
    ((k / 4) / W * W + (k / 4) % W) * 4 + k % 4 = k := by
  have := Nat.div_add_mod (k / 4) W
  rw [Nat.mul_comm ((k / 4) / W) W]
  omega

/-- The chunk of a cell of the planned grid: its size and its pixels. -/
theorem cellChunk_spec (fuel : Nat) (img : Image) (cx cy : Nat)
    (hp : PlannedGrid fuel img.width img.height cx cy) (x y : Nat) (hx : x < cx) (hy : y < cy)
    (u : Image) (huw : u.width = img.width) (huh : u.height = img.height) (huwf : u.WellFormed) :
    (cellChunk u cx cy x y).width = (gridCell img.width img.height cx cy x y).Dx ∧
    (cellChunk u cx cy x y).height = (gridCell img.width img.height cx cy x y).Dy ∧
    ∀ X Y c, (gridCell img.width img.height cx cy x y).Contains X Y → c < 4 →
      byteAt (cellChunk u cx cy x y).Pix (gridCell img.width img.height cx cy x y).Dx
        (X - (gridCell img.width img.height cx cy x y).minX)
        (Y - (gridCell img.width img.height cx cy x y).minY) c
      = byteAt u.Pix img.width X Y c := by
  obtain ⟨hw0, hh0, _, _⟩ := plannedGrid_base fuel img.width img.height cx cy hp
  obtain ⟨i1, i2, i3, i4⟩ := gridCell_inside img.width img.height cx cy x y hx hy hw0 hh0
  obtain ⟨s1, s2, _, s4⟩ := subImageToRGBA_spec u (gridCell img.width img.height cx cy x y)
    huwf i1 i2 (by rw [huw]; exact i3) (by rw [huh]; exact i4)
  unfold cellChunk Chunk.ofImage Chunk.fresh
  simp only
  rw [huw, huh]
  refine ⟨s1, s2, ?_⟩
  intro X Y c hcont hc
  unfold Rectangle.Contains at hcont
  obtain ⟨c1, c2, c3, c4⟩ := hcont
  have hpx : X - (gridCell img.width img.height cx cy x y).minX
      < (gridCell img.width img.height cx cy x y).Dx := by
    unfold Rectangle.Dx
    omega
  have hpy : Y - (gridCell img.width img.height cx cy x y).minY
      < (gridCell img.width img.height cx cy x y).Dy := by
    unfold Rectangle.Dy
    omega
  rw [s4 _ _ c hpx hpy hc, huw]
  have e1 : (gridCell img.width img.height cx cy x y).minX
      + (X - (gridCell img.width img.height cx cy x y).minX) = X := by omega
  have e2 : (gridCell img.width img.height cx cy x y).minY
      + (Y - (gridCell img.width img.height cx cy x y).minY) = Y := by omega
  rw [e1, e2]

/-- Flipping a bit above the least significant bit of a colour byte changes
the content of the chunk that holds the pixel. -/
theorem flipped_hashInput_ne (fuel : Nat) (img : Image) (cx cy : Nat)
    (hp : PlannedGrid fuel img.width img.height cx cy) (enc : Image)
    (hew : enc.width = img.width) (heh : enc.height = img.height) (hewf : enc.WellFormed)
    (k b : Nat) (hk : k < enc.Pix.length) (hch : k % 4 ≠ 3) (hb1 : 1 ≤ b) (hb7 : b ≤ 7)
    (x0 y0 : Nat) (hx0 : x0 < cx) (hy0 : y0 < cy)
    (hin : (gridCell img.width img.height cx cy x0 y0).Contains
      ((k / 4) % img.width) ((k / 4) / img.width)) :
    (cellChunk (enc.flipBit k b) cx cy x0 y0).hashInput
      ≠ (cellChunk enc cx cy x0 y0).hashInput := by
  intro heq
  have hW : 0 < img.width := by
    by_contra hc
    have h0 : img.width = 0 := by omega
    unfold Image.WellFormed at hewf
    rw [hewf, hew, h0] at hk
    simp at hk
  obtain ⟨s1, s2, s3⟩ := cellChunk_spec fuel img cx cy hp x0 y0 hx0 hy0 enc hew heh hewf
  obtain ⟨t1, t2, t3⟩ := cellChunk_spec fuel img cx cy hp x0 y0 hx0 hy0 (enc.flipBit k b)
    hew heh (flipBit_wellFormed enc k b hewf)
  have hc4 : k % 4 < 4 := by omega
  have b1 := s3 _ _ (k % 4) hin hc4
  have b2 := t3 _ _ (k % 4) hin hc4
  have hidx := index_of_pixel img.width k hW
  have hpx : (k / 4) % img.width - (gridCell img.width img.height cx cy x0 y0).minX
      < (gridCell img.width img.height cx cy x0 y0).Dx := by
    unfold Rectangle.Contains at hin
    unfold Rectangle.Dx
    omega
  have hpy : (k / 4) / img.width - (gridCell img.width img.height cx cy x0 y0).minY
      < (gridCell img.width img.height cx cy x0 y0).Dy := by
    unfold Rectangle.Contains at hin
    unfold Rectangle.Dy
    omega
  have g1 := hashInput_getD (cellChunk enc cx cy x0 y0) _ _ (k % 4)
    (by rw [s1]; exact hpx) (by rw [s2]; exact hpy) (by omega)
  have g2 := hashInput_getD (cellChunk (enc.flipBit k b) cx cy x0 y0) _ _ (k % 4)
    (by rw [t1]; exact hpx) (by rw [t2]; exact hpy) (by omega)
  rw [s1, s2, b1] at g1
  rw [t1, t2, b2, heq, g1] at g2
  unfold byteAt at g2
  rw [hidx, flipBit_getD enc k b k hk, if_pos rfl] at g2
  exact WithLSB_xor_pow_ne _ b hb1 hb7 g2.symm

theorem chunkShaInputs_mem (sha : List Nat → List Nat) (fuel : Nat) (u : Image) (cx cy : Nat)
    (hp : PlannedGrid fuel u.width u.height cx cy) (x y : Nat) (hx : x < cx) (hy : y < cy)
    (a : List Nat) (ha : a ∈ chunkShaInputs sha (cellChunk u cx cy x y)) :
    a ∈ decodeShaInputs sha fuel u := by
  unfold decodeShaInputs
  rw [hp.1]
  simp only
  rw [List.mem_flatMap]
  refine ⟨gridCell u.width u.height cx cy x y, ?_, ha⟩
  rw [mem_buildBounds]
  exact ⟨x, y, hx, hy, rfl⟩

/-- The root hashes of the chunks of an encoded image in which one bit above
the least significant bit of a colour byte has been flipped: the Merkle root
for every chunk but the one with the altered pixel, another hash for that one
when the hash function has no collision among the inputs involved. -/
theorem flipped_roots (sha : List Nat → List Nat) (hsha : ShaWellFormed sha) (fuel : Nat)
    (img : Image) (hwf : img.WellFormed) (hsize : img.width * img.height < 2 ^ 61)
    (cx cy : Nat) (hp : PlannedGrid fuel img.width img.height cx cy) (enc : Image)
    (hew : enc.width = img.width) (heh : enc.height = img.height) (hewf : enc.WellFormed)
    (hhold : ∀ x y, x < cx → y < cy → HoldsChunk sha img enc cx cy x y)
    (k b : Nat) (hk : k < enc.Pix.length) (hch : k % 4 ≠ 3) (hb1 : 1 ≤ b) (hb7 : b ≤ 7)
    (x0 y0 : Nat) (hx0 : x0 < cx) (hy0 : y0 < cy)
    (hin : (gridCell img.width img.height cx cy x0 y0).Contains
      ((k / 4) % img.width) ((k / 4) / img.width))
    (hcf : ∀ a ∈ decodeShaInputs sha fuel enc ++ decodeShaInputs sha fuel (enc.flipBit k b),
      ∀ a' ∈ decodeShaInputs sha fuel enc ++ decodeShaInputs sha fuel (enc.flipBit k b),
        sha a = sha a' → a = a') :
    (∀ x y, x < cx → y < cy → ¬ (x = x0 ∧ y = y0) →
      chunkRootHash sha (cellChunk (enc.flipBit k b) cx cy x y)
        = .ok (merkleRoot sha (cx * cy) (chunkLeaves sha img cx cy))) ∧
    ∃ R', R' ≠ merkleRoot sha (cx * cy) (chunkLeaves sha img cx cy) ∧
      chunkRootHash sha (cellChunk (enc.flipBit k b) cx cy x0 y0) = .ok R' := by
  have htw : (enc.flipBit k b).width = img.width := hew
  have hth : (enc.flipBit k b).height = img.height := heh
  have htwf : (enc.flipBit k b).WellFormed := flipBit_wellFormed enc k b hewf
  have hlsb : ∀ x y X Y c, (gridCell img.width img.height cx cy x y).Contains X Y → c < 4 →
      GetLSB (byteAt (enc.flipBit k b).Pix img.width X Y c)
        = GetLSB (byteAt enc.Pix img.width X Y c) := by
    intro x y X Y c _ _
    unfold byteAt
    exact flipBit_lsb enc k b _ hk hb1
  have hcell : ∀ x y, x < cx → y < cy →
      chunkRootHash sha (cellChunk (enc.flipBit k b) cx cy x y)
        = .ok (replayPath sha (cellPath sha img cx cy x y)
            (sha (cellChunk (enc.flipBit k b) cx cy x y).hashInput)) ∧
      chunkShaInputs sha (cellChunk (enc.flipBit k b) cx cy x y)
        = (cellChunk (enc.flipBit k b) cx cy x y).hashInput
          :: pathInputs sha (cellPath sha img cx cy x y)
              (sha (cellChunk (enc.flipBit k b) cx cy x y).hashInput) := by
    intro x y hx hy
    exact chunkRootHash_cell sha hsha fuel img hwf hsize cx cy hp enc hew heh hewf x y hx hy
      (hhold x y hx hy) (enc.flipBit k b) htw hth htwf (hlsb x y)
  have hW : 0 < img.width := by
    unfold Rectangle.Contains at hin
    by_contra hc
    have h0 : img.width = 0 := by omega
    unfold Image.WellFormed at hewf
    rw [hewf, hew, h0] at hk
    simp at hk
  constructor
  · intro x y hx hy hne
    rw [(hcell x y hx hy).1]
    have hsame : (cellChunk (enc.flipBit k b) cx cy x y).hashInput
        = (cellChunk enc cx cy x y).hashInput := by
      apply cellChunk_hashInput_congr fuel img cx cy hp x y hx hy (enc.flipBit k b) enc htw hth
        htwf hew heh hewf
      intro X Y c hcont hc
      unfold byteAt
      rw [flipBit_getD enc k b _ hk]
      have hnk : (Y * img.width + X) * 4 + c ≠ k := by
        intro hkk
        obtain ⟨hw0, hh0, _, _⟩ := plannedGrid_base fuel img.width img.height cx cy hp
        obtain ⟨_, _, j3, _⟩ := gridCell_inside img.width img.height cx cy x y hx hy hw0 hh0
        have hXw : X < img.width := by
          unfold Rectangle.Contains at hcont
          omega
        obtain ⟨p1, p2, _⟩ := pixel_of_index img.width X Y c k hXw hc hkk
        rw [p1, p2] at hcont
        have := gridCell_disjoint _ _ _ _ _ _ _ _ _ _ hcont hin
        exact hne this
      rw [if_neg hnk]
    rw [hsame, encoded_hashInput sha hsha fuel img hwf hsize cx cy hp enc hew heh hewf x y hx hy
      (hhold x y hx hy)]
    obtain ⟨_, _, _, _, _, _, _, _, _, _, _, f12⟩ :=
      cell_facts sha hsha fuel img hwf hsize cx cy hp x y hx hy
    unfold Chunk.CalculateHash at f12
    rw [f12]
  · refine ⟨_, ?_, (hcell x0 y0 hx0 hy0).1⟩
    obtain ⟨hw0, hh0, _, _⟩ := plannedGrid_base fuel img.width img.height cx cy hp
    obtain ⟨i1, i2, i3, i4⟩ := gridCell_inside img.width img.height cx cy x0 y0 hx0 hy0 hw0 hh0
    obtain ⟨henc1, henc2⟩ := chunkRootHash_cell sha hsha fuel img hwf hsize cx cy hp enc hew heh
      hewf x0 y0 hx0 hy0 (hhold x0 y0 hx0 hy0) enc hew heh hewf (fun _ _ _ _ _ => rfl)
    have hroot := encoded_chunkRootHash sha hsha fuel img hwf hsize cx cy hp enc hew heh hewf
      x0 y0 hx0 hy0 (hhold x0 y0 hx0 hy0)
    rw [henc1] at hroot
    simp only [Except.ok.injEq] at hroot
    rw [← hroot]
    have hpe : PlannedGrid fuel enc.width enc.height cx cy := by
      rw [hew, heh]
      exact hp
    have hpt : PlannedGrid fuel (enc.flipBit k b).width (enc.flipBit k b).height cx cy := by
      rw [htw, hth]
      exact hp
    have hmemE : ∀ a ∈ chunkShaInputs sha (cellChunk enc cx cy x0 y0),
        a ∈ decodeShaInputs sha fuel enc ++ decodeShaInputs sha fuel (enc.flipBit k b) := by
      intro a ha
      rw [List.mem_append]
      exact Or.inl (chunkShaInputs_mem sha fuel enc cx cy hpe x0 y0 hx0 hy0 a ha)
    have hmemT : ∀ a ∈ chunkShaInputs sha (cellChunk (enc.flipBit k b) cx cy x0 y0),
        a ∈ decodeShaInputs sha fuel enc ++ decodeShaInputs sha fuel (enc.flipBit k b) := by
      intro a ha
      rw [List.mem_append]
      exact Or.inr (chunkShaInputs_mem sha fuel (enc.flipBit k b) cx cy hpt x0 y0 hx0 hy0 a ha)
    rw [henc2] at hmemE
    rw [(hcell x0 y0 hx0 hy0).2] at hmemT
    have hdiff : (cellChunk (enc.flipBit k b) cx cy x0 y0).hashInput
        ≠ (cellChunk enc cx cy x0 y0).hashInput :=
      flipped_hashInput_ne fuel img cx cy hp enc hew heh hewf k b hk hch hb1 hb7 x0 y0 hx0 hy0 hin
    have hleaf : sha (cellChunk (enc.flipBit k b) cx cy x0 y0).hashInput
        ≠ sha (cellChunk enc cx cy x0 y0).hashInput := by
      intro hs
      apply hdiff
      exact hcf _ (hmemT _ (List.mem_cons_self _ _)) _ (hmemE _ (List.mem_cons_self _ _)) hs
    apply replayPath_ne sha _ _ _ hleaf
    intro a ha a' ha'
    apply hcf
    · rw [List.mem_append] at ha
      rcases ha with ha | ha
      · exact hmemT a (List.mem_cons_of_mem _ ha)
      · exact hmemE a (List.mem_cons_of_mem _ ha)
    · rw [List.mem_append] at ha'
      rcases ha' with ha' | ha'
      · exact hmemT a' (List.mem_cons_of_mem _ ha')
      · exact hmemE a' (List.mem_cons_of_mem _ ha')

/-! ## One chunk with another root hash -/

/-- The map of root hashes when one chunk has the root hash `R'` and all the
others have `R`: two entries. -/
theorem addAll_outlier (R R' : List Nat) (hne : R' ≠ R) (i0 : ChunkIndex)
    (A B : List (List Nat × ChunkIndex)) (hA : ∀ e ∈ A, e.1 = R) (hB : ∀ e ∈ B, e.1 = R)
    (hlen : 1 ≤ A.length + B.length) :
    ∃ others, others.length = A.length + B.length ∧
      (RootHashes.addAll [] (A ++ (R', i0) :: B) = [(R, others), (R', [i0])] ∨
       RootHashes.addAll [] (A ++ (R', i0) :: B) = [(R', [i0]), (R, others)]) := by
  cases A with
  | nil =>
    cases B with
    | nil => simp at hlen
    | cons e B =>
      have he : e.1 = R := hB e (List.mem_cons_self _ _)
      refine ⟨[e.2] ++ B.map Prod.snd, by simp, Or.inr ?_⟩
      rw [List.nil_append, addAll_cons, addAll_cons]
      simp only [RootHashes.add, he, if_neg hne]
      exact addAll_second R R' hne [e.2] [i0] B (fun e' he' => hB e' (List.mem_cons_of_mem _ he'))
  | cons a A =>
    refine ⟨(a :: A).map Prod.snd ++ B.map Prod.snd, by simp; omega, Or.inl ?_⟩
    rw [addAll_append, addAll_one_root R (a :: A) hA (by simp), addAll_cons]
    simp only [RootHashes.add, if_neg (Ne.symm hne)]
    exact addAll_first R _ _ B hB

theorem cellRoots_eq_map (rootOf : Nat → Nat → List Nat) (cx cy : Nat) :
    cellRoots rootOf cx cy
      = (List.product (List.range cx) (List.range cy)).map fun p => (rootOf p.1 p.2, p) := by
  unfold cellRoots List.product
  rw [List.map_flatMap]
  congr 1
  funext x
  rw [List.map_map]
  rfl

/-- The chunk `(x0, y0)` splits the list of the root hashes of the chunks in
two lists of other chunks. -/
theorem cellRoots_split (rootOf : Nat → Nat → List Nat) (cx cy x0 y0 : Nat) (hx0 : x0 < cx)
    (hy0 : y0 < cy) :
    ∃ A B, cellRoots rootOf cx cy = A ++ (rootOf x0 y0, (x0, y0)) :: B ∧
      (∀ e ∈ A, ∃ x y, ¬ (x = x0 ∧ y = y0) ∧ x < cx ∧ y < cy ∧ e = (rootOf x y, (x, y))) ∧
      (∀ e ∈ B, ∃ x y, ¬ (x = x0 ∧ y = y0) ∧ x < cx ∧ y < cy ∧ e = (rootOf x y, (x, y))) ∧
      A.length + B.length + 1 = cx * cy := by
  have hmem : (x0, y0) ∈ List.product (List.range cx) (List.range cy) := by
    rw [List.pair_mem_product]
    exact ⟨List.mem_range.mpr hx0, List.mem_range.mpr hy0⟩
  have hnd : (List.product (List.range cx) (List.range cy)).Nodup :=
    List.Nodup.product (List.nodup_range cx) (List.nodup_range cy)
  obtain ⟨s, t, hst⟩ := List.append_of_mem hmem
  rw [hst] at hnd
  have hnd2 := List.nodup_append.mp hnd
  obtain ⟨_, hnt, hdisj⟩ := hnd2
  have hns : (x0, y0) ∉ s := by
    intro hs
    exact hdisj hs (List.mem_cons_self _ _)
  have hnt2 : (x0, y0) ∉ t := (List.nodup_cons.mp hnt).1
  have hsub : ∀ p ∈ List.product (List.range cx) (List.range cy), p.1 < cx ∧ p.2 < cy := by
    intro p hp
    obtain ⟨p1, p2⟩ := p
    rw [List.pair_mem_product] at hp
    exact ⟨List.mem_range.mp hp.1, List.mem_range.mp hp.2⟩
  refine ⟨s.map fun p => (rootOf p.1 p.2, p), t.map fun p => (rootOf p.1 p.2, p), ?_, ?_, ?_, ?_⟩
  · rw [cellRoots_eq_map, hst, List.map_append, List.map_cons]
  · intro e he
    rw [List.mem_map] at he
    obtain ⟨p, hp, rfl⟩ := he
    have hin := hsub p (by rw [hst]; exact List.mem_append_left _ hp)
    refine ⟨p.1, p.2, ?_, hin.1, hin.2, rfl⟩
    intro hc
    apply hns
    have : p = (x0, y0) := Prod.ext hc.1 hc.2
    rw [← this]
    exact hp
  · intro e he
    rw [List.mem_map] at he
    obtain ⟨p, hp, rfl⟩ := he
    have hin := hsub p (by
      rw [hst]
      exact List.mem_append_right _ (List.mem_cons_of_mem _ hp))
    refine ⟨p.1, p.2, ?_, hin.1, hin.2, rfl⟩
    intro hc
    apply hnt2
    have : p = (x0, y0) := Prod.ext hc.1 hc.2
    rw [← this]
    exact hp
  · have hl := cellRoots_length rootOf cx cy
    rw [cellRoots_eq_map, hst] at hl
    simp only [List.length_map, List.length_append, List.length_cons] at hl ⊢
    omega

/-- The verdict on a map of two entries of which the one of `R` has at least
two chunks and the other has one chunk. -/
theorem verdict_outlier (order : RootHashes → RootHashes) (horder : ∀ m, (order m).Perm m)
    (m : RootHashes) (R R' : List Nat) (hne : R' ≠ R) (others : List ChunkIndex)
    (i0 : ChunkIndex)
    (hm : m = [(R, others), (R', [i0])] ∨ m = [(R', [i0]), (R, others)])
    (hlen : 2 ≤ others.length) :
    m.length = 2 ∧ (selectRoot (order m)).2 = R ∧
    ((order m).flatMap fun entry =>
      entry.2.filter fun _ => entry.1 ≠ (selectRoot (order m)).2) = [i0] := by
  have hperm : (order m).Perm [(R, others), (R', [i0])] := by
    rcases hm with rfl | rfl
    · exact horder _
    · exact (horder _).trans (List.Perm.swap _ _ _)
  have hl : m.length = 2 := by
    rcases hm with rfl | rfl <;> rfl
  have hpos : others.length > 0 := by omega
  have hnot : ¬ (1 > others.length) := by omega
  have hgt : others.length > 1 := by omega
  rcases perm_pair _ _ _ hperm with ho | ho
  · have hsel : selectRoot (order m) = (others.length, R) := by
      rw [ho]
      unfold selectRoot
      simp only [List.foldl_cons, List.foldl_nil, List.length_singleton]
      rw [if_pos hpos, if_neg hnot]
    rw [hsel]
    refine ⟨hl, rfl, ?_⟩
    rw [ho]
    simp [hne]
  · have hsel : selectRoot (order m) = (others.length, R) := by
      rw [ho]
      unfold selectRoot
      simp only [List.foldl_cons, List.foldl_nil, List.length_singleton]
      rw [if_pos (by omega : 1 > 0), if_pos hgt]
    rw [hsel]
    refine ⟨hl, rfl, ?_⟩
    rw [ho]
    simp [hne]

/-- `Encode` changes no byte above its least significant bit. -/
theorem encoded_high (sha : List Nat → List Nat) (hsha : ShaWellFormed sha) (fuel : Nat)
    (img : Image) (hwf : img.WellFormed) (hsize : img.width * img.height < 2 ^ 61)
    (cx cy : Nat) (hp : PlannedGrid fuel img.width img.height cx cy) (enc : Image)
    (x y : Nat) (hx : x < cx) (hy : y < cy) (hhold : HoldsChunk sha img enc cx cy x y)
    (X Y c : Nat) (hcont : (gridCell img.width img.height cx cy x y).Contains X Y) (hc : c < 4) :
    WithLSB (byteAt enc.Pix img.width X Y c) false
      = WithLSB (byteAt img.Pix img.width X Y c) false := by
  obtain ⟨_, _, _, _, _, _, _, _, _, _, f11, _⟩ :=
    cell_facts sha hsha fuel img hwf hsize cx cy hp x y hx hy
  obtain ⟨_, _, s3⟩ := cellChunk_spec fuel img cx cy hp x y hx hy img rfl rfl hwf
  rw [hhold X Y c hcont hc, ← s3 X Y c hcont hc]
  unfold byteAt
  exact f11 _

theorem WithLSB_xor_congr (v v' p : Nat) (h : WithLSB v false = WithLSB v' false) :
    WithLSB (v ^^^ p) false = WithLSB (v' ^^^ p) false := by
  unfold WithLSB at h ⊢
  simp only [Bool.false_eq_true, if_false] at h ⊢
  rw [Nat.and_xor_distrib_right, Nat.and_xor_distrib_right, h]

/-- The content of a cell of the encoded image with a flipped bit is the
content of that cell of the original image with the same bit flipped. -/
theorem flipped_hashInput_eq (sha : List Nat → List Nat) (hsha : ShaWellFormed sha) (fuel : Nat)
    (img : Image) (hwf : img.WellFormed) (hsize : img.width * img.height < 2 ^ 61)
    (cx cy : Nat) (hp : PlannedGrid fuel img.width img.height cx cy) (enc : Image)
    (hew : enc.width = img.width) (heh : enc.height = img.height) (hewf : enc.WellFormed)
    (hhold : ∀ x y, x < cx → y < cy → HoldsChunk sha img enc cx cy x y)
    (k b : Nat) (hk : k < enc.Pix.length) (x y : Nat) (hx : x < cx) (hy : y < cy) :
    (cellChunk (enc.flipBit k b) cx cy x y).hashInput
      = (cellChunk (img.flipBit k b) cx cy x y).hashInput := by
  have hk2 : k < img.Pix.length := by
    unfold Image.WellFormed at hwf hewf
    rw [hwf, ← hew, ← heh, ← hewf]
    exact hk
  apply cellChunk_hashInput_congr fuel img cx cy hp x y hx hy (enc.flipBit k b)
    (img.flipBit k b) hew heh (flipBit_wellFormed enc k b hewf) rfl rfl
    (flipBit_wellFormed img k b hwf)
  intro X Y c hcont hc
  have hhigh := encoded_high sha hsha fuel img hwf hsize cx cy hp enc x y hx hy (hhold x y hx hy)
    X Y c hcont hc
  unfold byteAt at hhigh ⊢
  rw [flipBit_getD enc k b _ hk, flipBit_getD img k b _ hk2]
  by_cases hidx : (Y * img.width + X) * 4 + c = k
  · rw [if_pos hidx, if_pos hidx]
    rw [hidx] at hhigh
    exact WithLSB_xor_congr _ _ _ hhigh
  · rw [if_neg hidx, if_neg hidx]
    exact hhigh

/-- Every input with which `Decode` calls the hash function on the encoded
image, or on the encoded image with a flipped bit, is an input of a cell for
the original image, or for the original image with the same bit flipped. -/
theorem decodeShaInputs_cells (sha : List Nat → List Nat) (hsha : ShaWellFormed sha) (fuel : Nat)
    (img : Image) (hwf : img.WellFormed) (hsize : img.width * img.height < 2 ^ 61)
    (cx cy : Nat) (hp : PlannedGrid fuel img.width img.height cx cy) (enc : Image)
    (hew : enc.width = img.width) (heh : enc.height = img.height) (hewf : enc.WellFormed)
    (hhold : ∀ x y, x < cx → y < cy → HoldsChunk sha img enc cx cy x y)
    (k b : Nat) (hk : k < enc.Pix.length) (hb1 : 1 ≤ b) (a : List Nat)
    (ha : a ∈ decodeShaInputs sha fuel enc ++ decodeShaInputs sha fuel (enc.flipBit k b)) :
    ∃ x y, x < cx ∧ y < cy ∧
      (a ∈ cellInputs sha img cx cy img x y ∨ a ∈ cellInputs sha img cx cy (img.flipBit k b) x y) := by
  rw [List.mem_append] at ha
  rcases ha with ha | ha
  · unfold decodeShaInputs at ha
    rw [hew, heh, hp.1] at ha
    simp only [List.mem_flatMap] at ha
    obtain ⟨bound, hbound, ha⟩ := ha
    rw [mem_buildBounds] at hbound
    obtain ⟨x, y, hx, hy, rfl⟩ := hbound
    refine ⟨x, y, hx, hy, Or.inl ?_⟩
    obtain ⟨_, h2⟩ := chunkRootHash_cell sha hsha fuel img hwf hsize cx cy hp enc hew heh hewf
      x y hx hy (hhold x y hx hy) enc hew heh hewf (fun _ _ _ _ _ => rfl)
    unfold cellChunk at h2
    rw [hew, heh] at h2
    rw [h2] at ha
    have he := encoded_hashInput sha hsha fuel img hwf hsize cx cy hp enc hew heh hewf x y hx hy
      (hhold x y hx hy)
    unfold cellChunk at he
    rw [hew, heh] at he
    rw [he] at ha
    exact ha
  · unfold decodeShaInputs at ha
    have htw : (enc.flipBit k b).width = img.width := hew
    have hth : (enc.flipBit k b).height = img.height := heh
    rw [htw, hth, hp.1] at ha
    simp only [List.mem_flatMap] at ha
    obtain ⟨bound, hbound, ha⟩ := ha
    rw [mem_buildBounds] at hbound
    obtain ⟨x, y, hx, hy, rfl⟩ := hbound
    refine ⟨x, y, hx, hy, Or.inr ?_⟩
    obtain ⟨_, h2⟩ := chunkRootHash_cell sha hsha fuel img hwf hsize cx cy hp enc hew heh hewf
      x y hx hy (hhold x y hx hy) (enc.flipBit k b) htw hth (flipBit_wellFormed enc k b hewf)
      (by
        intro X Y c _ _
        unfold byteAt
        exact flipBit_lsb enc k b _ hk hb1)
    unfold cellChunk at h2
    rw [htw, hth] at h2
    rw [h2] at ha
    have he := flipped_hashInput_eq sha hsha fuel img hwf hsize cx cy hp enc hew heh hewf hhold
      k b hk x y hx hy
    unfold cellChunk at he
    rw [htw, hth] at he
    have hfw : (img.flipBit k b).width = img.width := rfl
    have hfh : (img.flipBit k b).height = img.height := rfl
    rw [hfw, hfh] at he
    rw [he] at ha
    unfold cellInputs cellChunk
    rw [hfw, hfh]
    exact ha

/-- C2. Tamper localisation: in an encoded image whose grid has at least 3
chunks, flip one bit above the least significant bit of an R, G or B byte; the
pixel lies in the chunk `(x0, y0)`. When the hash function has no collision
among the inputs `Decode` gives it on the encoded and on the altered image,
`Decode` derives a root hash other than the Merkle root for the chunk
`(x0, y0)` and the Merkle root for every other chunk, its map of root hashes
has two entries, it takes the Merkle root as the authentic root, and the
chunks it masks as tampered are exactly the chunk `(x0, y0)`. -/
theorem tamper_localisation (sha : List Nat → List Nat) (hsha : ShaWellFormed sha)
    (fuel : Nat) (order : RootHashes → RootHashes) (horder : ∀ m, (order m).Perm m)
    (img : Image) (hwf : img.WellFormed) (hsize : img.width * img.height < 2 ^ 61)
    (grid : List (List Rectangle))
    (hg : CalculateChunkBounds fuel img.width img.height = some grid)
    (hN : 3 ≤ grid.flatten.length)
    (enc : Image) (henc : Encode sha fuel img = some (.ok enc))
    (k b : Nat) (hk : k < enc.Pix.length) (hch : k % 4 ≠ 3) (hb1 : 1 ≤ b) (hb7 : b ≤ 7)
    (x0 y0 : Nat) (r0 : Rectangle) (hr0 : gridAt grid x0 y0 = some r0)
    (hin : r0.Contains ((k / 4) % img.width) ((k / 4) / img.width))
    (hcf : ∀ a ∈ decodeShaInputs sha fuel enc ++ decodeShaInputs sha fuel (enc.flipBit k b),
      ∀ a' ∈ decodeShaInputs sha fuel enc ++ decodeShaInputs sha fuel (enc.flipBit k b),
        sha a = sha a' → a = a') :
    ∃ R',
      R' ≠ merkleRoot sha grid.flatten.length
        (grid.flatten.map fun r => (Chunk.ofImage (subImageToRGBA img r)).CalculateHash sha) ∧
      chunkRootHash sha (Chunk.ofImage (subImageToRGBA (enc.flipBit k b) r0)) = .ok R' ∧
      (∀ x y r, gridAt grid x y = some r → (x, y) ≠ (x0, y0) →
        chunkRootHash sha (Chunk.ofImage (subImageToRGBA (enc.flipBit k b) r))
          = .ok (merkleRoot sha grid.flatten.length
              (grid.flatten.map fun r =>
                (Chunk.ofImage (subImageToRGBA img r)).CalculateHash sha))) ∧
      (∃ m, decodeRows sha (enc.flipBit k b) grid 0 [] = .ok m ∧ m.length = 2) ∧
      Decode sha fuel order (enc.flipBit k b)
        = some (.ok { tampered := true,
                      merkleRoot := merkleRoot sha grid.flatten.length
                        (grid.flatten.map fun r =>
                          (Chunk.ofImage (subImageToRGBA img r)).CalculateHash sha),
                      masked := [(x0, y0)] }) := by
  obtain ⟨cx, cy, rfl, hp⟩ := plannedGrid_of_bounds fuel img.width img.height grid hg
  obtain ⟨enc', e1, e2, e3, e4, e5⟩ := Encode_spec sha hsha fuel img hwf hsize cx cy hp
  rw [henc] at e1
  simp only [Option.some.injEq, Except.ok.injEq] at e1
  subst e1
  have hleaves : ((buildBounds img.width img.height cx cy).flatten.map fun r =>
      (Chunk.ofImage (subImageToRGBA img r)).CalculateHash sha) = chunkLeaves sha img cx cy := by
    unfold chunkLeaves
    rw [List.map_map]
    rfl
  rw [length_buildBounds] at hN
  rw [length_buildBounds, hleaves]
  rw [gridAt_buildBounds] at hr0
  have hxy0 : x0 < cx ∧ y0 < cy := by
    by_contra hc
    rw [if_neg hc] at hr0
    cases hr0
  rw [if_pos hxy0] at hr0
  simp only [Option.some.injEq] at hr0
  subst hr0
  obtain ⟨hx0, hy0⟩ := hxy0
  obtain ⟨hothers, R', hne, hR'⟩ := flipped_roots sha hsha fuel img hwf hsize cx cy hp enc e2 e3
    e4 e5 k b hk hch hb1 hb7 x0 y0 hx0 hy0 hin hcf
  have htw : (enc.flipBit k b).width = img.width := e2
  have hth : (enc.flipBit k b).height = img.height := e3
  have hroot : ∀ x y, x < cx → y < cy →
      chunkRootHash sha (cellChunk (enc.flipBit k b) cx cy x y)
        = .ok ((fun x y => if x = x0 ∧ y = y0 then R'
            else merkleRoot sha (cx * cy) (chunkLeaves sha img cx cy)) x y) := by
    intro x y hx hy
    simp only
    by_cases hxy : x = x0 ∧ y = y0
    · rw [if_pos hxy, hxy.1, hxy.2]
      exact hR'
    · rw [if_neg hxy]
      exact hothers x y hx hy hxy
  have hrows := decodeRows_buildBounds sha (enc.flipBit k b) cx cy _ hroot
  rw [htw, hth] at hrows
  obtain ⟨A, B, hsplit, hA, hB, hAB⟩ := cellRoots_split
    (fun x y => if x = x0 ∧ y = y0 then R'
      else merkleRoot sha (cx * cy) (chunkLeaves sha img cx cy)) cx cy x0 y0 hx0 hy0
  simp only [and_self, if_true] at hsplit
  obtain ⟨others, hol, hm⟩ := addAll_outlier (merkleRoot sha (cx * cy) (chunkLeaves sha img cx cy))
    R' hne (x0, y0) A B
    (by
      intro e he
      obtain ⟨x, y, hxy, _, _, rfl⟩ := hA e he
      simp only
      rw [if_neg hxy])
    (by
      intro e he
      obtain ⟨x, y, hxy, _, _, rfl⟩ := hB e he
      simp only
      rw [if_neg hxy])
    (by omega)
  rw [← hsplit] at hm
  obtain ⟨v1, v2, v3⟩ := verdict_outlier order horder _ _ R' hne others (x0, y0) hm (by omega)
  refine ⟨R', hne, ?_, ?_, ⟨_, hrows, v1⟩, ?_⟩
  · unfold cellChunk at hR'
    rw [htw, hth] at hR'
    exact hR'
  · intro x y r hr hxy
    rw [gridAt_buildBounds] at hr
    have hxyc : x < cx ∧ y < cy := by
      by_contra hc
      rw [if_neg hc] at hr
      cases hr
    rw [if_pos hxyc] at hr
    simp only [Option.some.injEq] at hr
    subst hr
    have := hothers x y hxyc.1 hxyc.2 (by
      intro hc
      apply hxy
      rw [hc.1, hc.2])
    unfold cellChunk at this
    rw [htw, hth] at this
    exact this
  · unfold Decode
    rw [htw, hth, hp.1]
    simp only
    rw [hrows]
    simp only
    rw [v1]
    simp only [OfNat.ofNat_ne_one, if_false]
    rw [v2] at v3
    rw [v2, v3]

/-! ## The content of a chunk from its entries -/

theorem hashInput_length (c : Chunk) : c.hashInput.length = c.width * (c.height * 3) := by
  unfold Chunk.hashInput
  have hinner : ∀ x', ((List.range c.height).flatMap fun y' =>
      [WithLSB (c.RGBAAt x' y').1 false, WithLSB (c.RGBAAt x' y').2.1 false,
        WithLSB (c.RGBAAt x' y').2.2.1 false]).length = c.height * 3 := by
    intro x'
    exact (flatMap_rows
      (fun y' => [WithLSB (c.RGBAAt x' y').1 false, WithLSB (c.RGBAAt x' y').2.1 false,
        WithLSB (c.RGBAAt x' y').2.2.1 false]) 3 c.height (fun _ _ => rfl)).1
  exact (flatMap_rows
    (fun x' => (List.range c.height).flatMap fun y' =>
      [WithLSB (c.RGBAAt x' y').1 false, WithLSB (c.RGBAAt x' y').2.1 false,
        WithLSB (c.RGBAAt x' y').2.2.1 false])
    (c.height * 3) c.width (fun x' _ => hinner x')).1

theorem index_decomp3 (w h j : Nat) (hj : j < w * (h * 3)) :
    ∃ px py ch, px < w ∧ py < h ∧ ch < 3 ∧ j = (px * h + py) * 3 + ch := by
  have hh : 0 < h := by
    rcases Nat.eq_zero_or_pos h with h0 | h0
    · subst h0
      simp at hj
    · exact h0
  have e1 := Nat.div_add_mod (j / 3) h
  have e2 := Nat.mod_lt (j / 3) hh
  have e3 : (j / 3) / h < w := by
    rw [Nat.div_lt_iff_lt_mul hh]
    have : w * (h * 3) = w * h * 3 := by ring
    omega
  refine ⟨(j / 3) / h, (j / 3) % h, j % 3, e3, e2, by omega, ?_⟩
  rw [Nat.mul_comm ((j / 3) / h) h]
  omega

/-- The content of the chunk of a cell is the list that has, for every pixel
of the cell and every colour channel, the byte of the image without its least
significant bit. -/
theorem cellChunk_hashInput_entries (fuel : Nat) (img : Image) (cx cy : Nat)
    (hp : PlannedGrid fuel img.width img.height cx cy) (x y : Nat) (hx : x < cx) (hy : y < cy)
    (u : Image) (huw : u.width = img.width) (huh : u.height = img.height) (huwf : u.WellFormed)
    (L : List Nat)
    (hL : L.length = (gridCell img.width img.height cx cy x y).Dx
      * ((gridCell img.width img.height cx cy x y).Dy * 3))
    (hentries : ∀ px py ch, px < (gridCell img.width img.height cx cy x y).Dx →
      py < (gridCell img.width img.height cx cy x y).Dy → ch < 3 →
      L.getD ((px * (gridCell img.width img.height cx cy x y).Dy + py) * 3 + ch) 0
        = WithLSB (byteAt u.Pix img.width
            ((gridCell img.width img.height cx cy x y).minX + px)
            ((gridCell img.width img.height cx cy x y).minY + py) ch) false) :
    (cellChunk u cx cy x y).hashInput = L := by
  obtain ⟨s1, s2, s3⟩ := cellChunk_spec fuel img cx cy hp x y hx hy u huw huh huwf
  have hlen : (cellChunk u cx cy x y).hashInput.length = L.length := by
    rw [hashInput_length, s1, s2, hL]
  apply ext_getD _ _ hlen
  intro j hj
  rw [hlen, hL] at hj
  obtain ⟨px, py, ch, h1, h2, h3, rfl⟩ := index_decomp3 _ _ j hj
  rw [hentries px py ch h1 h2 h3]
  have := hashInput_getD (cellChunk u cx cy x y) px py ch (by rw [s1]; exact h1)
    (by rw [s2]; exact h2) h3
  rw [s1, s2] at this
  rw [this]
  have hcont : (gridCell img.width img.height cx cy x y).Contains
      ((gridCell img.width img.height cx cy x y).minX + px)
      ((gridCell img.width img.height cx cy x y).minY + py) := by
    unfold Rectangle.Contains
    unfold Rectangle.Dx at h1
    unfold Rectangle.Dy at h2
    omega
  have hb := s3 _ _ ch hcont (by omega)
  have e1 : (gridCell img.width img.height cx cy x y).minX + px
      - (gridCell img.width img.height cx cy x y).minX = px := by omega
  have e2 : (gridCell img.width img.height cx cy x y).minY + py
      - (gridCell img.width img.height cx cy x y).minY = py := by omega
  rw [e1, e2] at hb
  rw [hb]

theorem getD_replicate_zero (n i : Nat) : (List.replicate n 0).getD i 0 = 0 := by
  rw [List.getD_eq_getElem?_getD, List.getElem?_replicate]
  split <;> rfl

/-! ## An all-zero image of 358 by 2 pixels with one flipped bit -/

theorem toyHash_wellFormed : ShaWellFormed toyHash := by
  intro x
  unfold toyHash IsHash
  refine ⟨by simp, ?_⟩
  intro b hb
  rw [List.mem_cons] at hb
  rcases hb with rfl | hb
  · exact Nat.mod_lt _ (by omega)
  · rw [List.mem_replicate] at hb
    omega

theorem zeroImage_wellFormed : (NewRGBA 358 2).WellFormed := List.length_replicate _ _

theorem zeroImage_planned :
    PlannedGrid 20 (NewRGBA 358 2).width (NewRGBA 358 2).height 2 2 := by
  unfold PlannedGrid
  decide

theorem zeroImage_cells (x y : Nat) (hx : x < 2) (hy : y < 2) :
    (gridCell (NewRGBA 358 2).width (NewRGBA 358 2).height 2 2 x y).Dx = 179 ∧
    (gridCell (NewRGBA 358 2).width (NewRGBA 358 2).height 2 2 x y).Dy = 1 ∧
    (gridCell (NewRGBA 358 2).width (NewRGBA 358 2).height 2 2 x y).minX = 179 * x ∧
    (gridCell (NewRGBA 358 2).width (NewRGBA 358 2).height 2 2 x y).minY = y := by
  interval_cases x <;> interval_cases y <;> decide

/-- The content of every chunk of the all-zero image. -/
theorem zeroImage_hashInput (x y : Nat) (hx : x < 2) (hy : y < 2) :
    (cellChunk (NewRGBA 358 2) 2 2 x y).hashInput = List.replicate 537 0 := by
  obtain ⟨c1, c2, _, _⟩ := zeroImage_cells x y hx hy
  apply cellChunk_hashInput_entries 20 (NewRGBA 358 2) 2 2 zeroImage_planned x y hx hy
    (NewRGBA 358 2) rfl rfl zeroImage_wellFormed
  · rw [List.length_replicate, c1, c2]
  · intro px py ch _ _ _
    rw [getD_replicate_zero]
    unfold byteAt NewRGBA
    simp only
    rw [getD_replicate_zero]
    rfl

theorem zeroImage_flip_getD (j : Nat) :
    ((NewRGBA 358 2).flipBit 5 1).Pix.getD j 0 = if j = 5 then 2 else 0 := by
  rw [flipBit_getD (NewRGBA 358 2) 5 1 j (by
    unfold NewRGBA
    simp only [List.length_replicate]
    omega)]
  unfold NewRGBA
  simp only
  rw [getD_replicate_zero, getD_replicate_zero]
  rfl

/-- The content of the chunks of the all-zero image with bit 1 of the byte at
position 5 flipped: the byte 2 at position 4 of the content of the chunk
`(0, 0)`, zero everywhere else. -/
theorem zeroImage_flip_hashInput (x y : Nat) (hx : x < 2) (hy : y < 2) :
    (cellChunk ((NewRGBA 358 2).flipBit 5 1) 2 2 x y).hashInput
      = if x = 0 ∧ y = 0 then (List.replicate 537 0).set 4 2 else List.replicate 537 0 := by
  obtain ⟨c1, c2, c3, c4⟩ := zeroImage_cells x y hx hy
  apply cellChunk_hashInput_entries 20 (NewRGBA 358 2) 2 2 zeroImage_planned x y hx hy
    ((NewRGBA 358 2).flipBit 5 1) rfl rfl (flipBit_wellFormed _ 5 1 zeroImage_wellFormed)
  · rw [c1, c2]
    split
    · rw [List.length_set, List.length_replicate]
    · rw [List.length_replicate]
  · intro px py ch h1 h2 h3
    rw [c1] at h1
    rw [c2] at h2
    rw [c2, c3, c4]
    unfold byteAt
    rw [zeroImage_flip_getD]
    have hw : (NewRGBA 358 2).width = 358 := rfl
    rw [hw]
    by_cases hxy : x = 0 ∧ y = 0
    · obtain ⟨rfl, rfl⟩ := hxy
      simp only [and_self, if_true]
      rw [getD_set, List.length_replicate, getD_replicate_zero]
      by_cases hp : px = 1 ∧ ch = 1
      · obtain ⟨rfl, rfl⟩ := hp
        have e : py = 0 := by omega
        subst e
        decide
      · have n1 : ¬ (4 = (px * 1 + py) * 3 + ch ∧ (px * 1 + py) * 3 + ch < 537) := by omega
        have n2 : ¬ (((0 + py) * 358 + (179 * 0 + px)) * 4 + ch = 5) := by omega
        rw [if_neg n1, if_neg n2]
        rfl
    · rw [if_neg hxy, getD_replicate_zero]
      have n2 : ¬ (((y + py) * 358 + (179 * x + px)) * 4 + ch = 5) := by omega
      rw [if_neg n2]
      rfl

theorem list_of_length_four (l : List (List Nat)) (h : l.length = 4) :
    l = [l.getD 0 [], l.getD 1 [], l.getD 2 [], l.getD 3 []] := by
  match l, h with
  | [a, b, c, d], _ => rfl

/-- The leaves of the tree for the all-zero image. -/
theorem zeroImage_leaves :
    chunkLeaves toyHash (NewRGBA 358 2) 2 2
      = [toyHash (List.replicate 537 0), toyHash (List.replicate 537 0),
          toyHash (List.replicate 537 0), toyHash (List.replicate 537 0)] := by
  have hlen := chunkLeaves_length toyHash (NewRGBA 358 2) 2 2
  have h0 := chunkLeaves_getD toyHash (NewRGBA 358 2) 2 2 0 0 (by omega) (by omega)
  have h1 := chunkLeaves_getD toyHash (NewRGBA 358 2) 2 2 0 1 (by omega) (by omega)
  have h2 := chunkLeaves_getD toyHash (NewRGBA 358 2) 2 2 1 0 (by omega) (by omega)
  have h3 := chunkLeaves_getD toyHash (NewRGBA 358 2) 2 2 1 1 (by omega) (by omega)
  unfold Chunk.CalculateHash at h0 h1 h2 h3
  rw [zeroImage_hashInput _ _ (by omega) (by omega)] at h0 h1 h2 h3
  rw [list_of_length_four _ hlen, h0, h1, h2, h3]

set_option maxRecDepth 100000 in
/-- The inputs of the hash function for a cell of the all-zero image. -/
theorem zeroImage_cellInputs (x y : Nat) (hx : x < 2) (hy : y < 2) :
    cellInputs toyHash (NewRGBA 358 2) 2 2 (NewRGBA 358 2) x y
      = [List.replicate 537 0,
          toyHash (List.replicate 537 0) ++ toyHash (List.replicate 537 0),
          toyHash (toyHash (List.replicate 537 0) ++ toyHash (List.replicate 537 0))
            ++ toyHash (toyHash (List.replicate 537 0) ++ toyHash (List.replicate 537 0))] := by
  unfold cellInputs cellPath
  rw [zeroImage_hashInput x y hx hy, zeroImage_leaves]
  interval_cases x <;> interval_cases y <;> decide

set_option maxRecDepth 100000 in
/-- The inputs of the hash function for a cell of the all-zero image with the
flipped bit. -/
theorem zeroImage_flip_cellInputs (x y : Nat) (hx : x < 2) (hy : y < 2) :
    cellInputs toyHash (NewRGBA 358 2) 2 2 ((NewRGBA 358 2).flipBit 5 1) x y
      = if x = 0 ∧ y = 0 then
          [(List.replicate 537 0).set 4 2,
            toyHash ((List.replicate 537 0).set 4 2) ++ toyHash (List.replicate 537 0),
            toyHash (toyHash ((List.replicate 537 0).set 4 2) ++ toyHash (List.replicate 537 0))
              ++ toyHash (toyHash (List.replicate 537 0) ++ toyHash (List.replicate 537 0))]
        else
          [List.replicate 537 0,
            toyHash (List.replicate 537 0) ++ toyHash (List.replicate 537 0),
            toyHash (toyHash (List.replicate 537 0) ++ toyHash (List.replicate 537 0))
              ++ toyHash (toyHash (List.replicate 537 0) ++ toyHash (List.replicate 537 0))] := by
  unfold cellInputs cellPath
  rw [zeroImage_flip_hashInput x y hx hy, zeroImage_leaves]
  interval_cases x <;> interval_cases y <;> decide

set_option maxRecDepth 100000 in
/-- The stand-in hash function has no collision among the inputs involved. -/
theorem toyHash_collision_free :
    ∀ a ∈ [List.replicate 537 0,
          toyHash (List.replicate 537 0) ++ toyHash (List.replicate 537 0),
          toyHash (toyHash (List.replicate 537 0) ++ toyHash (List.replicate 537 0))
            ++ toyHash (toyHash (List.replicate 537 0) ++ toyHash (List.replicate 537 0)),
          (List.replicate 537 0).set 4 2,
          toyHash ((List.replicate 537 0).set 4 2) ++ toyHash (List.replicate 537 0),
          toyHash (toyHash ((List.replicate 537 0).set 4 2) ++ toyHash (List.replicate 537 0))
            ++ toyHash (toyHash (List.replicate 537 0) ++ toyHash (List.replicate 537 0))],
    ∀ a' ∈ [List.replicate 537 0,
          toyHash (List.replicate 537 0) ++ toyHash (List.replicate 537 0),
          toyHash (toyHash (List.replicate 537 0) ++ toyHash (List.replicate 537 0))
            ++ toyHash (toyHash (List.replicate 537 0) ++ toyHash (List.replicate 537 0)),
          (List.replicate 537 0).set 4 2,
          toyHash ((List.replicate 537 0).set 4 2) ++ toyHash (List.replicate 537 0),
          toyHash (toyHash ((List.replicate 537 0).set 4 2) ++ toyHash (List.replicate 537 0))
            ++ toyHash (toyHash (List.replicate 537 0) ++ toyHash (List.replicate 537 0))],
      toyHash a = toyHash a' → a = a' := by
  decide

/-- Membership in one of two triples gives membership in the six. -/
theorem mem_six_of_mem {α : Type} (c : Prop) [Decidable c] (a p q r s t u : α)
    (h : a ∈ [p, q, r] ∨ a ∈ (if c then [s, t, u] else [p, q, r])) :
    a ∈ [p, q, r, s, t, u] := by
  rcases h with h | h
  · simp only [List.mem_cons, List.mem_singleton, List.not_mem_nil, or_false] at h ⊢
    tauto
  · split at h
    · simp only [List.mem_cons, List.mem_singleton, List.not_mem_nil, or_false] at h ⊢
      tauto
    · simp only [List.mem_cons, List.mem_singleton, List.not_mem_nil, or_false] at h ⊢
      tauto

/-- Every input of a cell, for the all-zero image or for the one with the
flipped bit, is one of the six inputs above. -/
theorem zeroImage_inputs_mem (x y : Nat) (hx : x < 2) (hy : y < 2) (a : List Nat)
    (ha : a ∈ cellInputs toyHash (NewRGBA 358 2) 2 2 (NewRGBA 358 2) x y
      ∨ a ∈ cellInputs toyHash (NewRGBA 358 2) 2 2 ((NewRGBA 358 2).flipBit 5 1) x y) :
    a ∈ [List.replicate 537 0,
          toyHash (List.replicate 537 0) ++ toyHash (List.replicate 537 0),
          toyHash (toyHash (List.replicate 537 0) ++ toyHash (List.replicate 537 0))
            ++ toyHash (toyHash (List.replicate 537 0) ++ toyHash (List.replicate 537 0)),
          (List.replicate 537 0).set 4 2,
          toyHash ((List.replicate 537 0).set 4 2) ++ toyHash (List.replicate 537 0),
          toyHash (toyHash ((List.replicate 537 0).set 4 2) ++ toyHash (List.replicate 537 0))
            ++ toyHash (toyHash (List.replicate 537 0) ++ toyHash (List.replicate 537 0))] := by
  rw [zeroImage_cellInputs x y hx hy, zeroImage_flip_cellInputs x y hx hy] at ha
  exact mem_six_of_mem _ _ _ _ _ _ _ _ ha

/-- Witness for C2: on the all-zero image of 358 by 2 pixels, with the stand-in hash
function, flipping bit 1 of byte 5 of the encoded image is reported as an altered
image whose only masked cell is cell (0, 0). -/
theorem tamper_localisation_witness :
    ShaWellFormed toyHash ∧ (NewRGBA 358 2).WellFormed ∧
    CalculateChunkBounds 20 (NewRGBA 358 2).width (NewRGBA 358 2).height
      = some [[⟨0, 0, 179, 1⟩, ⟨0, 1, 179, 2⟩], [⟨179, 0, 358, 1⟩, ⟨179, 1, 358, 2⟩]] ∧
    ∃ enc, Encode toyHash 20 (NewRGBA 358 2) = some (.ok enc) ∧
      (∀ a ∈ decodeShaInputs toyHash 20 enc ++ decodeShaInputs toyHash 20 (enc.flipBit 5 1),
        ∀ a' ∈ decodeShaInputs toyHash 20 enc ++ decodeShaInputs toyHash 20 (enc.flipBit 5 1),
          toyHash a = toyHash a' → a = a') ∧
      ∃ root, Decode toyHash 20 id (enc.flipBit 5 1)
        = some (.ok { tampered := true, merkleRoot := root, masked := [(0, 0)] }) := by
  have hg : CalculateChunkBounds 20 (NewRGBA 358 2).width (NewRGBA 358 2).height
      = some [[⟨0, 0, 179, 1⟩, ⟨0, 1, 179, 2⟩], [⟨179, 0, 358, 1⟩, ⟨179, 1, 358, 2⟩]] := by
    decide
  have hsize : (NewRGBA 358 2).width * (NewRGBA 358 2).height < 2 ^ 61 := by decide
  obtain ⟨enc, e1, e2, e3, e4, e5⟩ := Encode_spec toyHash toyHash_wellFormed 20 (NewRGBA 358 2)
    zeroImage_wellFormed hsize 2 2 zeroImage_planned
  have hk : 5 < enc.Pix.length := by
    unfold Image.WellFormed at e4
    rw [e4, e2, e3]
    decide
  have hcf : ∀ a ∈ decodeShaInputs toyHash 20 enc ++ decodeShaInputs toyHash 20 (enc.flipBit 5 1),
      ∀ a' ∈ decodeShaInputs toyHash 20 enc ++ decodeShaInputs toyHash 20 (enc.flipBit 5 1),
        toyHash a = toyHash a' → a = a' := by
    intro a ha a' ha'
    obtain ⟨x, y, hx, hy, hm⟩ := decodeShaInputs_cells toyHash toyHash_wellFormed 20
      (NewRGBA 358 2) zeroImage_wellFormed hsize 2 2 zeroImage_planned enc e2 e3 e4 e5 5 1 hk
      (by omega) a ha
    obtain ⟨x', y', hx', hy', hm'⟩ := decodeShaInputs_cells toyHash toyHash_wellFormed 20
      (NewRGBA 358 2) zeroImage_wellFormed hsize 2 2 zeroImage_planned enc e2 e3 e4 e5 5 1 hk
      (by omega) a' ha'
    exact toyHash_collision_free a (zeroImage_inputs_mem x y hx hy a hm) a'
      (zeroImage_inputs_mem x' y' hx' hy' a' hm')
  obtain ⟨R', _, _, _, _, hdec⟩ := tamper_localisation toyHash toyHash_wellFormed 20 id
    (fun m => List.Perm.refl m) (NewRGBA 358 2) zeroImage_wellFormed hsize _ hg (by decide)
    enc e1 5 1 hk (by decide) (by omega) (by omega) 0 0 ⟨0, 0, 179, 1⟩ (by decide) (by decide) hcf
  exact ⟨toyHash_wellFormed, zeroImage_wellFormed, hg, enc, e1, hcf, _, hdec⟩

/-- The bit `ReadBool` returns on its `j`-th call is bit `7 - j` of the byte. -/
theorem readBool_eq_testBit (b j : Nat) : readBool b j = b.testBit (7 - j) := by
  unfold readBool
  rw [Nat.testBit_to_div_mod]
  rcases Nat.mod_two_eq_zero_or_one (b / 2 ^ (7 - j)) with h | h <;> simp [h]

/-- The payload size of a buffer is within the limit `Write` tests. -/
theorem payload_le_write_limit (len : Nat) : len / 4 * 3 / 8 ≤ (len - len / 4) / 8 := by
  apply Nat.div_le_div_right
  omega

/-- C11, write bit layout: when the bytes `p` fit behind the write cursor, after
`Write` the least significant bit of `Pix[i + i / 3]` with
`i = 8 * (wOff + k) + j` is bit `7 - j` of `p[k]`, for every `k < len(p)` and
`j < 8`. -/
theorem Write_bit_layout (c : Chunk) (p : List Nat)
    (hfit : c.wOff + p.length ≤ c.MaxPayloadSize) (k j : Nat) (hk : k < p.length)
    (hj : j < 8) :
    GetLSB ((c.Write p).1.Pix.getD (8 * (c.wOff + k) + j + (8 * (c.wOff + k) + j) / 3) 0)
      = (p.getD k 0).testBit (7 - j) := by
  have hlim := payload_le_write_limit c.Pix.length
  have hfit' : p.length ≤ (c.Pix.length - c.Pix.length / 4) / 8 - c.wOff := by
    unfold Chunk.MaxPayloadSize Chunk.LSBCount Chunk.PixelCount BitsPerPixel at hfit
    omega
  have h := writeLoop_lsb c.wOff p 0 c.Pix hfit' k j hk hj
  unfold pixIdx BitsPerPixel at h
  rw [Nat.mul_comm (c.wOff + k) 8] at h
  rw [← readBool_eq_testBit]
  exact h

/-- Witness for C11: the bytes `0b11110000` and `0b00001111` written to an
all-zero chunk of 3 by 2 pixels give the least significant bits 1, 1, 1, 0, 1, 0
at the positions 0 to 5 of `Pix` and 0, 1, 1, 1, 0, 1 at the positions 15 to 20. -/
theorem Write_bit_layout_witness :
    (Chunk.fresh (List.replicate 24 0) 3 2).wOff + [0b11110000, 0b00001111].length
      ≤ (Chunk.fresh (List.replicate 24 0) 3 2).MaxPayloadSize ∧
    GetLSB ((((Chunk.fresh (List.replicate 24 0) 3 2).Write [0b11110000, 0b00001111]).1.Pix).getD
      (8 * ((Chunk.fresh (List.replicate 24 0) 3 2).wOff + 1) + 4
        + (8 * ((Chunk.fresh (List.replicate 24 0) 3 2).wOff + 1) + 4) / 3) 0)
      = ([0b11110000, 0b00001111].getD 1 0).testBit (7 - 4) ∧
    ([0, 1, 2, 3, 4, 5].map fun i =>
      GetLSB ((((Chunk.fresh (List.replicate 24 0) 3 2).Write
        [0b11110000, 0b00001111]).1.Pix).getD i 0))
      = [true, true, true, false, true, false] ∧
    ([15, 16, 17, 18, 19, 20].map fun i =>
      GetLSB ((((Chunk.fresh (List.replicate 24 0) 3 2).Write
        [0b11110000, 0b00001111]).1.Pix).getD i 0))
      = [false, true, true, true, false, true] :=
  ⟨by decide,
   Write_bit_layout (Chunk.fresh (List.replicate 24 0) 3 2) [0b11110000, 0b00001111]
     (by decide) 1 4 (by decide) (by decide),
   by decide, by decide⟩

set_option maxRecDepth 100000 in
/-- Setting the least significant bit of a byte keeps its seven other bits. -/
theorem WithLSB_div_two : ∀ b, b < 256 → ∀ v : Bool, WithLSB b v / 2 = b / 2 := by
  decide

/-- An entry of a list of bytes, or the default `0`, is a byte. -/
theorem getD_lt_of_forall (l : List Nat) (h : ∀ b ∈ l, b < 256) (k : Nat) : l.getD k 0 < 256 := by
  by_cases hk : k < l.length
  · rw [List.getD_eq_getElem _ _ hk]
    exact h _ (List.getElem_mem hk)
  · rw [getD_of_length_le _ _ (by omega)]
    decide

/-- C12, write frame: `Write` keeps the length of `Pix`, leaves every alpha
byte (position 3 modulo 4) unchanged, leaves the seven high-order bits of every
byte unchanged, and leaves unchanged every byte whose position is not
`i + i / 3` for a bit index `i` with `8 * wOff ≤ i < 8 * (wOff + n)`, where `n`
is the number of bytes written. -/
theorem Write_frame (c : Chunk) (p : List Nat) (hbytes : ∀ b ∈ c.Pix, b < 256) (k : Nat) :
    (c.Write p).1.Pix.length = c.Pix.length ∧
    (k % 4 = 3 → (c.Write p).1.Pix.getD k 0 = c.Pix.getD k 0) ∧
    (c.Write p).1.Pix.getD k 0 / 2 = c.Pix.getD k 0 / 2 ∧
    ((∀ i, 8 * c.wOff ≤ i → i < 8 * (c.wOff + (c.Write p).2.1) → k ≠ i + i / 3) →
      (c.Write p).1.Pix.getD k 0 = c.Pix.getD k 0) := by
  have hget := writeLoop_getD c.wOff p 0 0 c.Pix k
  have hcount := (writeLoop_count c.wOff p 0 0 c.Pix).1
  have hlen := writeLoop_length c.wOff p 0 0 c.Pix
  simp only [Chunk.Write]
  simp only [Nat.add_zero, Nat.zero_add] at hget hcount
  refine ⟨hlen, ?_, ?_, ?_⟩
  · intro h3
    rw [hget, if_neg]
    omega
  · rw [hget]
    split
    · exact WithLSB_div_two _ (getD_lt_of_forall _ hbytes k) _
    · rfl
  · intro hfree
    rw [hget, if_neg]
    rintro ⟨_, h3, hlo, hhi⟩
    rw [hcount] at hfree
    exact hfree (k - k / 4) (by omega) (by omega) (by omega)

/-- Witness for C12: after two bytes are written to a chunk of 3 by 2 pixels
with all bytes `255`, the alpha byte at position 3 still holds `255`. -/
theorem Write_frame_witness :
    (∀ b ∈ (Chunk.fresh (List.replicate 24 255) 3 2).Pix, b < 256) ∧
    (((Chunk.fresh (List.replicate 24 255) 3 2).Write [0, 0]).1.Pix.getD 3 0
      = (Chunk.fresh (List.replicate 24 255) 3 2).Pix.getD 3 0) ∧
    ((Chunk.fresh (List.replicate 24 255) 3 2).Write [0, 0]).1.Pix.getD 4 0 / 2
      = (Chunk.fresh (List.replicate 24 255) 3 2).Pix.getD 4 0 / 2 ∧
    ((Chunk.fresh (List.replicate 24 255) 3 2).Write [0, 0]).1.Pix.getD 4 0 = 254 :=
  ⟨by decide,
   (Write_frame (Chunk.fresh (List.replicate 24 255) 3 2) [0, 0] (by decide) 3).2.1 (by decide),
   (Write_frame (Chunk.fresh (List.replicate 24 255) 3 2) [0, 0] (by decide) 4).2.2.1,
   by decide⟩

set_option maxRecDepth 100000 in
/-- A byte assembled from eight bits, first bit highest, has these bits. -/
theorem byte_of_bits : ∀ g0 g1 g2 g3 g4 g5 g6 g7 : Bool,
    [0, 1, 2, 3, 4, 5, 6, 7].foldl
        (fun acc j => 2 * acc + (if [g0, g1, g2, g3, g4, g5, g6, g7].getD j false then 1 else 0)) 0
      < 256 ∧
    ∀ j, j < 8 →
      ([0, 1, 2, 3, 4, 5, 6, 7].foldl
        (fun acc j => 2 * acc + (if [g0, g1, g2, g3, g4, g5, g6, g7].getD j false then 1 else 0))
        0).testBit (7 - j) = [g0, g1, g2, g3, g4, g5, g6, g7].getD j false := by
  decide

/-- The byte `Read` assembles is a byte whose bit `7 - j` is the least
significant bit at position `pixIdx (bitOff + j)`. -/
theorem readBits_testBit (bitOff : Nat) (pix : List Nat) :
    readBits bitOff pix < 256 ∧
    ∀ j, j < 8 →
      (readBits bitOff pix).testBit (7 - j) = GetLSB (pix.getD (pixIdx (bitOff + j)) 0) := by
  have h := byte_of_bits (GetLSB (pix.getD (pixIdx (bitOff + 0)) 0))
    (GetLSB (pix.getD (pixIdx (bitOff + 1)) 0)) (GetLSB (pix.getD (pixIdx (bitOff + 2)) 0))
    (GetLSB (pix.getD (pixIdx (bitOff + 3)) 0)) (GetLSB (pix.getD (pixIdx (bitOff + 4)) 0))
    (GetLSB (pix.getD (pixIdx (bitOff + 5)) 0)) (GetLSB (pix.getD (pixIdx (bitOff + 6)) 0))
    (GetLSB (pix.getD (pixIdx (bitOff + 7)) 0))
  have hv : readBits bitOff pix
      = [0, 1, 2, 3, 4, 5, 6, 7].foldl
        (fun acc j => 2 * acc + (if [GetLSB (pix.getD (pixIdx (bitOff + 0)) 0),
          GetLSB (pix.getD (pixIdx (bitOff + 1)) 0), GetLSB (pix.getD (pixIdx (bitOff + 2)) 0),
          GetLSB (pix.getD (pixIdx (bitOff + 3)) 0), GetLSB (pix.getD (pixIdx (bitOff + 4)) 0),
          GetLSB (pix.getD (pixIdx (bitOff + 5)) 0), GetLSB (pix.getD (pixIdx (bitOff + 6)) 0),
          GetLSB (pix.getD (pixIdx (bitOff + 7)) 0)].getD j false then 1 else 0)) 0 := by
    unfold readBits
    rw [range8]
    rfl
  rw [hv]
  refine ⟨h.1, ?_⟩
  intro j hj
  rw [h.2 j hj]
  interval_cases j <;> rfl

/-- For a buffer of four bytes per pixel the limit `Read` tests is the payload size. -/
theorem read_limit_eq (len q : Nat) (h : len = 4 * q) :
    (3 * len + 2) / 4 / 8 = len / 4 * 3 / 8 := by
  subst h
  omega

/-- The buffer after `Read`, the number of bytes read and the error in closed
form, for a chunk whose buffer has four bytes per pixel. -/
theorem Read_eq (c : Chunk) (hwf : c.WellFormed) (p : List Nat) :
    (c.Read p).2 =
      ((List.range (min p.length (c.MaxPayloadSize - c.rOff))).map
          (fun k => readBits ((c.rOff + k) * 8) c.Pix)
        ++ p.drop (min p.length (c.MaxPayloadSize - c.rOff)),
       min p.length (c.MaxPayloadSize - c.rOff),
       if p.length ≤ c.MaxPayloadSize - c.rOff then none else some Err.EOF) := by
  have hM : (3 * c.Pix.length + 2) / 4 / 8 = c.MaxPayloadSize := by
    unfold Chunk.MaxPayloadSize Chunk.LSBCount Chunk.PixelCount BitsPerPixel
    exact read_limit_eq _ _ hwf
  have hr := readLoop_eq c.rOff c.Pix p.length 0 0 []
  simp only [Nat.add_zero, Nat.zero_add, List.nil_append, hM] at hr
  simp only [Chunk.Read, hr, List.length_map, List.length_range]

/-- An entry of the front part of the buffer after `Read`. -/
theorem getD_read_front (f : Nat → Nat) (n : Nat) (rest : List Nat) (m : Nat) (hm : m < n) :
    ((List.range n).map f ++ rest).getD m 0 = f m := by
  rw [List.getD_eq_getElem?_getD, List.getElem?_append_left (by simpa using hm)]
  simp [hm]

/-- An entry of the rest of the buffer after `Read`. -/
theorem getD_read_rest (f : Nat → Nat) (n : Nat) (p : List Nat) (m : Nat) (hm : n ≤ m) :
    ((List.range n).map f ++ p.drop n).getD m 0 = p.getD m 0 := by
  rw [List.getD_eq_getElem?_getD, List.getElem?_append_right (by simpa using hm)]
  simp only [List.length_map, List.length_range, List.getElem?_drop, List.getD_eq_getElem?_getD]
  congr 2
  omega

/-- C13, read capacity boundary: for a chunk with four bytes per pixel, `Read`
into a buffer of `k` bytes returns `n = min k (MaxPayloadSize - rOff)`, without
error when `k ≤ MaxPayloadSize - rOff` and with `io.EOF` otherwise; this is
the number of bytes `Write` accepts at the same cursor; the buffer keeps its
length, its first `n` bytes are the bytes stored in the least significant bits
(bit `7 - j` of byte `m` is the least significant bit of `Pix[i + i / 3]` with
`i = 8 * (rOff + m) + j`), and every slot from `n` on is left as it was, zero
for a zero-initialised buffer. -/
theorem Read_capacity_boundary (c : Chunk) (hwf : c.WellFormed) (p : List Nat) :
    (c.Read p).2.2.1 = min p.length (c.MaxPayloadSize - c.rOff) ∧
    ((c.Read p).2.2.2 = none ↔ p.length ≤ c.MaxPayloadSize - c.rOff) ∧
    (¬ p.length ≤ c.MaxPayloadSize - c.rOff → (c.Read p).2.2.2 = some Err.EOF) ∧
    (({ c with wOff := c.rOff } : Chunk).Write p).2.1 = (c.Read p).2.2.1 ∧
    (c.Read p).2.1.length = p.length ∧
    (∀ m, m < (c.Read p).2.2.1 → (c.Read p).2.1.getD m 0 < 256 ∧
      ∀ j, j < 8 → ((c.Read p).2.1.getD m 0).testBit (7 - j)
        = GetLSB (c.Pix.getD (8 * (c.rOff + m) + j + (8 * (c.rOff + m) + j) / 3) 0)) ∧
    (∀ m, (c.Read p).2.2.1 ≤ m → (c.Read p).2.1.getD m 0 = p.getD m 0) ∧
    ((∀ b ∈ p, b = 0) → ∀ m, (c.Read p).2.2.1 ≤ m → (c.Read p).2.1.getD m 0 = 0) := by
  have h := Read_eq c hwf p
  have h1 : (c.Read p).2.2.1 = min p.length (c.MaxPayloadSize - c.rOff) := by rw [h]
  have h2 : (c.Read p).2.2.2
      = if p.length ≤ c.MaxPayloadSize - c.rOff then none else some Err.EOF := by rw [h]
  have h3 : (c.Read p).2.1
      = (List.range (min p.length (c.MaxPayloadSize - c.rOff))).map
          (fun k => readBits ((c.rOff + k) * 8) c.Pix)
        ++ p.drop (min p.length (c.MaxPayloadSize - c.rOff)) := by rw [h]
  have hrest : ∀ m, (c.Read p).2.2.1 ≤ m → (c.Read p).2.1.getD m 0 = p.getD m 0 := by
    intro m hm
    rw [h3]
    exact getD_read_rest _ _ _ _ (by omega)
  refine ⟨h1, ?_, ?_, ?_, ?_, ?_, hrest, ?_⟩
  · rw [h2]
    split <;> simp [*]
  · intro hk
    rw [h2, if_neg hk]
  · rw [h1]
    have hw := (writeLoop_count c.rOff p 0 0 c.Pix).1
    have hq : (c.Pix.length - c.Pix.length / 4) / 8 = c.MaxPayloadSize := by
      unfold Chunk.MaxPayloadSize Chunk.LSBCount Chunk.PixelCount BitsPerPixel
      unfold Chunk.WellFormed at hwf
      omega
    simp only [Nat.add_zero, Nat.zero_add, hq] at hw
    exact hw
  · rw [h3]
    simp only [List.length_append, List.length_map, List.length_range, List.length_drop]
    omega
  · intro m hm
    rw [h1] at hm
    rw [h3, getD_read_front _ _ _ _ hm]
    have hb := readBits_testBit ((c.rOff + m) * 8) c.Pix
    refine ⟨hb.1, ?_⟩
    intro j hj
    rw [hb.2 j hj]
    unfold pixIdx BitsPerPixel
    rw [Nat.mul_comm (c.rOff + m) 8]
  · intro hz m hm
    rw [hrest m hm]
    by_cases hlt : m < p.length
    · rw [List.getD_eq_getElem _ _ hlt]
      exact hz _ (List.getElem_mem hlt)
    · exact getD_of_length_le _ _ (by omega)

/-- Witness for C13: a chunk of 3 by 2 pixels with all bytes `255` holds two
bytes; `Read` into a zero buffer of three bytes reads two and returns `io.EOF`. -/
theorem Read_capacity_boundary_witness :
    (Chunk.fresh (List.replicate 24 255) 3 2).WellFormed ∧
    ((Chunk.fresh (List.replicate 24 255) 3 2).Read [0, 0, 0]).2
      = ([255, 255, 0], 2, some Err.EOF) ∧
    ((Chunk.fresh (List.replicate 24 255) 3 2).Read [0, 0, 0]).2.2.1
      = min [0, 0, 0].length ((Chunk.fresh (List.replicate 24 255) 3 2).MaxPayloadSize
          - (Chunk.fresh (List.replicate 24 255) 3 2).rOff) := by
  have hwf : (Chunk.fresh (List.replicate 24 255) 3 2).WellFormed := by
    unfold Chunk.WellFormed
    decide
  exact ⟨hwf, by decide,
    (Read_capacity_boundary (Chunk.fresh (List.replicate 24 255) 3 2) hwf [0, 0, 0]).1⟩

set_option maxRecDepth 1000000 in
/-- The model of SHA-256 on the test vector "abc" of FIPS 180. -/
theorem sha256_test_vector : sha256 [97, 98, 99]
    = [0xba, 0x78, 0x16, 0xbf, 0x8f, 0x01, 0xcf, 0xea, 0x41, 0x41, 0x40, 0xde, 0x5d, 0xae, 0x22,
       0x23, 0xb0, 0x03, 0x61, 0xa3, 0x96, 0x17, 0x7a, 0x9c, 0xb4, 0x10, 0xff, 0x61, 0xf2, 0x00,
       0x15, 0xad] := by
  decide

set_option maxRecDepth 100000 in
/-- For a byte, `WithLSB` with `false` forces bit 0 to 0. -/
theorem WithLSB_false_eq_clearBit0 : ∀ b, b < 256 → WithLSB b false = clearBit0 b := by
  decide

/-- The three bytes `CalculateHash` feeds to the hash for a pixel of the chunk. -/
theorem hashed_pixel (c : Chunk) (hbytes : ∀ b ∈ c.Pix, b < 256) (x y : Nat) (hx : x < c.width)
    (hy : y < c.height) :
    [WithLSB (c.RGBAAt x y).1 false, WithLSB (c.RGBAAt x y).2.1 false,
      WithLSB (c.RGBAAt x y).2.2.1 false] = pixelContent c x y := by
  unfold Chunk.RGBAAt pixelContent byteAt
  rw [if_pos ⟨hx, hy⟩]
  have e : y * (4 * c.width) + x * 4 = (y * c.width + x) * 4 := by ring
  simp only [e, Nat.add_zero]
  rw [WithLSB_false_eq_clearBit0 _ (getD_lt_of_forall _ hbytes _),
    WithLSB_false_eq_clearBit0 _ (getD_lt_of_forall _ hbytes _),
    WithLSB_false_eq_clearBit0 _ (getD_lt_of_forall _ hbytes _)]

/-- The bytes `CalculateHash` feeds to the hash are the content bytes in
column-major scan order. -/
theorem hashInput_eq_columnMajor (c : Chunk) (hbytes : ∀ b ∈ c.Pix, b < 256) :
    c.hashInput = columnMajorInput c := by
  unfold Chunk.hashInput columnMajorInput
  apply List.flatMap_congr
  intro x hx
  apply List.flatMap_congr
  intro y hy
  exact hashed_pixel c hbytes x y (List.mem_range.mp hx) (List.mem_range.mp hy)

/-- C14 as amended, content hash definition: `CalculateHash` returns the hash of
the byte sequence obtained by visiting every pixel in column-major scan order
(all pixels of column 0 from top to bottom, then column 1, and so on) and
emitting for each pixel the three bytes R, G, B with bit 0 forced to 0. -/
theorem CalculateHash_column_major (sha : List Nat → List Nat) (c : Chunk)
    (hbytes : ∀ b ∈ c.Pix, b < 256) :
    c.CalculateHash sha = sha (columnMajorInput c) := by
  unfold Chunk.CalculateHash
  rw [hashInput_eq_columnMajor c hbytes]

set_option maxRecDepth 1000000 in
/-- Witness for C14 as amended: on a chunk of 2 by 2 pixels the hashed bytes
are those of the pixels (0, 0), (0, 1), (1, 0), (1, 1) in this order. -/
theorem CalculateHash_column_major_witness :
    (∀ b ∈ (Chunk.fresh [10, 20, 30, 255, 40, 50, 60, 255, 70, 80, 90, 255, 100, 110, 120, 255]
      2 2).Pix, b < 256) ∧
    columnMajorInput
      (Chunk.fresh [10, 20, 30, 255, 40, 50, 60, 255, 70, 80, 90, 255, 100, 110, 120, 255] 2 2)
      = [10, 20, 30, 70, 80, 90, 40, 50, 60, 100, 110, 120] ∧
    (Chunk.fresh [10, 20, 30, 255, 40, 50, 60, 255, 70, 80, 90, 255, 100, 110, 120, 255]
      2 2).CalculateHash sha256
      = sha256 (columnMajorInput
        (Chunk.fresh [10, 20, 30, 255, 40, 50, 60, 255, 70, 80, 90, 255, 100, 110, 120, 255]
          2 2)) ∧
    sha256 [10, 20, 30, 70, 80, 90, 40, 50, 60, 100, 110, 120]
      = [174, 70, 27, 28, 173, 196, 243, 173, 115, 226, 170, 225, 221, 52, 16, 37, 218, 62, 113,
         25, 224, 225, 16, 94, 155, 137, 207, 3, 35, 229, 223, 241] :=
  ⟨by decide, by decide,
   CalculateHash_column_major sha256
     (Chunk.fresh [10, 20, 30, 255, 40, 50, 60, 255, 70, 80, 90, 255, 100, 110, 120, 255] 2 2)
     (by decide),
   by decide⟩

set_option maxRecDepth 1000000 in
/-- Counterexample for C14: on a chunk of 2 by 2 pixels the bytes
`CalculateHash` feeds to the hash are not the content bytes in row-major scan
order, and the SHA-256 hash it returns is not the SHA-256 hash of the
row-major bytes; the same holds for every hash function that does not map the
two byte sequences to one value. -/
theorem CalculateHash_not_row_major :
    (Chunk.fresh [10, 20, 30, 255, 40, 50, 60, 255, 70, 80, 90, 255, 100, 110, 120, 255]
      2 2).hashInput = [10, 20, 30, 70, 80, 90, 40, 50, 60, 100, 110, 120] ∧
    rowMajorInput
      (Chunk.fresh [10, 20, 30, 255, 40, 50, 60, 255, 70, 80, 90, 255, 100, 110, 120, 255] 2 2)
      = [10, 20, 30, 40, 50, 60, 70, 80, 90, 100, 110, 120] ∧
    (Chunk.fresh [10, 20, 30, 255, 40, 50, 60, 255, 70, 80, 90, 255, 100, 110, 120, 255]
      2 2).CalculateHash sha256
      ≠ sha256 (rowMajorInput (Chunk.fresh
        [10, 20, 30, 255, 40, 50, 60, 255, 70, 80, 90, 255, 100, 110, 120, 255] 2 2)) ∧
    ∀ sha : List Nat → List Nat,
      sha [10, 20, 30, 70, 80, 90, 40, 50, 60, 100, 110, 120]
        ≠ sha [10, 20, 30, 40, 50, 60, 70, 80, 90, 100, 110, 120] →
      (Chunk.fresh [10, 20, 30, 255, 40, 50, 60, 255, 70, 80, 90, 255, 100, 110, 120, 255]
        2 2).CalculateHash sha
        ≠ sha (rowMajorInput (Chunk.fresh
          [10, 20, 30, 255, 40, 50, 60, 255, 70, 80, 90, 255, 100, 110, 120, 255] 2 2)) := by
  have h1 : (Chunk.fresh [10, 20, 30, 255, 40, 50, 60, 255, 70, 80, 90, 255, 100, 110, 120, 255]
      2 2).hashInput = [10, 20, 30, 70, 80, 90, 40, 50, 60, 100, 110, 120] := by decide
  have h2 : rowMajorInput
      (Chunk.fresh [10, 20, 30, 255, 40, 50, 60, 255, 70, 80, 90, 255, 100, 110, 120, 255] 2 2)
      = [10, 20, 30, 40, 50, 60, 70, 80, 90, 100, 110, 120] := by decide
  have h3 : sha256 [10, 20, 30, 70, 80, 90, 40, 50, 60, 100, 110, 120]
      ≠ sha256 [10, 20, 30, 40, 50, 60, 70, 80, 90, 100, 110, 120] := by decide
  have h4 : ∀ sha : List Nat → List Nat,
      sha [10, 20, 30, 70, 80, 90, 40, 50, 60, 100, 110, 120]
        ≠ sha [10, 20, 30, 40, 50, 60, 70, 80, 90, 100, 110, 120] →
      (Chunk.fresh [10, 20, 30, 255, 40, 50, 60, 255, 70, 80, 90, 255, 100, 110, 120, 255]
        2 2).CalculateHash sha
        ≠ sha (rowMajorInput (Chunk.fresh
          [10, 20, 30, 255, 40, 50, 60, 255, 70, 80, 90, 255, 100, 110, 120, 255] 2 2)) := by
    intro sha hne
    unfold Chunk.CalculateHash
    rw [h1, h2]
    exact hne
  exact ⟨h1, h2, h4 sha256 h3, h4⟩

/-! ## `Chunk.Equals` -/

/-- The colour of a pixel of the chunk: its four bytes in `Pix`. -/
theorem RGBAAt_inside (c : Chunk) (x y : Nat) (hx : x < c.width) (hy : y < c.height) :
    c.RGBAAt x y = (byteAt c.Pix c.width x y 0, byteAt c.Pix c.width x y 1,
      byteAt c.Pix c.width x y 2, byteAt c.Pix c.width x y 3) := by
  unfold Chunk.RGBAAt byteAt
  rw [if_pos ⟨hx, hy⟩]
  have e : y * (4 * c.width) + x * 4 = (y * c.width + x) * 4 := by ring
  simp only [e, Nat.add_zero]

set_option maxRecDepth 100000 in
/-- The comparison `Equals` makes for one channel. -/
theorem WithLSB_beq : ∀ p, p < 256 → ∀ q, q < 256 →
    ((WithLSB p false == WithLSB q false) = true ↔ clearBit0 p = clearBit0 q) := by
  intro p hp q hq
  rw [WithLSB_false_eq_clearBit0 p hp, WithLSB_false_eq_clearBit0 q hq]
  exact beq_iff_eq

/-- A byte of a buffer of bytes is a byte. -/
theorem byteAt_lt (pix : List Nat) (h : ∀ b ∈ pix, b < 256) (w x y ch : Nat) :
    byteAt pix w x y ch < 256 :=
  getD_lt_of_forall pix h _

/-- The result of `Equals` for two chunks of the same size. -/
theorem Equals_same_size (a b : Chunk) (hw : b.width = a.width) (hh : b.height = a.height)
    (ha8 : ∀ v ∈ a.Pix, v < 256) (hb8 : ∀ v ∈ b.Pix, v < 256) :
    ∃ r, a.Equals (some b) = .ok r ∧
      (r = true ↔ ∀ x y ch, x < a.width → y < a.height → ch < 4 →
        clearBit0 (byteAt a.Pix a.width x y ch) = clearBit0 (byteAt b.Pix b.width x y ch)) := by
  have hE : a.Equals (some b) = .ok ((List.range a.width).all fun x =>
      (List.range a.height).all fun y =>
        WithLSB (a.RGBAAt x y).1 false == WithLSB (b.RGBAAt x y).1 false &&
        WithLSB (a.RGBAAt x y).2.1 false == WithLSB (b.RGBAAt x y).2.1 false &&
        WithLSB (a.RGBAAt x y).2.2.1 false == WithLSB (b.RGBAAt x y).2.2.1 false &&
        WithLSB (a.RGBAAt x y).2.2.2 false == WithLSB (b.RGBAAt x y).2.2.2 false) := by
    unfold Chunk.Equals
    simp only [hw, hh, ne_eq, not_true_eq_false, or_self, if_false]
  refine ⟨_, hE, ?_⟩
  rw [List.all_eq_true]
  constructor
  · intro h x y ch hx hy hch
    have h1 := h x (List.mem_range.mpr hx)
    rw [List.all_eq_true] at h1
    have h2 := h1 y (List.mem_range.mpr hy)
    rw [RGBAAt_inside a x y hx hy, RGBAAt_inside b x y (by omega) (by omega)] at h2
    simp only [Bool.and_eq_true] at h2
    obtain ⟨⟨⟨g0, g1⟩, g2⟩, g3⟩ := h2
    rw [WithLSB_beq _ (byteAt_lt _ ha8 _ _ _ _) _ (byteAt_lt _ hb8 _ _ _ _)] at g0 g1 g2 g3
    interval_cases ch
    · exact g0
    · exact g1
    · exact g2
    · exact g3
  · intro h x hx
    rw [List.all_eq_true]
    intro y hy
    have hx' := List.mem_range.mp hx
    have hy' := List.mem_range.mp hy
    rw [RGBAAt_inside a x y hx' hy', RGBAAt_inside b x y (by omega) (by omega)]
    simp only [Bool.and_eq_true]
    rw [WithLSB_beq _ (byteAt_lt _ ha8 _ _ _ _) _ (byteAt_lt _ hb8 _ _ _ _),
      WithLSB_beq _ (byteAt_lt _ ha8 _ _ _ _) _ (byteAt_lt _ hb8 _ _ _ _),
      WithLSB_beq _ (byteAt_lt _ ha8 _ _ _ _) _ (byteAt_lt _ hb8 _ _ _ _),
      WithLSB_beq _ (byteAt_lt _ ha8 _ _ _ _) _ (byteAt_lt _ hb8 _ _ _ _)]
    exact ⟨⟨⟨h x y 0 hx' hy' (by omega), h x y 1 hx' hy' (by omega)⟩,
      h x y 2 hx' hy' (by omega)⟩, h x y 3 hx' hy' (by omega)⟩

/-- The result of `Equals` for two chunks of different sizes. -/
theorem Equals_other_size (a b : Chunk) (h : ¬ (b.width = a.width ∧ b.height = a.height)) :
    a.Equals (some b) = .ok false := by
  unfold Chunk.Equals
  have h' : b.width ≠ a.width ∨ b.height ≠ a.height := by
    by_cases hw : b.width = a.width
    · exact Or.inr fun hh => h ⟨hw, hh⟩
    · exact Or.inl hw
  simp only [h', if_true]

/-- Bytes that agree after bit 0 is forced to 0 have the same bit 1. -/
theorem testBit_one_of_clearBit0 (p q : Nat) (h : clearBit0 p = clearBit0 q) :
    p.testBit 1 = q.testBit 1 := by
  unfold clearBit0 at h
  have e : p / 2 = q / 2 := by omega
  rw [Nat.testBit_to_div_mod, Nat.testBit_to_div_mod, Nat.pow_one, e]

/-- C15, content equality: `Equals` returns `true` exactly when the two chunks
have the same width and height and, for every pixel, each of R, G, B and A is
equal after bit 0 is forced to 0 on both sides; chunks of one size whose bytes
differ only in the least significant bit are equal, chunks with a byte (alpha
included) that differs in bit 1 are not. -/
theorem Equals_content (a b : Chunk) (hwf : a.WellFormed) (ha8 : ∀ v ∈ a.Pix, v < 256)
    (hb8 : ∀ v ∈ b.Pix, v < 256) :
    (a.Equals (some b) = .ok true ∨ a.Equals (some b) = .ok false) ∧
    (a.Equals (some b) = .ok true ↔
      a.width = b.width ∧ a.height = b.height ∧
      ∀ x y ch, x < a.width → y < a.height → ch < 4 →
        clearBit0 (byteAt a.Pix a.width x y ch) = clearBit0 (byteAt b.Pix b.width x y ch)) ∧
    (a.width = b.width → a.height = b.height →
      (∀ k, a.Pix.getD k 0 / 2 = b.Pix.getD k 0 / 2) → a.Equals (some b) = .ok true) ∧
    (∀ k, k < a.Pix.length → (a.Pix.getD k 0).testBit 1 ≠ (b.Pix.getD k 0).testBit 1 →
      a.Equals (some b) = .ok false) := by
  have hiff : a.Equals (some b) = .ok true ↔
      a.width = b.width ∧ a.height = b.height ∧
      ∀ x y ch, x < a.width → y < a.height → ch < 4 →
        clearBit0 (byteAt a.Pix a.width x y ch) = clearBit0 (byteAt b.Pix b.width x y ch) := by
    by_cases hd : b.width = a.width ∧ b.height = a.height
    · obtain ⟨r, hr, hiff⟩ := Equals_same_size a b hd.1 hd.2 ha8 hb8
      rw [hr]
      constructor
      · intro h
        have h' : r = true := by
          injection h
        exact ⟨hd.1.symm, hd.2.symm, hiff.mp h'⟩
      · intro h
        rw [hiff.mpr h.2.2]
    · rw [Equals_other_size a b hd]
      constructor
      · intro h
        injection h with h'
        exact absurd h' (by decide)
      · intro h
        exact absurd ⟨h.1.symm, h.2.1.symm⟩ hd
  have hor : a.Equals (some b) = .ok true ∨ a.Equals (some b) = .ok false := by
    by_cases hd : b.width = a.width ∧ b.height = a.height
    · obtain ⟨r, hr, _⟩ := Equals_same_size a b hd.1 hd.2 ha8 hb8
      rw [hr]
      cases r
      · exact Or.inr rfl
      · exact Or.inl rfl
    · exact Or.inr (Equals_other_size a b hd)
  refine ⟨hor, hiff, ?_, ?_⟩
  · intro hw hh hk
    rw [hiff]
    refine ⟨hw, hh, ?_⟩
    intro x y ch _ _ _
    unfold byteAt clearBit0
    rw [← hw]
    have := hk ((y * a.width + x) * 4 + ch)
    omega
  · intro k hk hbit
    rcases hor with h | h
    · exfalso
      obtain ⟨hw, hh, hpix⟩ := hiff.mp h
      unfold Chunk.WellFormed at hwf
      obtain ⟨x, y, ch, hx, hy, hch, e⟩ := index_decomp a.width a.height k (by omega)
      have hp := hpix x y ch hx hy hch
      unfold byteAt at hp
      rw [← hw, ← e] at hp
      exact hbit (testBit_one_of_clearBit0 _ _ hp)
    · exact h

/-- Witness for C15: two chunks of one pixel that differ in the least
significant bits of all four channels are equal; flipping bit 1 of the alpha
byte makes them unequal. -/
theorem Equals_content_witness :
    (Chunk.fresh [10, 20, 30, 254] 1 1).WellFormed ∧
    (∀ v ∈ (Chunk.fresh [10, 20, 30, 254] 1 1).Pix, v < 256) ∧
    (∀ v ∈ (Chunk.fresh [11, 21, 31, 255] 1 1).Pix, v < 256) ∧
    (Chunk.fresh [10, 20, 30, 254] 1 1).Equals (some (Chunk.fresh [11, 21, 31, 255] 1 1))
      = .ok true ∧
    (Chunk.fresh [10, 20, 30, 254] 1 1).Equals (some (Chunk.fresh [10, 20, 30, 252] 1 1))
      = .ok false ∧
    ((Chunk.fresh [10, 20, 30, 254] 1 1).Equals (some (Chunk.fresh [11, 21, 31, 255] 1 1))
        = .ok true ∨
      (Chunk.fresh [10, 20, 30, 254] 1 1).Equals (some (Chunk.fresh [11, 21, 31, 255] 1 1))
        = .ok false) := by
  have hwf : (Chunk.fresh [10, 20, 30, 254] 1 1).WellFormed := by
    unfold Chunk.WellFormed
    decide
  exact ⟨hwf, by decide, by decide, rfl, rfl,
    (Equals_content (Chunk.fresh [10, 20, 30, 254] 1 1) (Chunk.fresh [11, 21, 31, 255] 1 1) hwf
      (by decide) (by decide)).1⟩

/-! ## Path replay on an arbitrary chunk -/

/-- `Read` of a buffer that fits behind the read cursor. -/
theorem Read_full (c : Chunk) (hwf : c.WellFormed) (p : List Nat)
    (h : c.rOff + p.length ≤ c.MaxPayloadSize) :
    c.Read p = ({ c with rOff := c.rOff + p.length },
      (List.range p.length).map (fun q => storedByte c.Pix (c.rOff + q)), p.length, none) := by
  have e := Read_eq c hwf p
  have hmin : min p.length (c.MaxPayloadSize - c.rOff) = p.length := by omega
  rw [hmin, if_pos (by omega), List.drop_length, List.append_nil] at e
  have e1 : (c.Read p).1 = { c with rOff := c.rOff + (c.Read p).2.2.1 } := rfl
  rw [e] at e1
  have e2 : c.Read p = ((c.Read p).1, (c.Read p).2) := rfl
  rw [e2, e1, e]
  rfl

/-- `Read` of a buffer that does not fit behind the read cursor. -/
theorem Read_short (c : Chunk) (hwf : c.WellFormed) (p : List Nat) (hpos : 0 < p.length)
    (h : ¬ c.rOff + p.length ≤ c.MaxPayloadSize) : (c.Read p).2.2.2 = some Err.EOF := by
  rw [Read_eq c hwf p, if_neg (by omega)]

/-- The path replay loop on an arbitrary chunk, entered before step `i`: the
loop completes the steps up to the first step `t` that it cannot complete
(its bytes are not all within the payload, or its side byte is neither `0` nor
`1`) and returns the running hash of the completed steps. -/
theorem replayLoop_garbage (sha : List Nat → List Nat) (count : Nat) :
    ∀ (c : Chunk) (i : Nat) (prevHash : List Nat), c.WellFormed → c.rOff = 1 + 33 * i →
    ∀ t, i ≤ t → t ≤ i + count →
    (∀ j, i ≤ j → j < t →
      34 + 33 * j ≤ c.MaxPayloadSize ∧ storedByte c.Pix (1 + 33 * j) ≤ 1) →
    (t = i + count ∨ c.MaxPayloadSize < 34 + 33 * t ∨ 1 < storedByte c.Pix (1 + 33 * t)) →
    replayLoop sha count c prevHash
      = replayPath sha ((List.range' i (t - i)).map (storedStep c.Pix)) prevHash := by
  induction count with
  | zero =>
    intro c i prevHash _ _ t h1 h2 _ _
    have e : t - i = 0 := by omega
    rw [e]
    rfl
  | succ count ih =>
    intro c i prevHash hwf hr t hit htc hgood hstop
    have hstay : t = i → replayPath sha ((List.range' i (t - i)).map (storedStep c.Pix)) prevHash
        = prevHash := by
      intro e
      rw [e, Nat.sub_self]
      rfl
    unfold replayLoop
    by_cases h1 : c.rOff + 1 ≤ c.MaxPayloadSize
    · have hr1 := Read_full c hwf (List.replicate 1 0) (by rw [List.length_replicate]; exact h1)
      rw [List.length_replicate] at hr1
      have hwf1 : ({ c with rOff := c.rOff + 1 } : Chunk).WellFormed := hwf
      by_cases h2 : c.rOff + 1 + 32 ≤ c.MaxPayloadSize
      · have hr2 := Read_full { c with rOff := c.rOff + 1 } hwf1 (List.replicate 32 0)
          (by rw [List.length_replicate]; exact h2)
        rw [List.length_replicate] at hr2
        simp only at hr2
        have hside : ((List.range 1).map fun q => storedByte c.Pix (c.rOff + q)).getD 0 0
            = storedByte c.Pix (1 + 33 * i) := by
          rw [hr]
          rfl
        have hdata : ((List.range 32).map fun q => storedByte c.Pix (c.rOff + 1 + q))
            = (storedStep c.Pix i).2 := by
          show ((List.range 32).map fun q => storedByte c.Pix (c.rOff + 1 + q))
            = (List.range 32).map fun q => storedByte c.Pix (2 + 33 * i + q)
          apply List.map_congr_left
          intro q _
          rw [hr]
          congr 1
          omega
        simp only [hr1, hr2, hside, hdata]
        by_cases hlt : i < t
        · have hg := hgood i (Nat.le_refl i) hlt
          have hnext := ih { c with rOff := c.rOff + 1 + 32 } (i + 1)
          have hrange : List.range' i (t - i) = i :: List.range' (i + 1) (t - (i + 1)) := by
            have e : t - i = (t - (i + 1)) + 1 := by omega
            rw [e]
            rfl
          rw [hrange, List.map_cons]
          unfold replayPath
          rw [List.foldl_cons]
          have hs1 : (storedStep c.Pix i).1 = storedByte c.Pix (1 + 33 * i) := rfl
          have hstep : ∀ prev, replayLoop sha count { c with rOff := c.rOff + 1 + 32 } prev
              = replayPath sha ((List.range' (i + 1) (t - (i + 1))).map (storedStep c.Pix))
                  prev := by
            intro prev
            exact hnext prev hwf (by simp only; rw [hr]; omega) t (by omega) (by omega)
              (fun j hj1 hj2 => hgood j (by omega) hj2)
              (by
                rcases hstop with h | h | h
                · exact Or.inl (by omega)
                · exact Or.inr (Or.inl h)
                · exact Or.inr (Or.inr h))
          unfold replayPath at hstep
          unfold stepInput
          rw [hs1]
          by_cases h0 : storedByte c.Pix (1 + 33 * i) = 0
          · simp only [h0, if_true]
            exact hstep _
          · have h01 : storedByte c.Pix (1 + 33 * i) = 1 := by omega
            simp only [h01, if_true, Nat.one_ne_zero, if_false]
            exact hstep _
        · have hti : t = i := by omega
          rw [hstay hti]
          have hbad : 1 < storedByte c.Pix (1 + 33 * i) := by
            rcases hstop with h | h | h
            · omega
            · exfalso
              omega
            · rw [hti] at h
              exact h
          have hn0 : storedByte c.Pix (1 + 33 * i) ≠ 0 := by omega
          have hn1 : storedByte c.Pix (1 + 33 * i) ≠ 1 := by omega
          simp only [hn0, hn1, if_false]
      · have hr2 := Read_short { c with rOff := c.rOff + 1 } hwf1 (List.replicate 32 0)
          (by rw [List.length_replicate]; omega)
          (by rw [List.length_replicate]; exact h2)
        simp only [hr1, hr2]
        apply (hstay _).symm
        by_contra hne
        have := (hgood i (Nat.le_refl i) (by omega)).1
        have hM : ({ c with rOff := c.rOff + 1 } : Chunk).MaxPayloadSize = c.MaxPayloadSize := rfl
        omega
    · have hr1 := Read_short c hwf (List.replicate 1 0) (by rw [List.length_replicate]; omega)
        (by rw [List.length_replicate]; exact h1)
      simp only [hr1]
      apply (hstay _).symm
      by_contra hne
      have := (hgood i (Nat.le_refl i) (by omega)).1
      omega

/-- The root hash `Decode` derives for an arbitrary chunk that holds at least
one byte: the reading of the path count succeeds, and the root hash is the
running hash of the steps completed before the first step `t` that cannot be
completed. -/
theorem chunkRootHash_garbage (sha : List Nat → List Nat) (c : Chunk) (hwf : c.WellFormed)
    (hr : c.rOff = 0) (hcap : 1 ≤ c.MaxPayloadSize) (t : Nat) (ht : t ≤ storedByte c.Pix 0)
    (hgood : ∀ j, j < t → 34 + 33 * j ≤ c.MaxPayloadSize ∧ storedByte c.Pix (1 + 33 * j) ≤ 1)
    (hstop : t = storedByte c.Pix 0 ∨ c.MaxPayloadSize < 34 + 33 * t ∨
      1 < storedByte c.Pix (1 + 33 * t)) :
    chunkRootHash sha c
      = .ok (replayPath sha ((List.range t).map (storedStep c.Pix)) (c.CalculateHash sha)) := by
  have hr1 := Read_full c hwf (List.replicate 1 0) (by rw [List.length_replicate, hr]; omega)
  rw [List.length_replicate] at hr1
  have hcount : ((List.range 1).map fun q => storedByte c.Pix (c.rOff + q)).getD 0 0
      = storedByte c.Pix 0 := by
    rw [hr]
    rfl
  have hwf1 : ({ c with rOff := c.rOff + 1 } : Chunk).WellFormed := hwf
  have hloop := replayLoop_garbage sha (storedByte c.Pix 0) { c with rOff := c.rOff + 1 } 0
    (c.CalculateHash sha) hwf1 (by simp only; rw [hr]) t (Nat.zero_le t) (by omega)
    (fun j _ hj => hgood j hj)
    (by
      rcases hstop with h | h | h
      · exact Or.inl (by omega)
      · exact Or.inr (Or.inl h)
      · exact Or.inr (Or.inr h))
  rw [Nat.sub_zero, ← List.range_eq_range'] at hloop
  unfold chunkRootHash
  simp only [hr1, hcount]
  congr 1

/-- The number of steps the path replay completes on a chunk, found by a
search from step `0` on. -/
theorem completed_steps_exist (c : Chunk) (L : Nat) :
    ∃ t, t ≤ L ∧
      (∀ j, j < t → 34 + 33 * j ≤ c.MaxPayloadSize ∧ storedByte c.Pix (1 + 33 * j) ≤ 1) ∧
      (t = L ∨ c.MaxPayloadSize < 34 + 33 * t ∨ 1 < storedByte c.Pix (1 + 33 * t)) := by
  induction L with
  | zero => exact ⟨0, Nat.le_refl 0, fun j hj => absurd hj (Nat.not_lt_zero j), Or.inl rfl⟩
  | succ L ih =>
    obtain ⟨t, ht, hgood, hstop⟩ := ih
    rcases hstop with h | h | h
    · by_cases hc : 34 + 33 * L ≤ c.MaxPayloadSize ∧ storedByte c.Pix (1 + 33 * L) ≤ 1
      · refine ⟨L + 1, Nat.le_refl _, ?_, Or.inl rfl⟩
        intro j hj
        by_cases hjL : j < L
        · exact hgood j (by omega)
        · have e : j = L := by omega
          rw [e]
          exact hc
      · refine ⟨L, Nat.le_succ L, fun j hj => hgood j (by omega), Or.inr ?_⟩
        by_cases h1 : 34 + 33 * L ≤ c.MaxPayloadSize
        · exact Or.inr (by
            by_contra h2
            exact hc ⟨h1, by omega⟩)
        · exact Or.inl (by omega)
    · exact ⟨t, by omega, hgood, Or.inr (Or.inl h)⟩
    · exact ⟨t, by omega, hgood, Or.inr (Or.inr h)⟩

/-- The path replay never fails on a chunk that holds at least one byte. -/
theorem chunkRootHash_ok (sha : List Nat → List Nat) (c : Chunk) (hwf : c.WellFormed)
    (hr : c.rOff = 0) (hcap : 1 ≤ c.MaxPayloadSize) : ∃ R, chunkRootHash sha c = .ok R := by
  obtain ⟨t, ht, hgood, hstop⟩ := completed_steps_exist c (storedByte c.Pix 0)
  exact ⟨_, chunkRootHash_garbage sha c hwf hr hcap t ht hgood hstop⟩

/-- A chunk of the planned grid has four bytes per pixel and holds at least
the 34 bytes of a path of one step. -/
theorem cellChunk_capacity (fuel : Nat) (u : Image) (hwf : u.WellFormed) (cx cy : Nat)
    (hp : PlannedGrid fuel u.width u.height cx cy) (x y : Nat) (hx : x < cx) (hy : y < cy) :
    (cellChunk u cx cy x y).WellFormed ∧ (cellChunk u cx cy x y).rOff = 0 ∧
    34 ≤ (cellChunk u cx cy x y).MaxPayloadSize := by
  obtain ⟨hw0, hh0, _, hbits⟩ := plannedGrid_base fuel u.width u.height cx cy hp
  obtain ⟨i1, i2, i3, i4⟩ := gridCell_inside u.width u.height cx cy x y hx hy hw0 hh0
  obtain ⟨s1, s2, s3, _⟩ := subImageToRGBA_spec u (gridCell u.width u.height cx cy x y) hwf
    i1 i2 i3 i4
  obtain ⟨g1, g2⟩ := gridCell_size u.width u.height cx cy x y
  have hclog : 1 ≤ Nat.clog 2 (cx * cy) := by
    apply Nat.clog_pos (by omega)
    exact hp.2.2.2.1
  have harea : u.width / cx * (u.height / cy)
      ≤ (gridCell u.width u.height cx cy x y).Dx * (gridCell u.width u.height cx cy x y).Dy :=
    Nat.mul_le_mul g1 g2
  refine ⟨?_, rfl, ?_⟩
  · unfold Chunk.WellFormed cellChunk Chunk.ofImage Chunk.fresh
    simp only [s1, s2, s3]
  · unfold Chunk.MaxPayloadSize Chunk.LSBCount Chunk.PixelCount BitsPerPixel cellChunk
      Chunk.ofImage Chunk.fresh
    simp only [s3]
    omega

/-- The chunk loop of `Decode` returns no error on an image of the planned
grid, whatever its bytes. -/
theorem decodeRows_ok (sha : List Nat → List Nat) (fuel : Nat) (u : Image) (hwf : u.WellFormed)
    (cx cy : Nat) (hp : PlannedGrid fuel u.width u.height cx cy) :
    ∃ m, decodeRows sha u (buildBounds u.width u.height cx cy) 0 [] = .ok m := by
  have hroot : ∀ x y, x < cx → y < cy →
      chunkRootHash sha (cellChunk u cx cy x y)
        = .ok ((fun x y => match chunkRootHash sha (cellChunk u cx cy x y) with
            | .ok R => R
            | .error _ => []) x y) := by
    intro x y hx hy
    obtain ⟨w1, w2, w3⟩ := cellChunk_capacity fuel u hwf cx cy hp x y hx hy
    obtain ⟨R, hR⟩ := chunkRootHash_ok sha (cellChunk u cx cy x y) w1 w2 (by omega)
    simp only [hR]
  exact ⟨_, decodeRows_buildBounds sha u cx cy _ hroot⟩

/-- C17, path replay tolerates garbage: for every chunk of the planned grid of
an image with arbitrary bytes, the reading of the path count succeeds and the
replay stops at the first step `t` that cannot be completed, because the read
of its side byte or of its 32 sibling bytes runs past the payload
(`MaxPayloadSize < 34 + 33 * t`) or because its side byte is neither `0` nor
`1`; the derived root is the running hash over the `t` steps completed before,
and `Decode` returns a verdict, not an error. -/
theorem replay_tolerates_garbage (sha : List Nat → List Nat) (fuel : Nat)
    (order : RootHashes → RootHashes) (img : Image) (hwf : img.WellFormed)
    (grid : List (List Rectangle))
    (hg : CalculateChunkBounds fuel img.width img.height = some grid) :
    (∀ x y r, gridAt grid x y = some r →
      ∀ t, t ≤ storedByte (Chunk.ofImage (subImageToRGBA img r)).Pix 0 →
        (∀ j, j < t → 34 + 33 * j ≤ (Chunk.ofImage (subImageToRGBA img r)).MaxPayloadSize ∧
          storedByte (Chunk.ofImage (subImageToRGBA img r)).Pix (1 + 33 * j) ≤ 1) →
        (t = storedByte (Chunk.ofImage (subImageToRGBA img r)).Pix 0 ∨
          (Chunk.ofImage (subImageToRGBA img r)).MaxPayloadSize < 34 + 33 * t ∨
          1 < storedByte (Chunk.ofImage (subImageToRGBA img r)).Pix (1 + 33 * t)) →
        chunkRootHash sha (Chunk.ofImage (subImageToRGBA img r))
          = .ok (replayPath sha
              ((List.range t).map (storedStep (Chunk.ofImage (subImageToRGBA img r)).Pix))
              ((Chunk.ofImage (subImageToRGBA img r)).CalculateHash sha))) ∧
    (∀ x y r, gridAt grid x y = some r →
      ∃ R, chunkRootHash sha (Chunk.ofImage (subImageToRGBA img r)) = .ok R) ∧
    (∃ m, decodeRows sha img grid 0 [] = .ok m) ∧
    ∃ v, Decode sha fuel order img = some (.ok v) := by
  obtain ⟨cx, cy, hgrid, hp⟩ := plannedGrid_of_bounds fuel img.width img.height grid hg
  have hcell : ∀ x y r, gridAt grid x y = some r →
      x < cx ∧ y < cy ∧ Chunk.ofImage (subImageToRGBA img r) = cellChunk img cx cy x y := by
    intro x y r hr
    rw [hgrid, gridAt_buildBounds] at hr
    split at hr
    · rename_i hxy
      injection hr with hr
      rw [← hr]
      exact ⟨hxy.1, hxy.2, rfl⟩
    · exact absurd hr (by simp)
  obtain ⟨m, hm⟩ := decodeRows_ok sha fuel img hwf cx cy hp
  rw [← hgrid] at hm
  refine ⟨?_, ?_, ⟨m, hm⟩, ?_⟩
  · intro x y r hr t ht hgood hstop
    obtain ⟨hx, hy, e⟩ := hcell x y r hr
    obtain ⟨w1, w2, w3⟩ := cellChunk_capacity fuel img hwf cx cy hp x y hx hy
    rw [e] at ht hgood hstop ⊢
    exact chunkRootHash_garbage sha _ w1 w2 (by omega) t ht hgood hstop
  · intro x y r hr
    obtain ⟨hx, hy, e⟩ := hcell x y r hr
    obtain ⟨w1, w2, w3⟩ := cellChunk_capacity fuel img hwf cx cy hp x y hx hy
    rw [e]
    exact chunkRootHash_ok sha _ w1 w2 (by omega)
  · unfold Decode
    simp only [hg, hm]
    split
    · exact ⟨_, rfl⟩
    · exact ⟨_, rfl⟩

set_option maxRecDepth 100000 in
/-- Witness for C17: in an image of 16 by 16 pixels with all bytes `255` every
chunk stores the path count `255` and the side byte `255`; the replay of the
chunk `(0, 0)` stops before its first step, the derived root is the content
hash of the chunk, and `Decode` returns a verdict. -/
theorem replay_tolerates_garbage_witness :
    ({ Pix := List.replicate 1024 255, width := 16, height := 16 } : Image).WellFormed ∧
    CalculateChunkBounds 10 16 16 = some [[⟨0, 0, 8, 16⟩], [⟨8, 0, 16, 16⟩]] ∧
    storedByte (Chunk.ofImage (subImageToRGBA
      { Pix := List.replicate 1024 255, width := 16, height := 16 } ⟨0, 0, 8, 16⟩)).Pix 0 = 255 ∧
    storedByte (Chunk.ofImage (subImageToRGBA
      { Pix := List.replicate 1024 255, width := 16, height := 16 } ⟨0, 0, 8, 16⟩)).Pix 1 = 255 ∧
    chunkRootHash toyHash (Chunk.ofImage (subImageToRGBA
        { Pix := List.replicate 1024 255, width := 16, height := 16 } ⟨0, 0, 8, 16⟩))
      = .ok ((Chunk.ofImage (subImageToRGBA
        { Pix := List.replicate 1024 255, width := 16, height := 16 } ⟨0, 0, 8, 16⟩)).CalculateHash
          toyHash) ∧
    ∃ v, Decode toyHash 10 id { Pix := List.replicate 1024 255, width := 16, height := 16 }
      = some (.ok v) := by
  have hwf : ({ Pix := List.replicate 1024 255, width := 16, height := 16 } : Image).WellFormed :=
    List.length_replicate _ _
  have hg : CalculateChunkBounds 10 16 16 = some [[⟨0, 0, 8, 16⟩], [⟨8, 0, 16, 16⟩]] := by
    decide
  have h0 : storedByte (Chunk.ofImage (subImageToRGBA
      { Pix := List.replicate 1024 255, width := 16, height := 16 } ⟨0, 0, 8, 16⟩)).Pix 0
        = 255 := by
    decide
  have h1 : storedByte (Chunk.ofImage (subImageToRGBA
      { Pix := List.replicate 1024 255, width := 16, height := 16 } ⟨0, 0, 8, 16⟩)).Pix 1
        = 255 := by
    decide
  have h := replay_tolerates_garbage toyHash 10 id
    { Pix := List.replicate 1024 255, width := 16, height := 16 } hwf _ hg
  exact ⟨hwf, hg, h0, h1,
    h.1 0 0 ⟨0, 0, 8, 16⟩ rfl 0 (Nat.zero_le _) (fun j hj => absurd hj (Nat.not_lt_zero j))
      (Or.inr (Or.inr (by rw [Nat.mul_zero, Nat.add_zero, h1]; decide))),
    h.2.2.2⟩

/-! ## The path read from a chunk and its replay -/

/-- The replay loop of `Decode` hashes the steps it reads, starting from the
running hash. -/
theorem replayLoop_eq_replaySteps (sha : List Nat → List Nat) (count : Nat) :
    ∀ (c : Chunk) (prevHash : List Nat),
      replayLoop sha count c prevHash = replayPath sha (replaySteps count c) prevHash := by
  induction count with
  | zero =>
    intro c prevHash
    rfl
  | succ count ih =>
    intro c prevHash
    unfold replayLoop replaySteps
    simp only
    split
    · rfl
    · split
      · rfl
      · split
        · rename_i h0
          unfold replayPath
          rw [List.foldl_cons]
          unfold stepInput
          simp only [h0, if_true]
          exact ih _ _
        · split
          · rename_i h0 h1
            unfold replayPath
            rw [List.foldl_cons]
            unfold stepInput
            simp only [h1, Nat.one_ne_zero, if_false]
            exact ih _ _
          · rfl

/-- The root hash `Decode` derives for a chunk is the replay of the path it
reads from the chunk, started at the content hash. -/
theorem chunkRootHash_eq_chunkPath (sha : List Nat → List Nat) (c : Chunk) :
    chunkRootHash sha c
      = (chunkPath c).map fun path => replayPath sha path (c.CalculateHash sha) := by
  unfold chunkRootHash chunkPath
  simp only
  split
  · rfl
  · rw [replayLoop_eq_replaySteps]
    rfl

/-- The least significant bits of a buffer start with the bytes `S` when they
hold the bits of `S`, first bit of each byte first. -/
theorem storesBytes_of_bits (pix S : List Nat) (hcap : S.length ≤ pix.length / 4 * 3 / 8)
    (hS : ∀ b ∈ S, b < 256)
    (hbits : ∀ m j, m < S.length → j < 8 →
      GetLSB (pix.getD (8 * m + j + (8 * m + j) / 3) 0) = (S.getD m 0).testBit (7 - j)) :
    StoresBytes pix S := by
  refine ⟨hcap, hS, ?_⟩
  intro m j hm hj
  rw [readBool_eq_testBit, ← hbits m j hm hj]
  unfold pixIdx BitsPerPixel
  rw [Nat.mul_comm m 8]

/-- The two reads of one replay step on a chunk that stores a path. -/
theorem Read_step_stores (pre rest : List (Nat × List Nat)) (step : Nat × List Nat)
    (hgood : ∀ s ∈ pre ++ step :: rest, s.1 ≤ 1 ∧ IsHash s.2) (c : Chunk)
    (hst : StoresBytes c.Pix (serializePath (pre ++ step :: rest)))
    (hr : c.rOff = 1 + 33 * pre.length) :
    c.Read (List.replicate 1 0) = ({ c with rOff := c.rOff + 1 }, [step.1], 1, none) ∧
    ({ c with rOff := c.rOff + 1 } : Chunk).Read (List.replicate 32 0)
      = ({ c with rOff := c.rOff + 1 + 32 }, step.2, 32, none) := by
  have hlen32 : ∀ s ∈ pre ++ step :: rest, s.2.length = 32 := fun s hs => (hgood s hs).2.1
  have hstep := hgood step (by simp)
  have htotal := serializePath_length (pre ++ step :: rest) hlen32
  rw [List.length_append, List.length_cons] at htotal
  have hdrop := serializePath_drop pre rest step
    (fun s hs => hlen32 s (List.mem_append_left _ hs))
  have hside : step.1 % 256 = step.1 := Nat.mod_eq_of_lt (by omega)
  constructor
  · have := Read_stores c _ (List.replicate 1 0) hst (by
      rw [List.length_replicate, htotal, hr]
      omega)
    rw [List.length_replicate, hr, hdrop, hside] at this
    rw [this, hr]
    rfl
  · have := Read_stores { c with rOff := c.rOff + 1 } _ (List.replicate 32 0) hst (by
      rw [List.length_replicate, htotal]
      simp only
      rw [hr]
      omega)
    rw [List.length_replicate] at this
    simp only at this
    rw [this]
    have e : (serializePath (pre ++ step :: rest)).drop (c.rOff + 1)
        = step.2 ++ serializeSteps rest := by
      rw [hr, ← List.drop_drop, hdrop]
      rfl
    rw [e, List.take_left' hstep.2.1]

/-- The replay loop reads back the steps of a stored path. -/
theorem replaySteps_stores (post pre : List (Nat × List Nat))
    (hgood : ∀ s ∈ pre ++ post, s.1 ≤ 1 ∧ IsHash s.2) (c : Chunk)
    (hst : StoresBytes c.Pix (serializePath (pre ++ post)))
    (hr : c.rOff = 1 + 33 * pre.length) :
    replaySteps post.length c = post := by
  induction post generalizing pre c with
  | nil => rfl
  | cons step rest ih =>
    obtain ⟨hr1, hr2⟩ := Read_step_stores pre rest step hgood c hst hr
    have hstep := hgood step (by simp)
    have hnext := ih (pre ++ [step]) (by
        intro s hs
        apply hgood
        simpa using hs)
      { c with rOff := c.rOff + 1 + 32 }
      (by
        simp only [List.append_assoc, List.singleton_append]
        exact hst)
      (by
        simp only [List.length_append, List.length_singleton]
        rw [hr]
        omega)
    simp only [List.length_cons]
    unfold replaySteps
    simp only [hr1, hr2, List.getD_cons_zero, hnext]
    by_cases h0 : step.1 = 0
    · simp only [h0, if_true]
      exact congrArg (fun a => (a, step.2) :: rest) h0.symm
    · have h1 : step.1 = 1 := by omega
      simp only [h1, Nat.one_ne_zero, if_false, if_true]
      exact congrArg (fun a => (a, step.2) :: rest) h1.symm

/-- The path `Decode` reads from a chunk that stores a path is that path. -/
theorem chunkPath_stores (path : List (Nat × List Nat))
    (hgood : ∀ s ∈ path, s.1 ≤ 1 ∧ IsHash s.2) (hL : path.length < 256) (c : Chunk)
    (hst : StoresBytes c.Pix (serializePath path)) (hr : c.rOff = 0) :
    chunkPath c = .ok path := by
  have hlen := serializePath_length path (fun s hs => (hgood s hs).2.1)
  have h1 := Read_stores c _ (List.replicate 1 0) hst (by
    rw [List.length_replicate, hlen, hr]
    omega)
  rw [List.length_replicate, hr, List.drop_zero, serializePath_eq, List.take_succ_cons,
    List.take_zero, Nat.mod_eq_of_lt hL] at h1
  have h2 := replaySteps_stores path [] (by simpa using hgood) { c with rOff := 0 + 1 }
    (by simpa using hst) (by simp)
  unfold chunkPath
  simp only [h1, List.getD_cons_zero, h2]

/-- A list split at position `i`. -/
theorem split_at_index (path : List (Nat × List Nat)) (i : Nat) (hi : i < path.length) :
    path = path.take i ++ path.getD i (0, []) :: path.drop (i + 1) ∧ (path.take i).length = i := by
  constructor
  · rw [List.getD_eq_getElem _ _ hi, ← List.drop_eq_getElem_cons hi, List.take_append_drop]
  · rw [List.length_take]
    omega

/-- The bytes of step `i` in the buffer `Encode` writes. -/
theorem serializePath_step (path : List (Nat × List Nat))
    (hgood : ∀ s ∈ path, s.1 ≤ 1 ∧ IsHash s.2) (i : Nat) (hi : i < path.length) :
    (serializePath path).getD (1 + 33 * i) 0 = (path.getD i (0, [])).1 ∧
    ((serializePath path).drop (2 + 33 * i)).take 32 = (path.getD i (0, [])).2 := by
  obtain ⟨hsplit, hlen⟩ := split_at_index path i hi
  have hmem : path.getD i (0, []) ∈ path := by
    rw [List.getD_eq_getElem _ _ hi]
    exact List.getElem_mem hi
  have hstep := hgood _ hmem
  have hdrop := serializePath_drop (path.take i) (path.drop (i + 1)) (path.getD i (0, []))
    (fun s hs => (hgood s (List.mem_of_mem_take hs)).2.1)
  rw [← hsplit, hlen, Nat.mod_eq_of_lt (by omega)] at hdrop
  constructor
  · have e : (serializePath path).getD (1 + 33 * i) 0
        = ((serializePath path).drop (1 + 33 * i)).getD 0 0 := by
      simp only [List.getD_eq_getElem?_getD, List.getElem?_drop, Nat.add_zero]
    rw [e, hdrop]
    rfl
  · have e : (serializePath path).drop (2 + 33 * i)
        = ((serializePath path).drop (1 + 33 * i)).drop 1 := by
      rw [List.drop_drop]
      congr 1
      omega
    rw [e, hdrop, List.drop_one, List.tail_cons, List.take_left' hstep.2.1]

/-- The steps are well formed: sides `0` or `1`, siblings of 32 bytes. -/
theorem steps_good (path : List (Nat × List Nat)) (hside : ∀ s ∈ path, s.1 = 0 ∨ s.1 = 1)
    (hsib : ∀ s ∈ path, s.2.length = 32 ∧ ∀ b ∈ s.2, b < 256) :
    ∀ s ∈ path, s.1 ≤ 1 ∧ IsHash s.2 := by
  intro s hs
  refine ⟨?_, hsib s hs⟩
  rcases hside s hs with h | h <;> omega

/-- The replay of a path whose sides are `0` or `1`, as a fold. -/
theorem replayPath_eq_foldl (sha : List Nat → List Nat) (path : List (Nat × List Nat))
    (leaf : List Nat) :
    replayPath sha path leaf
      = path.foldl (fun running step =>
          if step.1 = 0 then sha (step.2 ++ running) else sha (running ++ step.2)) leaf := by
  unfold replayPath
  congr 1
  funext running step
  unfold stepInput
  split <;> rfl

/-- C16, path replay semantics: for a chunk whose least significant bits start
with the payload `[L][side, sibling]...` of a path of `L ≤ 255` steps (sides
`0` or `1`, siblings of 32 bytes, all within the payload size), the root
`Decode` derives is the left fold over the steps that starts from the content
hash of the chunk and maps the running hash to `sha (sibling ++ running)` for
side `0` and to `sha (running ++ sibling)` for side `1`; without steps it is
the content hash itself. -/
theorem path_replay_semantics (sha : List Nat → List Nat) (path : List (Nat × List Nat))
    (hside : ∀ s ∈ path, s.1 = 0 ∨ s.1 = 1)
    (hsib : ∀ s ∈ path, s.2.length = 32 ∧ ∀ b ∈ s.2, b < 256) (hL : path.length ≤ 255)
    (c : Chunk) (hr : c.rOff = 0) (hcap : (serializePath path).length ≤ c.MaxPayloadSize)
    (hbits : ∀ m j, m < (serializePath path).length → j < 8 →
      GetLSB (c.Pix.getD (8 * m + j + (8 * m + j) / 3) 0)
        = ((serializePath path).getD m 0).testBit (7 - j)) :
    chunkRootHash sha c
      = .ok (path.foldl (fun running step =>
          if step.1 = 0 then sha (step.2 ++ running) else sha (running ++ step.2))
          (c.CalculateHash sha)) ∧
    (path = [] → chunkRootHash sha c = .ok (c.CalculateHash sha)) := by
  have hgood := steps_good path hside hsib
  have hst := storesBytes_of_bits c.Pix (serializePath path) hcap
    (serializePath_bytes path (fun s hs => (hgood s hs).2)) hbits
  have h := (chunkRootHash_stores sha path hgood (by omega) c hst hr).1
  rw [replayPath_eq_foldl] at h
  refine ⟨h, ?_⟩
  intro hnil
  rw [h, hnil]
  rfl

/-- C18, wire format: for a path of `L ≤ 255` steps with sides `0` or `1` and
siblings of 32 bytes, the buffer `Encode` writes has `1 + 33 * L` bytes: byte
`0` is `L`, and step `i` has its side byte at position `1 + 33 * i` and its
sibling in the 32 bytes after it; written to a chunk that can hold it, the
buffer is read back by `Decode` (one byte with the number of steps, then for
each step one side byte and 32 sibling bytes) as the path itself. -/
theorem wire_format (path : List (Nat × List Nat)) (hside : ∀ s ∈ path, s.1 = 0 ∨ s.1 = 1)
    (hsib : ∀ s ∈ path, s.2.length = 32 ∧ ∀ b ∈ s.2, b < 256) (hL : path.length ≤ 255) :
    (serializePath path).length = 1 + 33 * path.length ∧
    (serializePath path).getD 0 0 = path.length ∧
    (∀ i, i < path.length →
      (serializePath path).getD (1 + 33 * i) 0 = (path.getD i (0, [])).1 ∧
      ((serializePath path).drop (2 + 33 * i)).take 32 = (path.getD i (0, [])).2) ∧
    (∀ c : Chunk, c.rOff = 0 → c.wOff = 0 → 1 + 33 * path.length ≤ c.MaxPayloadSize →
      (c.Write (serializePath path)).2 = (1 + 33 * path.length, none) ∧
      chunkPath (c.Write (serializePath path)).1 = .ok path) := by
  have hgood := steps_good path hside hsib
  have hlen := serializePath_length path (fun s hs => (hgood s hs).2.1)
  refine ⟨hlen, ?_, serializePath_step path hgood, ?_⟩
  · rw [serializePath_eq, List.getD_cons_zero, Nat.mod_eq_of_lt (by omega)]
  · intro c hr hw hcap
    have hM : c.Pix.length / 4 * 3 / 8 = c.MaxPayloadSize := rfl
    have hlim := payload_le_write_limit c.Pix.length
    have hcount := writeLoop_count c.wOff (serializePath path) 0 0 c.Pix
    rw [hw] at hcount
    simp only [Nat.add_zero, Nat.zero_add, Nat.sub_zero, hlen] at hcount
    have hfit : 1 + 33 * path.length ≤ (c.Pix.length - c.Pix.length / 4) / 8 := by omega
    have hn : (c.Write (serializePath path)).2.1 = 1 + 33 * path.length := by
      show (writeLoop c.wOff (serializePath path) 0 0 c.Pix).2.1 = _
      rw [hw, hcount.1]
      omega
    have he : (c.Write (serializePath path)).2.2 = none := by
      show (writeLoop c.wOff (serializePath path) 0 0 c.Pix).2.2 = _
      rw [hw]
      exact hcount.2.1.mpr hfit
    have hst := storesBytes_writeLoop (serializePath path) 0 c.Pix
      (serializePath_bytes path (fun s hs => (hgood s hs).2)) (by rw [hlen, hM]; exact hcap)
    constructor
    · exact Prod.ext hn he
    · apply chunkPath_stores path hgood (by omega)
      · show StoresBytes (writeLoop c.wOff (serializePath path) 0 0 c.Pix).1 (serializePath path)
        rw [hw]
        exact hst
      · exact hr

/-- The least significant bits of a fresh chunk after `Write` of bytes that fit. -/
theorem written_bits (c : Chunk) (S : List Nat) (hw : c.wOff = 0) (hS : ∀ b ∈ S, b < 256)
    (hfit : S.length ≤ c.MaxPayloadSize) :
    ∀ m j, m < S.length → j < 8 →
      GetLSB ((c.Write S).1.Pix.getD (8 * m + j + (8 * m + j) / 3) 0)
        = (S.getD m 0).testBit (7 - j) := by
  intro m j hm hj
  have hst := storesBytes_writeLoop S 0 c.Pix hS hfit
  have h := hst.2.2 m j hm hj
  rw [readBool_eq_testBit] at h
  rw [← h]
  show GetLSB ((writeLoop c.wOff S 0 0 c.Pix).1.getD _ 0) = _
  rw [hw]
  unfold pixIdx BitsPerPixel
  rw [Nat.mul_comm m 8]

set_option maxRecDepth 100000 in
/-- Witness for C16: a chunk of 91 by 1 pixels stores a path of one step with
side `1`; the root derived is the hash of the content hash followed by the
sibling. -/
theorem path_replay_semantics_witness :
    (serializePath [(1, List.replicate 32 7)]).length
      ≤ ((Chunk.fresh (List.replicate 364 0) 91 1).Write
          (serializePath [(1, List.replicate 32 7)])).1.MaxPayloadSize ∧
    chunkRootHash toyHash ((Chunk.fresh (List.replicate 364 0) 91 1).Write
        (serializePath [(1, List.replicate 32 7)])).1
      = .ok (toyHash (((Chunk.fresh (List.replicate 364 0) 91 1).Write
          (serializePath [(1, List.replicate 32 7)])).1.CalculateHash toyHash
            ++ List.replicate 32 7)) := by
  have hcap : (serializePath [(1, List.replicate 32 7)]).length
      ≤ (Chunk.fresh (List.replicate 364 0) 91 1).MaxPayloadSize := by decide
  have hcap' : (serializePath [(1, List.replicate 32 7)]).length
      ≤ ((Chunk.fresh (List.replicate 364 0) 91 1).Write
          (serializePath [(1, List.replicate 32 7)])).1.MaxPayloadSize := by
    have e : ((Chunk.fresh (List.replicate 364 0) 91 1).Write
        (serializePath [(1, List.replicate 32 7)])).1.Pix.length
          = (Chunk.fresh (List.replicate 364 0) 91 1).Pix.length :=
      writeLoop_length _ _ _ _ _
    unfold Chunk.MaxPayloadSize Chunk.LSBCount Chunk.PixelCount at hcap ⊢
    rw [e]
    exact hcap
  have hbits := written_bits (Chunk.fresh (List.replicate 364 0) 91 1)
    (serializePath [(1, List.replicate 32 7)]) rfl (by decide) hcap
  exact ⟨hcap',
    (path_replay_semantics toyHash [(1, List.replicate 32 7)] (by decide) (by decide)
      (by decide) _ rfl hcap' hbits).1⟩

set_option maxRecDepth 100000 in
/-- Witness for C18: the buffer of a path of one step with side `1` is the
path count `1`, the side byte `1` and the 32 sibling bytes; written to a chunk
of 91 by 1 pixels it is read back as the path. -/
theorem wire_format_witness :
    (∀ s ∈ [(1, List.replicate 32 7)], s.1 = 0 ∨ s.1 = 1) ∧
    (∀ s ∈ [(1, List.replicate 32 7)], s.2.length = 32 ∧ ∀ b ∈ s.2, b < 256) ∧
    serializePath [(1, List.replicate 32 7)] = 1 :: 1 :: List.replicate 32 7 ∧
    1 + 33 * [(1, List.replicate 32 7)].length
      ≤ (Chunk.fresh (List.replicate 364 0) 91 1).MaxPayloadSize ∧
    chunkPath ((Chunk.fresh (List.replicate 364 0) 91 1).Write
      (serializePath [(1, List.replicate 32 7)])).1 = .ok [(1, List.replicate 32 7)] :=
  ⟨by decide, by decide, by decide, by decide,
   ((wire_format [(1, List.replicate 32 7)] (by decide) (by decide) (by decide)).2.2.2
     (Chunk.fresh (List.replicate 364 0) 91 1) rfl rfl (by decide)).2⟩

/-! ## The map of root hashes -/

/-- The keys of the map after one more root hash. -/
theorem add_keys (m : RootHashes) (R : List Nat) (i : ChunkIndex) :
    (m.add R i).map Prod.fst
      = if R ∈ m.map Prod.fst then m.map Prod.fst else m.map Prod.fst ++ [R] := by
  induction m with
  | nil => rfl
  | cons e rest ih =>
    obtain ⟨k, v⟩ := e
    unfold RootHashes.add
    by_cases hk : k = R
    · simp [hk]
    · have hk' : ¬ R = k := fun h => hk h.symm
      simp only [hk, if_false, List.map_cons, ih, List.mem_cons, hk', false_or]
      split <;> rfl

/-- The keys of the map stay distinct. -/
theorem add_nodup (m : RootHashes) (R : List Nat) (i : ChunkIndex)
    (h : (m.map Prod.fst).Nodup) : ((m.add R i).map Prod.fst).Nodup := by
  rw [add_keys]
  split
  · exact h
  · rename_i hR
    rw [List.nodup_append]
    refine ⟨h, List.nodup_singleton R, ?_⟩
    intro a ha hb
    rw [List.mem_singleton] at hb
    exact hR (hb ▸ ha)

/-- The entry of a key after one more root hash. -/
theorem add_lookup (m : RootHashes) (R : List Nat) (i : ChunkIndex) (k : List Nat) :
    ((m.add R i).lookup k).getD []
      = if k = R then (m.lookup k).getD [] ++ [i] else (m.lookup k).getD [] := by
  induction m with
  | nil =>
    unfold RootHashes.add
    by_cases hk : k = R
    · simp [hk, List.lookup]
    · have : (k == R) = false := by simpa using hk
      simp [hk, List.lookup, this]
  | cons e rest ih =>
    obtain ⟨k', v⟩ := e
    unfold RootHashes.add
    by_cases hR : k' = R
    · subst hR
      by_cases hk : k = k'
      · subst hk
        simp [List.lookup]
      · have : (k == k') = false := by simpa using hk
        simp [hk, List.lookup, this]
    · simp only [hR, if_false]
      by_cases hk : k = k'
      · subst hk
        simp [List.lookup, hR]
      · have : (k == k') = false := by simpa using hk
        simp only [List.lookup, this]
        exact ih

/-- Every entry of a map with distinct keys is the entry of its key. -/
theorem lookup_of_mem (m : RootHashes) (h : (m.map Prod.fst).Nodup) (e : List Nat × List ChunkIndex)
    (he : e ∈ m) : m.lookup e.1 = some e.2 := by
  induction m with
  | nil => exact absurd he (List.not_mem_nil e)
  | cons e' rest ih =>
    obtain ⟨k', v'⟩ := e'
    rw [List.map_cons, List.nodup_cons] at h
    rcases List.mem_cons.mp he with h1 | h1
    · subst h1
      simp [List.lookup]
    · have hne : e.1 ≠ k' := by
        intro heq
        apply h.1
        rw [← heq]
        exact List.mem_map.mpr ⟨e, h1, rfl⟩
      have : (e.1 == k') = false := by simpa using hne
      simp only [List.lookup, this]
      exact ih h.2 h1

/-- The keys of the map stay distinct when root hashes are added in turn. -/
theorem addAll_nodup (roots : List (List Nat × ChunkIndex)) :
    ∀ m : RootHashes, (m.map Prod.fst).Nodup → ((m.addAll roots).map Prod.fst).Nodup := by
  induction roots with
  | nil =>
    intro m h
    exact h
  | cons e rest ih =>
    intro m h
    rw [addAll_cons]
    exact ih _ (add_nodup m e.1 e.2 h)

/-- The keys of the map after root hashes have been added in turn. -/
theorem addAll_mem_keys (roots : List (List Nat × ChunkIndex)) :
    ∀ (m : RootHashes) (R : List Nat),
      R ∈ (m.addAll roots).map Prod.fst ↔ R ∈ m.map Prod.fst ∨ R ∈ roots.map Prod.fst := by
  induction roots with
  | nil =>
    intro m R
    simp [RootHashes.addAll]
  | cons e rest ih =>
    intro m R
    rw [addAll_cons, ih, add_keys, List.map_cons, List.mem_cons]
    split
    · rename_i he
      constructor
      · rintro (h | h)
        · exact Or.inl h
        · exact Or.inr (Or.inr h)
      · rintro (h | h | h)
        · exact Or.inl h
        · exact Or.inl (h ▸ he)
        · exact Or.inr h
    · rw [List.mem_append, List.mem_singleton]
      tauto

/-- The entry of a key after root hashes have been added in turn. -/
theorem addAll_lookup (roots : List (List Nat × ChunkIndex)) :
    ∀ (m : RootHashes) (k : List Nat),
      ((m.addAll roots).lookup k).getD []
        = (m.lookup k).getD [] ++ (roots.filter fun e => e.1 = k).map Prod.snd := by
  induction roots with
  | nil =>
    intro m k
    simp [RootHashes.addAll]
  | cons e rest ih =>
    intro m k
    rw [addAll_cons, ih, add_lookup, List.filter_cons]
    by_cases hk : k = e.1
    · have hk' : e.1 = k := hk.symm
      simp [hk']
    · have hk' : ¬ e.1 = k := fun h => hk h.symm
      simp [hk, hk']

/-- The map `Decode` builds from the root hashes of the chunks: its keys are
distinct, they are the root hashes that occur, and the entry of a key lists
the chunks with this root hash. -/
theorem addAll_entries (roots : List (List Nat × ChunkIndex)) :
    ((RootHashes.addAll [] roots).map Prod.fst).Nodup ∧
    (∀ e ∈ RootHashes.addAll [] roots,
      e.1 ∈ roots.map Prod.fst ∧ e.2 = (roots.filter fun r => r.1 = e.1).map Prod.snd) ∧
    (∀ R ∈ roots.map Prod.fst, ∃ e ∈ RootHashes.addAll [] roots, e.1 = R) := by
  have hnd := addAll_nodup roots [] List.nodup_nil
  refine ⟨hnd, ?_, ?_⟩
  · intro e he
    constructor
    · have := (addAll_mem_keys roots [] e.1).mp (List.mem_map.mpr ⟨e, he, rfl⟩)
      rcases this with h | h
      · exact absurd h (List.not_mem_nil _)
      · exact h
    · have h1 := lookup_of_mem _ hnd e he
      have h2 := addAll_lookup roots [] e.1
      rw [h1] at h2
      simpa using h2
  · intro R hR
    have := (addAll_mem_keys roots [] R).mpr (Or.inr hR)
    obtain ⟨e, he, rfl⟩ := List.mem_map.mp this
    exact ⟨e, he, rfl⟩

/-! ## The selection of the Merkle root -/

/-- The loop that selects the root hash, entered with the choice `acc`: the
choice afterwards has at least the chunks of `acc` and of every entry, and it
is `acc` or an entry. -/
theorem selectRoot_fold (l : RootHashes) :
    ∀ acc : Nat × List Nat,
      acc.1 ≤ (l.foldl (fun (acc : Nat × List Nat) entry =>
        if entry.2.length > acc.1 then (entry.2.length, entry.1) else acc) acc).1 ∧
      (∀ e ∈ l, e.2.length ≤ (l.foldl (fun (acc : Nat × List Nat) entry =>
        if entry.2.length > acc.1 then (entry.2.length, entry.1) else acc) acc).1) ∧
      ((l.foldl (fun (acc : Nat × List Nat) entry =>
        if entry.2.length > acc.1 then (entry.2.length, entry.1) else acc) acc) = acc ∨
       ∃ e ∈ l, (l.foldl (fun (acc : Nat × List Nat) entry =>
        if entry.2.length > acc.1 then (entry.2.length, entry.1) else acc) acc)
          = (e.2.length, e.1)) := by
  induction l with
  | nil =>
    intro acc
    exact ⟨Nat.le_refl _, fun e he => absurd he (List.not_mem_nil e), Or.inl rfl⟩
  | cons e rest ih =>
    intro acc
    rw [List.foldl_cons]
    obtain ⟨h1, h2, h3⟩ := ih (if e.2.length > acc.1 then (e.2.length, e.1) else acc)
    have hstep : acc.1 ≤ (if e.2.length > acc.1 then (e.2.length, e.1) else acc).1 ∧
        e.2.length ≤ (if e.2.length > acc.1 then (e.2.length, e.1) else acc).1 := by
      split
      · exact ⟨by simp only; omega, Nat.le_refl _⟩
      · exact ⟨Nat.le_refl _, by omega⟩
    refine ⟨by omega, ?_, ?_⟩
    · intro e' he'
      rcases List.mem_cons.mp he' with h | h
      · rw [h]
        omega
      · exact h2 e' h
    · rcases h3 with h | ⟨e', he', h⟩
      · rw [h]
        split
        · exact Or.inr ⟨e, List.mem_cons_self e rest, rfl⟩
        · exact Or.inl rfl
      · exact Or.inr ⟨e', List.mem_cons_of_mem e he', h⟩

/-- The root hash selected from a map with an entry, all entries with chunks:
it is the key of an entry that has at least as many chunks as every entry. -/
theorem selectRoot_max (l : RootHashes) (hne : l ≠ []) (hpos : ∀ e ∈ l, e.2 ≠ []) :
    ∃ e ∈ l, e.1 = (selectRoot l).2 ∧ ∀ e' ∈ l, e'.2.length ≤ e.2.length := by
  obtain ⟨_, h2, h3⟩ := selectRoot_fold l (0, [])
  obtain ⟨e0, he0⟩ := List.exists_mem_of_ne_nil l hne
  have hlen0 : 0 < e0.2.length := List.length_pos.mpr (hpos e0 he0)
  have hle0 := h2 e0 he0
  rcases h3 with h | ⟨e, he, h⟩
  · rw [h] at hle0
    simp only at hle0
    omega
  · refine ⟨e, he, ?_, ?_⟩
    · unfold selectRoot
      rw [h]
    · intro e' he'
      have := h2 e' he'
      rw [h] at this
      exact this

/-- The verdict `Decode` computes from the root hashes of the chunks: the map
has one entry exactly when all root hashes agree; the selected root hash is the
root hash of a chunk, no root hash has more chunks; the masked chunks are the
chunks whose root hash is not the selected one. -/
theorem verdict_of_roots (order : RootHashes → RootHashes) (horder : ∀ m, (order m).Perm m)
    (roots : List (List Nat × ChunkIndex)) (hne : roots ≠ []) :
    ((RootHashes.addAll [] roots).length = 1 ↔ ∀ a ∈ roots, ∀ b ∈ roots, a.1 = b.1) ∧
    (selectRoot (order (RootHashes.addAll [] roots))).2 ∈ roots.map Prod.fst ∧
    (∀ R, (roots.filter fun r => r.1 = R).length
      ≤ (roots.filter fun r =>
          r.1 = (selectRoot (order (RootHashes.addAll [] roots))).2).length) ∧
    (∀ i, i ∈ ((order (RootHashes.addAll [] roots)).flatMap fun entry =>
        entry.2.filter fun _ =>
          entry.1 ≠ (selectRoot (order (RootHashes.addAll [] roots))).2) ↔
      ∃ r ∈ roots, r.2 = i ∧ r.1 ≠ (selectRoot (order (RootHashes.addAll [] roots))).2) := by
  obtain ⟨hnd, hent, hkey⟩ := addAll_entries roots
  have hperm := horder (RootHashes.addAll [] roots)
  have hmem : ∀ e, e ∈ order (RootHashes.addAll [] roots) ↔ e ∈ RootHashes.addAll [] roots :=
    fun e => hperm.mem_iff
  obtain ⟨r0, hr0⟩ := List.exists_mem_of_ne_nil roots hne
  obtain ⟨e0, he0, _⟩ := hkey r0.1 (List.mem_map.mpr ⟨r0, hr0, rfl⟩)
  have hfilter : ∀ R ∈ roots.map Prod.fst, (roots.filter fun r => r.1 = R) ≠ [] := by
    intro R hR
    obtain ⟨r, hr, hrR⟩ := List.mem_map.mp hR
    intro hnil
    have : r ∈ roots.filter fun r => r.1 = R := by
      rw [List.mem_filter]
      exact ⟨hr, by simpa using hrR⟩
    rw [hnil] at this
    exact absurd this (List.not_mem_nil r)
  have hpos : ∀ e ∈ order (RootHashes.addAll [] roots), e.2 ≠ [] := by
    intro e he
    obtain ⟨h1, h2⟩ := hent e ((hmem e).mp he)
    rw [h2]
    intro hnil
    exact hfilter e.1 h1 (List.map_eq_nil_iff.mp hnil)
  have hlne : order (RootHashes.addAll [] roots) ≠ [] :=
    List.ne_nil_of_mem ((hmem e0).mpr he0)
  obtain ⟨es, hes, hsel, hmax⟩ := selectRoot_max _ hlne hpos
  obtain ⟨hs1, hs2⟩ := hent es ((hmem es).mp hes)
  have hsize : ∀ e ∈ RootHashes.addAll [] roots,
      e.2.length = (roots.filter fun r => r.1 = e.1).length := by
    intro e he
    rw [(hent e he).2, List.length_map]
  refine ⟨?_, hsel ▸ hs1, ?_, ?_⟩
  · constructor
    · intro hlen a ha b hb
      obtain ⟨ea, hea, hka⟩ := hkey a.1 (List.mem_map.mpr ⟨a, ha, rfl⟩)
      obtain ⟨eb, heb, hkb⟩ := hkey b.1 (List.mem_map.mpr ⟨b, hb, rfl⟩)
      obtain ⟨e1, he1⟩ := List.length_eq_one.mp hlen
      rw [he1, List.mem_singleton] at hea heb
      rw [← hka, ← hkb, hea, heb]
    · intro hall
      have := addAll_one_root r0.1 roots (fun e he => hall e he r0 hr0) hne
      rw [this]
      rfl
  · intro R
    rw [← hsel, ← hsize es ((hmem es).mp hes)]
    by_cases hR : R ∈ roots.map Prod.fst
    · obtain ⟨e, he, hk⟩ := hkey R hR
      rw [← hk, ← hsize e he]
      exact hmax e ((hmem e).mpr he)
    · have : (roots.filter fun r => r.1 = R) = [] := by
        rw [List.filter_eq_nil_iff]
        intro r hr hrR
        exact hR (List.mem_map.mpr ⟨r, hr, by simpa using hrR⟩)
      rw [this]
      exact Nat.zero_le _
  · intro i
    rw [List.mem_flatMap]
    constructor
    · rintro ⟨e, he, hi⟩
      rw [List.mem_filter] at hi
      obtain ⟨hi1, hi2⟩ := hi
      rw [(hent e ((hmem e).mp he)).2, List.mem_map] at hi1
      obtain ⟨r, hr, hri⟩ := hi1
      rw [List.mem_filter] at hr
      refine ⟨r, hr.1, hri, ?_⟩
      have hk : r.1 = e.1 := by simpa using hr.2
      rw [hk]
      simpa using hi2
    · rintro ⟨r, hr, hri, hne'⟩
      obtain ⟨e, he, hk⟩ := hkey r.1 (List.mem_map.mpr ⟨r, hr, rfl⟩)
      refine ⟨e, (hmem e).mpr he, ?_⟩
      rw [List.mem_filter]
      constructor
      · rw [(hent e he).2, List.mem_map]
        refine ⟨r, ?_, hri⟩
        rw [List.mem_filter]
        exact ⟨hr, by simpa using hk.symm⟩
      · rw [hk]
        simpa using hne'

/-- C19, detector verdict: for every assignment `rootOf` of derived root
hashes to the chunks of the grid, `Decode` reports the image as not tampered
exactly when all chunks have the same derived root hash; the root hash it
selects is the derived root hash of a chunk and no root hash has more chunks;
the chunks it masks are exactly the chunks whose derived root hash differs
from the selected one. -/
theorem detector_verdict (sha : List Nat → List Nat) (fuel : Nat)
    (order : RootHashes → RootHashes) (horder : ∀ m, (order m).Perm m) (img : Image)
    (cx cy : Nat)
    (hg : CalculateChunkBounds fuel img.width img.height
      = some (buildBounds img.width img.height cx cy))
    (rootOf : Nat → Nat → List Nat)
    (hroot : ∀ x y, x < cx → y < cy →
      chunkRootHash sha (cellChunk img cx cy x y) = .ok (rootOf x y)) :
    ∃ v, Decode sha fuel order img = some (.ok v) ∧
      (v.tampered = false ↔
        ∀ x y x' y', x < cx → y < cy → x' < cx → y' < cy → rootOf x y = rootOf x' y') ∧
      (∃ x y, x < cx ∧ y < cy ∧ rootOf x y = v.merkleRoot) ∧
      (∀ R, groupSize rootOf cx cy R ≤ groupSize rootOf cx cy v.merkleRoot) ∧
      (∀ x y, (x, y) ∈ v.masked ↔ x < cx ∧ y < cy ∧ rootOf x y ≠ v.merkleRoot) := by
  have hcount : 2 ≤ cx * cy := by
    obtain ⟨cx', cy', hgrid, hp⟩ := plannedGrid_of_bounds _ _ _ _ hg
    have := congrArg (fun g => (List.flatten g).length) hgrid
    simp only [length_buildBounds] at this
    rw [this]
    exact hp.2.2.2.1
  have hne : cellRoots rootOf cx cy ≠ [] := by
    intro h
    have := cellRoots_length rootOf cx cy
    rw [h] at this
    simp only [List.length_nil] at this
    omega
  have hdec := decodeRows_buildBounds sha img cx cy rootOf hroot
  obtain ⟨v1, v2, v3, v4⟩ := verdict_of_roots order horder (cellRoots rootOf cx cy) hne
  have hall : (∀ a ∈ cellRoots rootOf cx cy, ∀ b ∈ cellRoots rootOf cx cy, a.1 = b.1) ↔
      ∀ x y x' y', x < cx → y < cy → x' < cx → y' < cy → rootOf x y = rootOf x' y' := by
    constructor
    · intro h x y x' y' hx hy hx' hy'
      exact h _ ((cellRoots_mem rootOf cx cy _).mpr ⟨x, y, hx, hy, rfl⟩) _
        ((cellRoots_mem rootOf cx cy _).mpr ⟨x', y', hx', hy', rfl⟩)
    · intro h a ha b hb
      obtain ⟨x, y, hx, hy, rfl⟩ := (cellRoots_mem rootOf cx cy a).mp ha
      obtain ⟨x', y', hx', hy', rfl⟩ := (cellRoots_mem rootOf cx cy b).mp hb
      exact h x y x' y' hx hy hx' hy'
  have hsel : ∃ x y, x < cx ∧ y < cy ∧
      rootOf x y = (selectRoot (order (RootHashes.addAll [] (cellRoots rootOf cx cy)))).2 := by
    obtain ⟨r, hr, hrs⟩ := List.mem_map.mp v2
    obtain ⟨x, y, hx, hy, rfl⟩ := (cellRoots_mem rootOf cx cy r).mp hr
    exact ⟨x, y, hx, hy, hrs⟩
  have hmask : ∀ x y, (∃ r ∈ cellRoots rootOf cx cy, r.2 = (x, y) ∧
        r.1 ≠ (selectRoot (order (RootHashes.addAll [] (cellRoots rootOf cx cy)))).2) ↔
      x < cx ∧ y < cy ∧
        rootOf x y ≠ (selectRoot (order (RootHashes.addAll [] (cellRoots rootOf cx cy)))).2 := by
    intro x y
    constructor
    · rintro ⟨r, hr, hri, hne'⟩
      obtain ⟨x', y', hx', hy', rfl⟩ := (cellRoots_mem rootOf cx cy r).mp hr
      simp only [Prod.mk.injEq] at hri
      obtain ⟨rfl, rfl⟩ := hri
      exact ⟨hx', hy', hne'⟩
    · rintro ⟨hx, hy, hne'⟩
      exact ⟨_, (cellRoots_mem rootOf cx cy _).mpr ⟨x, y, hx, hy, rfl⟩, rfl, hne'⟩
  unfold Decode
  simp only [hg, hdec]
  by_cases hone : (RootHashes.addAll [] (cellRoots rootOf cx cy)).length = 1
  · rw [if_pos hone]
    refine ⟨_, rfl, ?_, hsel, v3, ?_⟩
    · simp only [true_iff]
      exact hall.mp (v1.mp hone)
    · intro x y
      simp only [List.not_mem_nil, false_iff]
      rintro ⟨hx, hy, hne'⟩
      obtain ⟨x', y', hx', hy', hs⟩ := hsel
      exact hne' ((hall.mp (v1.mp hone) x y x' y' hx hy hx' hy').trans hs)
  · rw [if_neg hone]
    refine ⟨_, rfl, ?_, hsel, v3, ?_⟩
    · simp only [Bool.true_eq_false, false_iff]
      intro h
      exact hone (v1.mpr (hall.mpr h))
    · intro x y
      rw [← hmask x y]
      exact v4 (x, y)

set_option maxRecDepth 100000 in
/-- The root hash `Decode` derives for the two chunks of the image of 16 by 16
pixels with all bytes `255`: the replay stops before the first step. -/
theorem garbage_image_roots (x y : Nat) (hx : x < 2) (hy : y < 1) :
    chunkRootHash toyHash
        (cellChunk { Pix := List.replicate 1024 255, width := 16, height := 16 } 2 1 x y)
      = .ok ((cellChunk { Pix := List.replicate 1024 255, width := 16, height := 16 }
          2 1 x y).CalculateHash toyHash) := by
  have hy0 : y = 0 := by omega
  subst hy0
  have hwf : ∀ x, x < 2 →
      (cellChunk { Pix := List.replicate 1024 255, width := 16, height := 16 }
        2 1 x 0).WellFormed := by
    unfold Chunk.WellFormed
    decide
  have hcap : ∀ x, x < 2 →
      1 ≤ (cellChunk { Pix := List.replicate 1024 255, width := 16, height := 16 }
        2 1 x 0).MaxPayloadSize := by
    decide
  have hside : ∀ x, x < 2 →
      1 < storedByte (cellChunk { Pix := List.replicate 1024 255, width := 16, height := 16 }
        2 1 x 0).Pix (1 + 33 * 0) := by
    decide
  exact chunkRootHash_garbage toyHash _ (hwf x hx) rfl (hcap x hx) 0 (Nat.zero_le _)
    (fun j hj => absurd hj (Nat.not_lt_zero j)) (Or.inr (Or.inr (hside x hx)))

/-- Witness for C19: `Decode` returns a verdict for the image of 16 by 16
pixels with all bytes `255`, whose grid has two chunks. -/
theorem detector_verdict_witness :
    CalculateChunkBounds 10 16 16 = some (buildBounds 16 16 2 1) ∧
    ∃ v, Decode toyHash 10 id { Pix := List.replicate 1024 255, width := 16, height := 16 }
        = some (.ok v) ∧
      (v.tampered = false ↔
        ∀ x y x' y', x < 2 → y < 1 → x' < 2 → y' < 1 →
          (cellChunk { Pix := List.replicate 1024 255, width := 16, height := 16 }
            2 1 x y).CalculateHash toyHash
          = (cellChunk { Pix := List.replicate 1024 255, width := 16, height := 16 }
            2 1 x' y').CalculateHash toyHash) := by
  have hg : CalculateChunkBounds 10 16 16 = some (buildBounds 16 16 2 1) := by decide
  obtain ⟨v, hv, h1, _⟩ := detector_verdict toyHash 10 id (fun m => List.Perm.refl m)
    { Pix := List.replicate 1024 255, width := 16, height := 16 } 2 1 hg
    (fun x y => (cellChunk { Pix := List.replicate 1024 255, width := 16, height := 16 }
      2 1 x y).CalculateHash toyHash)
    garbage_image_roots
  exact ⟨hg, v, hv, h1⟩

/-! ## The planner and the fuel of its loops -/

/-- The first loop of `primeFactors` returns one result, whatever the fuel. -/
theorem primeFactorsTwos_fuel (f1 : Nat) :
    ∀ (f2 n : Nat) (pfs : List Nat) (r1 r2 : Nat × List Nat),
      primeFactorsTwos f1 n pfs = some r1 → primeFactorsTwos f2 n pfs = some r2 → r1 = r2 := by
  induction f1 with
  | zero =>
    intro f2 n pfs r1 r2 h1
    exact absurd h1 (by simp [primeFactorsTwos])
  | succ f1 ih =>
    intro f2 n pfs r1 r2 h1 h2
    cases f2 with
    | zero => exact absurd h2 (by simp [primeFactorsTwos])
    | succ f2 =>
      unfold primeFactorsTwos at h1 h2
      by_cases hn : n % 2 = 0
      · rw [if_pos hn] at h1 h2
        exact ih f2 _ _ r1 r2 h1 h2
      · rw [if_neg hn] at h1 h2
        rw [h1] at h2
        exact Option.some.inj h2

/-- The inner loop of `primeFactors` returns one result, whatever the fuel. -/
theorem primeFactorsDiv_fuel (i f1 : Nat) :
    ∀ (f2 n : Nat) (pfs : List Nat) (r1 r2 : Nat × List Nat),
      primeFactorsDiv i f1 n pfs = some r1 → primeFactorsDiv i f2 n pfs = some r2 → r1 = r2 := by
  induction f1 with
  | zero =>
    intro f2 n pfs r1 r2 h1
    exact absurd h1 (by simp [primeFactorsDiv])
  | succ f1 ih =>
    intro f2 n pfs r1 r2 h1 h2
    cases f2 with
    | zero => exact absurd h2 (by simp [primeFactorsDiv])
    | succ f2 =>
      unfold primeFactorsDiv at h1 h2
      by_cases hn : n % i = 0
      · rw [if_pos hn] at h1 h2
        exact ih f2 _ _ r1 r2 h1 h2
      · rw [if_neg hn] at h1 h2
        rw [h1] at h2
        exact Option.some.inj h2

/-- The second loop of `primeFactors` returns one result, whatever the fuel. -/
theorem primeFactorsOdd_fuel (t1 t2 f1 : Nat) :
    ∀ (f2 i n : Nat) (pfs : List Nat) (r1 r2 : Nat × List Nat),
      primeFactorsOdd t1 f1 i n pfs = some r1 → primeFactorsOdd t2 f2 i n pfs = some r2 →
      r1 = r2 := by
  induction f1 with
  | zero =>
    intro f2 i n pfs r1 r2 h1
    exact absurd h1 (by simp [primeFactorsOdd])
  | succ f1 ih =>
    intro f2 i n pfs r1 r2 h1 h2
    cases f2 with
    | zero => exact absurd h2 (by simp [primeFactorsOdd])
    | succ f2 =>
      unfold primeFactorsOdd at h1 h2
      by_cases hn : i * i ≤ n
      · rw [if_pos hn] at h1 h2
        cases hd1 : primeFactorsDiv i t1 n pfs with
        | none =>
          rw [hd1] at h1
          exact absurd h1 (by simp)
        | some d1 =>
          cases hd2 : primeFactorsDiv i t2 n pfs with
          | none =>
            rw [hd2] at h2
            exact absurd h2 (by simp)
          | some d2 =>
            have e := primeFactorsDiv_fuel i t1 t2 n pfs d1 d2 hd1 hd2
            rw [hd1] at h1
            rw [hd2, ← e] at h2
            exact ih f2 _ _ _ r1 r2 h1 h2
      · rw [if_neg hn] at h1 h2
        rw [h1] at h2
        exact Option.some.inj h2

/-- `primeFactors` returns one result, whatever the fuel. -/
theorem primeFactors_fuel (f1 f2 n : Nat) (l1 l2 : List Nat)
    (h1 : primeFactors f1 n = some l1) (h2 : primeFactors f2 n = some l2) : l1 = l2 := by
  unfold primeFactors at h1 h2
  cases ht1 : primeFactorsTwos f1 n [] with
  | none =>
    rw [ht1] at h1
    exact absurd h1 (by simp)
  | some a1 =>
    cases ht2 : primeFactorsTwos f2 n [] with
    | none =>
      rw [ht2] at h2
      exact absurd h2 (by simp)
    | some a2 =>
      have e := primeFactorsTwos_fuel f1 f2 n [] a1 a2 ht1 ht2
      rw [ht1] at h1
      rw [ht2, ← e] at h2
      simp only at h1 h2
      cases ho1 : primeFactorsOdd f1 f1 3 a1.1 a1.2 with
      | none =>
        rw [ho1] at h1
        exact absurd h1 (by simp)
      | some b1 =>
        cases ho2 : primeFactorsOdd f2 f2 3 a1.1 a1.2 with
        | none =>
          rw [ho2] at h2
          exact absurd h2 (by simp)
        | some b2 =>
          have e2 := primeFactorsOdd_fuel f1 f2 f1 f2 3 a1.1 a1.2 b1 b2 ho1 ho2
          rw [ho1] at h1
          rw [ho2, ← e2] at h2
          simp only at h1 h2
          rw [h1] at h2
          exact Option.some.inj h2

/-- `chunkDist` returns one result, whatever the fuel. -/
theorem chunkDist_fuel (f1 f2 count : Nat) (r1 r2 : Nat × Nat)
    (h1 : chunkDist f1 count = some r1) (h2 : chunkDist f2 count = some r2) : r1 = r2 := by
  unfold chunkDist at h1 h2
  cases hp1 : primeFactors f1 count with
  | none =>
    rw [hp1] at h1
    exact absurd h1 (by simp)
  | some l1 =>
    cases hp2 : primeFactors f2 count with
    | none =>
      rw [hp2] at h2
      exact absurd h2 (by simp)
    | some l2 =>
      have e := primeFactors_fuel f1 f2 count l1 l2 hp1 hp2
      rw [hp1] at h1
      rw [hp2, ← e] at h2
      simp only at h1 h2
      rw [h1] at h2
      exact Option.some.inj h2

/-- The search loop of `CalculateChunkBounds` returns one result, whatever the fuel. -/
theorem chunkCountLoop_fuel (t1 t2 w h f1 : Nat) :
    ∀ (f2 c N1 N2 : Nat), chunkCountLoop t1 w h f1 c = some N1 →
      chunkCountLoop t2 w h f2 c = some N2 → N1 = N2 := by
  induction f1 with
  | zero =>
    intro f2 c N1 N2 h1
    exact absurd h1 (by simp [chunkCountLoop])
  | succ f1 ih =>
    intro f2 c N1 N2 h1 h2
    cases f2 with
    | zero => exact absurd h2 (by simp [chunkCountLoop])
    | succ f2 =>
      unfold chunkCountLoop at h1 h2
      simp only at h1 h2
      cases hd1 : chunkDist t1 (c + 2) with
      | none =>
        rw [hd1] at h1
        exact absurd h1 (by simp)
      | some d1 =>
        cases hd2 : chunkDist t2 (c + 2) with
        | none =>
          rw [hd2] at h2
          exact absurd h2 (by simp)
        | some d2 =>
          have e := chunkDist_fuel t1 t2 (c + 2) d1 d2 hd1 hd2
          rw [hd1] at h1
          rw [hd2, ← e] at h2
          simp only at h1 h2
          by_cases hn : neededBits (c + 2) > availableBits w h d1.1 d1.2
          · rw [if_pos hn] at h1 h2
            rw [h1] at h2
            exact Option.some.inj h2
          · rw [if_neg hn] at h1 h2
            exact ih f2 _ N1 N2 h1 h2

/-- `CalculateChunkBounds` returns one grid for an image size, whatever the fuel. -/
theorem CalculateChunkBounds_fuel (f1 f2 w h : Nat) (g1 g2 : List (List Rectangle))
    (h1 : CalculateChunkBounds f1 w h = some g1) (h2 : CalculateChunkBounds f2 w h = some g2) :
    g1 = g2 := by
  unfold CalculateChunkBounds at h1 h2
  cases hc1 : chunkCountLoop f1 w h f1 0 with
  | none =>
    rw [hc1] at h1
    exact absurd h1 (by simp)
  | some N1 =>
    cases hc2 : chunkCountLoop f2 w h f2 0 with
    | none =>
      rw [hc2] at h2
      exact absurd h2 (by simp)
    | some N2 =>
      have e := chunkCountLoop_fuel f1 f2 w h f1 f2 0 N1 N2 hc1 hc2
      rw [hc1] at h1
      rw [hc2, ← e] at h2
      simp only at h1 h2
      cases hd1 : chunkDist f1 N1 with
      | none =>
        rw [hd1] at h1
        exact absurd h1 (by simp)
      | some d1 =>
        cases hd2 : chunkDist f2 N1 with
        | none =>
          rw [hd2] at h2
          exact absurd h2 (by simp)
        | some d2 =>
          have e2 := chunkDist_fuel f1 f2 N1 d1 d2 hd1 hd2
          rw [hd1] at h1
          rw [hd2, ← e2] at h2
          simp only at h1 h2
          rw [h1] at h2
          exact Option.some.inj h2

/-- The inner encoding loop of `Encode` keeps the size of the image. -/
theorem encodeCols_size (sha : List Nat → List Nat) (list : List Chunk)
    (leaves : List (List Nat)) (x rowLen : Nat) (row : List Rectangle) :
    ∀ (y : Nat) (img enc : Image),
      encodeCols sha list leaves x rowLen row y img = some (.ok enc) →
      enc.width = img.width ∧ enc.height = img.height := by
  induction row with
  | nil =>
    intro y img enc h
    unfold encodeCols at h
    injection h with h
    injection h with h
    rw [h]
    exact ⟨rfl, rfl⟩
  | cons bound rest ih =>
    intro y img enc h
    unfold encodeCols at h
    split at h
    · exact absurd h (by simp)
    · simp only at h
      split at h
      · exact absurd h (by simp)
      · have := ih _ _ _ h
        exact this

/-- The outer encoding loop of `Encode` keeps the size of the image. -/
theorem encodeRows_size (sha : List Nat → List Nat) (list : List Chunk)
    (leaves : List (List Nat)) (rows : List (List Rectangle)) :
    ∀ (x : Nat) (img enc : Image),
      encodeRows sha list leaves rows x img = some (.ok enc) →
      enc.width = img.width ∧ enc.height = img.height := by
  induction rows with
  | nil =>
    intro x img enc h
    unfold encodeRows at h
    injection h with h
    injection h with h
    rw [h]
    exact ⟨rfl, rfl⟩
  | cons row rest ih =>
    intro x img enc h
    unfold encodeRows at h
    split at h
    · rename_i mid hmid
      obtain ⟨a1, a2⟩ := encodeCols_size sha list leaves x row.length row 0 img mid hmid
      obtain ⟨b1, b2⟩ := ih _ _ _ h
      exact ⟨b1.trans a1, b2.trans a2⟩
    · rename_i hother
      exact absurd h (hother enc)

/-- The image `Encode` returns has the size of the original image. -/
theorem Encode_size (sha : List Nat → List Nat) (fuel : Nat) (img enc : Image)
    (h : Encode sha fuel img = some (.ok enc)) :
    enc.width = img.width ∧ enc.height = img.height := by
  unfold Encode at h
  split at h
  · exact absurd h (by simp)
  · simp only at h
    split at h
    · exact absurd h (by simp)
    · exact encodeRows_size sha _ _ _ 0 (NewRGBA img.width img.height) enc h

/-- C20, the planner depends only on the dimensions: for two images of the
same width and height, whatever their pixels, `CalculateChunkBounds` has the
same result; the grid it returns is the same for every fuel of the model that
lets it return; and for the image `Encode` returns, and every image of that
size (a tampered one), the result is the one for the original image. -/
theorem planner_depends_on_dimensions (a b : Image) (hw : a.width = b.width)
    (hh : a.height = b.height) :
    (∀ fuel,
      CalculateChunkBounds fuel a.width a.height = CalculateChunkBounds fuel b.width b.height) ∧
    (∀ fuel fuel' grid grid', CalculateChunkBounds fuel a.width a.height = some grid →
      CalculateChunkBounds fuel' b.width b.height = some grid' → grid' = grid) ∧
    (∀ sha fuel enc, Encode sha fuel a = some (.ok enc) →
      ∀ t : Image, t.width = enc.width → t.height = enc.height →
        CalculateChunkBounds fuel t.width t.height
          = CalculateChunkBounds fuel a.width a.height) := by
  refine ⟨?_, ?_, ?_⟩
  · intro fuel
    rw [hw, hh]
  · intro fuel fuel' grid grid' h1 h2
    rw [hw, hh] at h1
    exact CalculateChunkBounds_fuel fuel' fuel b.width b.height grid' grid h2 h1
  · intro sha fuel enc henc t htw hth
    obtain ⟨e1, e2⟩ := Encode_size sha fuel a enc henc
    rw [htw, hth, e1, e2]

set_option maxRecDepth 100000 in
/-- Witness for C20: the all-zero image of 16 by 16 pixels and the image of
that size with all bytes `255` get the same grid of two chunks. -/
theorem planner_depends_on_dimensions_witness :
    (NewRGBA 16 16).width
      = ({ Pix := List.replicate 1024 255, width := 16, height := 16 } : Image).width ∧
    (NewRGBA 16 16).height
      = ({ Pix := List.replicate 1024 255, width := 16, height := 16 } : Image).height ∧
    (NewRGBA 16 16).Pix
      ≠ ({ Pix := List.replicate 1024 255, width := 16, height := 16 } : Image).Pix ∧
    CalculateChunkBounds 10 (NewRGBA 16 16).width (NewRGBA 16 16).height
      = some [[⟨0, 0, 8, 16⟩], [⟨8, 0, 16, 16⟩]] ∧
    CalculateChunkBounds 10 (NewRGBA 16 16).width (NewRGBA 16 16).height
      = CalculateChunkBounds 10
          ({ Pix := List.replicate 1024 255, width := 16, height := 16 } : Image).width
          ({ Pix := List.replicate 1024 255, width := 16, height := 16 } : Image).height :=
  ⟨rfl, rfl, by decide, by decide,
   (planner_depends_on_dimensions (NewRGBA 16 16)
     { Pix := List.replicate 1024 255, width := 16, height := 16 } rfl rfl).1 10⟩

/-- C21, worked example: for an image of 16 by 16 pixels the candidate count 2
(a grid of 2 by 1 chunks) needs 272 bits of the 384 available and passes, the
candidate count 4 (a grid of 2 by 2 chunks) needs 536 bits of the 192
available and fails; the search selects 2 chunks, and `CalculateChunkBounds`
returns the two rectangles (0,0)-(8,16) and (8,0)-(16,16), whatever fuel lets
it return. -/
theorem planner_worked_example :
    neededBits 2 = 272 ∧ chunkDist 10 2 = some (2, 1) ∧ availableBits 16 16 2 1 = 384 ∧
    neededBits 4 = 536 ∧ chunkDist 10 4 = some (2, 2) ∧ availableBits 16 16 2 2 = 192 ∧
    chunkCountLoop 10 16 16 10 0 = some 2 ∧
    CalculateChunkBounds 10 16 16 = some [[⟨0, 0, 8, 16⟩], [⟨8, 0, 16, 16⟩]] ∧
    ∀ fuel grid, CalculateChunkBounds fuel 16 16 = some grid →
      grid = [[⟨0, 0, 8, 16⟩], [⟨8, 0, 16, 16⟩]] := by
  have hg : CalculateChunkBounds 10 16 16 = some [[⟨0, 0, 8, 16⟩], [⟨8, 0, 16, 16⟩]] := by
    decide
  refine ⟨by decide, by decide, by decide, by decide, by decide, by decide, by decide, hg, ?_⟩
  intro fuel grid h
  exact CalculateChunkBounds_fuel fuel 10 16 16 _ _ h hg

set_option maxRecDepth 100000 in
/-- The least significant bit primitives on all bytes. -/
theorem lsb_bytes : ∀ b, b < 256 → ∀ v : Bool,
    GetLSB (WithLSB b v) = v ∧ WithLSB b v >>> 1 = b >>> 1 ∧ WithLSB b v < 256 ∧
    (GetLSB b = true ↔ b % 2 = 1) := by
  decide

/-- C24, least significant bit primitives: for every byte `b` and every bit
`v`, `GetLSB (WithLSB b v) = v`, `WithLSB b v` agrees with `b` on the seven
high-order bits and is a byte, and `GetLSB b` is true exactly when `b` is odd. -/
theorem LSB_primitives (b : Nat) (hb : b < 256) (v : Bool) :
    GetLSB (WithLSB b v) = v ∧ WithLSB b v >>> 1 = b >>> 1 ∧ WithLSB b v < 256 ∧
    (GetLSB b = true ↔ b % 2 = 1) :=
  lsb_bytes b hb v

/-- Witness for C24: the four cases of the tests of `WithLSB`. -/
theorem LSB_primitives_witness :
    (255 < 256) ∧ WithLSB 0 false = 0 ∧ WithLSB 0 true = 1 ∧ WithLSB 255 true = 255 ∧
    WithLSB 255 false = 254 ∧ GetLSB (WithLSB 255 false) = false ∧
    WithLSB 255 false >>> 1 = 255 >>> 1 :=
  ⟨by decide, by decide, by decide, by decide, by decide,
   (LSB_primitives 255 (by decide) false).1, (LSB_primitives 255 (by decide) false).2.1⟩

/-! ## The cursors of a chunk -/

/-- For a buffer of four bytes per pixel the limit `Write` tests is the payload size. -/
theorem write_limit_eq (c : Chunk) (hwf : c.WellFormed) :
    (c.Pix.length - c.Pix.length / 4) / 8 = c.MaxPayloadSize := by
  unfold Chunk.MaxPayloadSize Chunk.LSBCount Chunk.PixelCount BitsPerPixel
  unfold Chunk.WellFormed at hwf
  omega

/-- One call of `Write` or `Read` keeps the size of the buffer and keeps both
cursors within the payload size. -/
theorem step_invariant (c : Chunk) (op : ChunkOp) (hwf : c.WellFormed)
    (hw : c.wOff ≤ c.MaxPayloadSize) (hr : c.rOff ≤ c.MaxPayloadSize) :
    (c.step op).WellFormed ∧ (c.step op).MaxPayloadSize = c.MaxPayloadSize ∧
    (c.step op).wOff ≤ c.MaxPayloadSize ∧ (c.step op).rOff ≤ c.MaxPayloadSize := by
  cases op with
  | write p =>
    have hlen : (c.Write p).1.Pix.length = c.Pix.length := writeLoop_length _ _ _ _ _
    have hcount := (writeLoop_count c.wOff p 0 0 c.Pix).1
    rw [write_limit_eq c hwf] at hcount
    simp only [Nat.add_zero, Nat.zero_add] at hcount
    have hwoff : (c.Write p).1.wOff = c.wOff + (writeLoop c.wOff p 0 0 c.Pix).2.1 := rfl
    refine ⟨?_, ?_, ?_, hr⟩
    · show (c.Write p).1.Pix.length = 4 * (c.width * c.height)
      rw [hlen]
      exact hwf
    · show (c.Write p).1.Pix.length / 4 * BitsPerPixel / 8 = c.Pix.length / 4 * BitsPerPixel / 8
      rw [hlen]
    · show (c.Write p).1.wOff ≤ _
      rw [hwoff, hcount]
      omega
  | read p =>
    have hn : (c.Read p).2.2.1 = min p.length (c.MaxPayloadSize - c.rOff) := by
      rw [Read_eq c hwf p]
    have hroff : (c.Read p).1.rOff = c.rOff + (c.Read p).2.2.1 := rfl
    refine ⟨hwf, rfl, hw, ?_⟩
    show (c.Read p).1.rOff ≤ _
    rw [hroff, hn]
    omega

/-- A sequence of calls keeps the size of the buffer and keeps both cursors
within the payload size. -/
theorem run_invariant (ops : List ChunkOp) :
    ∀ c : Chunk, c.WellFormed → c.wOff ≤ c.MaxPayloadSize → c.rOff ≤ c.MaxPayloadSize →
      (c.run ops).WellFormed ∧ (c.run ops).MaxPayloadSize = c.MaxPayloadSize ∧
      (c.run ops).wOff ≤ c.MaxPayloadSize ∧ (c.run ops).rOff ≤ c.MaxPayloadSize := by
  induction ops with
  | nil =>
    intro c hwf hw hr
    exact ⟨hwf, rfl, hw, hr⟩
  | cons op rest ih =>
    intro c hwf hw hr
    obtain ⟨s1, s2, s3, s4⟩ := step_invariant c op hwf hw hr
    have := ih (c.step op) s1 (by omega) (by omega)
    rw [s2] at this
    exact this

/-- C22, cursor discipline: `Write` advances `wOff` by the count it returns,
never decreasing it, and leaves `rOff` unchanged; `Read` advances `rOff` by the
count it returns and leaves `wOff` and every byte of `Pix` unchanged; and from
`wOff = rOff = 0` every sequence of calls of `Write` and `Read` keeps both
cursors within `MaxPayloadSize`. -/
theorem cursor_discipline (c : Chunk) (hwf : c.WellFormed) (p : List Nat) :
    (c.Write p).1.wOff = c.wOff + (c.Write p).2.1 ∧ c.wOff ≤ (c.Write p).1.wOff ∧
    (c.Write p).1.rOff = c.rOff ∧
    (c.Read p).1.rOff = c.rOff + (c.Read p).2.2.1 ∧ c.rOff ≤ (c.Read p).1.rOff ∧
    (c.Read p).1.wOff = c.wOff ∧ (c.Read p).1.Pix = c.Pix ∧
    (c.wOff = 0 → c.rOff = 0 → ∀ ops : List ChunkOp,
      (c.run ops).wOff ≤ (c.run ops).MaxPayloadSize ∧
      (c.run ops).rOff ≤ (c.run ops).MaxPayloadSize) := by
  refine ⟨rfl, Nat.le_add_right _ _, rfl, rfl, Nat.le_add_right _ _, rfl, rfl, ?_⟩
  intro hw hr ops
  obtain ⟨_, r2, r3, r4⟩ := run_invariant ops c hwf (by omega) (by omega)
  rw [r2]
  exact ⟨r3, r4⟩

/-- Witness for C22: on a chunk of 3 by 2 pixels, which holds two bytes, a
write of three bytes, a read of one byte and a read of two bytes leave
`wOff = 2` and `rOff = 2`. -/
theorem cursor_discipline_witness :
    (Chunk.fresh (List.replicate 24 0) 3 2).WellFormed ∧
    ((Chunk.fresh (List.replicate 24 0) 3 2).run
      [.write [255, 255, 255], .read [0], .read [0, 0]]).wOff = 2 ∧
    ((Chunk.fresh (List.replicate 24 0) 3 2).run
      [.write [255, 255, 255], .read [0], .read [0, 0]]).rOff = 2 ∧
    ((Chunk.fresh (List.replicate 24 0) 3 2).run
      [.write [255, 255, 255], .read [0], .read [0, 0]]).wOff
      ≤ ((Chunk.fresh (List.replicate 24 0) 3 2).run
        [.write [255, 255, 255], .read [0], .read [0, 0]]).MaxPayloadSize := by
  have hwf : (Chunk.fresh (List.replicate 24 0) 3 2).WellFormed := by
    unfold Chunk.WellFormed
    decide
  exact ⟨hwf, by decide, by decide,
    ((cursor_discipline (Chunk.fresh (List.replicate 24 0) 3 2) hwf []).2.2.2.2.2.2.2 rfl rfl
      [.write [255, 255, 255], .read [0], .read [0, 0]]).1⟩

/-! ## Consecutive writes and reads -/

/-- The buffer `Write` leaves does not depend on the count the loop starts with. -/
theorem writeLoop_pix_count (wOff : Nat) (p : List Nat) :
    ∀ (i n n' : Nat) (pix : List Nat),
      (writeLoop wOff p i n pix).1 = (writeLoop wOff p i n' pix).1 := by
  induction p with
  | nil =>
    intro i n n' pix
    rfl
  | cons b rest ih =>
    intro i n n' pix
    unfold writeLoop
    simp only
    split
    · rfl
    · exact ih _ _ _ _

/-- The write loop at write cursor `wOff + k` is the loop at `wOff` from
iteration `k` on. -/
theorem writeLoop_shift (wOff k : Nat) (p : List Nat) :
    ∀ (i n : Nat) (pix : List Nat),
      writeLoop (wOff + k) p i n pix = writeLoop wOff p (k + i) n pix := by
  induction p with
  | nil =>
    intro i n pix
    rfl
  | cons b rest ih =>
    intro i n pix
    unfold writeLoop
    have e : wOff + k + i = wOff + (k + i) := by omega
    simp only [e]
    split
    · rfl
    · exact ih _ _ _

/-- The write loop on `a ++ b` when `a` fits: first `a`, then `b`. -/
theorem writeLoop_append (wOff : Nat) (a b : List Nat) :
    ∀ (i n : Nat) (pix : List Nat),
      a.length ≤ (pix.length - pix.length / 4) / 8 - (wOff + i) →
      writeLoop wOff (a ++ b) i n pix
        = writeLoop wOff b (i + a.length) (n + a.length) (writeLoop wOff a i n pix).1 := by
  induction a with
  | nil =>
    intro i n pix _
    rfl
  | cons x rest ih =>
    intro i n pix hfit
    rw [List.length_cons] at hfit
    have hok : ¬ (wOff + i) * BitsPerByte + 7 ≥ pix.length - pix.length / 4 := by
      unfold BitsPerByte
      omega
    have hstep : ∀ l : List Nat, writeLoop wOff (x :: l) i n pix
        = writeLoop wOff l (i + 1) (n + 1) (writeBits ((wOff + i) * BitsPerByte) x pix) := by
      intro l
      rw [writeLoop]
      simp only [hok, if_false]
    rw [List.cons_append, hstep, hstep,
      ih (i + 1) (n + 1) _ (by rw [writeBits_length]; omega), List.length_cons]
    have e1 : i + 1 + rest.length = i + (rest.length + 1) := by omega
    have e2 : n + 1 + rest.length = n + (rest.length + 1) := by omega
    rw [e1, e2]

/-- `Read` of a buffer that fits behind the read cursor, for any chunk. -/
theorem Read_within (c : Chunk) (p : List Nat) (h : c.rOff + p.length ≤ c.MaxPayloadSize) :
    c.Read p = ({ c with rOff := c.rOff + p.length },
      (List.range p.length).map (fun q => storedByte c.Pix (c.rOff + q)), p.length, none) := by
  have hM : c.MaxPayloadSize ≤ (3 * c.Pix.length + 2) / 4 / 8 := by
    unfold Chunk.MaxPayloadSize Chunk.LSBCount Chunk.PixelCount BitsPerPixel
    omega
  have hr := readLoop_eq c.rOff c.Pix p.length 0 0 []
  have hmin : min p.length ((3 * c.Pix.length + 2) / 4 / 8 - (c.rOff + 0)) = p.length := by
    omega
  rw [hmin, if_pos (by omega)] at hr
  simp only [Nat.add_zero, Nat.zero_add, List.nil_append] at hr
  unfold Chunk.Read
  simp only [hr, List.length_map, List.length_range, List.drop_length, List.append_nil]
  rfl

/-- The result of `Write` for bytes that fit behind the write cursor. -/
theorem Write_within (c : Chunk) (p : List Nat) (h : c.wOff + p.length ≤ c.MaxPayloadSize) :
    (c.Write p).2 = (p.length, none) ∧ (c.Write p).1.wOff = c.wOff + p.length ∧
    (c.Write p).1.Pix.length = c.Pix.length := by
  have hlim := payload_le_write_limit c.Pix.length
  have hM : c.MaxPayloadSize = c.Pix.length / 4 * 3 / 8 := rfl
  have hcount := writeLoop_count c.wOff p 0 0 c.Pix
  simp only [Nat.add_zero, Nat.zero_add] at hcount
  have hfit : p.length ≤ (c.Pix.length - c.Pix.length / 4) / 8 - c.wOff := by omega
  have hn : (c.Write p).2.1 = p.length := by
    show (writeLoop c.wOff p 0 0 c.Pix).2.1 = _
    rw [hcount.1]
    omega
  have he : (c.Write p).2.2 = none := hcount.2.1.mpr hfit
  refine ⟨Prod.ext hn he, ?_, writeLoop_length _ _ _ _ _⟩
  show c.wOff + (c.Write p).2.1 = _
  rw [hn]

/-- C23, writes and reads continue where the last one left off: when `a` and
`b` fit behind the write cursor, `Write a` followed by `Write b` leaves the
chunk (pixel bytes and cursors) that a single `Write (a ++ b)` leaves; when
two buffers fit behind the read cursor, the bytes read into the first and then
into the second are the bytes a single `Read` into a buffer of their joint
length returns, and the chunk afterwards is the same. -/
theorem continue_where_left_off (c : Chunk) (a b : List Nat)
    (hfit : c.wOff + a.length + b.length ≤ c.MaxPayloadSize) (p1 p2 : List Nat)
    (hread : c.rOff + p1.length + p2.length ≤ c.MaxPayloadSize) :
    ((c.Write a).1.Write b).1 = (c.Write (a ++ b)).1 ∧
    (c.Write a).2 = (a.length, none) ∧ ((c.Write a).1.Write b).2 = (b.length, none) ∧
    (c.Write (a ++ b)).2 = (a.length + b.length, none) ∧
    (c.Read p1).2.1 ++ ((c.Read p1).1.Read p2).2.1 = (c.Read (p1 ++ p2)).2.1 ∧
    ((c.Read p1).1.Read p2).1 = (c.Read (p1 ++ p2)).1 ∧
    (c.Read p1).2.2 = (p1.length, none) ∧ ((c.Read p1).1.Read p2).2.2 = (p2.length, none) ∧
    (c.Read (p1 ++ p2)).2.2 = (p1.length + p2.length, none) := by
  obtain ⟨wa1, wa2, wa3⟩ := Write_within c a (by omega)
  have hMa : (c.Write a).1.MaxPayloadSize = c.MaxPayloadSize := by
    unfold Chunk.MaxPayloadSize Chunk.LSBCount Chunk.PixelCount
    rw [wa3]
  obtain ⟨wb1, wb2, _⟩ := Write_within (c.Write a).1 b (by rw [wa2, hMa]; omega)
  obtain ⟨wab1, wab2, _⟩ := Write_within c (a ++ b) (by rw [List.length_append]; omega)
  rw [List.length_append] at wab1 wab2
  have hlim := payload_le_write_limit c.Pix.length
  have hM : c.MaxPayloadSize = c.Pix.length / 4 * 3 / 8 := rfl
  have hpix : ((c.Write a).1.Write b).1.Pix = (c.Write (a ++ b)).1.Pix := by
    show (writeLoop (c.Write a).1.wOff b 0 0 (c.Write a).1.Pix).1
      = (writeLoop c.wOff (a ++ b) 0 0 c.Pix).1
    rw [wa2, writeLoop_shift, writeLoop_append c.wOff a b 0 0 c.Pix (by omega), Nat.add_zero,
      Nat.zero_add]
    exact writeLoop_pix_count _ _ _ _ _ _
  have r1 := Read_within c p1 (by omega)
  have r2 := Read_within { c with rOff := c.rOff + p1.length } p2 (by
    show c.rOff + p1.length + p2.length ≤ c.MaxPayloadSize
    exact hread)
  have r12 := Read_within c (p1 ++ p2) (by rw [List.length_append]; omega)
  rw [List.length_append] at r12
  simp only at r2
  refine ⟨?_, wa1, wb1, wab1, ?_, ?_, ?_, ?_, ?_⟩
  · have e1 : ((c.Write a).1.Write b).1
        = { Pix := ((c.Write a).1.Write b).1.Pix, width := c.width, height := c.height,
            rOff := c.rOff, wOff := ((c.Write a).1.Write b).1.wOff } := rfl
    have e2 : (c.Write (a ++ b)).1
        = { Pix := (c.Write (a ++ b)).1.Pix, width := c.width, height := c.height,
            rOff := c.rOff, wOff := (c.Write (a ++ b)).1.wOff } := rfl
    rw [e1, e2, hpix, wb2, wa2, wab2, Nat.add_assoc]
  · rw [r1]
    simp only [r2, r12]
    rw [List.range_add, List.map_append, List.map_map]
    congr 1
    apply List.map_congr_left
    intro q _
    simp only [Function.comp_apply]
    congr 1
    omega
  · rw [r1]
    simp only [r2, r12, Nat.add_assoc]
  · rw [r1]
  · rw [r1]
    simp only [r2]
  · rw [r12]

set_option maxRecDepth 100000 in
/-- Witness for C23: on a chunk of 4 by 4 pixels, which holds six bytes,
writing `[1, 2]` and then `[3, 4]` leaves the chunk that writing
`[1, 2, 3, 4]` leaves, and reading one byte and then two bytes returns the
first three bytes written. -/
theorem continue_where_left_off_witness :
    (Chunk.fresh (List.replicate 64 0) 4 4).wOff + [1, 2].length + [3, 4].length
      ≤ (Chunk.fresh (List.replicate 64 0) 4 4).MaxPayloadSize ∧
    (((Chunk.fresh (List.replicate 64 0) 4 4).Write [1, 2]).1.Write [3, 4]).1
      = ((Chunk.fresh (List.replicate 64 0) 4 4).Write ([1, 2] ++ [3, 4])).1 ∧
    (((Chunk.fresh (List.replicate 64 0) 4 4).Write [1, 2, 3, 4]).1.Read [0]).2.1
      ++ ((((Chunk.fresh (List.replicate 64 0) 4 4).Write [1, 2, 3, 4]).1.Read [0]).1.Read
        [0, 0]).2.1 = [1, 2, 3] :=
  ⟨by decide,
   (continue_where_left_off (Chunk.fresh (List.replicate 64 0) 4 4) [1, 2] [3, 4] (by decide)
     [] [] (by decide)).1,
   by decide⟩

/-- Chunks that `Equals` finds equal feed the same bytes to the hash. -/
theorem hashInput_of_Equals (a b : Chunk) (h : a.Equals (some b) = .ok true) :
    a.hashInput = b.hashInput := by
  unfold Chunk.Equals at h
  simp only at h
  split at h
  · injection h with h
    exact absurd h (by decide)
  · rename_i hd
    have hw : b.width = a.width := by
      by_contra hne
      exact hd (Or.inl hne)
    have hh : b.height = a.height := by
      by_contra hne
      exact hd (Or.inr hne)
    injection h with h
    rw [List.all_eq_true] at h
    unfold Chunk.hashInput
    rw [hw, hh]
    apply List.flatMap_congr
    intro x hx
    apply List.flatMap_congr
    intro y hy
    have h1 := h x hx
    rw [List.all_eq_true] at h1
    have h2 := h1 y hy
    simp only [Bool.and_eq_true, beq_iff_eq] at h2
    obtain ⟨⟨⟨g0, g1⟩, g2⟩, _⟩ := h2
    simp only [g0, g1, g2]

/-- C28, equality is consistent with hashing: chunks that `Equals` finds equal
have the same `CalculateHash`; the converse does not follow from the bytes
hashed: two chunks of one pixel that differ only in the highest bit of the
alpha byte feed the same bytes to the hash, so they have the same hash for
every hash function, and are not equal for `Equals`. -/
theorem Equals_consistent_with_hash (sha : List Nat → List Nat) (a b : Chunk)
    (h : a.Equals (some b) = .ok true) :
    a.CalculateHash sha = b.CalculateHash sha ∧
    ((Chunk.fresh [10, 20, 30, 255] 1 1).hashInput
      = (Chunk.fresh [10, 20, 30, 127] 1 1).hashInput ∧
     (∀ f : List Nat → List Nat, (Chunk.fresh [10, 20, 30, 255] 1 1).CalculateHash f
        = (Chunk.fresh [10, 20, 30, 127] 1 1).CalculateHash f) ∧
     (Chunk.fresh [10, 20, 30, 255] 1 1).Equals (some (Chunk.fresh [10, 20, 30, 127] 1 1))
        = .ok false) := by
  have hex : (Chunk.fresh [10, 20, 30, 255] 1 1).hashInput
      = (Chunk.fresh [10, 20, 30, 127] 1 1).hashInput := by decide
  refine ⟨?_, hex, ?_, rfl⟩
  · unfold Chunk.CalculateHash
    rw [hashInput_of_Equals a b h]
  · intro f
    unfold Chunk.CalculateHash
    rw [hex]

/-- Witness for C28: two chunks of one pixel that differ in the least
significant bits are equal for `Equals` and have the same SHA-256 hash. -/
theorem Equals_consistent_with_hash_witness :
    (Chunk.fresh [10, 20, 30, 254] 1 1).Equals (some (Chunk.fresh [11, 21, 31, 255] 1 1))
      = .ok true ∧
    (Chunk.fresh [10, 20, 30, 254] 1 1).CalculateHash sha256
      = (Chunk.fresh [11, 21, 31, 255] 1 1).CalculateHash sha256 :=
  ⟨rfl, (Equals_consistent_with_hash sha256 (Chunk.fresh [10, 20, 30, 254] 1 1)
    (Chunk.fresh [11, 21, 31, 255] 1 1) rfl).1⟩

/-! ## Index safety of the bit channel -/

/-- The positions `Write` accesses for a byte that passed its capacity test
lie in a buffer of four bytes per pixel. -/
theorem write_index_lt (len bitOff j : Nat) (h4 : len = 4 * (len / 4))
    (hok : ¬ bitOff + 7 ≥ len - len / 4) (hj : j < 8) : pixIdx (bitOff + j) < len := by
  unfold pixIdx BitsPerPixel
  omega

/-- The positions `Read` accesses for a byte that passed its capacity test lie
in the buffer. -/
theorem read_index_lt (len bitOff j : Nat)
    (hok : ¬ bitOff + BitsPerByte + (bitOff + BitsPerByte) / BitsPerPixel > len) (hj : j < 8) :
    pixIdx (bitOff + j) < len := by
  unfold pixIdx
  unfold BitsPerByte BitsPerPixel at *
  omega

/-- The checked inner loop of `Write` over positions inside the buffer. -/
theorem writeBits_fold_checked (bitOff b : Nat) (js : List Nat) :
    ∀ pix : List Nat, (∀ j ∈ js, pixIdx (bitOff + j) < pix.length) →
      js.foldl
        (fun acc j =>
          match acc with
          | none => none
          | some pix =>
            let idx := pixIdx (bitOff + j)
            if idx < pix.length then
              some (pix.set idx (WithLSB (pix.getD idx 0) (readBool b j)))
            else none)
        (some pix)
      = some (js.foldl
        (fun pix j =>
          let idx := pixIdx (bitOff + j)
          pix.set idx (WithLSB (pix.getD idx 0) (readBool b j)))
        pix) := by
  induction js with
  | nil =>
    intro pix _
    rfl
  | cons j rest ih =>
    intro pix h
    rw [List.foldl_cons, List.foldl_cons]
    simp only [h j (List.mem_cons_self j rest), if_true]
    apply ih
    intro j' hj'
    rw [List.length_set]
    exact h j' (List.mem_cons_of_mem j hj')

/-- The checked inner loop of `Read` over positions inside the buffer. -/
theorem readBits_fold_checked (bitOff : Nat) (pix : List Nat) (js : List Nat) :
    ∀ acc : Nat, (∀ j ∈ js, pixIdx (bitOff + j) < pix.length) →
      js.foldl
        (fun acc j =>
          match acc with
          | none => none
          | some acc =>
            let idx := pixIdx (bitOff + j)
            if idx < pix.length then
              some (2 * acc + (if GetLSB (pix.getD idx 0) then 1 else 0))
            else none)
        (some acc)
      = some (js.foldl
        (fun acc j => 2 * acc + (if GetLSB (pix.getD (pixIdx (bitOff + j)) 0) then 1 else 0))
        acc) := by
  induction js with
  | nil =>
    intro acc _
    rfl
  | cons j rest ih =>
    intro acc h
    rw [List.foldl_cons, List.foldl_cons]
    simp only [h j (List.mem_cons_self j rest), if_true]
    apply ih
    intro j' hj'
    exact h j' (List.mem_cons_of_mem j hj')

/-- The checked write loop does not panic on a buffer of four bytes per pixel. -/
theorem writeLoopChecked_eq (wOff : Nat) (p : List Nat) :
    ∀ (i n : Nat) (pix : List Nat), pix.length = 4 * (pix.length / 4) →
      writeLoopChecked wOff p i n pix = some (writeLoop wOff p i n pix) := by
  induction p with
  | nil =>
    intro i n pix _
    rfl
  | cons b rest ih =>
    intro i n pix h4
    unfold writeLoopChecked writeLoop
    simp only
    split
    · rfl
    · rename_i hok
      have hb : writeBitsChecked ((wOff + i) * BitsPerByte) b pix
          = some (writeBits ((wOff + i) * BitsPerByte) b pix) := by
        unfold writeBitsChecked writeBits
        apply writeBits_fold_checked
        intro j hj
        rw [range8] at hj
        exact write_index_lt _ _ _ h4 hok (by
          simp only [List.mem_cons, List.mem_singleton, List.not_mem_nil, or_false] at hj
          omega)
      rw [hb]
      simp only
      apply ih
      rw [writeBits_length]
      exact h4

/-- The checked read loop does not panic. -/
theorem readLoopChecked_eq (rOff : Nat) (pix : List Nat) (len : Nat) :
    ∀ (i n : Nat) (out : List Nat),
      readLoopChecked rOff pix len i n out = some (readLoop rOff pix len i n out) := by
  induction len with
  | zero =>
    intro i n out
    rfl
  | succ len ih =>
    intro i n out
    unfold readLoopChecked readLoop
    simp only
    split
    · rfl
    · rename_i hok
      have hb : readBitsChecked ((rOff + i) * BitsPerByte) pix
          = some (readBits ((rOff + i) * BitsPerByte) pix) := by
        unfold readBitsChecked readBits
        apply readBits_fold_checked
        intro j hj
        rw [range8] at hj
        exact read_index_lt _ _ _ hok (by
          simp only [List.mem_cons, List.mem_singleton, List.not_mem_nil, or_false] at hj
          omega)
      rw [hb]
      simp only
      apply ih

/-- C27, index safety of the bit channel: for a chunk whose `Pix` has length
`4 * PixelCount`, at every cursor, each position `i + i / 3` that `Write` or
`Read` accesses after its capacity test passed lies inside `Pix`; with the
bounds checks of Go added to every access, neither call panics and both return
what the calls without the checks return. -/
theorem index_safety (c : Chunk) (h4 : c.Pix.length = 4 * c.PixelCount) (p : List Nat) :
    c.WriteChecked p = some (c.Write p) ∧ c.ReadChecked p = some (c.Read p) ∧
    (∀ i j, j < 8 → ¬ (c.wOff + i) * 8 + 7 ≥ c.Pix.length - c.Pix.length / 4 →
      (c.wOff + i) * 8 + j + ((c.wOff + i) * 8 + j) / 3 < c.Pix.length) ∧
    (∀ i j, j < 8 → ¬ (c.rOff + i) * 8 + 8 + ((c.rOff + i) * 8 + 8) / 3 > c.Pix.length →
      (c.rOff + i) * 8 + j + ((c.rOff + i) * 8 + j) / 3 < c.Pix.length) := by
  have h4' : c.Pix.length = 4 * (c.Pix.length / 4) := h4
  refine ⟨?_, ?_, ?_, ?_⟩
  · unfold Chunk.WriteChecked
    rw [writeLoopChecked_eq c.wOff p 0 0 c.Pix h4']
    rfl
  · unfold Chunk.ReadChecked
    rw [readLoopChecked_eq]
    rfl
  · intro i j hj hok
    exact write_index_lt c.Pix.length ((c.wOff + i) * 8) j h4' hok hj
  · intro i j hj hok
    exact read_index_lt c.Pix.length ((c.rOff + i) * 8) j hok hj

/-- Witness for C27: a write of three bytes to a chunk of 3 by 2 pixels, which
holds two bytes, writes two bytes and returns `io.EOF` without a panic. -/
theorem index_safety_witness :
    (Chunk.fresh (List.replicate 24 0) 3 2).Pix.length
      = 4 * (Chunk.fresh (List.replicate 24 0) 3 2).PixelCount ∧
    ((Chunk.fresh (List.replicate 24 0) 3 2).WriteChecked [255, 255, 255]).map
      (fun r => r.2) = some (2, some Err.EOF) ∧
    (Chunk.fresh (List.replicate 24 0) 3 2).WriteChecked [255, 255, 255]
      = some ((Chunk.fresh (List.replicate 24 0) 3 2).Write [255, 255, 255]) :=
  ⟨by decide, by decide,
   (index_safety (Chunk.fresh (List.replicate 24 0) 3 2) (by decide) [255, 255, 255]).1⟩

/-! ## `primeFactors` returns the prime factorisation -/

/-- The first loop of `primeFactors` ends for `n ≥ 1`: it divides out the 2s. -/
theorem primeFactorsTwos_total (fuel : Nat) :
    ∀ (n : Nat) (pfs : List Nat), 1 ≤ n → n ≤ fuel → (∀ f ∈ pfs, f = 2) →
      ∃ n' pfs', primeFactorsTwos fuel n pfs = some (n', pfs') ∧ 1 ≤ n' ∧ n' ≤ n ∧
        n' % 2 = 1 ∧ (∀ f ∈ pfs', f = 2) ∧ pfs'.prod * n' = pfs.prod * n := by
  induction fuel with
  | zero =>
    intro n pfs h1 h2
    omega
  | succ fuel ih =>
    intro n pfs h1 h2 hpfs
    unfold primeFactorsTwos
    by_cases hn : n % 2 = 0
    · rw [if_pos hn]
      obtain ⟨n', pfs', e, g1, g2, g3, g4, g5⟩ := ih (n / 2) (pfs ++ [2]) (by omega) (by omega)
        (by
          intro f hf
          rcases List.mem_append.mp hf with h | h
          · exact hpfs f h
          · exact List.mem_singleton.mp h)
      refine ⟨n', pfs', e, g1, by omega, g3, g4, ?_⟩
      rw [g5, List.prod_append, List.prod_singleton, Nat.mul_assoc]
      congr 1
      omega
    · rw [if_neg hn]
      exact ⟨n, pfs, rfl, h1, Nat.le_refl n, by omega, hpfs, rfl⟩

/-- The inner loop of `primeFactors` ends for `n ≥ 1` and `i ≥ 2`: it divides
out the factors `i`. -/
theorem primeFactorsDiv_total (i : Nat) (hi : 2 ≤ i) (fuel : Nat) :
    ∀ (n : Nat) (pfs : List Nat), 1 ≤ n → n ≤ fuel →
      ∃ n' k, primeFactorsDiv i fuel n pfs = some (n', pfs ++ List.replicate k i) ∧
        1 ≤ n' ∧ n' ≤ n ∧ n' % i ≠ 0 ∧ n = i ^ k * n' := by
  induction fuel with
  | zero =>
    intro n pfs h1 h2
    omega
  | succ fuel ih =>
    intro n pfs h1 h2
    unfold primeFactorsDiv
    by_cases hn : n % i = 0
    · rw [if_pos hn]
      have hdvd : i ∣ n := Nat.dvd_of_mod_eq_zero hn
      have hle : i ≤ n := Nat.le_of_dvd (by omega) hdvd
      have hpos : 1 ≤ n / i := (Nat.one_le_div_iff (by omega)).mpr hle
      have hlt : n / i < n := Nat.div_lt_self (by omega) (by omega)
      obtain ⟨n', k, e, g1, g2, g3, g4⟩ := ih (n / i) (pfs ++ [i]) hpos (by omega)
      refine ⟨n', k + 1, ?_, g1, by omega, g3, ?_⟩
      · rw [e, List.append_assoc, List.replicate_succ]
        rfl
      · rw [Nat.pow_succ, Nat.mul_comm (i ^ k) i, Nat.mul_assoc, ← g4]
        exact (Nat.mul_div_cancel' hdvd).symm
    · rw [if_neg hn]
      exact ⟨n, 0, by simp, h1, Nat.le_refl n, hn, by simp⟩

/-- A candidate that divides `n`, when `n` has no prime factor below it, is prime. -/
theorem candidate_prime (i n : Nat) (hi : 2 ≤ i) (hdvd : i ∣ n)
    (hmin : ∀ p, p.Prime → p ∣ n → i ≤ p) : i.Prime := by
  have hp := Nat.minFac_prime (n := i) (by omega)
  have h1 := hmin _ hp (Nat.dvd_trans (Nat.minFac_dvd i) hdvd)
  have h2 := Nat.minFac_le (n := i) (by omega)
  have e : i.minFac = i := by omega
  rw [← e]
  exact hp

/-- The second loop of `primeFactors` ends, and it leaves `1` or a prime. -/
theorem primeFactorsOdd_total (total fuel : Nat) :
    ∀ (i n : Nat) (pfs : List Nat), 3 ≤ i → i % 2 = 1 → 1 ≤ n → n ≤ total → 1 ≤ fuel →
      n + 2 ≤ fuel + i → (∀ p, p.Prime → p ∣ n → i ≤ p) → (∀ f ∈ pfs, f.Prime ∧ f < i) →
      pfs.Pairwise (· ≤ ·) →
      ∃ n' pfs', primeFactorsOdd total fuel i n pfs = some (n', pfs') ∧
        pfs'.Pairwise (· ≤ ·) ∧ (∀ f ∈ pfs', f.Prime) ∧ pfs'.prod * n' = pfs.prod * n ∧
        (n' = 1 ∨ (n'.Prime ∧ 3 ≤ n' ∧ ∀ f ∈ pfs', f ≤ n')) := by
  induction fuel with
  | zero =>
    intro i n pfs _ _ _ _ h
    omega
  | succ fuel ih =>
    intro i n pfs hi hodd hn htotal _ hfuel hmin hpfs hpw
    unfold primeFactorsOdd
    by_cases hsq : i * i ≤ n
    · rw [if_pos hsq]
      have hin : i ≤ n := Nat.le_trans (Nat.le_mul_self i) hsq
      obtain ⟨n1, k, e, g1, g2, g3, g4⟩ := primeFactorsDiv_total i (by omega) total n pfs hn htotal
      rw [e]
      simp only
      have hn1 : n1 ∣ n := ⟨i ^ k, by rw [g4, Nat.mul_comm]⟩
      have hik : ∀ f ∈ List.replicate k i, f = i ∧ i ∣ n := by
        intro f hf
        have hk := List.mem_replicate.mp hf
        refine ⟨hk.2, ?_⟩
        rw [g4]
        exact Nat.dvd_trans (dvd_pow_self i hk.1) (Nat.dvd_mul_right _ _)
      obtain ⟨n', pfs', e', q1, q2, q3, q4⟩ := ih (i + 2) n1 (pfs ++ List.replicate k i)
        (by omega) (by omega) g1 (by omega) (by omega) (by omega)
        (by
          intro p hp hpd
          have h1 := hmin p hp (Nat.dvd_trans hpd hn1)
          have h2 : p ≠ i := by
            intro hpi
            rw [hpi] at hpd
            exact g3 (Nat.mod_eq_zero_of_dvd hpd)
          have h3 : p ≠ i + 1 := by
            intro hpi
            rcases hp.eq_two_or_odd with h | h <;> omega
          omega)
        (by
          intro f hf
          rcases List.mem_append.mp hf with h | h
          · exact ⟨(hpfs f h).1, by have := (hpfs f h).2; omega⟩
          · obtain ⟨hfi, hd⟩ := hik f h
            rw [hfi]
            exact ⟨candidate_prime i n (by omega) hd hmin, by omega⟩)
        (by
          rw [List.pairwise_append]
          refine ⟨hpw, ?_, ?_⟩
          · rw [List.pairwise_replicate]
            exact Or.inr (Nat.le_refl i)
          · intro a ha b hb
            rw [(hik b hb).1]
            exact Nat.le_of_lt (hpfs a ha).2)
      refine ⟨n', pfs', e', q1, q2, ?_, q4⟩
      rw [q3, List.prod_append, List.prod_replicate, Nat.mul_assoc, ← g4]
    · rw [if_neg hsq]
      refine ⟨n, pfs, rfl, hpw, fun f hf => (hpfs f hf).1, rfl, ?_⟩
      by_cases h1 : n = 1
      · exact Or.inl h1
      · right
        have hprime : n.Prime := by
          by_contra hnp
          have hsqm := Nat.minFac_sq_le_self (n := n) (by omega) hnp
          have hm := hmin _ (Nat.minFac_prime h1) (Nat.minFac_dvd n)
          have : i * i ≤ n.minFac ^ 2 := by
            rw [Nat.pow_two]
            exact Nat.mul_le_mul hm hm
          omega
        have hin := hmin n hprime (Nat.dvd_refl n)
        refine ⟨hprime, by omega, ?_⟩
        intro f hf
        have := (hpfs f hf).2
        omega

/-- `primeFactors` returns, for `n ≥ 1` and fuel above `n`, the primes whose
product is `n`, in ascending order. -/
theorem primeFactors_total (n fuel : Nat) (hn : 1 ≤ n) (hfuel : n + 1 ≤ fuel) :
    ∃ fs, primeFactors fuel n = some fs ∧ fs.Pairwise (· ≤ ·) ∧ (∀ p ∈ fs, p.Prime) ∧
      fs.prod = n := by
  obtain ⟨n1, pfs1, e1, a1, a2, a3, a4, a5⟩ := primeFactorsTwos_total fuel n [] hn (by omega)
    (fun f hf => absurd hf (List.not_mem_nil f))
  obtain ⟨n2, pfs2, e2, b1, b2, b3, b4⟩ := primeFactorsOdd_total fuel fuel 3 n1 pfs1
    (Nat.le_refl 3) (by decide) a1 (by omega) (by omega) (by omega)
    (by
      intro p hp hpd
      have h2 := hp.two_le
      have hne : p ≠ 2 := by
        intro h
        rw [h] at hpd
        have := Nat.mod_eq_zero_of_dvd hpd
        omega
      omega)
    (by
      intro f hf
      rw [a4 f hf]
      exact ⟨Nat.prime_two, by decide⟩)
    (by
      rw [List.pairwise_iff_forall_sublist]
      intro a b hab
      have ha := a4 a (hab.subset (List.mem_cons_self a [b]))
      have hb := a4 b (hab.subset (List.mem_cons_of_mem a (List.mem_singleton_self b)))
      omega)
  rw [List.prod_nil, Nat.one_mul] at a5
  rw [a5] at b3
  unfold primeFactors
  rw [e1]
  simp only
  rw [e2]
  simp only
  rcases b4 with h1 | ⟨hp, h3, hle⟩
  · rw [h1, Nat.mul_one] at b3
    rw [h1, if_neg (by decide)]
    exact ⟨pfs2, rfl, b1, b2, b3⟩
  · rw [if_pos (by omega)]
    refine ⟨pfs2 ++ [n2], rfl, ?_, ?_, ?_⟩
    · rw [List.pairwise_append]
      refine ⟨b1, List.pairwise_singleton _ _, ?_⟩
      intro a ha b hb
      rw [List.mem_singleton.mp hb]
      exact hle a ha
    · intro p hpm
      rcases List.mem_append.mp hpm with h | h
      · exact b2 p h
      · rw [List.mem_singleton.mp h]
        exact hp
    · rw [List.prod_append, List.prod_singleton]
      exact b3

/-- The grid `chunkDist` computes from the factors `primeFactors` returns is
the grid of the specification. -/
theorem chunkDist_eq_specGrid (fuel count : Nat) (fs : List Nat)
    (h : primeFactors fuel count = some fs) (hne : fs ≠ []) :
    chunkDist fuel count = some (specGrid fs) := by
  unfold chunkDist
  rw [h]
  simp only
  rw [if_neg (by
    intro h0
    exact hne (List.length_eq_zero.mp h0))]
  congr 1
  unfold specGrid
  have hrev : fs = fs.reverse.reverse := (List.reverse_reverse fs).symm
  cases hr : fs.reverse with
  | nil =>
    rw [hr] at hrev
    exact absurd hrev hne
  | cons p tl =>
    cases tl with
    | nil =>
      rw [hr] at hrev
      rw [hrev]
      rfl
    | cons q rest =>
      rw [hr] at hrev
      simp only [List.reverse_cons, List.append_assoc, List.singleton_append] at hrev
      simp only
      rw [hrev]
      have hlen : (rest.reverse ++ [q, p]).length = rest.reverse.length + 2 := by
        rw [List.length_append]
        rfl
      have e1 : (rest.reverse ++ [q, p]).getD ((rest.reverse ++ [q, p]).length - 1) 0 = p := by
        rw [hlen, List.getD_eq_getElem?_getD, List.getElem?_append_right (by omega)]
        have : rest.reverse.length + 2 - 1 - rest.reverse.length = 1 := by omega
        rw [this]
        rfl
      have e2 : (rest.reverse ++ [q, p]).getD ((rest.reverse ++ [q, p]).length - 2) 0 = q := by
        rw [hlen, List.getD_eq_getElem?_getD, List.getElem?_append_right (by omega)]
        have : rest.reverse.length + 2 - 2 - rest.reverse.length = 0 := by omega
        rw [this]
        rfl
      have e3 : (rest.reverse ++ [q, p]).take ((rest.reverse ++ [q, p]).length - 2)
          = rest.reverse := by
        rw [hlen, Nat.add_sub_cancel, List.take_left']
        rfl
      rw [e1, e2, e3, List.reverse_reverse, if_pos (by omega)]

/-- C25, grid factorisation: for every `N ≥ 2` (every even `N ≥ 2` among them)
and fuel above `N`, `primeFactors` returns the ascending list of the primes
whose product is `N`, and `chunkDist` returns `(countX, countY)` with
`countX * countY = N`, computed as the specification words it: `countX` seeded
with the largest factor, `countY` with the second-largest (`1` for a prime
`N`), every remaining factor, from the largest to the smallest, multiplied
into `countY` when `countX > countY` and into `countX` otherwise. -/
theorem grid_factorisation (N fuel : Nat) (hN : 2 ≤ N) (hfuel : N + 1 ≤ fuel) :
    ∃ fs, primeFactors fuel N = some fs ∧ fs.Sorted (· ≤ ·) ∧ (∀ p ∈ fs, p.Prime) ∧
      fs.prod = N ∧ fs = Nat.primeFactorsList N ∧
      chunkDist fuel N = some (specGrid fs) ∧ (specGrid fs).1 * (specGrid fs).2 = N := by
  obtain ⟨fs, e, h1, h2, h3⟩ := primeFactors_total N fuel (by omega) hfuel
  have hne : fs ≠ [] := by
    intro h
    rw [h, List.prod_nil] at h3
    omega
  have hd := chunkDist_eq_specGrid fuel N fs e hne
  refine ⟨fs, e, h1, h2, h3, ?_, hd, (chunkDist_spec fuel N _ _ hd).1⟩
  exact List.eq_of_perm_of_sorted (Nat.primeFactorsList_unique h3 h2) h1
    (Nat.primeFactorsList_sorted N)

/-- Witness for C25: the factors of 12 are 2, 2, 3, and the grid is 3 by 4. -/
theorem grid_factorisation_witness :
    (2 ≤ 12) ∧ (12 + 1 ≤ 13) ∧ primeFactors 13 12 = some [2, 2, 3] ∧ specGrid [2, 2, 3] = (3, 4) ∧
    chunkDist 13 12 = some (3, 4) ∧
    ∃ fs, primeFactors 13 12 = some fs ∧ fs.prod = 12 ∧ chunkDist 13 12 = some (specGrid fs) := by
  obtain ⟨fs, e, _, _, h3, _, hd, _⟩ := grid_factorisation 12 13 (by decide) (by decide)
  exact ⟨by decide, by decide, by decide, by decide, by decide, fs, e, h3, hd⟩

/-! ## The candidate loop of the planner ends -/

/-- A candidate count above the number of pixels has no bit available. -/
theorem available_pos_le (w h cx cy : Nat) (hcx : 0 < cx) (hcy : 0 < cy)
    (hav : 0 < availableBits w h cx cy) : cx * cy ≤ w * h := by
  unfold availableBits at hav
  have h1 : 0 < w / cx := by
    rcases Nat.eq_zero_or_pos (w / cx) with h0 | h0
    · rw [h0] at hav
      simp at hav
    · exact h0
  have h2 : 0 < h / cy := by
    rcases Nat.eq_zero_or_pos (h / cy) with h0 | h0
    · rw [h0] at hav
      simp at hav
    · exact h0
  have hw : cx ≤ w := (Nat.one_le_div_iff hcx).mp h1
  have hh : cy ≤ h := (Nat.one_le_div_iff hcy).mp h2
  exact Nat.mul_le_mul hw hh

/-- Every candidate count needs at least the eight bits of the path count. -/
theorem neededBits_pos (n : Nat) : 8 ≤ neededBits n := by
  unfold neededBits PathCountBitLength
  omega

/-- The candidate loop of `CalculateChunkBounds`, entered with a count of at
most the number of pixels, ends within the fuel and selects a count of at most
the number of pixels. -/
theorem chunkCountLoop_total (total w h : Nat) (htotal : w * h + 3 ≤ total) (fuel : Nat) :
    ∀ c, c ≤ w * h → w * h + 2 ≤ c + 2 * fuel →
      ∃ N, chunkCountLoop total w h fuel c = some N ∧ c ≤ N ∧ N ≤ w * h := by
  induction fuel with
  | zero =>
    intro c h1 h2
    omega
  | succ fuel ih =>
    intro c hc hfuel
    obtain ⟨fs, e, _, _, h3⟩ := primeFactors_total (c + 2) total (by omega) (by omega)
    have hne : fs ≠ [] := by
      intro h0
      rw [h0, List.prod_nil] at h3
      omega
    have hd := chunkDist_eq_specGrid total (c + 2) fs e hne
    obtain ⟨s1, s2, s3⟩ := chunkDist_spec total (c + 2) (specGrid fs).1 (specGrid fs).2 hd
    unfold chunkCountLoop
    simp only [hd]
    by_cases hfail : neededBits (c + 2) > availableBits w h (specGrid fs).1 (specGrid fs).2
    · rw [if_pos hfail]
      exact ⟨c, by simp, Nat.le_refl c, hc⟩
    · rw [if_neg hfail]
      have hn := neededBits_pos (c + 2)
      have hle := available_pos_le w h (specGrid fs).1 (specGrid fs).2 s2 s3 (by omega)
      rw [s1] at hle
      obtain ⟨N, eN, g1, g2⟩ := ih (c + 2) hle (by omega)
      exact ⟨N, eN, by omega, g2⟩

/-- C26, the planner search terminates: for every width and height the
candidate loop of `CalculateChunkBounds` ends (with fuel above
`width * height + 2`) and selects an even count `N ≤ width * height`; the
candidate `N + 2 ≤ width * height + 2` fails the capacity test, and every
candidate above `width * height` has no bit available while it needs at least
eight. -/
theorem planner_search_terminates (w h fuel : Nat) (hfuel : w * h + 3 ≤ fuel) :
    ∃ N, chunkCountLoop fuel w h fuel 0 = some N ∧ N % 2 = 0 ∧ N ≤ w * h ∧
      (∃ cx cy, chunkDist fuel (N + 2) = some (cx, cy) ∧
        neededBits (N + 2) > availableBits w h cx cy) ∧
      (∀ M cx cy, w * h < M → chunkDist fuel M = some (cx, cy) →
        availableBits w h cx cy = 0 ∧ availableBits w h cx cy < neededBits M) := by
  obtain ⟨N, e, _, hN⟩ := chunkCountLoop_total fuel w h hfuel fuel 0 (Nat.zero_le _) (by omega)
  obtain ⟨_, s2, s3, _⟩ := chunkCountLoop_spec fuel w h fuel 0 N e
  refine ⟨N, e, by omega, hN, s3, ?_⟩
  intro M cx cy hM hd
  obtain ⟨d1, d2, d3⟩ := chunkDist_spec fuel M cx cy hd
  have h0 : availableBits w h cx cy = 0 := by
    by_contra hne
    have := available_pos_le w h cx cy d2 d3 (by omega)
    omega
  have := neededBits_pos M
  exact ⟨h0, by omega⟩

/-- Witness for C26: for an image of 16 by 16 pixels the loop selects 2; for
an image of 10 by 10 pixels it selects 0. -/
theorem planner_search_terminates_witness :
    (16 * 16 + 3 ≤ 259) ∧
    (∃ N, chunkCountLoop 259 16 16 259 0 = some N ∧ N % 2 = 0 ∧ N ≤ 16 * 16) ∧
    chunkCountLoop 20 16 16 20 0 = some 2 ∧ chunkCountLoop 20 10 10 20 0 = some 0 := by
  obtain ⟨N, e, h1, h2, _⟩ := planner_search_terminates 16 16 259 (by decide)
  exact ⟨by decide, ⟨N, e, h1, h2⟩, by decide, by decide⟩

end ImageStego
